import Mathlib

/-!
# YAIL: lexer, parser and stack machine

A shallow embedding of the Go package `yail` (files `common.go`, `lexer.go`,
`parser.go`, `interpreter.go`) together with theorems about it.

Conventions of the embedding:

* Source text is valid UTF-8 and is represented by its sequence of runes
  (`List Char`).  Every offset the Go code computes is a byte offset, so the
  model computes byte offsets too, from the UTF-8 width of each rune
  (`runeLen`), and slices by byte counts (`takeBytes`, `dropBytes`).
* `os.Exit` and Go panics end the whole process; the model returns an `Err`
  through `Except`.
* `int64` values are integers kept in range by `wrap64`; Go `int` values
  (jump offsets, counts) are unbounded integers.
* Loops and recursion of the Go code that are not structurally decreasing take
  a fuel argument; running out of fuel is the separate error `Err.fuel`.
-/

namespace Yail

/-! ## common.go -/

/-- Type `lexType` of common.go. -/
inductive lexType
  | lexError | lexLeftPar | lexRightPar | lexLeftBrace | lexRightBrace
  | lexMinus | lexPlus | lexMul | lexDiv | lexMod | lexComma | lexDot
  | lexLeftBracket | lexRightBracket | lexEos | lexOr | lexAnd | lexNot
  | lexEq | lexEqEq | lexNeq | lexGreater | lexLess | lexGeq | lexLeq
  | lexIf | lexElse | lexFor | lexWhile | lexReturn | lexBool | lexInt
  | lexFloat | lexString | lexName | lexReadInt | lexReadFloat
  | lexReadString | lexReadLine | lexReadChar | lexPrint | lexPrintLn
  | lexRnd | lexEof
  deriving DecidableEq, Repr

open lexType

/-- Struct `lex` of common.go: a lexeme kind and the slice of input it covers. -/
structure lex where
  typ : lexType
  val : String
  deriving DecidableEq, Repr

/-- Ways the Go process stops early: `parseErr` (parser.go, exit status 1),
`runtimeErr` (interpreter.go, exits after printing), a Go panic, and the
model's own fuel bound. -/
inductive Err
  | parseErr (expected : String) (got : lex)
  | runtimeErr (msg : String)
  | panic (msg : String)
  | fuel
  | unsupported (what : String)
  deriving DecidableEq, Repr

/-! ## Go library functions used by the lexer -/

/-- Width in bytes of the UTF-8 encoding of a rune (`utf8.RuneLen`). -/
def runeLen (c : Char) : Nat :=
  if c.toNat < 0x80 then 1
  else if c.toNat < 0x800 then 2
  else if c.toNat < 0x10000 then 3
  else 4

/-- Go `len(s)`: the number of bytes of a string. -/
def byteLen : List Char → Nat
  | [] => 0
  | c :: cs => runeLen c + byteLen cs

/-- Go `s[:n]` for a byte count `n` that falls on a rune boundary. -/
def takeBytes : Nat → List Char → List Char
  | _, [] => []
  | n, c :: cs => if n = 0 then [] else c :: takeBytes (n - runeLen c) cs

/-- Go `s[n:]` for a byte count `n` that falls on a rune boundary. -/
def dropBytes : Nat → List Char → List Char
  | _, [] => []
  | n, c :: cs => if n = 0 then c :: cs else dropBytes (n - runeLen c) cs

/-- Go `strings.HasPrefix`. -/
def hasPrefix : List Char → List Char → Bool
  | _, [] => true
  | [], _ :: _ => false
  | c :: cs, p :: ps => c == p && hasPrefix cs ps

/-- Go `strings.Index`: byte offset of the first occurrence of `sep`. -/
def index (sep : List Char) : List Char → Option Nat
  | [] => if sep.isEmpty then some 0 else none
  | c :: cs =>
    if hasPrefix (c :: cs) sep then some 0
    else (index sep cs).map (fun i => i + runeLen c)

/-- Go `strings.IndexFunc`: byte offset of the first rune satisfying `f`. -/
def indexFunc (f : Char → Bool) : List Char → Option Nat
  | [] => none
  | c :: cs => if f c then some 0 else (indexFunc f cs).map (fun i => i + runeLen c)

/-- Scan of `strings.LastIndexFunc`: `off` is the byte offset of the head of
the list, `best` the offset of the last rune found so far (-1 for none). -/
def lastIndexFuncFrom (f : Char → Bool) : List Char → Nat → Int → Int
  | [], _, best => best
  | c :: cs, off, best =>
    lastIndexFuncFrom f cs (off + runeLen c) (if f c then (off : Int) else best)

/-- Go `strings.LastIndexFunc`: byte offset of the start of the last rune
satisfying `f`, or -1. -/
def lastIndexFunc (f : Char → Bool) (s : List Char) : Int :=
  lastIndexFuncFrom f s 0 (-1)

/-- Go standard library data (package unicode): the code point ranges above ASCII of the range table unicode.Letter (general category L, Unicode 14.0), each pair being an inclusive range. -/
def letterRanges : List (Nat × Nat) :=
  [(170, 170), (181, 181), (186, 186), (192, 214), (216, 246), (248, 705), (710, 721), (736, 740),
   (748, 748), (750, 750), (880, 884), (886, 887), (890, 893), (895, 895), (902, 902), (904, 906),
   (908, 908), (910, 929), (931, 1013), (1015, 1153), (1162, 1327), (1329, 1366), (1369, 1369),
   (1376, 1416), (1488, 1514), (1519, 1522), (1568, 1610), (1646, 1647), (1649, 1747),
   (1749, 1749), (1765, 1766), (1774, 1775), (1786, 1788), (1791, 1791), (1808, 1808),
   (1810, 1839), (1869, 1957), (1969, 1969), (1994, 2026), (2036, 2037), (2042, 2042),
   (2048, 2069), (2074, 2074), (2084, 2084), (2088, 2088), (2112, 2136), (2144, 2154),
   (2160, 2183), (2185, 2190), (2208, 2249), (2308, 2361), (2365, 2365), (2384, 2384),
   (2392, 2401), (2417, 2432), (2437, 2444), (2447, 2448), (2451, 2472), (2474, 2480),
   (2482, 2482), (2486, 2489), (2493, 2493), (2510, 2510), (2524, 2525), (2527, 2529),
   (2544, 2545), (2556, 2556), (2565, 2570), (2575, 2576), (2579, 2600), (2602, 2608),
   (2610, 2611), (2613, 2614), (2616, 2617), (2649, 2652), (2654, 2654), (2674, 2676),
   (2693, 2701), (2703, 2705), (2707, 2728), (2730, 2736), (2738, 2739), (2741, 2745),
   (2749, 2749), (2768, 2768), (2784, 2785), (2809, 2809), (2821, 2828), (2831, 2832),
   (2835, 2856), (2858, 2864), (2866, 2867), (2869, 2873), (2877, 2877), (2908, 2909),
   (2911, 2913), (2929, 2929), (2947, 2947), (2949, 2954), (2958, 2960), (2962, 2965),
   (2969, 2970), (2972, 2972), (2974, 2975), (2979, 2980), (2984, 2986), (2990, 3001),
   (3024, 3024), (3077, 3084), (3086, 3088), (3090, 3112), (3114, 3129), (3133, 3133),
   (3160, 3162), (3165, 3165), (3168, 3169), (3200, 3200), (3205, 3212), (3214, 3216),
   (3218, 3240), (3242, 3251), (3253, 3257), (3261, 3261), (3293, 3294), (3296, 3297),
   (3313, 3314), (3332, 3340), (3342, 3344), (3346, 3386), (3389, 3389), (3406, 3406),
   (3412, 3414), (3423, 3425), (3450, 3455), (3461, 3478), (3482, 3505), (3507, 3515),
   (3517, 3517), (3520, 3526), (3585, 3632), (3634, 3635), (3648, 3654), (3713, 3714),
   (3716, 3716), (3718, 3722), (3724, 3747), (3749, 3749), (3751, 3760), (3762, 3763),
   (3773, 3773), (3776, 3780), (3782, 3782), (3804, 3807), (3840, 3840), (3904, 3911),
   (3913, 3948), (3976, 3980), (4096, 4138), (4159, 4159), (4176, 4181), (4186, 4189),
   (4193, 4193), (4197, 4198), (4206, 4208), (4213, 4225), (4238, 4238), (4256, 4293),
   (4295, 4295), (4301, 4301), (4304, 4346), (4348, 4680), (4682, 4685), (4688, 4694),
   (4696, 4696), (4698, 4701), (4704, 4744), (4746, 4749), (4752, 4784), (4786, 4789),
   (4792, 4798), (4800, 4800), (4802, 4805), (4808, 4822), (4824, 4880), (4882, 4885),
   (4888, 4954), (4992, 5007), (5024, 5109), (5112, 5117), (5121, 5740), (5743, 5759),
   (5761, 5786), (5792, 5866), (5873, 5880), (5888, 5905), (5919, 5937), (5952, 5969),
   (5984, 5996), (5998, 6000), (6016, 6067), (6103, 6103), (6108, 6108), (6176, 6264),
   (6272, 6276), (6279, 6312), (6314, 6314), (6320, 6389), (6400, 6430), (6480, 6509),
   (6512, 6516), (6528, 6571), (6576, 6601), (6656, 6678), (6688, 6740), (6823, 6823),
   (6917, 6963), (6981, 6988), (7043, 7072), (7086, 7087), (7098, 7141), (7168, 7203),
   (7245, 7247), (7258, 7293), (7296, 7304), (7312, 7354), (7357, 7359), (7401, 7404),
   (7406, 7411), (7413, 7414), (7418, 7418), (7424, 7615), (7680, 7957), (7960, 7965),
   (7968, 8005), (8008, 8013), (8016, 8023), (8025, 8025), (8027, 8027), (8029, 8029),
   (8031, 8061), (8064, 8116), (8118, 8124), (8126, 8126), (8130, 8132), (8134, 8140),
   (8144, 8147), (8150, 8155), (8160, 8172), (8178, 8180), (8182, 8188), (8305, 8305),
   (8319, 8319), (8336, 8348), (8450, 8450), (8455, 8455), (8458, 8467), (8469, 8469),
   (8473, 8477), (8484, 8484), (8486, 8486), (8488, 8488), (8490, 8493), (8495, 8505),
   (8508, 8511), (8517, 8521), (8526, 8526), (8579, 8580), (11264, 11492), (11499, 11502),
   (11506, 11507), (11520, 11557), (11559, 11559), (11565, 11565), (11568, 11623), (11631, 11631),
   (11648, 11670), (11680, 11686), (11688, 11694), (11696, 11702), (11704, 11710), (11712, 11718),
   (11720, 11726), (11728, 11734), (11736, 11742), (11823, 11823), (12293, 12294), (12337, 12341),
   (12347, 12348), (12353, 12438), (12445, 12447), (12449, 12538), (12540, 12543), (12549, 12591),
   (12593, 12686), (12704, 12735), (12784, 12799), (13312, 19903), (19968, 42124), (42192, 42237),
   (42240, 42508), (42512, 42527), (42538, 42539), (42560, 42606), (42623, 42653), (42656, 42725),
   (42775, 42783), (42786, 42888), (42891, 42954), (42960, 42961), (42963, 42963), (42965, 42969),
   (42994, 43009), (43011, 43013), (43015, 43018), (43020, 43042), (43072, 43123), (43138, 43187),
   (43250, 43255), (43259, 43259), (43261, 43262), (43274, 43301), (43312, 43334), (43360, 43388),
   (43396, 43442), (43471, 43471), (43488, 43492), (43494, 43503), (43514, 43518), (43520, 43560),
   (43584, 43586), (43588, 43595), (43616, 43638), (43642, 43642), (43646, 43695), (43697, 43697),
   (43701, 43702), (43705, 43709), (43712, 43712), (43714, 43714), (43739, 43741), (43744, 43754),
   (43762, 43764), (43777, 43782), (43785, 43790), (43793, 43798), (43808, 43814), (43816, 43822),
   (43824, 43866), (43868, 43881), (43888, 44002), (44032, 55203), (55216, 55238), (55243, 55291),
   (63744, 64109), (64112, 64217), (64256, 64262), (64275, 64279), (64285, 64285), (64287, 64296),
   (64298, 64310), (64312, 64316), (64318, 64318), (64320, 64321), (64323, 64324), (64326, 64433),
   (64467, 64829), (64848, 64911), (64914, 64967), (65008, 65019), (65136, 65140), (65142, 65276),
   (65313, 65338), (65345, 65370), (65382, 65470), (65474, 65479), (65482, 65487), (65490, 65495),
   (65498, 65500), (65536, 65547), (65549, 65574), (65576, 65594), (65596, 65597), (65599, 65613),
   (65616, 65629), (65664, 65786), (66176, 66204), (66208, 66256), (66304, 66335), (66349, 66368),
   (66370, 66377), (66384, 66421), (66432, 66461), (66464, 66499), (66504, 66511), (66560, 66717),
   (66736, 66771), (66776, 66811), (66816, 66855), (66864, 66915), (66928, 66938), (66940, 66954),
   (66956, 66962), (66964, 66965), (66967, 66977), (66979, 66993), (66995, 67001), (67003, 67004),
   (67072, 67382), (67392, 67413), (67424, 67431), (67456, 67461), (67463, 67504), (67506, 67514),
   (67584, 67589), (67592, 67592), (67594, 67637), (67639, 67640), (67644, 67644), (67647, 67669),
   (67680, 67702), (67712, 67742), (67808, 67826), (67828, 67829), (67840, 67861), (67872, 67897),
   (67968, 68023), (68030, 68031), (68096, 68096), (68112, 68115), (68117, 68119), (68121, 68149),
   (68192, 68220), (68224, 68252), (68288, 68295), (68297, 68324), (68352, 68405), (68416, 68437),
   (68448, 68466), (68480, 68497), (68608, 68680), (68736, 68786), (68800, 68850), (68864, 68899),
   (69248, 69289), (69296, 69297), (69376, 69404), (69415, 69415), (69424, 69445), (69488, 69505),
   (69552, 69572), (69600, 69622), (69635, 69687), (69745, 69746), (69749, 69749), (69763, 69807),
   (69840, 69864), (69891, 69926), (69956, 69956), (69959, 69959), (69968, 70002), (70006, 70006),
   (70019, 70066), (70081, 70084), (70106, 70106), (70108, 70108), (70144, 70161), (70163, 70187),
   (70272, 70278), (70280, 70280), (70282, 70285), (70287, 70301), (70303, 70312), (70320, 70366),
   (70405, 70412), (70415, 70416), (70419, 70440), (70442, 70448), (70450, 70451), (70453, 70457),
   (70461, 70461), (70480, 70480), (70493, 70497), (70656, 70708), (70727, 70730), (70751, 70753),
   (70784, 70831), (70852, 70853), (70855, 70855), (71040, 71086), (71128, 71131), (71168, 71215),
   (71236, 71236), (71296, 71338), (71352, 71352), (71424, 71450), (71488, 71494), (71680, 71723),
   (71840, 71903), (71935, 71942), (71945, 71945), (71948, 71955), (71957, 71958), (71960, 71983),
   (71999, 71999), (72001, 72001), (72096, 72103), (72106, 72144), (72161, 72161), (72163, 72163),
   (72192, 72192), (72203, 72242), (72250, 72250), (72272, 72272), (72284, 72329), (72349, 72349),
   (72368, 72440), (72704, 72712), (72714, 72750), (72768, 72768), (72818, 72847), (72960, 72966),
   (72968, 72969), (72971, 73008), (73030, 73030), (73056, 73061), (73063, 73064), (73066, 73097),
   (73112, 73112), (73440, 73458), (73648, 73648), (73728, 74649), (74880, 75075), (77712, 77808),
   (77824, 78894), (82944, 83526), (92160, 92728), (92736, 92766), (92784, 92862), (92880, 92909),
   (92928, 92975), (92992, 92995), (93027, 93047), (93053, 93071), (93760, 93823), (93952, 94026),
   (94032, 94032), (94099, 94111), (94176, 94177), (94179, 94179), (94208, 100343),
   (100352, 101589), (101632, 101640), (110576, 110579), (110581, 110587), (110589, 110590),
   (110592, 110882), (110928, 110930), (110948, 110951), (110960, 111355), (113664, 113770),
   (113776, 113788), (113792, 113800), (113808, 113817), (119808, 119892), (119894, 119964),
   (119966, 119967), (119970, 119970), (119973, 119974), (119977, 119980), (119982, 119993),
   (119995, 119995), (119997, 120003), (120005, 120069), (120071, 120074), (120077, 120084),
   (120086, 120092), (120094, 120121), (120123, 120126), (120128, 120132), (120134, 120134),
   (120138, 120144), (120146, 120485), (120488, 120512), (120514, 120538), (120540, 120570),
   (120572, 120596), (120598, 120628), (120630, 120654), (120656, 120686), (120688, 120712),
   (120714, 120744), (120746, 120770), (120772, 120779), (122624, 122654), (123136, 123180),
   (123191, 123197), (123214, 123214), (123536, 123565), (123584, 123627), (124896, 124902),
   (124904, 124907), (124909, 124910), (124912, 124926), (124928, 125124), (125184, 125251),
   (125259, 125259), (126464, 126467), (126469, 126495), (126497, 126498), (126500, 126500),
   (126503, 126503), (126505, 126514), (126516, 126519), (126521, 126521), (126523, 126523),
   (126530, 126530), (126535, 126535), (126537, 126537), (126539, 126539), (126541, 126543),
   (126545, 126546), (126548, 126548), (126551, 126551), (126553, 126553), (126555, 126555),
   (126557, 126557), (126559, 126559), (126561, 126562), (126564, 126564), (126567, 126570),
   (126572, 126578), (126580, 126583), (126585, 126588), (126590, 126590), (126592, 126601),
   (126603, 126619), (126625, 126627), (126629, 126633), (126635, 126651), (131072, 173791),
   (173824, 177976), (177984, 178205), (178208, 183969), (183984, 191456), (194560, 195101),
   (196608, 201546)]

/-- Go standard library data (package unicode): the code point ranges above ASCII of the range table unicode.Number (general category N, Unicode 14.0), each pair being an inclusive range. -/
def numberRanges : List (Nat × Nat) :=
  [(178, 179), (185, 185), (188, 190), (1632, 1641), (1776, 1785), (1984, 1993), (2406, 2415),
   (2534, 2543), (2548, 2553), (2662, 2671), (2790, 2799), (2918, 2927), (2930, 2935),
   (3046, 3058), (3174, 3183), (3192, 3198), (3302, 3311), (3416, 3422), (3430, 3448),
   (3558, 3567), (3664, 3673), (3792, 3801), (3872, 3891), (4160, 4169), (4240, 4249),
   (4969, 4988), (5870, 5872), (6112, 6121), (6128, 6137), (6160, 6169), (6470, 6479),
   (6608, 6618), (6784, 6793), (6800, 6809), (6992, 7001), (7088, 7097), (7232, 7241),
   (7248, 7257), (8304, 8304), (8308, 8313), (8320, 8329), (8528, 8578), (8581, 8585),
   (9312, 9371), (9450, 9471), (10102, 10131), (11517, 11517), (12295, 12295), (12321, 12329),
   (12344, 12346), (12690, 12693), (12832, 12841), (12872, 12879), (12881, 12895), (12928, 12937),
   (12977, 12991), (42528, 42537), (42726, 42735), (43056, 43061), (43216, 43225), (43264, 43273),
   (43472, 43481), (43504, 43513), (43600, 43609), (44016, 44025), (65296, 65305), (65799, 65843),
   (65856, 65912), (65930, 65931), (66273, 66299), (66336, 66339), (66369, 66369), (66378, 66378),
   (66513, 66517), (66720, 66729), (67672, 67679), (67705, 67711), (67751, 67759), (67835, 67839),
   (67862, 67867), (68028, 68029), (68032, 68047), (68050, 68095), (68160, 68168), (68221, 68222),
   (68253, 68255), (68331, 68335), (68440, 68447), (68472, 68479), (68521, 68527), (68858, 68863),
   (68912, 68921), (69216, 69246), (69405, 69414), (69457, 69460), (69573, 69579), (69714, 69743),
   (69872, 69881), (69942, 69951), (70096, 70105), (70113, 70132), (70384, 70393), (70736, 70745),
   (70864, 70873), (71248, 71257), (71360, 71369), (71472, 71483), (71904, 71922), (72016, 72025),
   (72784, 72812), (73040, 73049), (73120, 73129), (73664, 73684), (74752, 74862), (92768, 92777),
   (92864, 92873), (93008, 93017), (93019, 93025), (93824, 93846), (119520, 119539),
   (119648, 119672), (120782, 120831), (123200, 123209), (123632, 123641), (125127, 125135),
   (125264, 125273), (126065, 126123), (126125, 126127), (126129, 126132), (126209, 126253),
   (126255, 126269), (127232, 127244), (130032, 130041)]

/-- Membership of a code point in a list of inclusive ranges. -/
def inRanges (n : Nat) : List (Nat × Nat) → Bool
  | [] => false
  | (lo, hi) :: rs => (lo ≤ n && n ≤ hi) || inRanges n rs

/-- Go `unicode.IsLetter`. -/
def isLetter (c : Char) : Bool :=
  if c.toNat < 0x80 then
    (0x41 ≤ c.toNat && c.toNat ≤ 0x5a) || (0x61 ≤ c.toNat && c.toNat ≤ 0x7a)
  else inRanges c.toNat letterRanges

/-- Go `unicode.IsNumber`. -/
def isNumber (c : Char) : Bool :=
  if c.toNat < 0x80 then 0x30 ≤ c.toNat && c.toNat ≤ 0x39
  else inRanges c.toNat numberRanges

/-- Go `unicode.IsSpace`: the runes with the Unicode White_Space property. -/
def isSpace (c : Char) : Bool :=
  let n := c.toNat
  (0x09 ≤ n && n ≤ 0x0d) || n = 0x20 || n = 0x85 || n = 0xa0 || n = 0x1680 ||
  (0x2000 ≤ n && n ≤ 0x200a) || n = 0x2028 || n = 0x2029 || n = 0x202f ||
  n = 0x205f || n = 0x3000

/-- Rune `utf8.RuneError` (U+FFFD), which `utf8.DecodeRuneInString` also
returns for the empty string. -/
def runeError : Char := Char.ofNat 0xfffd

/-- Go `utf8.DecodeRuneInString`, the rune only. -/
def decodeRune : List Char → Char
  | [] => runeError
  | c :: _ => c

/-! ## lexer.go -/

/-- Map `runeLexeme` of lexer.go. -/
def runeLexeme : List (Char × lexType) :=
  [('(', lexLeftPar), (')', lexRightPar), ('\x7b', lexLeftBrace), ('\x7d', lexRightBrace),
   ('-', lexMinus), ('+', lexPlus), ('*', lexMul), ('%', lexMod), (',', lexComma),
   ('.', lexDot), ('[', lexLeftBracket), (']', lexRightBracket), (';', lexEos),
   ('\n', lexEos)]

/-- Map `twoRunesLexeme` of lexer.go. -/
def twoRunesLexeme : List (String × lexType) :=
  [("||", lexOr), ("&&", lexAnd), ("==", lexEqEq), ("!=", lexNeq), (">=", lexGeq),
   ("<=", lexLeq)]

/-- Map `stringLexeme` of lexer.go. -/
def stringLexeme : List (String × lexType) :=
  [("true", lexBool), ("false", lexBool), ("if", lexIf), ("else", lexElse),
   ("for", lexFor), ("while", lexWhile), ("return", lexReturn), ("@int", lexReadInt),
   ("@float", lexReadFloat), ("@line", lexReadLine), ("@char", lexReadChar),
   ("@print", lexPrint), ("@println", lexPrintLn), ("@rnd", lexRnd)]

/-- Map `conflictingRuneLexeme` of lexer.go. -/
def conflictingRuneLexeme : List (Char × lexType) :=
  [('=', lexEq), ('/', lexDiv), ('<', lexLess), ('>', lexGreater), ('!', lexNot)]

/-- Function `isAlphaNum` of lexer.go. -/
def isAlphaNum (r : Char) : Bool := isLetter r || isNumber r

/-- Function `notNumber` of lexer.go. -/
def notNumber (r : Char) : Bool := !isNumber r

/-- Method `lexer.emit`: the lexeme made of the next `size` bytes of the unread
input `l.input[l.pos:]`, and the input left after it. -/
def lexer.emit (t : lexType) (size : Nat) (input : List Char) : lex × List Char :=
  (⟨t, String.mk (takeBytes size input)⟩, dropBytes size input)

/-- Method `lexer.skipUntil`, on the unread input: what is left after the
first occurrence of `s`, or nothing when there is none. -/
def lexer.skipUntil (s : List Char) (input : List Char) : List Char :=
  match index s input with
  | none => []
  | some skip => dropBytes (skip + byteLen s) input

/-- The loop `for str, lex := range twoRunesLexeme` of `lexer.run`.  Go visits
a map in an unspecified order; no two keys of this map can both be a prefix of
the same input, and the model scans in the order of declaration. -/
def scanTwoRunes (input : List Char) : Option (String × lexType) :=
  twoRunesLexeme.find? (fun e => hasPrefix input e.1.toList)

/-- The loop `for str, lex := range stringLexeme` of `lexer.run`, with its
test of the rune after the match.  The model scans in the order of
declaration. -/
def scanString (input : List Char) : Option (String × lexType) :=
  stringLexeme.find? (fun e =>
    hasPrefix input e.1.toList &&
      !isAlphaNum (decodeRune (dropBytes (byteLen e.1.toList) input)))

/-- The loop of the string branch of `lexer.run`.  `input` is `l.input[l.pos:]`
and `s` the number of bytes of the lexeme passed so far; the result is the
final `s` and `i`, with `none` for `i == -1`. -/
def stringScan : Nat → List Char → Nat → Except Err (Nat × Option Nat)
  | 0, _, _ => .error .fuel
  | fuel + 1, input, s =>
    match index ['"'] (dropBytes s input) with
    | none => .ok (s, none)
    | some i =>
      if Int.tmod ((i : Int) - lastIndexFunc (fun r => r != '\\')
          (takeBytes (i + 1) (dropBytes (s - 1) input))) 2 = 0 then
        .ok (s, some i)
      else stringScan fuel input (s + i + 1)

/-- What one pass through the body of the loop of `lexer.run` does. -/
inductive lexStep
  /-- a lexeme was emitted and the loop goes on with the input left -/
  | emitted (l : lex) (rest : List Char)
  /-- nothing was emitted and the loop goes on with the input left -/
  | skipped (rest : List Char)
  /-- the final `l.emit(lexError, s); return` -/
  | halted (l : lex)
  /-- the loop condition `r != eof` failed -/
  | atEof
  /-- a panic or the fuel bound -/
  | failed (e : Err)

/-- One pass through the loop of `lexer.run` on the unread input
`l.input[l.pos:]`. -/
def lexer.step (input : List Char) : lexStep :=
  match input with
  | [] => .atEof
  | r :: rest =>
    let s := runeLen r
    if r = runeError then .failed (.panic "utf8.RuneError")
    else if r.toNat = 0 then .atEof
    else
    match runeLexeme.lookup r with
    | some t => let e := lexer.emit t s input; .emitted e.1 e.2
    | none =>
    if isSpace r then .skipped (dropBytes s input)
    else
    let comment : Option lexStep :=
      if r = '/' then
        match rest with
        | [] => none
        | r2 :: _ =>
          if r2 = runeError then some (.failed (.panic "utf8.RuneError"))
          else if r2 = '/' then
            let e := lexer.emit lexEos 0 (lexer.skipUntil ['\n'] (dropBytes (s + runeLen r2) input))
            some (.emitted e.1 e.2)
          else if r2 = '*' then
            some (.skipped (lexer.skipUntil ['*', '/'] (dropBytes (s + runeLen r2) input)))
          else none
      else none
    match comment with
    | some st => st
    | none =>
    match scanTwoRunes input with
    | some (str, t) => let e := lexer.emit t (byteLen str.toList) input; .emitted e.1 e.2
    | none =>
    match scanString input with
    | some (str, t) => let e := lexer.emit t (byteLen str.toList) input; .emitted e.1 e.2
    | none =>
    match conflictingRuneLexeme.lookup r with
    | some t => let e := lexer.emit t s input; .emitted e.1 e.2
    | none =>
    if isNumber r then
      match indexFunc notNumber (dropBytes s input) with
      | none => let e := lexer.emit lexInt (byteLen input) input; .emitted e.1 e.2
      | some i =>
        if decodeRune (dropBytes (s + i) input) = '.' then
          match indexFunc notNumber (dropBytes (s + (i + 1)) input) with
          | none => let e := lexer.emit lexFloat (byteLen input) input; .emitted e.1 e.2
          | some j => let e := lexer.emit lexFloat (s + (i + 1) + j) input; .emitted e.1 e.2
        else let e := lexer.emit lexInt (s + i) input; .emitted e.1 e.2
    else if r = '"' then
      match stringScan (byteLen input + 1) input s with
      | .error err => .failed err
      | .ok (_, none) => let e := lexer.emit lexError (byteLen input) input; .emitted e.1 e.2
      | .ok (s1, some i) => let e := lexer.emit lexString (s1 + i + 1) input; .emitted e.1 e.2
    else if isLetter r then
      match indexFunc (fun c => !isAlphaNum c) (dropBytes s input) with
      | none => let e := lexer.emit lexName (byteLen input) input; .emitted e.1 e.2
      | some i => let e := lexer.emit lexName (s + i) input; .emitted e.1 e.2
    else .halted (lexer.emit lexError s input).1

/-- Method `lexer.run`: the lexemes sent on the channel, in order, until it is
closed.  The fuel bounds the number of passes through the loop. -/
def lexer.run : Nat → List Char → Except Err (List lex)
  | 0, _ => .error .fuel
  | fuel + 1, input =>
    match lexer.step input with
    | .emitted l rest => (lexer.run fuel rest).map (fun ls => l :: ls)
    | .skipped rest => lexer.run fuel rest
    | .halted l => .ok [l]
    | .atEof => .ok [(lexer.emit lexEof 0 input).1]
    | .failed e => .error e

/-- Function `newLexer` followed by reading the channel to its end: all
lexemes of a source text.  Each pass of the loop consumes at least one rune,
so the fuel given is never used up (theorem `lexAll_total`). -/
def lexAll (source : String) : Except Err (List lex) :=
  lexer.run (source.length + 1) source.toList

/-! ## common.go: opcodes and values -/

/-- Type `opType` of common.go. -/
inductive opType
  | opCall | opJmp | opJmpFalse | opLoad | opStore | opLoadStr | opStoreStr
  | opSum | opSub | opMul | opDiv | opMod | opNeg | opOr | opAnd | opNot
  | opEq | opNeq | opLess | opGreater | opLeq | opGeq
  | opInt | opFloat | opBool | opString | opFunction
  | opReadInt | opReadFloat | opReadString | opReadLine | opReadChar
  | opPrint | opPrintLn | opRnd | opPop | opReturn
  deriving DecidableEq, Repr

open opType

mutual
/-- The dynamic types a Go `interface{}` holds in this program, as opcode
parameter or on the operand stack: `nil`, `int`, `int64`, `float64`, `bool`,
`string` and `function`. -/
inductive Value
  | nil
  | int (n : Int)
  | int64 (n : Int)
  | float64 (x : Float)
  | bool (b : Bool)
  | string (s : String)
  | function (f : List op)
/-- Struct `op` of common.go. -/
inductive op
  | mk (typ : opType) (param : Value)
end

/-- Field `typ` of `op`. -/
def op.typ : op → opType
  | .mk t _ => t

/-- Field `param` of `op`. -/
def op.param : op → Value
  | .mk _ p => p

/-- Type `function` of common.go. -/
abbrev function := List op

/-! ## Go library functions used by the parser -/

/-- Value of an ASCII decimal digit. -/
def digitVal (c : Char) : Option Nat :=
  if 0x30 ≤ c.toNat ∧ c.toNat ≤ 0x39 then some (c.toNat - 0x30) else none

/-- Value of a non-empty string of ASCII decimal digits, `acc` being the value
of the digits already read. -/
def digitsVal : List Char → Nat → Option Nat
  | [], acc => some acc
  | c :: cs, acc =>
    match digitVal c with
    | some d => digitsVal cs (10 * acc + d)
    | none => none

/-- Go `strconv.ParseInt(s, 10, 64)`: an optional sign and ASCII decimal
digits, within the range of `int64`; `none` stands for a non-nil error. -/
def parseInt (s : String) : Option Int :=
  match s.toList with
  | [] => none
  | c :: cs =>
    let neg := c = '-'
    let ds := if c = '-' ∨ c = '+' then cs else c :: cs
    if ds.isEmpty then none
    else
      match digitsVal ds 0 with
      | none => none
      | some n =>
        if neg then (if n ≤ 2 ^ 63 then some (-(n : Int)) else none)
        else (if n < 2 ^ 63 then some (n : Int) else none)

/-- Go `strconv.ParseBool`. -/
def parseBool (s : String) : Option Bool :=
  if s ∈ ["1", "t", "T", "TRUE", "true", "True"] then some true
  else if s ∈ ["0", "f", "F", "FALSE", "false", "False"] then some false
  else none

/-- The least decimal value that `strconv.ParseFloat` rounds to infinity:
`2^1024 - 2^970`. -/
def floatOverflow : Nat :=
  179769313486231580793728971405303415079934132710037826936173778980444968292764750946649017977587207096330286416692887910946555547851940402630657488671505820681908902000708383676273854845817711531764475730270069855571366959622842914819860834936475292719074168444365510704342711559699508093042880177904174497792

/-- Go `strconv.ParseFloat(s, 64)` on the strings the lexer emits as `lexFloat`:
ASCII decimal digits, a dot, ASCII decimal digits (either part may be empty, not
both); `none` stands for a non-nil error (bad syntax, or a value out of range).
The value is the IEEE 754 double nearest to the decimal, here Lean's
`Float.ofScientific`.  Signs, exponents, hexadecimal mantissas and the words
`inf` and `nan`, which Go also accepts and no lexeme contains, give `none`. -/
def parseFloat (s : String) : Option Float :=
  let ip := s.toList.takeWhile (fun c => c != '.')
  let rest := s.toList.dropWhile (fun c => c != '.')
  let fp := rest.drop 1
  if ip.isEmpty && fp.isEmpty then none
  else
    match digitsVal (ip ++ fp) 0 with
    | none => none
    | some m =>
      if floatOverflow * 10 ^ fp.length ≤ m then none
      else some (Float.ofScientific m true fp.length)

/-- Value of a hexadecimal digit. -/
def hexVal (c : Char) : Option Nat :=
  let n := c.toNat
  if 0x30 ≤ n ∧ n ≤ 0x39 then some (n - 0x30)
  else if 0x61 ≤ n ∧ n ≤ 0x66 then some (n - 0x61 + 10)
  else if 0x41 ≤ n ∧ n ≤ 0x46 then some (n - 0x41 + 10)
  else none

/-- Value of a string of digits in base `b`, read with `dig`. -/
def baseVal (dig : Char → Option Nat) (b : Nat) : List Char → Nat → Option Nat
  | [], acc => some acc
  | c :: cs, acc =>
    match dig c with
    | some d => baseVal dig b cs (b * acc + d)
    | none => none

/-- Value of an octal digit. -/
def octVal (c : Char) : Option Nat :=
  if 0x30 ≤ c.toNat ∧ c.toNat ≤ 0x37 then some (c.toNat - 0x30) else none

/-- Result of unquoting: Go strings are byte strings, the model's are rune
strings, so an escape that denotes one byte above 0x7f cannot be represented
and is reported as `unsupported`. -/
inductive Unquoted
  | ok (s : List Char)
  | syntaxErr
  | unsupported

/-- The loop of Go `strconv.Unquote` over the inside of a double-quoted
literal (`strconv.UnquoteChar` with quote `"`). -/
def unquoteChars : Nat → List Char → List Char → Unquoted
  | 0, _, _ => .syntaxErr
  | _ + 1, [], acc => .ok acc.reverse
  | fuel + 1, c :: cs, acc =>
    if c = '"' then .syntaxErr
    else if c != '\\' then unquoteChars fuel cs (c :: acc)
    else
      match cs with
      | [] => .syntaxErr
      | e :: rest =>
        let simple := fun (r : Char) => unquoteChars fuel rest (r :: acc)
        if e = 'a' then simple (Char.ofNat 7)
        else if e = 'b' then simple (Char.ofNat 8)
        else if e = 'f' then simple (Char.ofNat 12)
        else if e = 'n' then simple '\n'
        else if e = 'r' then simple '\r'
        else if e = 't' then simple '\t'
        else if e = 'v' then simple (Char.ofNat 11)
        else if e = '\\' then simple '\\'
        else if e = '"' then simple '"'
        else if e = 'x' ∨ e = 'u' ∨ e = 'U' then
          let n := if e = 'x' then 2 else if e = 'u' then 4 else 8
          if rest.length < n then .syntaxErr
          else
            match baseVal hexVal 16 (rest.take n) 0 with
            | none => .syntaxErr
            | some v =>
              if e = 'x' then
                (if v < 0x80 then unquoteChars fuel (rest.drop n) (Char.ofNat v :: acc)
                 else .unsupported)
              else if 0x10ffff < v ∨ (0xd800 ≤ v ∧ v < 0xe000) then .syntaxErr
              else unquoteChars fuel (rest.drop n) (Char.ofNat v :: acc)
        else if (octVal e).isSome then
          if rest.length < 2 then .syntaxErr
          else
            match baseVal octVal 8 (e :: rest.take 2) 0 with
            | none => .syntaxErr
            | some v =>
              if 255 < v then .syntaxErr
              else if v < 0x80 then unquoteChars fuel (rest.drop 2) (Char.ofNat v :: acc)
              else .unsupported
        else .syntaxErr

/-- Go `strconv.Unquote` on a double-quoted literal, the only kind the lexer
emits as `lexString`; single-quoted and back-quoted literals, which Go also
accepts, give `syntaxErr`. -/
def unquote (s : String) : Unquoted :=
  match s.toList with
  | [] => .syntaxErr
  | q :: cs =>
    if q = '"' ∧ cs.getLast? = some '"' then
      if cs.dropLast.contains '\n' then .syntaxErr
      else unquoteChars (cs.length + 1) cs.dropLast []
    else .syntaxErr

/-! ## parser.go

The parser state is the list of lexemes not yet consumed: `p.nxt` followed by
what the channel still holds.  Reading past the last lexeme yields a nil
pointer in Go, and every caller dereferences it at once: a panic.  Every
function of the mutual recursion takes a fuel argument that goes down by one
at each call. -/

/-- Method `parser.next`, with the dereference that follows it. -/
def parser.next (ts : List lex) (i : Nat) : Except Err lex :=
  match ts.get? i with
  | some l => .ok l
  | none => .error (.panic "nil pointer dereference")

/-- Method `parser.get`, with the dereference that follows it. -/
def parser.get (ts : List lex) : Except Err (lex × List lex) :=
  match ts with
  | l :: rest => .ok (l, rest)
  | [] => .error (.panic "nil pointer dereference")

/-- Method `parser.skip`. -/
def parser.skip (x : Nat) (ts : List lex) : List lex := ts.drop x

/-- Method `parser.semicolon`. -/
def parser.semicolon (ts : List lex) : Except Err (List lex) :=
  match parser.get ts with
  | .error e => .error e
  | .ok (l, rest) => if l.val ≠ ";" then .error (.parseErr ";" l) else .ok rest

/-- Arrays `levelLex` and `levelOp` of parser.go. -/
def levelLex : List (List lexType) :=
  [[lexOr], [lexAnd], [lexEqEq, lexNeq], [lexLess, lexGreater, lexLeq, lexGeq],
   [lexPlus, lexMinus], [lexMul, lexDiv, lexMod]]

/-- Array `levelOp` of parser.go. -/
def levelOp : List (List opType) :=
  [[opOr], [opAnd], [opEq, opNeq], [opLess, opGreater, opLeq, opGeq],
   [opSum, opSub], [opMul, opDiv, opMod]]

/-- The inner loop `for i, l := range lex` of `parser.expr0`: the opcode
`opt[i]` of the first `i` with `lex[i] == nt`. -/
def findOp : List lexType → List opType → lexType → Option opType
  | l :: ls, o :: os, nt => if l = nt then some o else findOp ls os nt
  | _, _, _ => none

/-- The operator of precedence level `level` that a lexeme kind denotes. -/
def levelFind (level : Nat) (nt : lexType) : Option opType :=
  findOp (levelLex.getD level []) (levelOp.getD level []) nt

/-- The first loop of `parser.name`: consumes lexemes while the current one
is a dot, appending their text to `n`. -/
def parser.nameDots (l : lex) (n : String) : List lex → Except Err (String × lex × List lex)
  | [] => if l.typ = lexDot then .error (.panic "nil pointer dereference") else .ok (n, l, [])
  | l1 :: ts =>
    if l.typ = lexDot then parser.nameDots l1 (n ++ l1.val) ts else .ok (n, l, l1 :: ts)

/-- The loop of `parser.funArgs`. -/
def parser.funArgsLoop : Nat → List lex → function → Except Err (function × List lex)
  | 0, _, _ => .error .fuel
  | n + 1, ts, ret => do
    let (arg, ts) ← parser.get ts
    if arg.typ = lexRightPar then pure (ret, ts)
    else if arg.typ ≠ lexName then .error (.parseErr "name" arg)
    else
      let ret := ret ++ [op.mk opStore (.string arg.val)]
      let nx ← parser.next ts 0
      if nx.typ = lexComma then parser.funArgsLoop n (parser.skip 1 ts) ret
      else parser.funArgsLoop n ts ret

/-- Method `parser.funArgs`. -/
def parser.funArgs (n : Nat) (ts : List lex) : Except Err (function × List lex) :=
  parser.funArgsLoop n (parser.skip 1 ts) []

mutual
/-- Method `parser.fun`. -/
def parser.fun : Nat → List lex → function → Except Err (function × List lex)
  | 0, _, _ => .error .fuel
  | n + 1, ts, f => do
    let l ← parser.next ts 0
    if l.typ = lexLeftBrace then parser.funLoop n lexRightBrace (parser.skip 1 ts) f
    else parser.funLoop n lexEof ts f

/-- The `for` loop of `parser.fun`, from its top. -/
def parser.funLoop : Nat → lexType → List lex → function → Except Err (function × List lex)
  | 0, _, _, _ => .error .fuel
  | n + 1, endCriteria, ts, f => do
    let (l, ts) ← parser.get ts
    match l.typ with
    | lexEos => parser.funLoop n endCriteria ts f
    | lexIf => do
      let (f, ts) ← parser.pIf n ts f
      parser.funEnd n endCriteria ts f
    | lexFor => do
      let (f, ts) ← parser.pFor n ts f
      parser.funEnd n endCriteria ts f
    | lexWhile => do
      let (f, ts) ← parser.pWhile n ts f
      parser.funEnd n endCriteria ts f
    | lexPrint => do
      let (f, k, ts) ← parser.callArgs n ts f
      parser.funEnd n endCriteria ts (f ++ [op.mk opPrint (.int k)])
    | lexPrintLn => do
      let (f, k, ts) ← parser.callArgs n ts f
      parser.funEnd n endCriteria ts (f ++ [op.mk opPrintLn (.int k)])
    | lexReturn => do
      let nt ← parser.next ts 0
      if nt.typ ≠ lexEos ∧ nt.typ ≠ endCriteria then do
        let (f, ts) ← parser.expr0 n 0 ts f
        parser.funEnd n endCriteria ts (f ++ [op.mk opReturn (.int 1)])
      else parser.funEnd n endCriteria ts (f ++ [op.mk opReturn (.int 0)])
    | _ =>
      if l.typ = lexDot ∨ l.typ = lexName then do
        let (f, ts) ← parser.name n ts f l
        let (nx, ts) ← parser.get ts
        if nx.typ = lexEq then do
          let (f, ts) ← parser.assign n ts f
          parser.funEnd n endCriteria ts f
        else if nx.typ = lexLeftPar then do
          let (f, ts) ← parser.call n ts f
          parser.funEnd n endCriteria ts f
        else .error (.parseErr "= or (" nx)
      else if l.typ = endCriteria then pure (f, ts)
      else .error (.parseErr "if, for, while or name" l)

/-- The end of the body of the `for` loop of `parser.fun`: the check of the
separator after a statement. -/
def parser.funEnd : Nat → lexType → List lex → function → Except Err (function × List lex)
  | 0, _, _, _ => .error .fuel
  | n + 1, endCriteria, ts, f => do
    let (l, ts) ← parser.get ts
    if l.typ ≠ lexEos ∧ l.typ ≠ endCriteria then .error (.parseErr "; or newline" l)
    else if l.typ = endCriteria then pure (f, ts)
    else parser.funLoop n endCriteria ts f

/-- Method `parser.assign`. -/
def parser.assign : Nat → List lex → function → Except Err (function × List lex)
  | 0, _, _ => .error .fuel
  | n + 1, ts, f => do
    let l0 ← parser.next ts 0
    let (f, ts) ←
      if l0.typ = lexLeftPar then do
        let l1 ← parser.next ts 1
        if l1.typ = lexRightPar then do
          let ts := parser.skip 2 ts
          let l ← parser.next ts 0
          if l.typ ≠ lexLeftBrace then .error (.parseErr "\x7b" l)
          else do
            let (body, ts) ← parser.fun n ts []
            pure (f ++ [op.mk opFunction (.function body)], ts)
        else if l1.typ = lexName then do
          let l2 ← parser.next ts 2
          let literal ←
            if l2.typ = lexComma then pure true
            else if l2.typ = lexRightPar then do
              let l3 ← parser.next ts 3
              pure (decide (l3.typ = lexLeftBrace))
            else pure false
          if literal then do
            let (args, ts) ← parser.funArgs n ts
            let (body, ts) ← parser.fun n ts args
            pure (f ++ [op.mk opFunction (.function body)], ts)
          else parser.expr0 n 0 ts f
        else parser.expr0 n 0 ts f
      else parser.expr0 n 0 ts f
    pure (f ++ [op.mk opStoreStr .nil], ts)

/-- Method `parser.callArgs`; the second component is the number of arguments. -/
def parser.callArgs : Nat → List lex → function → Except Err (function × Int × List lex)
  | 0, _, _ => .error .fuel
  | n + 1, ts, f => do
    let (l, ts) ← parser.get ts
    if l.typ ≠ lexLeftPar then .error (.parseErr "(" l)
    else parser.callArgsLoop n 0 ts f

/-- The loop of `parser.callArgs` and the `p.skip(1)` after it. -/
def parser.callArgsLoop : Nat → Int → List lex → function →
    Except Err (function × Int × List lex)
  | 0, _, _, _ => .error .fuel
  | n + 1, args, ts, f => do
    let l ← parser.next ts 0
    if l.typ ≠ lexRightPar then do
      let (f, ts) ← parser.expr0 n 0 ts f
      let nx ← parser.next ts 0
      if nx.typ = lexComma then parser.callArgsLoop n (args + 1) (parser.skip 1 ts) f
      else if nx.typ ≠ lexRightPar then .error (.parseErr ", or )" nx)
      else parser.callArgsLoop n (args + 1) ts f
    else pure (f, args, parser.skip 1 ts)

/-- Method `parser.expr0`.  Method `parser.expr` is `parser.expr0` at level 0. -/
def parser.expr0 : Nat → Nat → List lex → function → Except Err (function × List lex)
  | 0, _, _, _ => .error .fuel
  | n + 1, level, ts, f =>
    if level < levelLex.length then do
      let (f, ts) ← parser.expr0 n (level + 1) ts f
      parser.exprLoop n level ts f
    else do
      let (l, ts) ← parser.get ts
      match l.typ with
      | lexMinus => do
        let (f, ts) ← parser.expr0 n level ts f
        pure (f ++ [op.mk opNeg .nil], ts)
      | lexNot => do
        let (f, ts) ← parser.expr0 n level ts f
        pure (f ++ [op.mk opNot .nil], ts)
      | lexLeftPar => do
        let (f, ts) ← parser.expr0 n 0 ts f
        let (r, ts) ← parser.get ts
        if r.typ ≠ lexRightPar then .error (.parseErr ")" r) else pure (f, ts)
      | lexInt =>
        match parseInt l.val with
        | none => .error (.parseErr "int" l)
        | some i => pure (f ++ [op.mk opInt (.int64 i)], ts)
      | lexFloat =>
        match parseFloat l.val with
        | none => .error (.parseErr "float" l)
        | some x => pure (f ++ [op.mk opFloat (.float64 x)], ts)
      | lexBool =>
        match parseBool l.val with
        | none => .error (.parseErr "bool" l)
        | some b => pure (f ++ [op.mk opBool (.bool b)], ts)
      | lexString =>
        match unquote l.val with
        | .syntaxErr => .error (.parseErr "string" l)
        | .unsupported => .error (.unsupported "byte escape in a string literal")
        | .ok s => pure (f ++ [op.mk opString (.string (String.mk s))], ts)
      | lexReadInt => pure (f ++ [op.mk opReadInt .nil], ts)
      | lexReadFloat => pure (f ++ [op.mk opReadFloat .nil], ts)
      | lexReadLine => pure (f ++ [op.mk opReadLine .nil], ts)
      | lexReadChar => pure (f ++ [op.mk opReadChar .nil], ts)
      | lexRnd => pure (f ++ [op.mk opRnd .nil], ts)
      | _ =>
        if l.typ = lexDot ∨ l.typ = lexName then do
          let (f, ts) ← parser.name n ts f l
          let f := f ++ [op.mk opLoadStr .nil]
          let nx ← parser.next ts 0
          if nx.typ = lexLeftPar then do
            let (f, num, ts) ← parser.callArgs n ts f
            pure (f ++ [op.mk opCall (.int num)], ts)
          else pure (f, ts)
        else .error (.parseErr "int, float, string, bool, name or call" l)

/-- The loop `for found` of `parser.expr0` at a level below the primaries. -/
def parser.exprLoop : Nat → Nat → List lex → function → Except Err (function × List lex)
  | 0, _, _, _ => .error .fuel
  | n + 1, level, ts, f => do
    let nt ← parser.next ts 0
    match levelFind level nt.typ with
    | some o => do
      let (f, ts) ← parser.expr0 n (level + 1) (parser.skip 1 ts) f
      parser.exprLoop n level ts (f ++ [op.mk o .nil])
    | none => pure (f, ts)

/-- Method `parser.name`; `l` is the lexeme already consumed. -/
def parser.name : Nat → List lex → function → lex → Except Err (function × List lex)
  | 0, _, _, _ => .error .fuel
  | n + 1, ts, f, l => do
    let (nm, l, ts) ← parser.nameDots l l.val ts
    if l.typ ≠ lexName then .error (.parseErr "name or ." l)
    else parser.nameIndex n ts (f ++ [op.mk opString (.string nm)])

/-- The second loop of `parser.name`: the bracketed indices. -/
def parser.nameIndex : Nat → List lex → function → Except Err (function × List lex)
  | 0, _, _ => .error .fuel
  | n + 1, ts, f => do
    let l ← parser.next ts 0
    if l.typ = lexLeftBracket then do
      let f := f ++ [op.mk opString (.string "["), op.mk opSum .nil]
      let (f, ts) ← parser.expr0 n 0 (parser.skip 1 ts) f
      let f := f ++ [op.mk opSum .nil]
      let (r, ts) ← parser.get ts
      if r.typ ≠ lexRightBracket then .error (.parseErr "[" r)
      else parser.nameIndex n ts (f ++ [op.mk opString (.string "]"), op.mk opSum .nil])
    else pure (f, ts)

/-- Method `parser.call`. -/
def parser.call : Nat → List lex → function → Except Err (function × List lex)
  | 0, _, _ => .error .fuel
  | n + 1, ts, f => parser.callLoop n 0 ts (f ++ [op.mk opLoadStr .nil])

/-- The loop of `parser.call` and what follows it. -/
def parser.callLoop : Nat → Int → List lex → function → Except Err (function × List lex)
  | 0, _, _, _ => .error .fuel
  | n + 1, args, ts, f => do
    let l ← parser.next ts 0
    if l.typ ≠ lexRightPar then do
      let (f, ts) ← parser.expr0 n 0 ts f
      let nx ← parser.next ts 0
      if nx.typ = lexComma then parser.callLoop n (args + 1) (parser.skip 1 ts) f
      else parser.callLoop n (args + 1) ts f
    else pure (f ++ [op.mk opCall (.int args), op.mk opPop .nil], parser.skip 1 ts)

/-- Method `parser.pIf`. -/
def parser.pIf : Nat → List lex → function → Except Err (function × List lex)
  | 0, _, _ => .error .fuel
  | n + 1, ts, f => do
    let (f, ts) ← parser.expr0 n 0 ts f
    let l ← parser.next ts 0
    if l.typ ≠ lexLeftBrace then .error (.parseErr "\x7b" l)
    else do
      let (body, ts) ← parser.fun n ts []
      let e ← parser.next ts 0
      if e.typ = lexElse then do
        let ts := parser.skip 1 ts
        let b ← parser.next ts 0
        if b.typ ≠ lexLeftBrace then .error (.parseErr "\x7b" b)
        else do
          let (elseBody, ts) ← parser.fun n ts []
          let body := body ++ [op.mk opJmp (.int ((elseBody.length : Int) + 1))]
          pure (f ++ [op.mk opJmpFalse (.int ((body.length : Int) + 1))] ++ body ++ elseBody, ts)
      else
        pure (f ++ [op.mk opJmpFalse (.int ((body.length : Int) + 1))] ++ body ++ [], ts)

/-- Method `parser.assignOrNone`. -/
def parser.assignOrNone : Nat → List lex → function → Except Err (function × List lex)
  | 0, _, _ => .error .fuel
  | n + 1, ts, f => do
    let l ← parser.next ts 0
    if l.val ≠ ";" then do
      let (l, ts) ← parser.get ts
      let (f, ts) ← parser.name n ts f l
      let (e, ts) ← parser.get ts
      if e.typ ≠ lexEq then .error (.parseErr "=" e)
      else parser.assign n ts f
    else pure (f, ts)

/-- Method `parser.pFor`. -/
def parser.pFor : Nat → List lex → function → Except Err (function × List lex)
  | 0, _, _ => .error .fuel
  | n + 1, ts, f => do
    let (f, ts) ← parser.assignOrNone n ts f
    let ts ← parser.semicolon ts
    let start : Int := f.length
    let (f, ts) ← parser.expr0 n 0 ts f
    let ts ← parser.semicolon ts
    let (after, ts) ← parser.assignOrNone n ts []
    let l ← parser.next ts 0
    if l.typ ≠ lexLeftBrace then .error (.parseErr "\x7b" l)
    else do
      let (body, ts) ← parser.fun n ts []
      let f := f ++ [op.mk opJmpFalse (.int ((body.length : Int) + (after.length : Int) + 2))]
      let f := f ++ body
      let f := f ++ after
      pure (f ++ [op.mk opJmp (.int (start - (f.length : Int)))], ts)

/-- Method `parser.pWhile`. -/
def parser.pWhile : Nat → List lex → function → Except Err (function × List lex)
  | 0, _, _ => .error .fuel
  | n + 1, ts, f => do
    let start : Int := f.length
    let (f, ts) ← parser.expr0 n 0 ts f
    let l ← parser.next ts 0
    if l.typ ≠ lexLeftBrace then .error (.parseErr "\x7b" l)
    else do
      let (body, ts) ← parser.fun n ts []
      let f := f ++ [op.mk opJmpFalse (.int ((body.length : Int) + 2))]
      let f := f ++ body
      pure (f ++ [op.mk opJmp (.int (start - (f.length : Int)))], ts)
end

/-- Method `parser.expr`. -/
def parser.expr (n : Nat) (ts : List lex) (f : function) : Except Err (function × List lex) :=
  parser.expr0 n 0 ts f

/-- Fuel given to the parser for a list of lexemes: sixteen nested calls for
each lexeme.  Running out of it is the error `Err.fuel`, never a parse error. -/
def parseFuel (ts : List lex) : Nat := 16 * (ts.length + 1)

/-- The parse of a list of lexemes as a top-level program (`p.fun` of `parse`). -/
def parseLexemes (ts : List lex) : Except Err function :=
  (parser.fun (parseFuel ts) ts []).map (fun r => r.1)

/-- Function `parse` of parser.go.  The lexer runs as a goroutine beside the
parser; the model lexes first, so a source on which both the lexer panics and
the parser stops is reported with the lexer's panic. -/
def parse (source : String) : Except Err function :=
  match lexAll source with
  | .error e => .error e
  | .ok ts => parseLexemes ts

/-! ## Go library functions used by the interpreter -/

/-- Two's-complement wrap-around of `int64` arithmetic. -/
def wrap64 (n : Int) : Int := (n + 2 ^ 63) % 2 ^ 64 - 2 ^ 63

/-- The numeric value of an `opType` constant (its `iota`). -/
def opType.toNat : opType → Nat
  | opCall => 0 | opJmp => 1 | opJmpFalse => 2 | opLoad => 3 | opStore => 4
  | opLoadStr => 5 | opStoreStr => 6 | opSum => 7 | opSub => 8 | opMul => 9
  | opDiv => 10 | opMod => 11 | opNeg => 12 | opOr => 13 | opAnd => 14 | opNot => 15
  | opEq => 16 | opNeq => 17 | opLess => 18 | opGreater => 19 | opLeq => 20
  | opGeq => 21 | opInt => 22 | opFloat => 23 | opBool => 24 | opString => 25
  | opFunction => 26 | opReadInt => 27 | opReadFloat => 28 | opReadString => 29
  | opReadLine => 30 | opReadChar => 31 | opPrint => 32 | opPrintLn => 33
  | opRnd => 34 | opPop => 35 | opReturn => 36

/-- Function `itoa` of interpreter.go (`strconv.FormatInt(i, 10)`). -/
def itoa (i : Int) : String := toString i

/-- Function `ftoa` of interpreter.go (`strconv.FormatFloat(f, 'f', -1, 64)`).
The digits are those Lean prints for the double, which may be more than the
shortest form Go prints. -/
def ftoa (f : Float) : String := f.toString

/-- The text `fmt` prints for a `float64` under the verb `%v`.  The digits are
those Lean prints for the double, which may be more than the shortest form Go
prints. -/
def fmtFloat (f : Float) : String := f.toString

mutual
/-- The text `fmt` prints for a value under the verb `%v`. -/
def fmtValue : Value → String
  | .nil => "<nil>"
  | .int n => toString n
  | .int64 n => toString n
  | .float64 x => fmtFloat x
  | .bool b => if b then "true" else "false"
  | .string s => s
  | .function f => "[" ++ fmtOps f ++ "]"
/-- The text `fmt` prints for an `op` struct under the verb `%v`. -/
def fmtOp : op → String
  | .mk t p => "\x7b" ++ toString t.toNat ++ " " ++ fmtValue p ++ "\x7d"
/-- The elements of a `function` under `%v`, separated by spaces. -/
def fmtOps : List op → String
  | [] => ""
  | o :: r => fmtOp o ++ (if r.isEmpty then "" else " ") ++ fmtOps r
end

/-- Whether a value has dynamic type `string`. -/
def Value.isString : Value → Bool
  | .string _ => true
  | _ => false

/-- The loop of `fmt.Fprint` over its operands: a space is added between two
operands when neither is a string.  `first` tells whether the operand at the
head is the first one, `prevString` whether the one before it was a string. -/
def fprintFrom : List Value → Bool → Bool → String
  | [], _, _ => ""
  | a :: as, first, prevString =>
    (if !first && !a.isString && !prevString then " " else "") ++ fmtValue a ++
      fprintFrom as false a.isString

/-- Go `fmt.Fprint`: the text written for a list of operands. -/
def fprint (a : List Value) : String := fprintFrom a true false

/-- The loop of `fmt.Fprintln` over its operands: a space between any two. -/
def fprintlnFrom : List Value → Bool → String
  | [], _ => ""
  | a :: as, first => (if first then "" else " ") ++ fmtValue a ++ fprintlnFrom as false

/-- Go `fmt.Fprintln`: the text written for a list of operands. -/
def fprintln (a : List Value) : String := fprintlnFrom a true ++ "\n"

/-- What lies outside the frames: the bytes still to be read from standard
input, the text written to standard output so far, and the generator of
`math/rand` as the sequence of the numbers it will return with the count of
those already drawn. -/
structure World where
  stdin : List Char
  stdout : String
  rand : Nat → Nat
  drawn : Nat

/-- The leading white space `fmt.Fscanf` skips before a verb other than `%c`
(`ss.SkipSpace` with `nlIsSpace` false): a newline, alone or after a carriage
return, is an error (`none`). -/
def scanSkipSpace : List Char → Option (List Char)
  | [] => some []
  | c :: cs =>
    if c = '\r' ∧ cs.head? = some '\n' then none
    else if c = '\n' then none
    else if isSpace c then scanSkipSpace cs
    else some (c :: cs)

/-- Go `fmt.Fscanf(r, "%d", &val)` with `val` an `int64`, on a reader that
cannot unread (such as `os.Stdin`): white space is skipped, an optional sign and
the longest run of decimal digits are read, and the rune that ends the run has
been read from the reader too and is lost.  `none` stands for `n == 0` or a
non-nil error. -/
def fscanInt (input : List Char) : Option (Int × List Char) :=
  match scanSkipSpace input with
  | none => none
  | some [] => none
  | some (c :: cs) =>
    let sign := if c = '-' ∨ c = '+' then [c] else []
    let body := if c = '-' ∨ c = '+' then cs else c :: cs
    let digits := body.takeWhile (fun d => (digitVal d).isSome || d = '_')
    if digits.isEmpty then none
    else
      match parseInt (String.mk (sign ++ digits)) with
      | none => none
      | some v => some (v, (body.dropWhile (fun d => (digitVal d).isSome || d = '_')).drop 1)

/-- Go `fmt.Fscanf(r, "%f", &val)` with `val` a `float64`, on a reader that
cannot unread, for the plain decimal forms (digits with an optional dot); the
rune that ends the token is lost.  A sign, an exponent, a hexadecimal mantissa,
`inf` and `nan`, which Go also reads, are outside the model and give `none`
like a failed read. -/
def fscanFloat (input : List Char) : Option (Float × List Char) :=
  match scanSkipSpace input with
  | none => none
  | some cs =>
    let isDig := fun (d : Char) => (digitVal d).isSome
    let ip := cs.takeWhile isDig
    let r1 := cs.dropWhile isDig
    let fp := if r1.head? = some '.' then (r1.drop 1).takeWhile isDig else []
    let r2 := if r1.head? = some '.' then (r1.drop 1).dropWhile isDig else r1
    match parseFloat (String.mk (ip ++ ['.'] ++ fp)) with
    | none => none
    | some x => some (x, r2.drop 1)

/-- Go `fmt.Fscanf(r, "%s", &val)` on a reader that cannot unread: white space
is skipped, the longest run of runes that are not white space is read, and the
rune that ends the run is lost. -/
def fscanString (input : List Char) : Option (String × List Char) :=
  match scanSkipSpace input with
  | none => none
  | some cs =>
    let tok := cs.takeWhile (fun c => !isSpace c)
    if tok.isEmpty then none
    else some (String.mk tok, (cs.dropWhile (fun c => !isSpace c)).drop 1)

/-- Go `fmt.Fscanf(r, "%c", &val)` with `val` a `rune`: exactly one rune. -/
def fscanChar (input : List Char) : Option (Char × List Char) :=
  match input with
  | [] => none
  | c :: cs => some (c, cs)

/-- Go `bufio.NewReader(r).ReadString('\n')` on a reader that returns all the
bytes asked for: the text up to and including the first newline.  The new
buffered reader takes input in blocks of 4096 bytes, and what it took beyond
the newline is lost with it.  `none` stands for a non-nil error (no newline
before the end of input). -/
def readLine (input : List Char) : Option (String × List Char) :=
  match index ['\n'] input with
  | none => none
  | some k => some (String.mk (takeBytes (k + 1) input), dropBytes (4096 * (k / 4096 + 1)) input)

/-! ## interpreter.go

A frame (Go struct `interpreter`) is modelled by its variables and its operand
stack; the head of the `stack` list is the top of the Go slice.  The `parent`
links form the chain of callers, modelled by the list of the frames above the
running one, nearest first; the streams are in the `World`, the bytecode is an
argument of `interpreter.run`. -/

/-- Struct `interpreter` of interpreter.go: fields `vars` and `stack`. -/
structure interpreter where
  vars : List (String × Value)
  stack : List Value

/-- Function `newInterpreter`: empty variables, empty stack. -/
def newInterpreter : interpreter := ⟨[], []⟩

/-- Go `m[name] = v` on the map `vars`. -/
def setVar (name : String) (v : Value) : List (String × Value) → List (String × Value)
  | [] => [(name, v)]
  | (k, w) :: r => if k = name then (k, v) :: r else (k, w) :: setVar name v r

/-- Go `v, ok := m[name]` on the map `vars`. -/
def getVar (name : String) : List (String × Value) → Option Value
  | [] => none
  | (k, w) :: r => if k = name then some w else getVar name r

/-- Method `interpreter.push`. -/
def interpreter.push (i : interpreter) (val : Value) : interpreter :=
  { i with stack := val :: i.stack }

/-- Method `interpreter.pop`. -/
def interpreter.pop (i : interpreter) : Except Err (Value × interpreter) :=
  match i.stack with
  | [] => .error (.runtimeErr "Stack underflow")
  | v :: rest => .ok (v, { i with stack := rest })

/-- Method `interpreter.popBool`. -/
def interpreter.popBool (i : interpreter) (err : String) : Except Err (Bool × interpreter) :=
  match i.pop with
  | .error e => .error e
  | .ok (.bool b, i) => .ok (b, i)
  | .ok (_, _) => .error (.runtimeErr err)

/-- Function `getInt` of interpreter.go. -/
def getInt (v : Value) (err : String) : Except Err Int :=
  match v with
  | .int n => .ok n
  | _ => .error (.runtimeErr err)

/-- Function `getString` of interpreter.go. -/
def getString (v : Value) (err : String) : Except Err String :=
  match v with
  | .string s => .ok s
  | _ => .error (.runtimeErr err)

/-- The loop of `trimDots`: `k` is the number of parent links followed so far,
`parents` the number of frames above the starting one. -/
def trimDotsFrom (name0 : String) (parents : Nat) : List Char → Nat → Except Err (Nat × String)
  | [], _ => .error (.runtimeErr "variable name is empty")
  | c :: cs, k =>
    if c = '.' then
      if k + 1 ≤ parents then trimDotsFrom name0 parents cs (k + 1)
      else .error (.runtimeErr ("too many dots in variable name: " ++ name0))
    else .ok (k, String.mk (c :: cs))

/-- Function `trimDots` of interpreter.go, for a frame with `parents` frames
above it: the number of parent links to follow from the frame, and the name
without its leading dots. -/
def trimDots (parents : Nat) (name0 : String) : Except Err (Nat × String) :=
  trimDotsFrom name0 parents name0.toList 0

/-- The variables of the frame `k` parent links above the running frame `i`. -/
def frameVars (i : interpreter) (parents : List interpreter) (k : Nat) :
    List (String × Value) :=
  match k with
  | 0 => i.vars
  | k + 1 => ((parents.get? k).getD newInterpreter).vars

/-- Go `interpr.vars[name] = val` for the frame `k` parent links above the
running frame `i`. -/
def storeVar (i : interpreter) (parents : List interpreter) (k : Nat) (name : String)
    (val : Value) : interpreter × List interpreter :=
  match k with
  | 0 => ({ i with vars := setVar name val i.vars }, parents)
  | k + 1 => (i, parents.modify (fun p => { p with vars := setVar name val p.vars }) k)

/-- The load shared by `opLoad` and `opLoadStr`: `trimDots`, the lookup, the
push; `opName` starts the error message. -/
def interpreter.load (i : interpreter) (parents : List interpreter) (opName name0 : String) :
    Except Err interpreter :=
  match trimDots parents.length name0 with
  | .error e => .error e
  | .ok (k, name) =>
    match getVar name (frameVars i parents k) with
    | none => .error (.runtimeErr (opName ++ " failed: variable " ++ name0 ++ " is undefined"))
    | some val => .ok (i.push val)

/-- Method `interpreter.numberOp`; a division by zero in `fi` is a Go panic. -/
def interpreter.numberOp (i : interpreter) (name : String) (fi : Int → Int → Except Err Int)
    (ff : Float → Float → Except Err Float) : Except Err interpreter := do
  let (s1, i) ← i.pop
  match s1 with
  | .int64 s1 => do
    let (s2, i) ← i.pop
    match s2 with
    | .int64 s2 => do let r ← fi s2 s1; pure (i.push (.int64 r))
    | .float64 s2 => do let r ← ff s2 (Float.ofInt s1); pure (i.push (.float64 r))
    | _ => .error (.runtimeErr (name ++ " failed: wrong type of second argument"))
  | .float64 s1 => do
    let (s2, i) ← i.pop
    match s2 with
    | .int64 s2 => do let r ← ff (Float.ofInt s2) s1; pure (i.push (.float64 r))
    | .float64 s2 => do let r ← ff s2 s1; pure (i.push (.float64 r))
    | _ => .error (.runtimeErr (name ++ " failed: wrong type of second argument"))
  | _ => .error (.runtimeErr (name ++ " failed: wrong type of first argument"))

/-- Method `interpreter.cmpOp`. -/
def interpreter.cmpOp (i : interpreter) (name : String) (fi : Int → Int → Bool)
    (ff : Float → Float → Bool) (fb : Bool → Bool → Except Err Bool)
    (fs : String → String → Bool) : Except Err interpreter := do
  let (s1, i) ← i.pop
  match s1 with
  | .int64 s1 => do
    let (s2, i) ← i.pop
    match s2 with
    | .int64 s2 => pure (i.push (.bool (fi s2 s1)))
    | .float64 s2 => pure (i.push (.bool (ff s2 (Float.ofInt s1))))
    | _ => .error (.runtimeErr (name ++ " failed: wrong type of second argument"))
  | .float64 s1 => do
    let (s2, i) ← i.pop
    match s2 with
    | .int64 s2 => pure (i.push (.bool (ff (Float.ofInt s2) s1)))
    | .float64 s2 => pure (i.push (.bool (ff s2 s1)))
    | _ => .error (.runtimeErr (name ++ " failed: wrong type of second argument"))
  | .bool s1 => do
    let (s2, i) ← i.pop
    match s2 with
    | .bool s2 => do let r ← fb s2 s1; pure (i.push (.bool r))
    | _ => .error (.runtimeErr (name ++ " failed: second argument not bool"))
  | .string s1 => do
    let (s2, i) ← i.pop
    match s2 with
    | .string s2 => pure (i.push (.bool (fs s2 s1)))
    | _ => .error (.runtimeErr (name ++ " failed: second argument not string"))
  | _ => .error (.runtimeErr (name ++ " failed: wrong type of first argument"))

/-- The case `opSum` of `interpreter.run`. -/
def interpreter.sum (i : interpreter) : Except Err interpreter := do
  let (s1, i) ← i.pop
  match s1 with
  | .int64 s1 => do
    let (s2, i) ← i.pop
    match s2 with
    | .int64 s2 => pure (i.push (.int64 (wrap64 (s2 + s1))))
    | .float64 s2 => pure (i.push (.float64 (s2 + Float.ofInt s1)))
    | .string s2 => pure (i.push (.string (s2 ++ itoa s1)))
    | _ => .error (.runtimeErr "opSum failed: could not add int and unknown")
  | .float64 s1 => do
    let (s2, i) ← i.pop
    match s2 with
    | .int64 s2 => pure (i.push (.float64 (Float.ofInt s2 + s1)))
    | .float64 s2 => pure (i.push (.float64 (s2 + s1)))
    | .string s2 => pure (i.push (.string (s2 ++ ftoa s1)))
    | _ => .error (.runtimeErr "opSum failed: could not add float and unknown")
  | .string s1 => do
    let (s2, i) ← i.pop
    match s2 with
    | .int64 s2 => pure (i.push (.string (itoa s2 ++ s1)))
    | .float64 s2 => pure (i.push (.string (ftoa s2 ++ s1)))
    | .string s2 => pure (i.push (.string (s2 ++ s1)))
    | _ => .error (.runtimeErr "opSum failed: could not add string and unknown")
  | _ => .error (.runtimeErr "opSum failed: unknown type")

/-- Go `a / b` on `int64`: truncated division, a panic when `b` is zero. -/
def divInt64 (a b : Int) : Except Err Int :=
  if b = 0 then .error (.panic "integer divide by zero") else .ok (wrap64 (Int.tdiv a b))

/-- Go `a % b` on `int64`: the remainder of truncated division, a panic when
`b` is zero. -/
def modInt64 (a b : Int) : Except Err Int :=
  if b = 0 then .error (.panic "integer divide by zero") else .ok (wrap64 (Int.tmod a b))

/-- Method `interpreter.read`, given what `fmt.Fscanf` made of the input. -/
def interpreter.read {α : Type} (scanned : Option (α × List Char)) :
    Except Err (α × List Char) :=
  match scanned with
  | none => .error (.runtimeErr "read failed")
  | some r => .ok r

/-- The cases `opPrint` and `opPrintLn` of `interpreter.run`. -/
def interpreter.print (i : interpreter) (w : World) (param : Value) (name : String)
    (text : List Value → String) : Except Err (interpreter × World) :=
  match getInt param (name ++ " failed: param not int") with
  | .error e => .error e
  | .ok n =>
    if n > (i.stack.length : Int) then
      .error (.runtimeErr (name ++ " failed: not enough parameters on the stack"))
    else if n < 0 then .error (.panic "slice bounds out of range")
    else
      .ok ({ i with stack := i.stack.drop n.toNat },
        { w with stdout := w.stdout ++ text (i.stack.take n.toNat).reverse })

/-- The cases of the `switch` of `interpreter.run` that neither call, jump nor
return: the effect of one opcode on the running frame `i`, the frames above it
and the world. -/
def interpreter.exec (o : op) (i : interpreter) (parents : List interpreter) (w : World) :
    Except Err (interpreter × List interpreter × World) :=
  match o.typ with
  | opInt | opFloat | opBool | opString | opFunction => .ok (i.push o.param, parents, w)
  | opLoad => do
    let name0 ← getString o.param "opLoad failed: non-string param"
    let i ← i.load parents "opLoad" name0
    pure (i, parents, w)
  | opStore => do
    let name0 ← getString o.param "opStore failed: non-string param"
    let (k, name) ← trimDots parents.length name0
    let (val, i) ← i.pop
    let (i, parents) := storeVar i parents k name val
    pure (i, parents, w)
  | opLoadStr => do
    let (v, i) ← i.pop
    let name0 ← getString v "opLoadStr failed: non-string name"
    let i ← i.load parents "opLoadStr" name0
    pure (i, parents, w)
  | opStoreStr => do
    let (val, i) ← i.pop
    let (v, i) ← i.pop
    let name0 ← getString v "opStoreStr failed: non-string name"
    let (k, name) ← trimDots parents.length name0
    let (i, parents) := storeVar i parents k name val
    pure (i, parents, w)
  | opOr => do
    let (b1, i) ← i.popBool "opOr failed"
    if b1 then pure (i.push (.bool true), parents, w)
    else do
      let (b2, i) ← i.popBool "opOr failed"
      pure (i.push (.bool b2), parents, w)
  | opAnd => do
    let (b1, i) ← i.popBool "opAnd failed"
    if b1 then do
      let (b2, i) ← i.popBool "opAnd failed"
      pure (i.push (.bool b2), parents, w)
    else pure (i.push (.bool false), parents, w)
  | opNot => do
    let (b, i) ← i.popBool "opNot failed"
    pure (i.push (.bool (!b)), parents, w)
  | opEq => do
    let i ← i.cmpOp "opEq" (fun a b => a == b) (fun a b => a == b)
      (fun a b => .ok (a == b)) (fun a b => a == b)
    pure (i, parents, w)
  | opNeq => do
    let i ← i.cmpOp "opNeq" (fun a b => a != b) (fun a b => a != b)
      (fun a b => .ok (a != b)) (fun a b => a != b)
    pure (i, parents, w)
  | opLess => do
    let i ← i.cmpOp "opLess" (fun a b => a < b) (fun a b => a < b)
      (fun _ _ => .error (.runtimeErr "opLess not defined on bool")) (fun a b => a < b)
    pure (i, parents, w)
  | opGreater => do
    let i ← i.cmpOp "opGreater" (fun a b => a > b) (fun a b => a > b)
      (fun _ _ => .error (.runtimeErr "opGreater not defined on bool")) (fun a b => a > b)
    pure (i, parents, w)
  | opLeq => do
    let i ← i.cmpOp "opLeq" (fun a b => a ≤ b) (fun a b => a ≤ b)
      (fun _ _ => .error (.runtimeErr "opLeq not defined on bool")) (fun a b => a ≤ b)
    pure (i, parents, w)
  | opGeq => do
    let i ← i.cmpOp "opGeq" (fun a b => a ≥ b) (fun a b => a ≥ b)
      (fun _ _ => .error (.runtimeErr "opGeq not defined on bool")) (fun a b => a ≥ b)
    pure (i, parents, w)
  | opSum => do
    let i ← i.sum
    pure (i, parents, w)
  | opSub => do
    let i ← i.numberOp "opSub" (fun a b => .ok (wrap64 (a - b))) (fun a b => .ok (a - b))
    pure (i, parents, w)
  | opNeg => do
    let i ← (i.push (.int (-1))).numberOp "opMul" (fun a b => .ok (wrap64 (a * b)))
      (fun a b => .ok (a * b))
    pure (i, parents, w)
  | opMul => do
    let i ← i.numberOp "opMul" (fun a b => .ok (wrap64 (a * b))) (fun a b => .ok (a * b))
    pure (i, parents, w)
  | opDiv => do
    let i ← i.numberOp "opDiv" divInt64 (fun a b => .ok (a / b))
    pure (i, parents, w)
  | opMod => do
    let i ← i.numberOp "opMod" modInt64
      (fun _ _ => .error (.runtimeErr "Operator % not defined on float"))
    pure (i, parents, w)
  | opReadInt => do
    let (val, rest) ← interpreter.read (fscanInt w.stdin)
    pure (i.push (.int64 val), parents, { w with stdin := rest })
  | opReadFloat => do
    let (val, rest) ← interpreter.read (fscanFloat w.stdin)
    pure (i.push (.float64 val), parents, { w with stdin := rest })
  | opReadString => do
    let (val, rest) ← interpreter.read (fscanString w.stdin)
    pure (i.push (.string val), parents, { w with stdin := rest })
  | opReadLine =>
    match readLine w.stdin with
    | none => .error (.runtimeErr "opReadLine failed")
    | some (val, rest) => .ok (i.push (.string val), parents, { w with stdin := rest })
  | opReadChar => do
    let (val, rest) ← interpreter.read (fscanChar w.stdin)
    pure (i.push (.string (String.singleton val)), parents, { w with stdin := rest })
  | opRnd =>
    .ok (i.push (.int64 ((w.rand w.drawn % 2 ^ 63 : Nat) : Int)), parents,
      { w with drawn := w.drawn + 1 })
  | opPrint => do
    let (i, w) ← i.print w o.param "opPrint" fprint
    pure (i, parents, w)
  | opPrintLn => do
    let (i, w) ← i.print w o.param "opPrintLn" fprintln
    pure (i, parents, w)
  | opPop => do
    let (_, i) ← i.pop
    pure (i, parents, w)
  | opCall | opJmp | opJmpFalse | opReturn => .ok (i, parents, w)

/-- The loop `for args > 0` of the case `opCall`: moves `args` values from the
stack of `i` to the stack of `child`. -/
def moveArgs : Nat → interpreter → interpreter → Except Err (interpreter × interpreter)
  | 0, i, child => .ok (i, child)
  | args + 1, i, child =>
    match i.pop with
    | .error e => .error e
    | .ok (v, i) => moveArgs args i (child.push v)

/-- Method `interpreter.run`, from instruction counter `ic`, for the frame `i`
executing `f` with the frames `parents` above it.  The result is the value
returned with the final state of the frame, of the frames above it and of the
world.  Each instruction executed takes one unit of fuel, in whichever frame. -/
def interpreter.run : Nat → function → Int → interpreter → List interpreter → World →
    Except Err (Value × interpreter × List interpreter × World)
  | 0, _, _, _, _, _ => .error .fuel
  | n + 1, f, ic, i, parents, w =>
    if ic < 0 then .error (.panic "index out of range")
    else
      match f.get? ic.toNat with
      | none => .ok (.nil, i, parents, w)
      | some o =>
        match o.typ with
        | opCall =>
          match getInt o.param "opCall failed: number of arguments is not int" with
          | .error e => .error e
          | .ok args =>
            match moveArgs args.toNat i newInterpreter with
            | .error e => .error e
            | .ok (i, child) =>
              match i.pop with
              | .error e => .error e
              | .ok (.function g, i) =>
                match interpreter.run n g 0 child (i :: parents) w with
                | .error e => .error e
                | .ok (ret, _, ps, w) =>
                  interpreter.run n f (ic + 1) ((ps.headD i).push ret) ps.tail w
              | .ok (_, _) => .error (.runtimeErr "opCall failed: function not found")
        | opJmp =>
          match getInt o.param "opJmp failed" with
          | .error e => .error e
          | .ok d => interpreter.run n f (ic + (d - 1) + 1) i parents w
        | opJmpFalse =>
          match i.popBool "opJmpFalse failed: non-bool" with
          | .error e => .error e
          | .ok (b, i) =>
            if !b then
              match getInt o.param "opJmpFalse failed: non-int param" with
              | .error e => .error e
              | .ok d => interpreter.run n f (ic + (d - 1) + 1) i parents w
            else interpreter.run n f (ic + 1) i parents w
        | opReturn =>
          match getInt o.param "opReturn failed: param not int" with
          | .error e => .error e
          | .ok r =>
            if r = 0 then .ok (.nil, i, parents, w)
            else
              match i.pop with
              | .error e => .error e
              | .ok (v, i) => .ok (v, i, parents, w)
        | _ =>
          match interpreter.exec o i parents w with
          | .error e => .error e
          | .ok (i, parents, w) => interpreter.run n f (ic + 1) i parents w

/-- Function `Interpret` of interpreter.go, given the world it runs in and a
bound on the number of instructions: the world it leaves. -/
def Interpret (fuel : Nat) (source : String) (w : World) : Except Err World :=
  match parse source with
  | .error e => .error e
  | .ok f => (interpreter.run fuel f 0 newInterpreter [] w).map (fun r => r.2.2.2)

/-! ## Notions used to state the theorems -/

/-- A word start: a rune on which `lexer.step` reaches the keyword scan and, after it, the identifier branch. -/
structure WordStart (r : Char) : Prop where
  notError : r ≠ runeError
  notNul : r.toNat ≠ 0
  notRune : runeLexeme.lookup r = none
  notSpace : isSpace r = false
  notSlash : r ≠ '/'
  notTwo : ∀ e ∈ twoRunesLexeme, e.1.toList.head? ≠ some r
  notConflict : conflictingRuneLexeme.lookup r = none
  notNumber : isNumber r = false
  notQuote : r ≠ '"'
  letter : isLetter r = true

/-- The facts about one keyword that the lexer's treatment of it rests on. -/
structure KeywordFacts (k : String) (t : lexType) : Prop where
  start : ∃ r tl, k.toList = r :: tl ∧ WordStart r ∧ ∀ c ∈ tl, isAlphaNum c = true
  found : ∀ rest, isAlphaNum (decodeRune rest) = false →
    scanString (k.toList ++ rest) = some (k, t)
  notFound : ∀ c rest, isAlphaNum c = true → scanString (k.toList ++ c :: rest) = none

/-- The name made of `k` dots followed by the bare name `b`. -/
def dotted (k : Nat) (b : List Char) : String := String.mk (List.replicate k '.' ++ b)

/-- The lexemes of a parameter list `p1, ..., pn` between its parentheses. -/
def paramLexemes : List String → List lex
  | [] => []
  | [p] => [⟨lexName, p⟩]
  | p :: q :: r => ⟨lexName, p⟩ :: ⟨lexComma, ","⟩ :: paramLexemes (q :: r)

/-- The prefix of a function literal with the given parameters: one `opStore` each, in order. -/
def paramStores (params : List String) : function :=
  params.map (fun p => op.mk opStore (.string p))

/-- The variables after storing `vals` under the names `params`, one after the other. -/
def bindParams : List String → List Value → List (String × Value) → List (String × Value)
  | p :: ps, v :: vs, env => bindParams ps vs (setVar p v env)
  | _, _, env => env

/-- A lexeme at which an expression of precedence level `level` or above ends: neither an
opening parenthesis or bracket nor a binary operator of a level from `level` up. -/
def Stops (level : Nat) (t : lex) : Prop :=
  t.typ ≠ lexLeftPar ∧ t.typ ≠ lexLeftBracket ∧ ∀ j, level ≤ j → levelFind j t.typ = none

/-- The lexemes `E` are compiled to `c` by `parser.expr0` at `level`, whatever code precedes and
whatever lexemes follow a stopping lexeme, given enough fuel. -/
def ParsesAt (level : Nat) (E : List lex) (c : function) : Prop :=
  ∀ (f : function) (t : lex) (r : List lex), Stops level t →
    ∃ n0, ∀ n, n0 ≤ n → parser.expr0 n level (E ++ t :: r) f = .ok (f ++ c, t :: r)

/-- The lexemes `E` are a chain of operands at `level`: `parser.expr0` at `level` reads them,
emits `c` and is then at the top of its loop. -/
def ChainAt (level : Nat) (E : List lex) (c : function) : Prop :=
  ∀ (f : function) (t : lex) (r : List lex), Stops (level + 1) t →
    ∃ n0 d, ∀ n, n0 ≤ n →
      parser.expr0 (n + d) level (E ++ t :: r) f = parser.exprLoop n level (t :: r) (f ++ c)

/-- Two lexemes that are equal, or a newline on the left with a semicolon on the right. -/
def EosRel (t t1 : lex) : Prop := t1 = t ∨ (t = ⟨lexEos, "\n"⟩ ∧ t1 = ⟨lexEos, ";"⟩)

/-- Two lists of lexemes the second of which is the first with some newline lexemes
replaced by semicolon lexemes. -/
def EosRelL (ts ts1 : List lex) : Prop := List.Forall₂ EosRel ts ts1

/-- Whenever the first computation succeeds, the second succeeds with a related result. -/
def SimR {α : Type} (Q : α → α → Prop) (x x1 : Except Err α) : Prop :=
  ∀ a, x = .ok a → ∃ a1, x1 = .ok a1 ∧ Q a a1

/-- Related parser results: the same code, related lexemes left. -/
def QF (a a1 : function × List lex) : Prop := a.1 = a1.1 ∧ EosRelL a.2 a1.2

/-- Related results of `parser.callArgs`. -/
def QC (a a1 : function × Int × List lex) : Prop :=
  a.1 = a1.1 ∧ a.2.1 = a1.2.1 ∧ EosRelL a.2.2 a1.2.2

/-- Related results of `parser.get`. -/
def QG (a a1 : lex × List lex) : Prop := EosRel a.1 a1.1 ∧ EosRelL a.2 a1.2

/-- Related results of `parser.nameDots`. -/
def QN (a a1 : String × lex × List lex) : Prop :=
  EosRel a.2.1 a1.2.1 ∧ (a.2.1.typ ≠ lexEos → a.1 = a1.1) ∧ EosRelL a.2.2 a1.2.2

/-- The simulation statement for every function of the parser at one amount of fuel. -/
structure AllSim (n : Nat) : Prop where
  pfun : ∀ (ts ts1 : List lex) (f : function), EosRelL ts ts1 →
    SimR QF (parser.fun n ts f) (parser.fun n ts1 f)
  funLoop : ∀ (e : lexType) (ts ts1 : List lex) (f : function), EosRelL ts ts1 →
    SimR QF (parser.funLoop n e ts f) (parser.funLoop n e ts1 f)
  funEnd : ∀ (e : lexType) (ts ts1 : List lex) (f : function), EosRelL ts ts1 →
    SimR QF (parser.funEnd n e ts f) (parser.funEnd n e ts1 f)
  assign : ∀ (ts ts1 : List lex) (f : function), EosRelL ts ts1 →
    SimR QF (parser.assign n ts f) (parser.assign n ts1 f)
  callArgs : ∀ (ts ts1 : List lex) (f : function), EosRelL ts ts1 →
    SimR QC (parser.callArgs n ts f) (parser.callArgs n ts1 f)
  callArgsLoop : ∀ (a : Int) (ts ts1 : List lex) (f : function), EosRelL ts ts1 →
    SimR QC (parser.callArgsLoop n a ts f) (parser.callArgsLoop n a ts1 f)
  expr0 : ∀ (level : Nat) (ts ts1 : List lex) (f : function), EosRelL ts ts1 →
    SimR QF (parser.expr0 n level ts f) (parser.expr0 n level ts1 f)
  exprLoop : ∀ (level : Nat) (ts ts1 : List lex) (f : function), EosRelL ts ts1 →
    SimR QF (parser.exprLoop n level ts f) (parser.exprLoop n level ts1 f)
  name : ∀ (ts ts1 : List lex) (f : function) (l l1 : lex), EosRelL ts ts1 → EosRel l l1 →
    SimR QF (parser.name n ts f l) (parser.name n ts1 f l1)
  nameIndex : ∀ (ts ts1 : List lex) (f : function), EosRelL ts ts1 →
    SimR QF (parser.nameIndex n ts f) (parser.nameIndex n ts1 f)
  call : ∀ (ts ts1 : List lex) (f : function), EosRelL ts ts1 →
    SimR QF (parser.call n ts f) (parser.call n ts1 f)
  callLoop : ∀ (a : Int) (ts ts1 : List lex) (f : function), EosRelL ts ts1 →
    SimR QF (parser.callLoop n a ts f) (parser.callLoop n a ts1 f)
  pIf : ∀ (ts ts1 : List lex) (f : function), EosRelL ts ts1 →
    SimR QF (parser.pIf n ts f) (parser.pIf n ts1 f)
  assignOrNone : ∀ (ts ts1 : List lex) (f : function), EosRelL ts ts1 →
    SimR QF (parser.assignOrNone n ts f) (parser.assignOrNone n ts1 f)
  pFor : ∀ (ts ts1 : List lex) (f : function), EosRelL ts ts1 →
    SimR QF (parser.pFor n ts f) (parser.pFor n ts1 f)
  pWhile : ∀ (ts ts1 : List lex) (f : function), EosRelL ts ts1 →
    SimR QF (parser.pWhile n ts f) (parser.pWhile n ts1 f)

/-- What `lexer.run` needs of one pass of its loop to end: the input left, when the loop goes
on, is shorter than the input. -/
def lexStep.Shorter (input : List Char) : lexStep → Prop
  | .emitted _ rest => rest.length < input.length
  | .skipped rest => rest.length < input.length
  | _ => True

/-- Whether a value is a boolean, a function or the absent value `nil`. -/
def Value.isBoolFunNil : Value → Bool
  | .bool _ => true
  | .function _ => true
  | .nil => true
  | _ => false

/-- The range of Go's `int64`. -/
def IsInt64 (a : Int) : Prop := -2 ^ 63 ≤ a ∧ a < 2 ^ 63

instance (a : Int) : Decidable (IsInt64 a) := by unfold IsInt64; infer_instance

/-- Whether a value is a number of the language: an `int64` or a `float64`. -/
def Value.isNumber : Value → Bool
  | .int64 _ => true
  | .float64 _ => true
  | _ => false

/-- Whether a value has dynamic type `bool`. -/
def Value.isBool : Value → Bool
  | .bool _ => true
  | _ => false

/-- The operand types on which a comparison opcode is defined: two numbers, two strings, or
two booleans under `opEq` and `opNeq`. -/
def Comparable (t : opType) (a b : Value) : Prop :=
  (a.isNumber = true ∧ b.isNumber = true) ∨ (a.isString = true ∧ b.isString = true) ∨
    (a.isBool = true ∧ b.isBool = true ∧ (t = opEq ∨ t = opNeq))

/-- What an expression is evaluated in, apart from the operand stack: the variables of the
running frame, the frames above it and the world. -/
structure Env where
  vars : List (String × Value)
  parents : List interpreter
  world : World

/-- The code `c`, wherever it stands in a function, takes the running frame from the stack
`st` in `e` to the stack `st1` in `e1`, and leaves the instruction counter right after `c`. -/
def Runs (c : function) (e : Env) (st : List Value) (e1 : Env) (st1 : List Value) : Prop :=
  ∃ k, ∀ (n : Nat) (pre post : function),
    interpreter.run (n + k) (pre ++ c ++ post) (pre.length : Int) ⟨e.vars, st⟩ e.parents
        e.world =
      interpreter.run n (pre ++ c ++ post) ((pre.length + c.length : Nat) : Int)
        ⟨e1.vars, st1⟩ e1.parents e1.world

/-- The code `c` evaluates to the value `v`: run on any stack in `e`, it pushes `v` and leaves
`e1`. -/
def Evaluates (c : function) (v : Value) (e e1 : Env) : Prop :=
  ∀ st, Runs c e st e1 (v :: st)

/-- The codes `cs`, run one after the other from `e`, evaluate to the integers `vs` and leave
`e1`. -/
inductive EvaluatesAll : List function → List Int → Env → Env → Prop
  | nil (e : Env) : EvaluatesAll [] [] e e
  | cons {c : function} {cs : List function} {v : Int} {vs : List Int} {e e1 e2 : Env} :
    Evaluates c (.int64 v) e e1 → EvaluatesAll cs vs e1 e2 →
    EvaluatesAll (c :: cs) (v :: vs) e e2

/-- The lexemes of a name: `k` dots and the bare name `b`. -/
def nameLexemes (k : Nat) (b : List Char) : List lex :=
  List.replicate k ⟨lexDot, "."⟩ ++ [⟨lexName, String.mk b⟩]

/-- The lexemes of the bracketed index expressions `Es`. -/
def indexLexemes : List (List lex) → List lex
  | [] => []
  | E :: Es => ⟨lexLeftBracket, "["⟩ :: E ++ ⟨lexRightBracket, "]"⟩ :: indexLexemes Es

/-- The code `parser.name` emits for index expressions whose codes are `cs`. -/
def indexCode : List function → function
  | [] => []
  | c :: cs =>
    [op.mk opString (.string "["), op.mk opSum .nil] ++ c ++
      [op.mk opSum .nil, op.mk opString (.string "]"), op.mk opSum .nil] ++ indexCode cs

/-- The code `parser.name` emits for the base string `nm` and index expressions whose codes
are `cs`. -/
def nameCode (nm : String) (cs : List function) : function :=
  op.mk opString (.string nm) :: indexCode cs

/-- The string `nm[v1]...[vk]`. -/
def indexedName : String → List Int → String
  | nm, [] => nm
  | nm, v :: vs => indexedName (nm ++ "[" ++ itoa v ++ "]") vs

/-- Text the lexer passes over without a lexeme of its own: one white-space rune other than a
newline, or a comment from its `//` or `/*` on. -/
def Skipped (g : List Char) : Prop :=
  (∃ c, g = [c] ∧ isSpace c = true ∧ c ≠ '\n') ∨ (∃ t, g = '/' :: '/' :: t) ∨
    (∃ t, g = '/' :: '*' :: t)

/-- The lexemes `ls` tile the input: read from left to right, the input is the text of each
lexeme in turn, with skipped text of `k` bytes in all between them, and ends at the
end-of-file lexeme. -/
inductive Tiles : List lex → Nat → List Char → Prop
  | eof : Tiles [⟨lexEof, ""⟩] 0 []
  | token (l : lex) {ls : List lex} {k : Nat} {rest : List Char} :
    Tiles ls k rest → Tiles (l :: ls) k (l.val.toList ++ rest)
  | skip (g : List Char) {ls : List lex} {k : Nat} {rest : List Char} :
    Skipped g → Tiles ls k rest → Tiles ls (byteLen g + k) (g ++ rest)

/-- What one pass of the loop of `lexer.run` does to the input, in terms of text: `g` is the
text skipped, if any. -/
def lexStep.Splits (input : List Char) : lexStep → Prop
  | .emitted l rest => ∃ g, input = g ++ l.val.toList ++ rest ∧ (g = [] ∨ Skipped g)
  | .skipped rest => ∃ g, input = g ++ rest ∧ Skipped g
  | .halted l => l.typ = lexError
  | .atEof => input = []
  | .failed _ => True

/-- Whether a pass of the loop of `lexer.run` starts at a NUL rune, which the loop condition
`r != eof` (with `eof = 0`) takes for the end of the input. -/
def lexer.meetsNul : Nat → List Char → Bool
  | 0, _ => false
  | n + 1, input =>
    match input with
    | [] => false
    | r :: _ =>
      if r.toNat = 0 then true
      else
        match lexer.step input with
        | .emitted _ rest => lexer.meetsNul n rest
        | .skipped rest => lexer.meetsNul n rest
        | _ => false

mutual
/-- Whether the function a value carries, if it is one, has valid jumps throughout. -/
def Value.validJumps : Value → Bool
  | .function f => opsValidFrom f 0 f.length
  | _ => true
/-- Whether the opcode at index `i` of a sequence of `total` opcodes is in order: a jump has an
`int` offset `d` with `0 ≤ i + d ≤ total`, and a function carried as parameter has valid jumps
throughout. -/
def op.validAt : op → Nat → Nat → Bool
  | .mk t p, i, total =>
    (if t = opJmp ∨ t = opJmpFalse then
      match p with
      | .int d => decide (0 ≤ (i : Int) + d ∧ (i : Int) + d ≤ (total : Int))
      | _ => false
    else true) && p.validJumps
/-- Whether the opcodes `c`, standing from index `i` on in a sequence of `total` opcodes, are
all in order. -/
def opsValidFrom : List op → Nat → Nat → Bool
  | [], _, _ => true
  | o :: r, i, total => o.validAt i total && opsValidFrom r (i + 1) total
end

/-- Every jump of the sequence `f`, and of every function nested in it, lands on an index of
its sequence or one past its end. -/
def ValidJumps (f : function) : Prop := opsValidFrom f 0 f.length = true

/-- What every function of the parser does to the code it is given: it makes it no shorter
and, if its jumps were valid, they still are. -/
def Grows (f f1 : function) : Prop := f.length ≤ f1.length ∧ (ValidJumps f → ValidJumps f1)

/-- A property of the result of a computation that succeeds. -/
def Post {α : Type} (P : α → Prop) (x : Except Err α) : Prop := ∀ a, x = .ok a → P a

/-- The functions of the parser at one amount of fuel all make the code grow. -/
structure AllGrow (n : Nat) : Prop where
  pfun : ∀ (ts : List lex) (f : function),
    Post (fun r => Grows f r.1) (parser.fun n ts f)
  funLoop : ∀ (e : lexType) (ts : List lex) (f : function),
    Post (fun r => Grows f r.1) (parser.funLoop n e ts f)
  funEnd : ∀ (e : lexType) (ts : List lex) (f : function),
    Post (fun r => Grows f r.1) (parser.funEnd n e ts f)
  assign : ∀ (ts : List lex) (f : function),
    Post (fun r => Grows f r.1) (parser.assign n ts f)
  callArgs : ∀ (ts : List lex) (f : function),
    Post (fun r => Grows f r.1) (parser.callArgs n ts f)
  callArgsLoop : ∀ (a : Int) (ts : List lex) (f : function),
    Post (fun r => Grows f r.1) (parser.callArgsLoop n a ts f)
  expr0 : ∀ (level : Nat) (ts : List lex) (f : function),
    Post (fun r => Grows f r.1) (parser.expr0 n level ts f)
  exprLoop : ∀ (level : Nat) (ts : List lex) (f : function),
    Post (fun r => Grows f r.1) (parser.exprLoop n level ts f)
  name : ∀ (ts : List lex) (f : function) (l : lex),
    Post (fun r => Grows f r.1) (parser.name n ts f l)
  nameIndex : ∀ (ts : List lex) (f : function),
    Post (fun r => Grows f r.1) (parser.nameIndex n ts f)
  call : ∀ (ts : List lex) (f : function),
    Post (fun r => Grows f r.1) (parser.call n ts f)
  callLoop : ∀ (a : Int) (ts : List lex) (f : function),
    Post (fun r => Grows f r.1) (parser.callLoop n a ts f)
  pIf : ∀ (ts : List lex) (f : function),
    Post (fun r => Grows f r.1) (parser.pIf n ts f)
  assignOrNone : ∀ (ts : List lex) (f : function),
    Post (fun r => Grows f r.1) (parser.assignOrNone n ts f)
  pFor : ∀ (ts : List lex) (f : function),
    Post (fun r => Grows f r.1) (parser.pFor n ts f)
  pWhile : ∀ (ts : List lex) (f : function),
    Post (fun r => Grows f r.1) (parser.pWhile n ts f)

/-- An opcode that is in order wherever it stands: no jump, and no function as parameter that
has an invalid jump. -/
def op.Plain (o : op) : Prop := ∀ i total, o.validAt i total = true

/-- The factorial program of `ExampleFactorial` in interpreter_test.go, laid out as there, with
the literal `n` as the argument of the call. -/
def factorialSource (n : Nat) : String :=
  "fun = (x) \x7b\n\t\tfun = .fun\n\t\tif x == 0 \x7b\n\t\t\treturn 1\n\t\t\x7d else \x7b\n\t\t\treturn x * fun(x - 1)\n\t\t\x7d\n\t\x7d\n\t@print(fun(" ++ toString n ++ "))"

/-- The code of the function literal of the factorial program. -/
def factorialBody : function :=
  [op.mk opStore (.string "x"), op.mk opString (.string "fun"), op.mk opString (.string ".fun"),
   op.mk opLoadStr .nil, op.mk opStoreStr .nil, op.mk opString (.string "x"),
   op.mk opLoadStr .nil, op.mk opInt (.int64 0), op.mk opEq .nil, op.mk opJmpFalse (.int 4),
   op.mk opInt (.int64 1), op.mk opReturn (.int 1), op.mk opJmp (.int 12),
   op.mk opString (.string "x"), op.mk opLoadStr .nil, op.mk opString (.string "fun"),
   op.mk opLoadStr .nil, op.mk opString (.string "x"), op.mk opLoadStr .nil,
   op.mk opInt (.int64 1), op.mk opSub .nil, op.mk opCall (.int 1), op.mk opMul .nil,
   op.mk opReturn (.int 1)]

/-- The code of the factorial program with the literal `n`. -/
def factorialCode (n : Int) : function :=
  [op.mk opString (.string "fun"), op.mk opFunction (.function factorialBody),
   op.mk opStoreStr .nil, op.mk opString (.string "fun"), op.mk opLoadStr .nil,
   op.mk opInt (.int64 n), op.mk opCall (.int 1), op.mk opPrint (.int 1)]

/-- The lexemes of the definition of `fun` in the factorial program, with the newline after
it. -/
def factorialDefLexemes : List lex :=
  [⟨lexName, "fun"⟩, ⟨lexEq, "="⟩, ⟨lexLeftPar, "("⟩, ⟨lexName, "x"⟩, ⟨lexRightPar, ")"⟩,
   ⟨lexLeftBrace, "\x7b"⟩, ⟨lexEos, "\n"⟩, ⟨lexName, "fun"⟩, ⟨lexEq, "="⟩, ⟨lexDot, "."⟩,
   ⟨lexName, "fun"⟩, ⟨lexEos, "\n"⟩, ⟨lexIf, "if"⟩, ⟨lexName, "x"⟩, ⟨lexEqEq, "=="⟩,
   ⟨lexInt, "0"⟩, ⟨lexLeftBrace, "\x7b"⟩, ⟨lexEos, "\n"⟩, ⟨lexReturn, "return"⟩,
   ⟨lexInt, "1"⟩, ⟨lexEos, "\n"⟩, ⟨lexRightBrace, "\x7d"⟩, ⟨lexElse, "else"⟩,
   ⟨lexLeftBrace, "\x7b"⟩, ⟨lexEos, "\n"⟩, ⟨lexReturn, "return"⟩, ⟨lexName, "x"⟩,
   ⟨lexMul, "*"⟩, ⟨lexName, "fun"⟩, ⟨lexLeftPar, "("⟩, ⟨lexName, "x"⟩, ⟨lexMinus, "-"⟩,
   ⟨lexInt, "1"⟩, ⟨lexRightPar, ")"⟩, ⟨lexEos, "\n"⟩, ⟨lexRightBrace, "\x7d"⟩, ⟨lexEos, "\n"⟩,
   ⟨lexRightBrace, "\x7d"⟩, ⟨lexEos, "\n"⟩]

/-- The lexemes of the last line of the factorial program, the literal being written `s`. -/
def factorialPrintLexemes (s : String) : List lex :=
  [⟨lexPrint, "@print"⟩, ⟨lexLeftPar, "("⟩, ⟨lexName, "fun"⟩, ⟨lexLeftPar, "("⟩,
   ⟨lexInt, s⟩, ⟨lexRightPar, ")"⟩, ⟨lexRightPar, ")"⟩, ⟨lexEof, ""⟩]

/-- The first `k` passes of the loop of `lexer.run`, when none of them ends the loop: the
lexemes emitted and the input left. -/
def lexSteps : Nat → List Char → Option (List lex × List Char)
  | 0, input => some ([], input)
  | k + 1, input =>
    match lexer.step input with
    | .emitted l rest => (lexSteps k rest).map (fun r => (l :: r.1, r.2))
    | .skipped rest => lexSteps k rest
    | _ => none

/-- The text `piece`, when the rune `c` follows it, is read in `k` passes of the loop of
`lexer.run`, which emit the lexemes `toks` and stop in front of `c`. -/
def LexChunk (k : Nat) (piece : String) (c : Char) (toks : List lex) : Prop :=
  ∀ rest, lexSteps k (piece.toList ++ c :: rest) = some (toks, c :: rest)

/-- The ASCII decimal digits. -/
def asciiDigits : List Char := ['0', '1', '2', '3', '4', '5', '6', '7', '8', '9']

/-- The variables of a frame from which the function of the factorial program is called: `fun`
is bound to the function, after nothing or after a binding of `x`. -/
def CallerVars (vars : List (String × Value)) : Prop :=
  vars = [("fun", .function factorialBody)] ∨
    ∃ v, vars = [("x", v), ("fun", .function factorialBody)]

/-- Whether an entry of `stringLexeme` passes the test of the keyword loop of `lexer.run` on
the unread input. -/
def Qualifies (input : List Char) (e : String × lexType) : Bool :=
  hasPrefix input e.1.toList && !isAlphaNum (decodeRune (dropBytes (byteLen e.1.toList) input))

/-- The name a store opcode is about to store to in the frame `i`: the parameter of an
`opStore`, the string under the top of the stack for an `opStoreStr`. -/
def storeName (o : op) (i : interpreter) : Option String :=
  match o.typ with
  | opStore =>
    match o.param with
    | .string s => some s
    | _ => none
  | opStoreStr =>
    match i.stack with
    | _ :: .string s :: _ => some s
    | _ => none
  | _ => none

/-- Whether the store the opcode `o` is about to make in the frame `i`, if it is a store, is
to a name without a leading dot. -/
def storesUndotted (o : op) (i : interpreter) : Bool :=
  match storeName o i with
  | some s => decide (s.toList.head? ≠ some '.')
  | none => true

/-- Whether every store that `interpreter.run` executes from this state on, in the running
frame and in the frames of the calls made from it, is to a name without a leading dot.  It
follows `interpreter.run` instruction by instruction, for the same fuel. -/
def interpreter.storesOwn : Nat → function → Int → interpreter → List interpreter → World → Bool
  | 0, _, _, _, _, _ => true
  | n + 1, f, ic, i, parents, w =>
    if ic < 0 then true
    else
      match f.get? ic.toNat with
      | none => true
      | some o =>
        match o.typ with
        | opCall =>
          match getInt o.param "opCall failed: number of arguments is not int" with
          | .error _ => true
          | .ok args =>
            match moveArgs args.toNat i newInterpreter with
            | .error _ => true
            | .ok (i, child) =>
              match i.pop with
              | .ok (.function g, i) =>
                interpreter.storesOwn n g 0 child (i :: parents) w &&
                  match interpreter.run n g 0 child (i :: parents) w with
                  | .error _ => true
                  | .ok (ret, _, ps, w) =>
                    interpreter.storesOwn n f (ic + 1) ((ps.headD i).push ret) ps.tail w
              | _ => true
        | opJmp =>
          match getInt o.param "opJmp failed" with
          | .error _ => true
          | .ok d => interpreter.storesOwn n f (ic + (d - 1) + 1) i parents w
        | opJmpFalse =>
          match i.popBool "opJmpFalse failed: non-bool" with
          | .error _ => true
          | .ok (b, i) =>
            if !b then
              match getInt o.param "opJmpFalse failed: non-int param" with
              | .error _ => true
              | .ok d => interpreter.storesOwn n f (ic + (d - 1) + 1) i parents w
            else interpreter.storesOwn n f (ic + 1) i parents w
        | opReturn => true
        | _ =>
          storesUndotted o i &&
            match interpreter.exec o i parents w with
            | .error _ => true
            | .ok (i, parents, w) => interpreter.storesOwn n f (ic + 1) i parents w

/-- The lexemes `B` of a block, braces included, are compiled by `parser.fun` to `c`, whatever
code the function starts from and whatever lexemes follow, given enough fuel. -/
def BlockParses (B : List lex) (c : function) : Prop :=
  (∃ b B1, B = b :: B1 ∧ b.typ = lexLeftBrace) ∧
    ∀ (f : function) (r : List lex),
      ∃ n0, ∀ n, n0 ≤ n → parser.fun n (B ++ r) f = .ok (f ++ c, r)

/-- The lexemes `A` of an assignment of a `for` header, or no lexemes at all, standing before
the lexeme `t`, are compiled by `parser.assignOrNone` to `c`, whatever code precedes and
whatever lexemes follow `t`, given enough fuel. -/
def HeaderParses (A : List lex) (t : lex) (c : function) : Prop :=
  ∀ (f : function) (r : List lex),
    ∃ n0, ∀ n, n0 ≤ n → parser.assignOrNone n (A ++ t :: r) f = .ok (f ++ c, t :: r)

/-- Modelled from the spec: whether the lexemes after `=` start a function literal, that is,
whether they begin with `(` `)`, with `(` NAME `,`, or with `(` NAME `)` and an opening
brace. -/
def literalAhead : List lex → Bool
  | l0 :: l1 :: r =>
    decide (l0.typ = lexLeftPar) &&
      (decide (l1.typ = lexRightPar) ||
        (decide (l1.typ = lexName) &&
          match r with
          | l2 :: r2 =>
            decide (l2.typ = lexComma) ||
              (decide (l2.typ = lexRightPar) &&
                match r2 with
                | l3 :: _ => decide (l3.typ = lexLeftBrace)
                | [] => false)
          | [] => false))
  | _ => false

/-- The lexemes of the arguments `A1, ..., An` of a call between its parentheses. -/
def argLexemes : List (List lex) → List lex
  | [] => []
  | [A] => A
  | A :: B :: r => A ++ ⟨lexComma, ","⟩ :: argLexemes (B :: r)

/-- The codes of the arguments of a call, one after the other. -/
def argCode : List function → function
  | [] => []
  | c :: cs => c ++ argCode cs

/-- Modelled from the spec: the code of the call `N(A1, ..., An)` where a value is expected:
the code of the name `N`, which pushes the name string, an `opLoadStr`, the codes of the
arguments in order, and an `opCall` whose operand is the number of arguments. -/
def callCode (nm : String) (cs cA : List function) : function :=
  nameCode nm cs ++ [op.mk opLoadStr .nil] ++ argCode cA ++
    [op.mk opCall (.int (cA.length : Int))]

/-- One step of a scan of the lexemes of a program, from left to right, that finds the
separators of `for` headers.  The state is the number of header separators still
to come at the present depth of braces, and the numbers kept for the depths around it: after
`for` two separators are to come, an opening brace starts a depth at which none is to come, a
closing brace goes back to the depth around it, and an end-of-statement lexeme met while a
separator is to come is that separator. -/
def headerScan (st : Nat × List Nat) (t : lex) : Nat × List Nat :=
  if t.typ = lexFor then (2, st.2)
  else if t.typ = lexLeftBrace then (0, st.1 :: st.2)
  else if t.typ = lexRightBrace then (st.2.headD 0, st.2.tail)
  else if t.typ = lexEos then (st.1 - 1, st.2)
  else st

/-- Whether an end-of-statement lexeme that comes right after the lexemes `pre` of a program
is one of the two separators of a `for` header: whether the scan of `pre` ends in a state in
which a header separator is still to come. -/
def inForHeader (pre : List lex) : Bool :=
  decide ((pre.foldl headerScan (0, [])).1 ≠ 0)

/-- What the lexer guarantees of its lexemes and the parser relies on below: a lexeme with the
text `;` is an end-of-statement lexeme, and nothing follows the end-of-file lexeme. -/
def WellLexed : List lex → Prop
  | [] => True
  | t :: r => (t.val = ";" → t.typ = lexEos) ∧ (t.typ = lexEof → r = []) ∧ WellLexed r

/-- Two lists of well-lexed lexemes, read from the scan state `st`, the second of which is the
first with some semicolon lexemes that are no separators of a `for` header replaced by newline
lexemes. -/
inductive SemiRel : Nat × List Nat → List lex → List lex → Prop
  /-- the empty lists -/
  | nil (st : Nat × List Nat) : SemiRel st [] []
  /-- the same lexeme on both sides -/
  | same (st : Nat × List Nat) (t : lex) (r r1 : List lex) (hv : t.val = ";" → t.typ = lexEos)
      (he : t.typ = lexEof → r = []) (hr : SemiRel (headerScan st t) r r1) :
      SemiRel st (t :: r) (t :: r1)
  /-- a semicolon where no header separator is to come, replaced by a newline -/
  | swap (st : Nat × List Nat) (r r1 : List lex) (h0 : st.1 = 0)
      (hr : SemiRel (headerScan st ⟨lexEos, ";"⟩) r r1) :
      SemiRel st (⟨lexEos, ";"⟩ :: r) (⟨lexEos, "\n"⟩ :: r1)

/-- The lexeme `l1` stands where `l` stood: the same lexeme, or a newline for a semicolon where
no header separator is to come. -/
def HeadRel (st : Nat × List Nat) (l l1 : lex) : Prop :=
  l1 = l ∨ (l = ⟨lexEos, ";"⟩ ∧ l1 = ⟨lexEos, "\n"⟩ ∧ st.1 = 0)

/-- Related parser results read from the scan state `st`: the same code, related lexemes
left. -/
def QS (st : Nat × List Nat) (a a1 : function × List lex) : Prop :=
  a.1 = a1.1 ∧ SemiRel st a.2 a1.2

/-- Related results of `parser.callArgs` read from the scan state `st`. -/
def QCS (st : Nat × List Nat) (a a1 : function × Int × List lex) : Prop :=
  a.1 = a1.1 ∧ a.2.1 = a1.2.1 ∧ SemiRel st a.2.2 a1.2.2

/-- Related results of `parser.get` read from the scan state `st`. -/
def QGS (st : Nat × List Nat) (a a1 : lex × List lex) : Prop :=
  HeadRel st a.1 a1.1 ∧ (a.1.val = ";" → a.1.typ = lexEos) ∧
    (a.1.typ = lexEof → a.2 = [] ∧ a1.2 = []) ∧ SemiRel (headerScan st a.1) a.2 a1.2

/-- Related results of `parser.nameDots`, the lexemes before the last one read having left the
scan state at `st`. -/
def QNS (st : Nat × List Nat) (a a1 : String × lex × List lex) : Prop :=
  HeadRel st a.2.1 a1.2.1 ∧ (a.2.1.typ ≠ lexEos → a.1 = a1.1) ∧
    SemiRel (headerScan st a.2.1) a.2.2 a1.2.2

/-- Related results of `parser.fun` once its loop has met the closing lexeme `e`: the same
code, and either a closing brace was met and the lexemes left are related at the depth around
it, or the end of file was met and nothing is left. -/
def QES (e : lexType) (st : Nat × List Nat) (a a1 : function × List lex) : Prop :=
  a.1 = a1.1 ∧
    ((e = lexRightBrace ∧ SemiRel (st.2.headD 0, st.2.tail) a.2 a1.2) ∨
      (a.2 = [] ∧ a1.2 = []))

/-- The simulation statement, from semicolons to newlines, for every function of the parser
at one amount of fuel. -/
structure AllSemi (n : Nat) : Prop where
  pfun : ∀ (st : Nat × List Nat) (ts ts1 : List lex) (f : function), SemiRel st ts ts1 →
    SimR (QS st) (parser.fun n ts f) (parser.fun n ts1 f)
  funLoop : ∀ (st : Nat × List Nat) (e : lexType) (ts ts1 : List lex) (f : function),
    SemiRel st ts ts1 → e = lexRightBrace ∨ e = lexEof →
    SimR (QES e st) (parser.funLoop n e ts f) (parser.funLoop n e ts1 f)
  funEnd : ∀ (st : Nat × List Nat) (e : lexType) (ts ts1 : List lex) (f : function),
    SemiRel st ts ts1 → e = lexRightBrace ∨ e = lexEof →
    SimR (QES e st) (parser.funEnd n e ts f) (parser.funEnd n e ts1 f)
  assign : ∀ (st : Nat × List Nat) (ts ts1 : List lex) (f : function), SemiRel st ts ts1 →
    SimR (QS st) (parser.assign n ts f) (parser.assign n ts1 f)
  callArgs : ∀ (st : Nat × List Nat) (ts ts1 : List lex) (f : function), SemiRel st ts ts1 →
    SimR (QCS st) (parser.callArgs n ts f) (parser.callArgs n ts1 f)
  callArgsLoop : ∀ (st : Nat × List Nat) (a : Int) (ts ts1 : List lex) (f : function),
    SemiRel st ts ts1 →
    SimR (QCS st) (parser.callArgsLoop n a ts f) (parser.callArgsLoop n a ts1 f)
  expr0 : ∀ (st : Nat × List Nat) (level : Nat) (ts ts1 : List lex) (f : function),
    SemiRel st ts ts1 →
    SimR (QS st) (parser.expr0 n level ts f) (parser.expr0 n level ts1 f)
  exprLoop : ∀ (st : Nat × List Nat) (level : Nat) (ts ts1 : List lex) (f : function),
    SemiRel st ts ts1 →
    SimR (QS st) (parser.exprLoop n level ts f) (parser.exprLoop n level ts1 f)
  name : ∀ (st : Nat × List Nat) (ts ts1 : List lex) (f : function) (l l1 : lex),
    SemiRel (headerScan st l) ts ts1 → HeadRel st l l1 →
    SimR (QS st) (parser.name n ts f l) (parser.name n ts1 f l1)
  nameIndex : ∀ (st : Nat × List Nat) (ts ts1 : List lex) (f : function), SemiRel st ts ts1 →
    SimR (QS st) (parser.nameIndex n ts f) (parser.nameIndex n ts1 f)
  call : ∀ (st : Nat × List Nat) (ts ts1 : List lex) (f : function), SemiRel st ts ts1 →
    SimR (QS st) (parser.call n ts f) (parser.call n ts1 f)
  callLoop : ∀ (st : Nat × List Nat) (a : Int) (ts ts1 : List lex) (f : function),
    SemiRel st ts ts1 →
    SimR (QS st) (parser.callLoop n a ts f) (parser.callLoop n a ts1 f)
  pIf : ∀ (st : Nat × List Nat) (ts ts1 : List lex) (f : function), SemiRel st ts ts1 →
    SimR (QS st) (parser.pIf n ts f) (parser.pIf n ts1 f)
  assignOrNone : ∀ (st : Nat × List Nat) (ts ts1 : List lex) (f : function),
    SemiRel st ts ts1 → (st.1 ≠ 0 ∨ ∀ l, ts.get? 0 = some l → l.val ≠ ";") →
    SimR (QS st) (parser.assignOrNone n ts f) (parser.assignOrNone n ts1 f)
  pFor : ∀ (st : Nat × List Nat) (ts ts1 : List lex) (f : function), SemiRel st ts ts1 →
    st.1 = 2 → SimR (QS (0, st.2)) (parser.pFor n ts f) (parser.pFor n ts1 f)
  pWhile : ∀ (st : Nat × List Nat) (ts ts1 : List lex) (f : function), SemiRel st ts ts1 →
    SimR (QS st) (parser.pWhile n ts f) (parser.pWhile n ts1 f)

/-- The well-lexed lexemes `ts`, read from the scan state `st`, hold (`b = true`) or need not
hold (`b = false`) an end-of-statement lexeme that is not a semicolon at a place where a
separator of a `for` header is to come. -/
inductive Track : Bool → Nat × List Nat → List lex → Prop
  /-- the empty list holds none -/
  | nil (st : Nat × List Nat) : Track false st []
  /-- a lexeme of the lexer, before lexemes that hold one or need not -/
  | cons (b : Bool) (st : Nat × List Nat) (t : lex) (r : List lex)
      (hv : t.val = ";" → t.typ = lexEos) (he : t.typ = lexEof → r = [])
      (hr : Track b (headerScan st t) r) : Track b st (t :: r)
  /-- an end-of-statement lexeme that is not a semicolon where a header separator is to come -/
  | here (st : Nat × List Nat) (t : lex) (r : List lex) (ht : t.typ = lexEos) (h0 : st.1 ≠ 0)
      (hv : t.val ≠ ";") (hr : Track false (headerScan st t) r) : Track true st (t :: r)

/-- What holds of the result of the loop of `parser.fun` on tracked lexemes: when the loop ends
at the end of file nothing is left, and the loop started between statements only with lexemes
that need not hold a newline for a header separator; when it ends at a closing brace, having
started between statements, what is left is tracked at the depth around the brace. -/
def TrackLoop (b : Bool) (st : Nat × List Nat) (e : lexType) (a : function × List lex) : Prop :=
  (e = lexEof → a.2 = [] ∧ (st.1 = 0 → b = false)) ∧
    (e = lexRightBrace → st.1 = 0 → Track b (st.2.headD 0, st.2.tail) a.2)

/-- What holds of the result of `parser.assign` on tracked lexemes: what is left is tracked, or
nothing is left; between statements, what is left is tracked. -/
def TrackAssign (b : Bool) (st : Nat × List Nat) (a : function × List lex) : Prop :=
  (st.1 = 0 → Track b st a.2) ∧ (Track b st a.2 ∨ a.2 = [])

/-- The tracking statement for every function of the parser at one amount of fuel: no function
reads a newline where a separator of a `for` header is to come. -/
structure AllTrack (n : Nat) : Prop where
  pfun : ∀ (b : Bool) (st : Nat × List Nat) (ts : List lex) (f : function), Track b st ts →
    Post (fun a => ((st.1 = 0 ∨ ∃ l r, ts = l :: r ∧ l.typ = lexLeftBrace) → Track b st a.2) ∧
      (Track b st a.2 ∨ a.2 = [])) (parser.fun n ts f)
  funLoop : ∀ (b : Bool) (st : Nat × List Nat) (e : lexType) (ts : List lex) (f : function),
    Track b st ts → e = lexRightBrace ∨ e = lexEof →
    Post (TrackLoop b st e) (parser.funLoop n e ts f)
  funEnd : ∀ (b : Bool) (st : Nat × List Nat) (e : lexType) (ts : List lex) (f : function),
    Track b st ts → e = lexRightBrace ∨ e = lexEof →
    Post (TrackLoop b st e) (parser.funEnd n e ts f)
  assign : ∀ (b : Bool) (st : Nat × List Nat) (ts : List lex) (f : function), Track b st ts →
    Post (TrackAssign b st) (parser.assign n ts f)
  callArgs : ∀ (b : Bool) (st : Nat × List Nat) (ts : List lex) (f : function),
    Track b st ts → Post (fun a => Track b st a.2.2) (parser.callArgs n ts f)
  callArgsLoop : ∀ (b : Bool) (st : Nat × List Nat) (k : Int) (ts : List lex) (f : function),
    Track b st ts → Post (fun a => Track b st a.2.2) (parser.callArgsLoop n k ts f)
  expr0 : ∀ (b : Bool) (st : Nat × List Nat) (level : Nat) (ts : List lex) (f : function),
    Track b st ts → Post (fun a => Track b st a.2) (parser.expr0 n level ts f)
  exprLoop : ∀ (b : Bool) (st : Nat × List Nat) (level : Nat) (ts : List lex) (f : function),
    Track b st ts → Post (fun a => Track b st a.2) (parser.exprLoop n level ts f)
  name : ∀ (b : Bool) (st : Nat × List Nat) (ts : List lex) (f : function) (l : lex),
    (l.typ ≠ lexEos → Track b (headerScan st l) ts) →
    Post (fun a => Track b st a.2) (parser.name n ts f l)
  nameIndex : ∀ (b : Bool) (st : Nat × List Nat) (ts : List lex) (f : function),
    Track b st ts → Post (fun a => Track b st a.2) (parser.nameIndex n ts f)
  call : ∀ (b : Bool) (st : Nat × List Nat) (ts : List lex) (f : function), Track b st ts →
    Post (fun a => Track b st a.2) (parser.call n ts f)
  callLoop : ∀ (b : Bool) (st : Nat × List Nat) (k : Int) (ts : List lex) (f : function),
    Track b st ts → Post (fun a => Track b st a.2) (parser.callLoop n k ts f)
  pIf : ∀ (b : Bool) (st : Nat × List Nat) (ts : List lex) (f : function), Track b st ts →
    Post (fun a => Track b st a.2) (parser.pIf n ts f)
  assignOrNone : ∀ (b : Bool) (st : Nat × List Nat) (ts : List lex) (f : function),
    Track b st ts → Post (TrackAssign b st) (parser.assignOrNone n ts f)
  pFor : ∀ (b : Bool) (st : Nat × List Nat) (ts : List lex) (f : function), Track b st ts →
    st.1 = 2 → Post (fun a => Track b (0, st.2) a.2) (parser.pFor n ts f)
  pWhile : ∀ (b : Bool) (st : Nat × List Nat) (ts : List lex) (f : function), Track b st ts →
    Post (fun a => Track b st a.2) (parser.pWhile n ts f)

/-! ## Theorems -/

theorem runeLen_pos (c : Char) : 0 < runeLen c := by
  unfold runeLen; split_ifs <;> omega

theorem takeBytes_append (a b : List Char) : takeBytes (byteLen a) (a ++ b) = a := by
  induction a with
  | nil => cases b <;> simp [takeBytes, byteLen]
  | cons c cs ih =>
    have h := runeLen_pos c
    simp only [List.cons_append, byteLen, takeBytes]
    rw [if_neg (by omega)]
    simp [ih]

theorem dropBytes_append (a b : List Char) : dropBytes (byteLen a) (a ++ b) = b := by
  induction a with
  | nil => cases b <;> simp [dropBytes, byteLen]
  | cons c cs ih =>
    have h := runeLen_pos c
    simp only [List.cons_append, byteLen, dropBytes]
    rw [if_neg (by omega)]
    simp [ih]

theorem scanTwoRunes_none (r : Char) (rest : List Char) (h : ∀ e ∈ twoRunesLexeme, e.1.toList.head? ≠ some r) :
    scanTwoRunes (r :: rest) = none := by
  unfold scanTwoRunes
  rw [List.find?_eq_none]
  intro e he
  have := h e he
  revert this
  cases hl : e.1.toList with
  | nil =>
    exfalso
    simp [twoRunesLexeme] at he
    rcases he with rfl | rfl | rfl | rfl | rfl | rfl <;> simp at hl
  | cons c cs =>
    intro hne
    simp at hne
    simp [hasPrefix]
    intro h1
    exact absurd h1.symm hne

theorem step_word (r : Char) (rest : List Char) (h : WordStart r) :
    lexer.step (r :: rest) =
      match scanString (r :: rest) with
      | some (str, t) =>
        .emitted (lexer.emit t (byteLen str.toList) (r :: rest)).1
          (lexer.emit t (byteLen str.toList) (r :: rest)).2
      | none =>
        match indexFunc (fun c => !isAlphaNum c) (dropBytes (runeLen r) (r :: rest)) with
        | none => .emitted (lexer.emit lexName (byteLen (r :: rest)) (r :: rest)).1
            (lexer.emit lexName (byteLen (r :: rest)) (r :: rest)).2
        | some i => .emitted (lexer.emit lexName (runeLen r + i) (r :: rest)).1
            (lexer.emit lexName (runeLen r + i) (r :: rest)).2 := by
  unfold lexer.step
  simp only [h.notError, h.notNul, h.notRune, h.notSpace, h.notSlash, if_false,
    scanTwoRunes_none r rest h.notTwo, h.notConflict, h.notNumber, h.notQuote, h.letter, if_true]
  cases scanString (r :: rest) with
  | none => simp
  | some p => simp

theorem indexFunc_none (f : Char → Bool) (cs : List Char) (h : ∀ c ∈ cs, f c = false) :
    indexFunc f cs = none := by
  induction cs with
  | nil => rfl
  | cons c cs ih =>
    simp only [indexFunc, h c (List.mem_cons_self _ _)]
    simp [ih (fun d hd => h d (List.mem_cons_of_mem _ hd))]

theorem wordStart_ascii (r : Char) (h : r ∈ ['i', 'e', 'f', 'w', 'r', 't']) : WordStart r := by
  simp only [List.mem_cons, List.mem_singleton, List.not_mem_nil, or_false] at h
  rcases h with rfl | rfl | rfl | rfl | rfl | rfl <;> constructor <;> decide

theorem keywordFacts (k : String) (t : lexType)
    (hk : (k, t) ∈ [("if", lexIf), ("else", lexElse), ("for", lexFor), ("while", lexWhile),
      ("return", lexReturn), ("true", lexBool), ("false", lexBool)]) : KeywordFacts k t := by
  simp only [List.mem_cons, List.mem_singleton, Prod.mk.injEq, List.not_mem_nil, or_false] at hk
  rcases hk with ⟨rfl, rfl⟩ | ⟨rfl, rfl⟩ | ⟨rfl, rfl⟩ | ⟨rfl, rfl⟩ | ⟨rfl, rfl⟩ | ⟨rfl, rfl⟩ | ⟨rfl, rfl⟩
  all_goals
    refine ⟨⟨_, _, rfl, wordStart_ascii _ (by decide), by decide⟩, ?_, ?_⟩
    · intro rest h
      cases rest <;>
        simp_all [scanString, stringLexeme, List.find?, hasPrefix, dropBytes, byteLen, runeLen,
          decodeRune]
    · intro c rest h
      simp [scanString, stringLexeme, List.find?, hasPrefix, dropBytes, byteLen, runeLen, h,
        decodeRune]

theorem step_keyword (k : String) (t : lexType) (hk : KeywordFacts k t) (rest : List Char)
    (h : isAlphaNum (decodeRune rest) = false) :
    lexer.step (k.toList ++ rest) = .emitted ⟨t, k⟩ rest := by
  obtain ⟨r, tl, hr, hw, _⟩ := hk.start
  have hs := hk.found rest h
  rw [hr] at hs ⊢
  rw [List.cons_append] at hs ⊢
  rw [step_word r (tl ++ rest) hw, hs]
  simp only [lexer.emit]
  rw [← List.cons_append, ← hr, takeBytes_append, dropBytes_append]
  rfl

theorem step_identifier (k : String) (t : lexType) (hk : KeywordFacts k t) (s : List Char)
    (hne : s ≠ []) (hs : ∀ c ∈ s, isAlphaNum c = true) :
    lexer.step (k.toList ++ s) = .emitted ⟨lexName, k ++ String.mk s⟩ [] := by
  obtain ⟨r, tl, hr, hw, htl⟩ := hk.start
  obtain ⟨c, s', rfl⟩ := List.exists_cons_of_ne_nil hne
  have hn := hk.notFound c s' (hs c (List.mem_cons_self _ _))
  rw [hr] at hn ⊢
  rw [List.cons_append] at hn ⊢
  rw [step_word r _ hw, hn]
  have hd : dropBytes (runeLen r) (r :: (tl ++ c :: s')) = tl ++ c :: s' := by
    have := dropBytes_append [r] (tl ++ c :: s')
    simpa [byteLen] using this
  rw [hd, indexFunc_none]
  · simp only [lexer.emit]
    have e1 := takeBytes_append (r :: (tl ++ c :: s')) []
    have e2 := dropBytes_append (r :: (tl ++ c :: s')) []
    rw [List.append_nil] at e1 e2
    rw [e1, e2]
    congr 1
    congr 1
    apply String.ext
    have hr' : k.data = r :: tl := hr
    simp [hr']
  · intro d hd
    rcases List.mem_append.mp hd with h1 | h1
    · simp [htl d h1]
    · simp [hs d h1]

/-- C10: for each of the keywords `if`, `else`, `for`, `while`, `return`, `true`, `false`:
when the keyword is followed by the end of input or by a rune that is neither a letter nor a
number, the lexer emits its keyword lexeme and goes on with what follows; and followed by a
non-empty string of letters and numbers up to the end of input, the whole is lexed as one
identifier. -/
theorem keyword_word_boundary (k : String) (t : lexType)
    (hk : (k, t) ∈ [("if", lexIf), ("else", lexElse), ("for", lexFor), ("while", lexWhile),
      ("return", lexReturn), ("true", lexBool), ("false", lexBool)]) :
    (∀ (rest : List Char) (fuel : Nat),
      (∀ c ∈ rest.head?, isLetter c = false ∧ isNumber c = false) →
      lexer.run (fuel + 1) (k.toList ++ rest) =
        (lexer.run fuel rest).map (fun ls => ⟨t, k⟩ :: ls)) ∧
    (∀ s : List Char, s ≠ [] → (∀ c ∈ s, isLetter c = true ∨ isNumber c = true) →
      lexAll (k ++ String.mk s) = .ok [⟨lexName, k ++ String.mk s⟩, ⟨lexEof, ""⟩]) := by
  have hf := keywordFacts k t hk
  constructor
  · intro rest fuel h
    have h1 : isAlphaNum (decodeRune rest) = false := by
      cases rest with
      | nil => decide!
      | cons c cs =>
        have := h c (by simp)
        simp [decodeRune, isAlphaNum, this.1, this.2]
    simp only [lexer.run, step_keyword k t hf rest h1]
  · intro s hne hs
    have h1 : ∀ c ∈ s, isAlphaNum c = true := by
      intro c hc
      simpa [isAlphaNum] using hs c hc
    have hl : (k ++ String.mk s).length + 1 = ((k ++ String.mk s).length - 1) + 1 + 1 := by
      have : 0 < s.length := List.length_pos.mpr hne
      simp [String.length_append]
      omega
    unfold lexAll
    rw [hl]
    have e : (k ++ String.mk s).toList = k.toList ++ s := by simp
    rw [e]
    rw [lexer.run, step_identifier k t hf s hne h1]
    rfl

theorem trimDotsFrom_dots (name0 : String) (parents : Nat) (b : List Char) (hb : b ≠ [])
    (hdot : b.head? ≠ some '.') (k j : Nat) (hj : j ≤ parents) :
    trimDotsFrom name0 parents (List.replicate k '.' ++ b) j =
      if j + k ≤ parents then .ok (j + k, String.mk b)
      else .error (.runtimeErr ("too many dots in variable name: " ++ name0)) := by
  induction k generalizing j with
  | zero =>
    obtain ⟨c, cs, rfl⟩ := List.exists_cons_of_ne_nil hb
    have hc : c ≠ '.' := by simpa using hdot
    simp [trimDotsFrom, hc, hj]
  | succ k ih =>
    show trimDotsFrom name0 parents ('.' :: (List.replicate k '.' ++ b)) j = _
    simp only [trimDotsFrom, if_true]
    by_cases h : j + 1 ≤ parents
    · rw [if_pos h, ih (j + 1) h]
      have e : j + 1 + k = j + (k + 1) := by omega
      rw [e]
    · rw [if_neg h, if_neg (by omega)]

theorem trimDots_dots (parents : Nat) (b : List Char) (hb : b ≠ [])
    (hdot : b.head? ≠ some '.') (k : Nat) :
    trimDots parents (String.mk (List.replicate k '.' ++ b)) =
      if k ≤ parents then .ok (k, String.mk b)
      else .error (.runtimeErr ("too many dots in variable name: " ++
        String.mk (List.replicate k '.' ++ b))) := by
  unfold trimDots
  have := trimDotsFrom_dots (String.mk (List.replicate k '.' ++ b)) parents b hb hdot k 0
    (Nat.zero_le _)
  simpa using this

theorem frameVars_eq (i : interpreter) (parents : List interpreter) (k : Nat) (fr : interpreter)
    (h : (i :: parents).get? k = some fr) : frameVars i parents k = fr.vars := by
  cases k with
  | zero => simp at h; simp [frameVars, h]
  | succ k => simp at h; simp [frameVars, h]

theorem storeVar_eq (i : interpreter) (parents : List interpreter) (k : Nat) (name : String)
    (val : Value) :
    (storeVar i parents k name val).1 :: (storeVar i parents k name val).2 =
      (i :: parents).modify (fun p => { p with vars := setVar name val p.vars }) k := by
  cases k with
  | zero => simp [storeVar]
  | succ k => simp [storeVar]

theorem load_dots (k : Nat) (b : List Char) (hb : b ≠ []) (hdot : b.head? ≠ some '.')
    (i : interpreter) (parents : List interpreter) (opName : String) :
    interpreter.load i parents opName (String.mk (List.replicate k '.' ++ b)) =
      if k ≤ parents.length then
        match getVar (String.mk b) (frameVars i parents k) with
        | some v => .ok (i.push v)
        | none => .error (.runtimeErr (opName ++ " failed: variable " ++
            String.mk (List.replicate k '.' ++ b) ++ " is undefined"))
      else .error (.runtimeErr ("too many dots in variable name: " ++
        String.mk (List.replicate k '.' ++ b))) := by
  unfold interpreter.load
  rw [trimDots_dots parents.length b hb hdot k]
  split_ifs with hk
  · dsimp only
    cases getVar (String.mk b) (frameVars i parents k) <;> rfl
  · rfl

theorem exec_opLoad (name0 : String) (i : interpreter) (parents : List interpreter) (w : World) :
    interpreter.exec (op.mk opLoad (.string name0)) i parents w =
      (interpreter.load i parents "opLoad" name0).map (fun j => (j, parents, w)) := by
  simp only [interpreter.exec, op.typ, op.param, getString, bind, Except.bind]
  cases interpreter.load i parents "opLoad" name0 <;> rfl

theorem exec_opLoadStr (name0 : String) (vars : List (String × Value)) (rest : List Value)
    (parents : List interpreter) (w : World) :
    interpreter.exec (op.mk opLoadStr .nil) ⟨vars, .string name0 :: rest⟩ parents w =
      (interpreter.load ⟨vars, rest⟩ parents "opLoadStr" name0).map (fun j => (j, parents, w)) := by
  simp only [interpreter.exec, op.typ, op.param, getString, interpreter.pop, bind, Except.bind]
  cases interpreter.load ⟨vars, rest⟩ parents "opLoadStr" name0 <;> rfl

theorem exec_opStore (name0 : String) (vars : List (String × Value)) (val : Value)
    (rest : List Value) (parents : List interpreter) (w : World) :
    interpreter.exec (op.mk opStore (.string name0)) ⟨vars, val :: rest⟩ parents w =
      (trimDots parents.length name0).map (fun r =>
        ((storeVar ⟨vars, rest⟩ parents r.1 r.2 val).1,
         (storeVar ⟨vars, rest⟩ parents r.1 r.2 val).2, w)) := by
  simp only [interpreter.exec, op.typ, op.param, getString, interpreter.pop, bind, Except.bind]
  cases trimDots parents.length name0 <;> rfl

theorem exec_opStoreStr (name0 : String) (vars : List (String × Value)) (val : Value)
    (rest : List Value) (parents : List interpreter) (w : World) :
    interpreter.exec (op.mk opStoreStr .nil) ⟨vars, val :: .string name0 :: rest⟩ parents w =
      (trimDots parents.length name0).map (fun r =>
        ((storeVar ⟨vars, rest⟩ parents r.1 r.2 val).1,
         (storeVar ⟨vars, rest⟩ parents r.1 r.2 val).2, w)) := by
  simp only [interpreter.exec, op.typ, op.param, getString, interpreter.pop, bind, Except.bind]
  cases trimDots parents.length name0 <;> rfl

theorem load_result (k : Nat) (b : List Char) (hb : b ≠ []) (hdot : b.head? ≠ some '.')
    (vars : List (String × Value)) (rest : List Value) (parents : List interpreter)
    (opName : String) :
    ((∃ msg, interpreter.load ⟨vars, rest⟩ parents opName (dotted k b) =
        .error (.runtimeErr msg)) ↔
      (parents.length < k ∨ ∃ fr, (interpreter.mk vars rest :: parents).get? k = some fr ∧
        getVar (String.mk b) fr.vars = none)) ∧
    (∀ fr v, (interpreter.mk vars rest :: parents).get? k = some fr →
      getVar (String.mk b) fr.vars = some v →
      interpreter.load ⟨vars, rest⟩ parents opName (dotted k b) = .ok ⟨vars, v :: rest⟩) := by
  unfold dotted
  rw [load_dots k b hb hdot]
  by_cases hk : k ≤ parents.length
  · rw [if_pos hk]
    have hlt : k < (interpreter.mk vars rest :: parents).length := by
      simp only [List.length_cons]; omega
    obtain ⟨fr, hfr⟩ : ∃ fr, (interpreter.mk vars rest :: parents).get? k = some fr :=
      ⟨_, List.get?_eq_get hlt⟩
    rw [frameVars_eq _ _ _ _ hfr]
    constructor
    · constructor
      · rintro ⟨msg, h⟩
        right
        refine ⟨fr, hfr, ?_⟩
        cases hg : getVar (String.mk b) fr.vars with
        | none => rfl
        | some v => rw [hg] at h; cases h
      · rintro (h | ⟨fr1, h1, h2⟩)
        · omega
        · rw [hfr] at h1
          cases h1
          rw [h2]
          exact ⟨_, rfl⟩
    · intro fr1 v h1 h2
      rw [hfr] at h1
      cases h1
      rw [h2]
      rfl
  · rw [if_neg hk]
    constructor
    · constructor
      · intro _
        left
        omega
      · intro _
        exact ⟨_, rfl⟩
    · intro fr v h1 _
      have := List.get?_eq_some.mp h1
      obtain ⟨hlt, _⟩ := this
      simp only [List.length_cons] at hlt
      omega

theorem store_result (k : Nat) (b : List Char) (hb : b ≠ []) (hdot : b.head? ≠ some '.')
    (vars : List (String × Value)) (rest : List Value) (parents : List interpreter) (w : World)
    (val : Value) :
    ((∃ msg, (trimDots parents.length (dotted k b)).map (fun r =>
        ((storeVar ⟨vars, rest⟩ parents r.1 r.2 val).1,
         (storeVar ⟨vars, rest⟩ parents r.1 r.2 val).2, w)) = .error (.runtimeErr msg)) ↔
      parents.length < k) ∧
    (k ≤ parents.length →
      ∃ i1 parents1, (trimDots parents.length (dotted k b)).map (fun r =>
        ((storeVar ⟨vars, rest⟩ parents r.1 r.2 val).1,
         (storeVar ⟨vars, rest⟩ parents r.1 r.2 val).2, w)) = .ok (i1, parents1, w) ∧
        i1 :: parents1 = (interpreter.mk vars rest :: parents).modify
          (fun p => { p with vars := setVar (String.mk b) val p.vars }) k) := by
  unfold dotted
  rw [trimDots_dots parents.length b hb hdot k]
  by_cases hk : k ≤ parents.length
  · rw [if_pos hk]
    constructor
    · constructor
      · rintro ⟨msg, h⟩
        cases h
      · intro h
        omega
    · intro _
      exact ⟨_, _, rfl, storeVar_eq _ _ _ _ _⟩
  · rw [if_neg hk]
    constructor
    · constructor
      · intro _
        omega
      · intro _
        exact ⟨_, rfl⟩
    · intro h
      omega

/-- C2: for the name made of `k` dots followed by a non-empty bare name `b` that starts with
no dot, each of `opLoad`, `opLoadStr` (name on top of the stack), `opStore` (value on top of
the stack) and `opStoreStr` (value on top, name below it) acts on the frame `k` links up the
chain of callers from the executing frame, under the key `b`: a load pushes the value bound
to `b` there, a store rebinds `b` there and leaves every other frame and binding alone; and
the opcode is a runtime error exactly when the frame has fewer than `k` frames above it or,
for a load, `b` is unbound in that frame. -/
theorem dot_prefix_load_store (k : Nat) (b : List Char) (hb : b ≠ [])
    (hdot : b.head? ≠ some '.') (vars : List (String × Value)) (rest : List Value)
    (parents : List interpreter) (w : World) (val : Value) :
    (((∃ msg, interpreter.exec (op.mk opLoad (.string (dotted k b))) ⟨vars, rest⟩ parents w =
          .error (.runtimeErr msg)) ↔
        (parents.length < k ∨ ∃ fr, (interpreter.mk vars rest :: parents).get? k = some fr ∧
          getVar (String.mk b) fr.vars = none)) ∧
      (∀ fr v, (interpreter.mk vars rest :: parents).get? k = some fr →
        getVar (String.mk b) fr.vars = some v →
        interpreter.exec (op.mk opLoad (.string (dotted k b))) ⟨vars, rest⟩ parents w =
          .ok (⟨vars, v :: rest⟩, parents, w))) ∧
    (((∃ msg, interpreter.exec (op.mk opLoadStr .nil) ⟨vars, .string (dotted k b) :: rest⟩
          parents w = .error (.runtimeErr msg)) ↔
        (parents.length < k ∨ ∃ fr, (interpreter.mk vars rest :: parents).get? k = some fr ∧
          getVar (String.mk b) fr.vars = none)) ∧
      (∀ fr v, (interpreter.mk vars rest :: parents).get? k = some fr →
        getVar (String.mk b) fr.vars = some v →
        interpreter.exec (op.mk opLoadStr .nil) ⟨vars, .string (dotted k b) :: rest⟩ parents w =
          .ok (⟨vars, v :: rest⟩, parents, w))) ∧
    (((∃ msg, interpreter.exec (op.mk opStore (.string (dotted k b))) ⟨vars, val :: rest⟩
          parents w = .error (.runtimeErr msg)) ↔ parents.length < k) ∧
      (k ≤ parents.length →
        ∃ i1 parents1,
          interpreter.exec (op.mk opStore (.string (dotted k b))) ⟨vars, val :: rest⟩ parents w =
            .ok (i1, parents1, w) ∧
          i1 :: parents1 = (interpreter.mk vars rest :: parents).modify
            (fun p => { p with vars := setVar (String.mk b) val p.vars }) k)) ∧
    (((∃ msg, interpreter.exec (op.mk opStoreStr .nil)
          ⟨vars, val :: .string (dotted k b) :: rest⟩ parents w = .error (.runtimeErr msg)) ↔
        parents.length < k) ∧
      (k ≤ parents.length →
        ∃ i1 parents1,
          interpreter.exec (op.mk opStoreStr .nil) ⟨vars, val :: .string (dotted k b) :: rest⟩
            parents w = .ok (i1, parents1, w) ∧
          i1 :: parents1 = (interpreter.mk vars rest :: parents).modify
            (fun p => { p with vars := setVar (String.mk b) val p.vars }) k)) := by
  have hl := fun opName => load_result k b hb hdot vars rest parents opName
  have hs := store_result k b hb hdot vars rest parents w val
  have map_err : ∀ (r : Except Err interpreter),
      (∃ msg, r.map (fun j => (j, parents, w)) = .error (.runtimeErr msg)) ↔
        ∃ msg, r = .error (.runtimeErr msg) := by
    intro r
    cases r with
    | error e =>
      constructor
      · rintro ⟨m, h⟩; exact ⟨m, by cases h; rfl⟩
      · rintro ⟨m, h⟩; exact ⟨m, by cases h; rfl⟩
    | ok a =>
      constructor
      · rintro ⟨m, h⟩; cases h
      · rintro ⟨m, h⟩; cases h
  refine ⟨⟨?_, ?_⟩, ⟨?_, ?_⟩, ?_, ?_⟩
  · rw [exec_opLoad, map_err]; exact (hl "opLoad").1
  · intro fr v h1 h2
    rw [exec_opLoad, (hl "opLoad").2 fr v h1 h2]; rfl
  · rw [exec_opLoadStr, map_err]; exact (hl "opLoadStr").1
  · intro fr v h1 h2
    rw [exec_opLoadStr, (hl "opLoadStr").2 fr v h1 h2]; rfl
  · rw [exec_opStore]; exact hs
  · rw [exec_opStoreStr]; exact hs

/-- Witness of C2: in a frame called from a frame where `x` is 1, and where `x` is 7 in the
frame itself, `.x` loads 1 and `x` loads 7. -/
theorem dot_prefix_load_store_witness :
    interpreter.exec (op.mk opLoad (.string ".x")) ⟨[("x", .int64 7)], []⟩
        [⟨[("x", .int64 1)], []⟩] ⟨[], "", fun _ => 0, 0⟩ =
      .ok (⟨[("x", .int64 7)], [.int64 1]⟩, [⟨[("x", .int64 1)], []⟩], ⟨[], "", fun _ => 0, 0⟩) ∧
    interpreter.exec (op.mk opLoad (.string "x")) ⟨[("x", .int64 7)], []⟩
        [⟨[("x", .int64 1)], []⟩] ⟨[], "", fun _ => 0, 0⟩ =
      .ok (⟨[("x", .int64 7)], [.int64 7]⟩, [⟨[("x", .int64 1)], []⟩], ⟨[], "", fun _ => 0, 0⟩) :=
  ⟨(dot_prefix_load_store 1 ['x'] (by simp) (by simp) [("x", .int64 7)] []
      [⟨[("x", .int64 1)], []⟩] ⟨[], "", fun _ => 0, 0⟩ .nil).1.2 _ _ rfl rfl,
   (dot_prefix_load_store 0 ['x'] (by simp) (by simp) [("x", .int64 7)] []
      [⟨[("x", .int64 1)], []⟩] ⟨[], "", fun _ => 0, 0⟩ .nil).1.2 _ _ rfl rfl⟩

theorem getVar_setVar_same (name : String) (v : Value) (env : List (String × Value)) :
    getVar name (setVar name v env) = some v := by
  induction env with
  | nil => simp [setVar, getVar]
  | cons e r ih =>
    obtain ⟨k, w⟩ := e
    by_cases h : k = name
    · simp [setVar, getVar, h]
    · simp [setVar, getVar, h, ih]

theorem getVar_setVar_other (name q : String) (v : Value) (env : List (String × Value))
    (hq : q ≠ name) : getVar q (setVar name v env) = getVar q env := by
  induction env with
  | nil => simp [setVar, getVar, hq.symm]
  | cons e r ih =>
    obtain ⟨k, w⟩ := e
    by_cases h : k = name
    · subst h
      simp [setVar, getVar, Ne.symm hq]
    · by_cases h2 : k = q
      · subst h2
        simp [setVar, getVar, h]
      · simp [setVar, getVar, h, h2, ih]

theorem getVar_bindParams_other (params : List String) (vals : List Value)
    (env : List (String × Value)) (q : String) (hq : q ∉ params) :
    getVar q (bindParams params vals env) = getVar q env := by
  induction params generalizing vals env with
  | nil => cases vals <;> rfl
  | cons p ps ih =>
    cases vals with
    | nil => rfl
    | cons v vs =>
      simp only [bindParams]
      rw [ih vs _ (fun h => hq (List.mem_cons_of_mem _ h))]
      exact getVar_setVar_other p q v env (fun h => hq (h ▸ List.mem_cons_self _ _))

theorem getVar_bindParams (params : List String) (vals : List Value)
    (env : List (String × Value)) (hnd : params.Nodup) (p : String) (v : Value)
    (h : (p, v) ∈ params.zip vals) : getVar p (bindParams params vals env) = some v := by
  induction params generalizing vals env with
  | nil => simp at h
  | cons p0 ps ih =>
    cases vals with
    | nil => simp at h
    | cons v0 vs =>
      simp only [List.zip_cons_cons, List.mem_cons, Prod.mk.injEq] at h
      simp only [bindParams]
      have hnd' := List.nodup_cons.mp hnd
      rcases h with ⟨rfl, rfl⟩ | h
      · rw [getVar_bindParams_other ps vs _ p hnd'.1]
        exact getVar_setVar_same p v env
      · exact ih vs _ hnd'.2 h

theorem moveArgs_reverse (xs : List Value) (cv : List (String × Value)) (rest : List Value)
    (child : interpreter) :
    moveArgs xs.length ⟨cv, xs ++ rest⟩ child =
      .ok (⟨cv, rest⟩, ⟨child.vars, xs.reverse ++ child.stack⟩) := by
  induction xs generalizing child with
  | nil => rfl
  | cons x xs ih =>
    simp only [List.length_cons, moveArgs, interpreter.pop, List.cons_append]
    rw [ih]
    simp [interpreter.push]

theorem run_store_step (fuel : Nat) (f : function) (ic : Nat) (p : String)
    (hp : ∃ c cs, p.toList = c :: cs ∧ c ≠ '.')
    (hget : f.get? ic = some (op.mk opStore (.string p)))
    (env : List (String × Value)) (v : Value) (st : List Value) (parents : List interpreter)
    (w : World) :
    interpreter.run (fuel + 1) f (ic : Int) ⟨env, v :: st⟩ parents w =
      interpreter.run fuel f ((ic : Int) + 1) ⟨setVar p v env, st⟩ parents w := by
  obtain ⟨c, cs, hpc, hc⟩ := hp
  have ht : trimDots parents.length p = .ok (0, p) := by
    unfold trimDots
    rw [hpc]
    simp only [trimDotsFrom, if_neg hc]
    congr 2
    exact String.ext hpc.symm
  have hlt : ¬ ((ic : Int) < 0) := by omega
  rw [interpreter.run]
  simp only [hlt, if_false, Int.toNat_ofNat, hget, op.typ]
  rw [exec_opStore, ht]
  rfl

theorem run_stores (params : List String) (hbare : ∀ p ∈ params, ∃ c cs, p.toList = c :: cs ∧ c ≠ '.')
    (vals : List Value) (hlen : vals.length = params.length)
    (fuel : Nat) (pre body : function)
    (env : List (String × Value)) (st : List Value) (parents : List interpreter) (w : World) :
    interpreter.run (fuel + params.length) (pre ++ paramStores params ++ body) (pre.length : Int)
        ⟨env, vals ++ st⟩ parents w =
      interpreter.run fuel (pre ++ paramStores params ++ body)
        ((pre.length + params.length : Nat) : Int) ⟨bindParams params vals env, st⟩ parents w := by
  induction params generalizing vals pre env with
  | nil =>
    cases vals with
    | nil => rfl
    | cons v vs => simp at hlen
  | cons p ps ih =>
    cases vals with
    | nil => simp at hlen
    | cons v vs =>
      have hlen' : vs.length = ps.length := by simpa using hlen
      have hget : (pre ++ paramStores (p :: ps) ++ body).get? pre.length =
          some (op.mk opStore (.string p)) := by
        rw [List.append_assoc, List.get?_eq_getElem?, List.getElem?_append_right (Nat.le_refl _)]
        simp [paramStores]
      have e1 : fuel + (p :: ps).length = (fuel + ps.length) + 1 := by simp; omega
      rw [e1, List.cons_append, run_store_step _ _ _ p (hbare p (List.mem_cons_self _ _)) hget]
      have e2 : pre ++ paramStores (p :: ps) ++ body =
          (pre ++ [op.mk opStore (.string p)]) ++ paramStores ps ++ body := by
        simp [paramStores]
      have e3 : ((pre.length : Int) + 1) = ((pre ++ [op.mk opStore (.string p)]).length : Int) := by
        simp
      rw [e2, e3, ih (fun q hq => hbare q (List.mem_cons_of_mem _ hq)) vs hlen']
      simp only [bindParams]
      congr 1
      simp
      omega

theorem funArgsLoop_params (params : List String) (fuel : Nat) (hf : params.length + 1 ≤ fuel)
    (rest : List lex) (ret : function) :
    parser.funArgsLoop fuel (paramLexemes params ++ ⟨lexRightPar, ")"⟩ :: rest) ret =
      .ok (ret ++ paramStores params, rest) := by
  induction params generalizing fuel ret with
  | nil =>
    obtain ⟨n, rfl⟩ : ∃ n, fuel = n + 1 := ⟨fuel - 1, by simp at hf; omega⟩
    simp [paramLexemes, parser.funArgsLoop, parser.get, paramStores, bind, Except.bind, pure,
      Except.pure]
  | cons p ps ih =>
    obtain ⟨n, rfl⟩ : ∃ n, fuel = n + 1 := ⟨fuel - 1, by simp at hf; omega⟩
    have hn : ps.length + 1 ≤ n := by simp at hf; omega
    cases ps with
    | nil =>
      have := ih n hn (ret ++ [op.mk opStore (.string p)])
      simp only [paramLexemes, List.nil_append] at this
      simp [paramLexemes, parser.funArgsLoop, parser.get, parser.next, bind, Except.bind,
        this, paramStores]
    | cons q r =>
      have := ih n hn (ret ++ [op.mk opStore (.string p)])
      simp [paramLexemes, parser.funArgsLoop, parser.get, parser.next, parser.skip, bind,
        Except.bind, this, paramStores]

/-- C1: for distinct parameter names `params` (each a bare name) and as many argument values
`vals`, pushed left to right over the function value before `opCall`: `parser.funArgs` emits
one `opStore` per parameter, in order; and executing `opCall` and then the callee's prefix of
stores amounts to running the callee from the end of that prefix with an empty operand stack
and with variables that bind each parameter to the argument at the same position and bind
nothing else. -/
theorem call_binds_parameters (params : List String)
    (hbare : ∀ p ∈ params, p.toList ≠ [] ∧ p.toList.head? ≠ some '.') (hnd : params.Nodup)
    (vals : List Value) (hlen : vals.length = params.length) (body : function) :
    (∀ fuel rest, params.length + 1 ≤ fuel →
      parser.funArgs fuel
          (⟨lexLeftPar, "("⟩ :: paramLexemes params ++ ⟨lexRightPar, ")"⟩ :: rest) =
        .ok (paramStores params, rest)) ∧
    (∀ fuel f ic cv rest parents w, 0 ≤ ic →
      f.get? ic.toNat = some (op.mk opCall (.int params.length)) →
      interpreter.run (fuel + params.length + 1) f ic
          ⟨cv, vals.reverse ++ .function (paramStores params ++ body) :: rest⟩ parents w =
        match interpreter.run fuel (paramStores params ++ body) params.length
            ⟨bindParams params vals [], []⟩ (⟨cv, rest⟩ :: parents) w with
        | .error e => .error e
        | .ok (ret, _, ps, w1) =>
          interpreter.run (fuel + params.length) f (ic + 1)
            ((ps.headD ⟨cv, rest⟩).push ret) ps.tail w1) ∧
    (∀ p v, (p, v) ∈ params.zip vals → getVar p (bindParams params vals []) = some v) ∧
    (∀ q, q ∉ params → getVar q (bindParams params vals []) = none) := by
  have hbare : ∀ p ∈ params, ∃ c cs, p.toList = c :: cs ∧ c ≠ '.' := by
    intro p hp
    obtain ⟨h1, h2⟩ := hbare p hp
    obtain ⟨c, cs, hc⟩ := List.exists_cons_of_ne_nil h1
    refine ⟨c, cs, hc, ?_⟩
    rw [hc] at h2
    simpa using h2
  refine ⟨?_, ?_, ?_, ?_⟩
  · intro fuel rest hf
    have := funArgsLoop_params params fuel hf rest []
    simpa [parser.funArgs, parser.skip] using this
  · intro fuel f ic cv rest parents w hic hget
    have hm : moveArgs (Int.toNat (params.length : Int))
        ⟨cv, vals.reverse ++ .function (paramStores params ++ body) :: rest⟩ newInterpreter =
        .ok (⟨cv, .function (paramStores params ++ body) :: rest⟩, ⟨[], vals⟩) := by
      have := moveArgs_reverse vals.reverse cv
        (.function (paramStores params ++ body) :: rest) newInterpreter
      simpa [hlen, newInterpreter] using this
    have hs := run_stores params hbare vals hlen fuel [] body [] []
      (⟨cv, rest⟩ :: parents) w
    simp only [List.nil_append, List.length_nil, List.append_nil, Nat.zero_add] at hs
    have hlt : ¬ (ic < 0) := by omega
    rw [interpreter.run]
    simp only [hlt, if_false, hget, op.typ, op.param, getInt, hm, interpreter.pop]
    have h0 : ((0 : Nat) : Int) = 0 := rfl
    rw [h0] at hs
    rw [hs]
  · intro p v h
    exact getVar_bindParams params vals [] hnd p v h
  · intro q hq
    rw [getVar_bindParams_other params vals [] q hq]
    rfl

/-- Witness of C1: parameters `a`, `b` called with 1, 2. -/
theorem call_binds_parameters_witness :
    getVar "a" (bindParams ["a", "b"] [.int64 1, .int64 2] []) = some (.int64 1) ∧
    getVar "b" (bindParams ["a", "b"] [.int64 1, .int64 2] []) = some (.int64 2) :=
  ⟨(call_binds_parameters ["a", "b"] (by decide) (by decide) [.int64 1, .int64 2] rfl []).2.2.1
      "a" (.int64 1) (by simp),
   (call_binds_parameters ["a", "b"] (by decide) (by decide) [.int64 1, .int64 2] rfl []).2.2.1
      "b" (.int64 2) (by simp)⟩

theorem levelFind_ge (j : Nat) (h : 6 ≤ j) (ty : lexType) : levelFind j ty = none := by
  unfold levelFind
  have h1 : levelLex.getD j [] = [] := by
    apply List.getD_eq_default
    simp [levelLex]; omega
  rw [h1]
  rfl

theorem levelFind_unique (level : Nat) (ty : lexType) (o : opType)
    (h : levelFind level ty = some o) :
    ty ≠ lexLeftPar ∧ ty ≠ lexLeftBracket ∧ ∀ j, j ≠ level → levelFind j ty = none := by
  have hl : level < 6 := by
    by_contra hc
    rw [levelFind_ge level (by omega) ty] at h
    cases h
  have key : ∀ j, j < 6 → j ≠ level → levelFind j ty = none := by
    intro j hj hne
    interval_cases level <;> cases ty <;> simp [levelFind, levelLex, levelOp, findOp] at h <;>
      interval_cases j <;> first | rfl | (exfalso; exact hne rfl)
  refine ⟨?_, ?_, ?_⟩
  · rintro rfl
    interval_cases level <;> simp [levelFind, levelLex, levelOp, findOp] at h
  · rintro rfl
    interval_cases level <;> simp [levelFind, levelLex, levelOp, findOp] at h
  · intro j hne
    by_cases hj : j < 6
    · exact key j hj hne
    · exact levelFind_ge j (by omega) ty

theorem expr0_descend (n level : Nat) (h : level < 6) (ts : List lex) (f : function) :
    parser.expr0 (n + 1) level ts f =
      match parser.expr0 n (level + 1) ts f with
      | .error e => .error e
      | .ok (f1, ts1) => parser.exprLoop n level ts1 f1 := by
  rw [parser.expr0]
  have : level < levelLex.length := by simpa [levelLex] using h
  simp only [this, if_true, bind, Except.bind]
  cases parser.expr0 n (level + 1) ts f <;> rfl

theorem exprLoop_stop (n level : Nat) (t : lex) (r : List lex) (f : function)
    (h : levelFind level t.typ = none) :
    parser.exprLoop (n + 1) level (t :: r) f = .ok (f, t :: r) := by
  rw [parser.exprLoop]
  simp [parser.next, bind, Except.bind, h, pure, Except.pure]

theorem exprLoop_step (n level : Nat) (o : lex) (ts : List lex) (f : function) (p : opType)
    (h : levelFind level o.typ = some p) :
    parser.exprLoop (n + 1) level (o :: ts) f =
      match parser.expr0 n (level + 1) ts f with
      | .error e => .error e
      | .ok (f1, ts1) => parser.exprLoop n level ts1 (f1 ++ [op.mk p .nil]) := by
  rw [parser.exprLoop]
  simp only [parser.next, List.get?, bind, Except.bind, h, parser.skip, List.drop]
  cases parser.expr0 n (level + 1) ts f <;> rfl

theorem Stops.mono {level j : Nat} {t : lex} (h : Stops level t) (hj : level ≤ j) : Stops j t :=
  ⟨h.1, h.2.1, fun k hk => h.2.2 k (Nat.le_trans hj hk)⟩

theorem ParsesAt.chain {level : Nat} {E : List lex} {c : function} (hl : level < 6)
    (h : ParsesAt (level + 1) E c) : ChainAt level E c := by
  intro f t r ht
  obtain ⟨n0, hn⟩ := h f t r ht
  refine ⟨n0, 1, fun n hle => ?_⟩
  rw [expr0_descend n level hl, hn n hle]

theorem ChainAt.parses {level : Nat} {E : List lex} {c : function} (h : ChainAt level E c) :
    ParsesAt level E c := by
  intro f t r ht
  obtain ⟨n0, d, hn⟩ := h f t r (ht.mono (Nat.le_succ _))
  refine ⟨n0 + 1 + d, fun n hle => ?_⟩
  obtain ⟨m, rfl⟩ : ∃ m, n = (m + 1) + d := ⟨n - d - 1, by omega⟩
  rw [hn (m + 1) (by omega), exprLoop_stop m level t r _ (ht.2.2 level (Nat.le_refl _))]

theorem ParsesAt.lift {level : Nat} {E : List lex} {c : function} (hl : level < 6)
    (h : ParsesAt (level + 1) E c) : ParsesAt level E c :=
  (h.chain hl).parses

theorem ParsesAt.liftTo {level j : Nat} {E : List lex} {c : function} (hj : j ≤ 6)
    (hle : level ≤ j) (h : ParsesAt j E c) : ParsesAt level E c := by
  induction j with
  | zero =>
    have : level = 0 := by omega
    subst this
    exact h
  | succ j ih =>
    by_cases he : level = j + 1
    · subst he; exact h
    · exact ih (by omega) (by omega) (h.lift (by omega))

theorem ChainAt.step {level : Nat} {A B : List lex} {cA cB : function} {o : lex} {p : opType}
    (ho : levelFind level o.typ = some p) (hA : ChainAt level A cA)
    (hB : ParsesAt (level + 1) B cB) :
    ChainAt level (A ++ o :: B) (cA ++ cB ++ [op.mk p .nil]) := by
  intro f t r ht
  have hu := levelFind_unique level o.typ p ho
  have hso : Stops (level + 1) o :=
    ⟨hu.1, hu.2.1, fun j hj => hu.2.2 j (by omega)⟩
  obtain ⟨nA, d, hnA⟩ := hA f o (B ++ t :: r) hso
  obtain ⟨nB, hnB⟩ := hB (f ++ cA) t r ht
  refine ⟨nA + nB, d + 1, fun n hle => ?_⟩
  have e : (A ++ o :: B) ++ t :: r = A ++ o :: (B ++ t :: r) := by simp
  have e2 : n + (d + 1) = (n + 1) + d := by omega
  rw [e, e2, hnA (n + 1) (by omega), exprLoop_step n level o _ _ p ho, hnB n (by omega)]
  simp [List.append_assoc]

theorem ParsesAt.paren {E : List lex} {c : function} (h : ParsesAt 0 E c) (lp rp : lex)
    (hlp : lp.typ = lexLeftPar) (hrp : rp.typ = lexRightPar) :
    ParsesAt 6 (lp :: E ++ [rp]) c := by
  intro f t r _
  have hs : Stops 0 rp := by
    refine ⟨by rw [hrp]; decide, by rw [hrp]; decide, fun j _ => ?_⟩
    rw [hrp]
    by_cases hj : j < 6
    · interval_cases j <;> rfl
    · exact levelFind_ge j (by omega) _
  obtain ⟨n0, hn⟩ := h f rp (t :: r) hs
  refine ⟨n0 + 1, fun n hle => ?_⟩
  obtain ⟨m, rfl⟩ : ∃ m, n = m + 1 := ⟨n - 1, by omega⟩
  have e : (lp :: E ++ [rp]) ++ t :: r = lp :: (E ++ rp :: t :: r) := by simp
  rw [e, parser.expr0]
  have h6 : ¬ (6 < levelLex.length) := by simp [levelLex]
  simp only [h6, if_false, parser.get, bind, Except.bind, hlp]
  rw [hn m (by omega)]
  simp [parser.get, hrp, pure, Except.pure]

theorem parsesAt_name (s : String) :
    ParsesAt 6 [⟨lexName, s⟩] [op.mk opString (.string s), op.mk opLoadStr .nil] := by
  intro f t r ht
  refine ⟨3, fun n hle => ?_⟩
  obtain ⟨m, rfl⟩ : ∃ m, n = m + 3 := ⟨n - 3, by omega⟩
  have h6 : ¬ (6 < levelLex.length) := by simp [levelLex]
  have h1 := ht.1
  have h2 := ht.2.1
  simp [parser.expr0, h6, parser.get, parser.name, parser.nameDots, parser.nameIndex,
    parser.next, bind, Except.bind, pure, Except.pure, h1, h2]

/-- C6: for primary expressions `X`, `Y`, `Z`, binary operators `o1` of level `l1` and `o2`
of level `l2` in the table of six levels, and a following lexeme that is no operator, given
enough fuel: when `l1 < l2` the lexemes `X o1 Y o2 Z` and `X o1 ( Y o2 Z )` both compile to
the code of `X`, `Y`, `Z` followed by `o2` then `o1`; otherwise `X o1 Y o2 Z` and
`( X o1 Y ) o2 Z` both compile to the code of `X`, `Y`, then `o1`, the code of `Z`, then
`o2`. -/
theorem binary_operators_precedence (X Y Z : List lex) (cX cY cZ : function)
    (hX : ParsesAt 6 X cX) (hY : ParsesAt 6 Y cY) (hZ : ParsesAt 6 Z cZ)
    (o1 o2 : lex) (l1 l2 : Nat) (p1 p2 : opType)
    (h1 : levelFind l1 o1.typ = some p1) (h2 : levelFind l2 o2.typ = some p2)
    (f : function) (t : lex) (r : List lex) (ht : Stops 0 t) :
    (l1 < l2 → ∃ n0, ∀ n, n0 ≤ n →
      parser.expr n (X ++ o1 :: Y ++ o2 :: Z ++ t :: r) f =
        .ok (f ++ (cX ++ cY ++ cZ ++ [op.mk p2 .nil, op.mk p1 .nil]), t :: r) ∧
      parser.expr n
          (X ++ o1 :: ⟨lexLeftPar, "("⟩ :: Y ++ o2 :: Z ++ ⟨lexRightPar, ")"⟩ :: t :: r) f =
        .ok (f ++ (cX ++ cY ++ cZ ++ [op.mk p2 .nil, op.mk p1 .nil]), t :: r)) ∧
    (l2 ≤ l1 → ∃ n0, ∀ n, n0 ≤ n →
      parser.expr n (X ++ o1 :: Y ++ o2 :: Z ++ t :: r) f =
        .ok (f ++ (cX ++ cY ++ [op.mk p1 .nil] ++ cZ ++ [op.mk p2 .nil]), t :: r) ∧
      parser.expr n
          (⟨lexLeftPar, "("⟩ :: X ++ o1 :: Y ++ ⟨lexRightPar, ")"⟩ :: o2 :: Z ++ t :: r) f =
        .ok (f ++ (cX ++ cY ++ [op.mk p1 .nil] ++ cZ ++ [op.mk p2 .nil]), t :: r)) := by
  have hl1 : l1 < 6 := by
    by_contra hc
    rw [levelFind_ge l1 (by omega)] at h1
    cases h1
  have hl2 : l2 < 6 := by
    by_contra hc
    rw [levelFind_ge l2 (by omega)] at h2
    cases h2
  have comb : ∀ {A B : List lex} {c : function}, ParsesAt 0 A c → ParsesAt 0 B c →
      ∃ n0, ∀ n, n0 ≤ n → parser.expr n (A ++ t :: r) f = .ok (f ++ c, t :: r) ∧
        parser.expr n (B ++ t :: r) f = .ok (f ++ c, t :: r) := by
    intro A B c hA hB
    obtain ⟨nA, hnA⟩ := hA f t r ht
    obtain ⟨nB, hnB⟩ := hB f t r ht
    exact ⟨nA + nB, fun n hle => ⟨hnA n (by omega), hnB n (by omega)⟩⟩
  constructor
  · intro hlt
    -- the right operand of o1 is Y o2 Z, with or without parentheses
    have hYZ : ParsesAt l2 (Y ++ o2 :: Z) (cY ++ cZ ++ [op.mk p2 .nil]) :=
      (ChainAt.step h2 ((hY.liftTo (by omega) (by omega)).chain hl2)
        (hZ.liftTo (by omega) (by omega))).parses
    have hX1 : ChainAt l1 X cX := (hX.liftTo (by omega) (by omega)).chain hl1
    have hA : ParsesAt 0 (X ++ o1 :: (Y ++ o2 :: Z))
        (cX ++ (cY ++ cZ ++ [op.mk p2 .nil]) ++ [op.mk p1 .nil]) :=
      (ChainAt.step h1 hX1 (hYZ.liftTo (by omega) (by omega))).parses.liftTo (by omega)
        (Nat.zero_le _)
    have hP : ParsesAt 6 (⟨lexLeftPar, "("⟩ :: (Y ++ o2 :: Z) ++ [⟨lexRightPar, ")"⟩])
        (cY ++ cZ ++ [op.mk p2 .nil]) :=
      (hYZ.liftTo (by omega) (Nat.zero_le _)).paren _ _ rfl rfl
    have hB : ParsesAt 0
        (X ++ o1 :: (⟨lexLeftPar, "("⟩ :: (Y ++ o2 :: Z) ++ [⟨lexRightPar, ")"⟩]))
        (cX ++ (cY ++ cZ ++ [op.mk p2 .nil]) ++ [op.mk p1 .nil]) :=
      (ChainAt.step h1 hX1 (hP.liftTo (by omega) (by omega))).parses.liftTo (by omega)
        (Nat.zero_le _)
    have := comb hA hB
    simpa [List.append_assoc] using this
  · intro hle
    have hXY : ChainAt l1 (X ++ o1 :: Y) (cX ++ cY ++ [op.mk p1 .nil]) :=
      ChainAt.step h1 ((hX.liftTo (by omega) (by omega)).chain hl1)
        (hY.liftTo (by omega) (by omega))
    have hZ2 : ParsesAt (l2 + 1) Z cZ := hZ.liftTo (by omega) (by omega)
    have hA : ParsesAt 0 ((X ++ o1 :: Y) ++ o2 :: Z)
        ((cX ++ cY ++ [op.mk p1 .nil]) ++ cZ ++ [op.mk p2 .nil]) := by
      by_cases he : l2 = l1
      · subst he
        exact (ChainAt.step h2 hXY hZ2).parses.liftTo (by omega) (Nat.zero_le _)
      · have hlow : ParsesAt (l2 + 1) (X ++ o1 :: Y) (cX ++ cY ++ [op.mk p1 .nil]) :=
          hXY.parses.liftTo (by omega) (by omega)
        exact (ChainAt.step h2 (hlow.chain hl2) hZ2).parses.liftTo (by omega) (Nat.zero_le _)
    have hP : ParsesAt 6 (⟨lexLeftPar, "("⟩ :: (X ++ o1 :: Y) ++ [⟨lexRightPar, ")"⟩])
        (cX ++ cY ++ [op.mk p1 .nil]) :=
      (hXY.parses.liftTo (by omega) (Nat.zero_le _)).paren _ _ rfl rfl
    have hB : ParsesAt 0
        ((⟨lexLeftPar, "("⟩ :: (X ++ o1 :: Y) ++ [⟨lexRightPar, ")"⟩]) ++ o2 :: Z)
        ((cX ++ cY ++ [op.mk p1 .nil]) ++ cZ ++ [op.mk p2 .nil]) :=
      (ChainAt.step h2 ((hP.liftTo (by omega) (by omega)).chain hl2) hZ2).parses.liftTo
        (by omega) (Nat.zero_le _)
    have := comb hA hB
    simpa [List.append_assoc] using this

/-- Witness of C6: `a || b && c` and `a || (b && c)` compile to the same code. -/
theorem binary_operators_precedence_witness :
    ∃ n0, ∀ n, n0 ≤ n →
      parser.expr n
          [⟨lexName, "a"⟩, ⟨lexOr, "||"⟩, ⟨lexName, "b"⟩, ⟨lexAnd, "&&"⟩, ⟨lexName, "c"⟩,
            ⟨lexEof, ""⟩] [] =
        .ok ([op.mk opString (.string "a"), op.mk opLoadStr .nil,
              op.mk opString (.string "b"), op.mk opLoadStr .nil,
              op.mk opString (.string "c"), op.mk opLoadStr .nil,
              op.mk opAnd .nil, op.mk opOr .nil], [⟨lexEof, ""⟩]) ∧
      parser.expr n
          [⟨lexName, "a"⟩, ⟨lexOr, "||"⟩, ⟨lexLeftPar, "("⟩, ⟨lexName, "b"⟩, ⟨lexAnd, "&&"⟩,
            ⟨lexName, "c"⟩, ⟨lexRightPar, ")"⟩, ⟨lexEof, ""⟩] [] =
        .ok ([op.mk opString (.string "a"), op.mk opLoadStr .nil,
              op.mk opString (.string "b"), op.mk opLoadStr .nil,
              op.mk opString (.string "c"), op.mk opLoadStr .nil,
              op.mk opAnd .nil, op.mk opOr .nil], [⟨lexEof, ""⟩]) :=
  (binary_operators_precedence [⟨lexName, "a"⟩] [⟨lexName, "b"⟩] [⟨lexName, "c"⟩] _ _ _
    (parsesAt_name "a") (parsesAt_name "b") (parsesAt_name "c") ⟨lexOr, "||"⟩ ⟨lexAnd, "&&"⟩
    0 1 opOr opAnd rfl rfl [] ⟨lexEof, ""⟩ []
    ⟨by decide, by decide, fun j _ => by
      by_cases hj : j < 6
      · interval_cases j <;> rfl
      · exact levelFind_ge j (by omega) _⟩).1 (by decide)

theorem EosRel.typ {t t1 : lex} (h : EosRel t t1) : t1.typ = t.typ := by
  rcases h with rfl | ⟨rfl, rfl⟩ <;> rfl

theorem EosRel.eq_of_typ {t t1 : lex} (h : EosRel t t1) (ht : t.typ ≠ lexEos) : t1 = t := by
  rcases h with rfl | ⟨rfl, rfl⟩
  · rfl
  · exact absurd rfl ht

theorem EosRel.val_semicolon {t t1 : lex} (h : EosRel t t1) (hv : t.val = ";") : t1 = t := by
  rcases h with rfl | ⟨rfl, rfl⟩
  · rfl
  · simp at hv

theorem SimR.bind {α β : Type} {Q : α → α → Prop} {Q2 : β → β → Prop} {x x1 : Except Err α}
    {k k1 : α → Except Err β} (hx : SimR Q x x1)
    (hk : ∀ a a1, Q a a1 → SimR Q2 (k a) (k1 a1)) : SimR Q2 (x >>= k) (x1 >>= k1) := by
  intro b hb
  cases x with
  | error e => cases hb
  | ok a =>
    obtain ⟨a1, rfl, hq⟩ := hx a rfl
    exact hk a a1 hq b hb

theorem SimR.error {α : Type} {Q : α → α → Prop} (e : Err) (y : Except Err α) :
    SimR Q (.error e) y := by
  intro a h
  cases h

theorem SimR.ok {α : Type} {Q : α → α → Prop} {a a1 : α} (h : Q a a1) :
    SimR Q (.ok a) (.ok a1) := by
  intro b hb
  cases hb
  exact ⟨a1, rfl, h⟩

theorem sim_next {ts ts1 : List lex} (h : EosRelL ts ts1) (i : Nat) :
    SimR EosRel (parser.next ts i) (parser.next ts1 i) := by
  induction h generalizing i with
  | nil => exact SimR.error _ _
  | cons hab _ ih =>
    cases i with
    | zero => exact SimR.ok hab
    | succ i => exact ih i

theorem sim_get {ts ts1 : List lex} (h : EosRelL ts ts1) :
    SimR QG (parser.get ts) (parser.get ts1) := by
  cases h with
  | nil => exact SimR.error _ _
  | cons hab hr => exact SimR.ok ⟨hab, hr⟩

theorem EosRelL.drop {ts ts1 : List lex} (h : EosRelL ts ts1) (x : Nat) :
    EosRelL (parser.skip x ts) (parser.skip x ts1) := by
  induction h generalizing x with
  | nil => cases x <;> exact List.Forall₂.nil
  | cons hab hr ih =>
    cases x with
    | zero => exact List.Forall₂.cons hab hr
    | succ x => exact ih x

theorem sim_semicolon {ts ts1 : List lex} (h : EosRelL ts ts1) :
    SimR EosRelL (parser.semicolon ts) (parser.semicolon ts1) := by
  unfold parser.semicolon
  cases h with
  | nil => exact SimR.error _ _
  | cons hab hr =>
    rename_i t t1 r r1
    simp only [parser.get]
    by_cases hv : t.val = ";"
    · have := hab.val_semicolon hv
      subst this
      simp only [hv, ne_eq, not_true_eq_false, if_false]
      exact SimR.ok hr
    · simp only [ne_eq, hv, not_false_eq_true, if_true]
      exact SimR.error _ _

theorem sim_funArgsLoop (n : Nat) {ts ts1 : List lex} (h : EosRelL ts ts1) (ret : function) :
    SimR QF (parser.funArgsLoop n ts ret) (parser.funArgsLoop n ts1 ret) := by
  induction n generalizing ts ts1 ret with
  | zero => exact SimR.error _ _
  | succ n ih =>
    simp only [parser.funArgsLoop]
    refine SimR.bind (sim_get h) ?_
    rintro ⟨arg, r⟩ ⟨arg1, r1⟩ ⟨ha, hr⟩
    dsimp only [QG] at ha hr ⊢
    rw [ha.typ]
    by_cases h1 : arg.typ = lexRightPar
    · simp only [h1, if_true]
      exact SimR.ok ⟨rfl, hr⟩
    · simp only [h1, if_false]
      by_cases h2 : arg.typ = lexName
      · have : arg1 = arg := ha.eq_of_typ (by rw [h2]; decide)
        subst this
        simp only [h2, ne_eq, not_true_eq_false, if_false]
        refine SimR.bind (sim_next hr 0) ?_
        intro nx nx1 hn
        rw [hn.typ]
        split_ifs
        · exact ih (hr.drop 1) _
        · exact ih hr _
      · simp only [ne_eq, h2, not_false_eq_true, if_true]
        exact SimR.error _ _

theorem sim_nameDots {ts ts1 : List lex} (h : EosRelL ts ts1) (l l1 : lex) (nm nm1 : String)
    (hl : EosRel l l1) (hn : l.typ ≠ lexEos → nm = nm1) :
    SimR QN (parser.nameDots l nm ts) (parser.nameDots l1 nm1 ts1) := by
  induction h generalizing l l1 nm nm1 with
  | nil =>
    simp only [parser.nameDots, hl.typ]
    split_ifs
    · exact SimR.error _ _
    · exact SimR.ok ⟨hl, hn, List.Forall₂.nil⟩
  | cons hab hr ih =>
    rename_i t t1 r r1
    simp only [parser.nameDots, hl.typ]
    split_ifs with hd
    · apply ih _ _ _ _ hab
      intro ht
      have e1 : t1 = t := hab.eq_of_typ ht
      have e2 : nm = nm1 := hn (by rw [hd]; decide)
      rw [e1, e2]
    · exact SimR.ok ⟨hl, hn, List.Forall₂.cons hab hr⟩

theorem name_eos_fails (n : Nat) (ts : List lex) (f : function) (l : lex)
    (h : l.typ = lexEos) : ∃ e, parser.name n ts f l = .error e := by
  cases n with
  | zero => exact ⟨_, rfl⟩
  | succ n =>
    rw [parser.name]
    have hd : ¬ (l.typ = lexDot) := by rw [h]; decide
    have hn : l.typ ≠ lexName := by rw [h]; decide
    cases ts <;> simp [parser.nameDots, hd, bind, Except.bind, hn]

theorem funLoop_unfold (n : Nat) (endCriteria : lexType) (ts : List lex) (f : function) :
    parser.funLoop (n + 1) endCriteria ts f = (do
      let (l, ts) ← parser.get ts
      if l.typ = lexEos then parser.funLoop n endCriteria ts f
      else if l.typ = lexIf then do
        let (f, ts) ← parser.pIf n ts f
        parser.funEnd n endCriteria ts f
      else if l.typ = lexFor then do
        let (f, ts) ← parser.pFor n ts f
        parser.funEnd n endCriteria ts f
      else if l.typ = lexWhile then do
        let (f, ts) ← parser.pWhile n ts f
        parser.funEnd n endCriteria ts f
      else if l.typ = lexPrint then do
        let (f, k, ts) ← parser.callArgs n ts f
        parser.funEnd n endCriteria ts (f ++ [op.mk opPrint (.int k)])
      else if l.typ = lexPrintLn then do
        let (f, k, ts) ← parser.callArgs n ts f
        parser.funEnd n endCriteria ts (f ++ [op.mk opPrintLn (.int k)])
      else if l.typ = lexReturn then do
        let nt ← parser.next ts 0
        if nt.typ ≠ lexEos ∧ nt.typ ≠ endCriteria then do
          let (f, ts) ← parser.expr0 n 0 ts f
          parser.funEnd n endCriteria ts (f ++ [op.mk opReturn (.int 1)])
        else parser.funEnd n endCriteria ts (f ++ [op.mk opReturn (.int 0)])
      else if l.typ = lexDot ∨ l.typ = lexName then do
        let (f, ts) ← parser.name n ts f l
        let (nx, ts) ← parser.get ts
        if nx.typ = lexEq then do
          let (f, ts) ← parser.assign n ts f
          parser.funEnd n endCriteria ts f
        else if nx.typ = lexLeftPar then do
          let (f, ts) ← parser.call n ts f
          parser.funEnd n endCriteria ts f
        else .error (.parseErr "= or (" nx)
      else if l.typ = endCriteria then pure (f, ts)
      else .error (.parseErr "if, for, while or name" l)) := by
  rw [parser.funLoop]
  cases ts with
  | nil => rfl
  | cons l r =>
    obtain ⟨ty, v⟩ := l
    cases ty <;> rfl

theorem expr0_primary_unfold (n level : Nat) (hl : ¬ level < 6) (ts : List lex) (f : function) :
    parser.expr0 (n + 1) level ts f = (do
      let (l, ts) ← parser.get ts
      if l.typ = lexMinus then do
        let (f, ts) ← parser.expr0 n level ts f
        pure (f ++ [op.mk opNeg .nil], ts)
      else if l.typ = lexNot then do
        let (f, ts) ← parser.expr0 n level ts f
        pure (f ++ [op.mk opNot .nil], ts)
      else if l.typ = lexLeftPar then do
        let (f, ts) ← parser.expr0 n 0 ts f
        let (r, ts) ← parser.get ts
        if r.typ ≠ lexRightPar then .error (.parseErr ")" r) else pure (f, ts)
      else if l.typ = lexDot ∨ l.typ = lexName then do
        let (f, ts) ← parser.name n ts f l
        let f := f ++ [op.mk opLoadStr .nil]
        let nx ← parser.next ts 0
        if nx.typ = lexLeftPar then do
          let (f, num, ts) ← parser.callArgs n ts f
          pure (f ++ [op.mk opCall (.int num)], ts)
        else pure (f, ts)
      else if l.typ = lexEos then .error (.parseErr "int, float, string, bool, name or call" l)
      else
        match parser.expr0 (n + 1) level [l] f with
        | .error e => .error e
        | .ok (g, _) => pure (g, ts)) := by
  have h6 : ¬ (level < levelLex.length) := by simpa [levelLex] using hl
  cases ts with
  | nil => rw [parser.expr0]; simp only [h6, if_false]; rfl
  | cons l r =>
    obtain ⟨ty, v⟩ := l
    cases ty <;> first
      | (rw [parser.expr0]; simp only [h6, if_false]; rfl)
      | (simp only [parser.expr0, h6, if_false, parser.get, bind, Except.bind]
         first
           | rfl
           | (cases parseInt v <;> rfl)
           | (cases parseFloat v <;> rfl)
           | (cases parseBool v <;> rfl)
           | (cases unquote v <;> rfl))

theorem allSim_zero : AllSim 0 := by
  constructor <;> intros <;> exact SimR.error _ _

theorem sim_pfun (n : Nat) (ih : AllSim n) (ts ts1 : List lex) (f : function)
    (h : EosRelL ts ts1) : SimR QF (parser.fun (n + 1) ts f) (parser.fun (n + 1) ts1 f) := by
  simp only [parser.fun]
  refine SimR.bind (sim_next h 0) ?_
  intro l l1 hl
  rw [hl.typ]
  split_ifs
  · exact ih.funLoop _ _ _ _ (h.drop 1)
  · exact ih.funLoop _ _ _ _ h

theorem sim_funEnd (n : Nat) (ih : AllSim n) (e : lexType) (ts ts1 : List lex) (f : function)
    (h : EosRelL ts ts1) :
    SimR QF (parser.funEnd (n + 1) e ts f) (parser.funEnd (n + 1) e ts1 f) := by
  simp only [parser.funEnd]
  refine SimR.bind (sim_get h) ?_
  rintro ⟨l, r⟩ ⟨l1, r1⟩ ⟨hl, hr⟩
  dsimp only at hl hr ⊢
  rw [hl.typ]
  split_ifs
  · exact SimR.error _ _
  · exact SimR.ok ⟨rfl, hr⟩
  · exact ih.funLoop _ _ _ _ hr

/-- Continuation lemma: a related parser result followed by related continuations. -/
theorem SimR.bindF {β : Type} {Q2 : β → β → Prop} {x x1 : Except Err (function × List lex)}
    {k k1 : function × List lex → Except Err β} (hx : SimR QF x x1)
    (hk : ∀ g r r1, EosRelL r r1 → SimR Q2 (k (g, r)) (k1 (g, r1))) :
    SimR Q2 (x >>= k) (x1 >>= k1) := by
  refine SimR.bind hx ?_
  rintro ⟨g, r⟩ ⟨g1, r1⟩ ⟨hg, hr⟩
  dsimp only at hg hr
  subst hg
  exact hk g r r1 hr

theorem SimR.bindC {β : Type} {Q2 : β → β → Prop}
    {x x1 : Except Err (function × Int × List lex)}
    {k k1 : function × Int × List lex → Except Err β} (hx : SimR QC x x1)
    (hk : ∀ g a r r1, EosRelL r r1 → SimR Q2 (k (g, a, r)) (k1 (g, a, r1))) :
    SimR Q2 (x >>= k) (x1 >>= k1) := by
  refine SimR.bind hx ?_
  rintro ⟨g, a, r⟩ ⟨g1, a1, r1⟩ ⟨hg, ha, hr⟩
  dsimp only at hg ha hr
  subst hg ha
  exact hk g a r r1 hr

theorem sim_funLoop (n : Nat) (ih : AllSim n) (e : lexType) (ts ts1 : List lex) (f : function)
    (h : EosRelL ts ts1) :
    SimR QF (parser.funLoop (n + 1) e ts f) (parser.funLoop (n + 1) e ts1 f) := by
  rw [funLoop_unfold, funLoop_unfold]
  refine SimR.bind (sim_get h) ?_
  rintro ⟨l, r⟩ ⟨l1, r1⟩ ⟨hl, hr⟩
  dsimp only at hl hr ⊢
  rw [hl.typ]
  by_cases h1 : l.typ = lexEos
  · rw [if_pos h1, if_pos h1]
    exact ih.funLoop _ _ _ _ hr
  rw [if_neg h1, if_neg h1]
  by_cases h2 : l.typ = lexIf
  · rw [if_pos h2, if_pos h2]
    exact SimR.bindF (ih.pIf _ _ _ hr) (fun g a a1 ha => ih.funEnd _ _ _ _ ha)
  rw [if_neg h2, if_neg h2]
  by_cases h3 : l.typ = lexFor
  · rw [if_pos h3, if_pos h3]
    exact SimR.bindF (ih.pFor _ _ _ hr) (fun g a a1 ha => ih.funEnd _ _ _ _ ha)
  rw [if_neg h3, if_neg h3]
  by_cases h4 : l.typ = lexWhile
  · rw [if_pos h4, if_pos h4]
    exact SimR.bindF (ih.pWhile _ _ _ hr) (fun g a a1 ha => ih.funEnd _ _ _ _ ha)
  rw [if_neg h4, if_neg h4]
  by_cases h5 : l.typ = lexPrint
  · rw [if_pos h5, if_pos h5]
    exact SimR.bindC (ih.callArgs _ _ _ hr) (fun g k a a1 ha => ih.funEnd _ _ _ _ ha)
  rw [if_neg h5, if_neg h5]
  by_cases h6 : l.typ = lexPrintLn
  · rw [if_pos h6, if_pos h6]
    exact SimR.bindC (ih.callArgs _ _ _ hr) (fun g k a a1 ha => ih.funEnd _ _ _ _ ha)
  rw [if_neg h6, if_neg h6]
  by_cases h7 : l.typ = lexReturn
  · rw [if_pos h7, if_pos h7]
    refine SimR.bind (sim_next hr 0) ?_
    intro nt nt1 hn
    rw [hn.typ]
    by_cases h : nt.typ ≠ lexEos ∧ nt.typ ≠ e
    · rw [if_pos h, if_pos h]
      exact SimR.bindF (ih.expr0 _ _ _ _ hr) (fun g a a1 ha => ih.funEnd _ _ _ _ ha)
    · rw [if_neg h, if_neg h]
      exact ih.funEnd _ _ _ _ hr
  rw [if_neg h7, if_neg h7]
  by_cases h8 : l.typ = lexDot ∨ l.typ = lexName
  · rw [if_pos h8, if_pos h8]
    refine SimR.bindF (ih.name _ _ _ _ _ hr hl) ?_
    intro g a a1 ha
    refine SimR.bind (sim_get ha) ?_
    rintro ⟨nx, b⟩ ⟨nx1, b1⟩ ⟨hx, hb⟩
    dsimp only at hx hb ⊢
    rw [hx.typ]
    by_cases k1 : nx.typ = lexEq
    · rw [if_pos k1, if_pos k1]
      exact SimR.bindF (ih.assign _ _ _ hb) (fun g a a1 ha => ih.funEnd _ _ _ _ ha)
    rw [if_neg k1, if_neg k1]
    by_cases k2 : nx.typ = lexLeftPar
    · rw [if_pos k2, if_pos k2]
      exact SimR.bindF (ih.call _ _ _ hb) (fun g a a1 ha => ih.funEnd _ _ _ _ ha)
    rw [if_neg k2, if_neg k2]
    exact SimR.error _ _
  rw [if_neg h8, if_neg h8]
  by_cases h9 : l.typ = e
  · rw [if_pos h9, if_pos h9]
    exact SimR.ok ⟨rfl, hr⟩
  rw [if_neg h9, if_neg h9]
  exact SimR.error _ _

theorem sim_callArgs (n : Nat) (ih : AllSim n) (ts ts1 : List lex) (f : function)
    (h : EosRelL ts ts1) :
    SimR QC (parser.callArgs (n + 1) ts f) (parser.callArgs (n + 1) ts1 f) := by
  simp only [parser.callArgs]
  refine SimR.bind (sim_get h) ?_
  rintro ⟨l, r⟩ ⟨l1, r1⟩ ⟨hl, hr⟩
  dsimp only at hl hr ⊢
  rw [hl.typ]
  by_cases h1 : l.typ ≠ lexLeftPar
  · rw [if_pos h1, if_pos h1]
    exact SimR.error _ _
  · rw [if_neg h1, if_neg h1]
    exact ih.callArgsLoop _ _ _ _ hr

theorem sim_callArgsLoop (n : Nat) (ih : AllSim n) (a : Int) (ts ts1 : List lex) (f : function)
    (h : EosRelL ts ts1) :
    SimR QC (parser.callArgsLoop (n + 1) a ts f) (parser.callArgsLoop (n + 1) a ts1 f) := by
  simp only [parser.callArgsLoop]
  refine SimR.bind (sim_next h 0) ?_
  intro l l1 hl
  rw [hl.typ]
  by_cases h1 : l.typ ≠ lexRightPar
  · rw [if_pos h1, if_pos h1]
    refine SimR.bindF (ih.expr0 _ _ _ _ h) ?_
    intro g r r1 hr
    refine SimR.bind (sim_next hr 0) ?_
    intro nx nx1 hx
    rw [hx.typ]
    by_cases k1 : nx.typ = lexComma
    · rw [if_pos k1, if_pos k1]
      exact ih.callArgsLoop _ _ _ _ (hr.drop 1)
    rw [if_neg k1, if_neg k1]
    by_cases k2 : nx.typ ≠ lexRightPar
    · rw [if_pos k2, if_pos k2]
      exact SimR.error _ _
    rw [if_neg k2, if_neg k2]
    exact ih.callArgsLoop _ _ _ _ hr
  · rw [if_neg h1, if_neg h1]
    exact SimR.ok ⟨rfl, rfl, h.drop 1⟩

theorem sim_exprLoop (n : Nat) (ih : AllSim n) (level : Nat) (ts ts1 : List lex) (f : function)
    (h : EosRelL ts ts1) :
    SimR QF (parser.exprLoop (n + 1) level ts f) (parser.exprLoop (n + 1) level ts1 f) := by
  simp only [parser.exprLoop]
  refine SimR.bind (sim_next h 0) ?_
  intro l l1 hl
  rw [hl.typ]
  cases levelFind level l.typ with
  | none => exact SimR.ok ⟨rfl, h⟩
  | some o =>
    exact SimR.bindF (ih.expr0 _ _ _ _ (h.drop 1)) (fun g r r1 hr => ih.exprLoop _ _ _ _ hr)

theorem sim_name (n : Nat) (ih : AllSim n) (ts ts1 : List lex) (f : function) (l l1 : lex)
    (h : EosRelL ts ts1) (hl : EosRel l l1) :
    SimR QF (parser.name (n + 1) ts f l) (parser.name (n + 1) ts1 f l1) := by
  simp only [parser.name]
  have hv : l.typ ≠ lexEos → l.val = l1.val := by
    intro ht
    rw [hl.eq_of_typ ht]
  refine SimR.bind (sim_nameDots h l l1 _ _ hl hv) ?_
  rintro ⟨nm, m, r⟩ ⟨nm1, m1, r1⟩ ⟨hm, hnm, hr⟩
  dsimp only at hm hnm hr ⊢
  rw [hm.typ]
  by_cases h1 : m.typ ≠ lexName
  · rw [if_pos h1, if_pos h1]
    exact SimR.error _ _
  · rw [if_neg h1, if_neg h1]
    have h2 : m.typ = lexName := by simpa using h1
    rw [← hnm (by rw [h2]; decide)]
    exact ih.nameIndex _ _ _ hr

theorem sim_nameIndex (n : Nat) (ih : AllSim n) (ts ts1 : List lex) (f : function)
    (h : EosRelL ts ts1) :
    SimR QF (parser.nameIndex (n + 1) ts f) (parser.nameIndex (n + 1) ts1 f) := by
  simp only [parser.nameIndex]
  refine SimR.bind (sim_next h 0) ?_
  intro l l1 hl
  rw [hl.typ]
  by_cases h1 : l.typ = lexLeftBracket
  · rw [if_pos h1, if_pos h1]
    refine SimR.bindF (ih.expr0 _ _ _ _ (h.drop 1)) ?_
    intro g r r1 hr
    refine SimR.bind (sim_get hr) ?_
    rintro ⟨x, b⟩ ⟨x1, b1⟩ ⟨hx, hb⟩
    dsimp only at hx hb ⊢
    rw [hx.typ]
    by_cases k1 : x.typ ≠ lexRightBracket
    · rw [if_pos k1, if_pos k1]
      exact SimR.error _ _
    · rw [if_neg k1, if_neg k1]
      exact ih.nameIndex _ _ _ hb
  · rw [if_neg h1, if_neg h1]
    exact SimR.ok ⟨rfl, h⟩

theorem sim_call (n : Nat) (ih : AllSim n) (ts ts1 : List lex) (f : function)
    (h : EosRelL ts ts1) :
    SimR QF (parser.call (n + 1) ts f) (parser.call (n + 1) ts1 f) := by
  simp only [parser.call]
  exact ih.callLoop _ _ _ _ h

theorem sim_callLoop (n : Nat) (ih : AllSim n) (a : Int) (ts ts1 : List lex) (f : function)
    (h : EosRelL ts ts1) :
    SimR QF (parser.callLoop (n + 1) a ts f) (parser.callLoop (n + 1) a ts1 f) := by
  simp only [parser.callLoop]
  refine SimR.bind (sim_next h 0) ?_
  intro l l1 hl
  rw [hl.typ]
  by_cases h1 : l.typ ≠ lexRightPar
  · rw [if_pos h1, if_pos h1]
    refine SimR.bindF (ih.expr0 _ _ _ _ h) ?_
    intro g r r1 hr
    refine SimR.bind (sim_next hr 0) ?_
    intro nx nx1 hx
    rw [hx.typ]
    by_cases k1 : nx.typ = lexComma
    · rw [if_pos k1, if_pos k1]
      exact ih.callLoop _ _ _ _ (hr.drop 1)
    · rw [if_neg k1, if_neg k1]
      exact ih.callLoop _ _ _ _ hr
  · rw [if_neg h1, if_neg h1]
    exact SimR.ok ⟨rfl, h.drop 1⟩

theorem sim_pWhile (n : Nat) (ih : AllSim n) (ts ts1 : List lex) (f : function)
    (h : EosRelL ts ts1) :
    SimR QF (parser.pWhile (n + 1) ts f) (parser.pWhile (n + 1) ts1 f) := by
  simp only [parser.pWhile]
  refine SimR.bindF (ih.expr0 _ _ _ _ h) ?_
  intro g r r1 hr
  refine SimR.bind (sim_next hr 0) ?_
  intro l l1 hl
  rw [hl.typ]
  by_cases h1 : l.typ ≠ lexLeftBrace
  · rw [if_pos h1, if_pos h1]
    exact SimR.error _ _
  · rw [if_neg h1, if_neg h1]
    refine SimR.bindF (ih.pfun _ _ _ hr) ?_
    intro b s s1 hs
    exact SimR.ok ⟨rfl, hs⟩

theorem sim_pIf (n : Nat) (ih : AllSim n) (ts ts1 : List lex) (f : function)
    (h : EosRelL ts ts1) :
    SimR QF (parser.pIf (n + 1) ts f) (parser.pIf (n + 1) ts1 f) := by
  simp only [parser.pIf]
  refine SimR.bindF (ih.expr0 _ _ _ _ h) ?_
  intro g r r1 hr
  refine SimR.bind (sim_next hr 0) ?_
  intro l l1 hl
  rw [hl.typ]
  by_cases h1 : l.typ ≠ lexLeftBrace
  · rw [if_pos h1, if_pos h1]
    exact SimR.error _ _
  rw [if_neg h1, if_neg h1]
  refine SimR.bindF (ih.pfun _ _ _ hr) ?_
  intro b s s1 hs
  refine SimR.bind (sim_next hs 0) ?_
  intro e e1 he
  rw [he.typ]
  by_cases h2 : e.typ = lexElse
  · rw [if_pos h2, if_pos h2]
    refine SimR.bind (sim_next (hs.drop 1) 0) ?_
    intro c c1 hc
    rw [hc.typ]
    by_cases h3 : c.typ ≠ lexLeftBrace
    · rw [if_pos h3, if_pos h3]
      exact SimR.error _ _
    rw [if_neg h3, if_neg h3]
    refine SimR.bindF (ih.pfun _ _ _ (hs.drop 1)) ?_
    intro eb u u1 hu
    exact SimR.ok ⟨rfl, hu⟩
  · rw [if_neg h2, if_neg h2]
    exact SimR.ok ⟨rfl, hs⟩

theorem sim_expr0 (n : Nat) (ih : AllSim n) (level : Nat) (ts ts1 : List lex) (f : function)
    (h : EosRelL ts ts1) :
    SimR QF (parser.expr0 (n + 1) level ts f) (parser.expr0 (n + 1) level ts1 f) := by
  by_cases hl : level < 6
  · have h6 : level < levelLex.length := by simpa [levelLex] using hl
    simp only [parser.expr0, h6, if_true]
    exact SimR.bindF (ih.expr0 _ _ _ _ h) (fun g r r1 hr => ih.exprLoop _ _ _ _ hr)
  · rw [expr0_primary_unfold n level hl, expr0_primary_unfold n level hl]
    refine SimR.bind (sim_get h) ?_
    rintro ⟨l, r⟩ ⟨l1, r1⟩ ⟨hl1, hr⟩
    dsimp only at hl1 hr ⊢
    rw [hl1.typ]
    by_cases h1 : l.typ = lexMinus
    · rw [if_pos h1, if_pos h1]
      exact SimR.bindF (ih.expr0 _ _ _ _ hr) (fun g a a1 ha => SimR.ok ⟨rfl, ha⟩)
    rw [if_neg h1, if_neg h1]
    by_cases h2 : l.typ = lexNot
    · rw [if_pos h2, if_pos h2]
      exact SimR.bindF (ih.expr0 _ _ _ _ hr) (fun g a a1 ha => SimR.ok ⟨rfl, ha⟩)
    rw [if_neg h2, if_neg h2]
    by_cases h3 : l.typ = lexLeftPar
    · rw [if_pos h3, if_pos h3]
      refine SimR.bindF (ih.expr0 _ _ _ _ hr) ?_
      intro g a a1 ha
      refine SimR.bind (sim_get ha) ?_
      rintro ⟨x, b⟩ ⟨x1, b1⟩ ⟨hx, hb⟩
      dsimp only at hx hb ⊢
      rw [hx.typ]
      by_cases k1 : x.typ ≠ lexRightPar
      · rw [if_pos k1, if_pos k1]
        exact SimR.error _ _
      · rw [if_neg k1, if_neg k1]
        exact SimR.ok ⟨rfl, hb⟩
    rw [if_neg h3, if_neg h3]
    by_cases h4 : l.typ = lexDot ∨ l.typ = lexName
    · rw [if_pos h4, if_pos h4]
      refine SimR.bindF (ih.name _ _ _ _ _ hr hl1) ?_
      intro g a a1 ha
      refine SimR.bind (sim_next ha 0) ?_
      intro nx nx1 hx
      rw [hx.typ]
      by_cases k1 : nx.typ = lexLeftPar
      · rw [if_pos k1, if_pos k1]
        exact SimR.bindC (ih.callArgs _ _ _ ha) (fun g k b b1 hb => SimR.ok ⟨rfl, hb⟩)
      · rw [if_neg k1, if_neg k1]
        exact SimR.ok ⟨rfl, ha⟩
    rw [if_neg h4, if_neg h4]
    by_cases h5 : l.typ = lexEos
    · rw [if_pos h5, if_pos h5]
      exact SimR.error _ _
    rw [if_neg h5, if_neg h5]
    rw [hl1.eq_of_typ h5]
    cases parser.expr0 (n + 1) level [l] f with
    | error e => exact SimR.error _ _
    | ok p => exact SimR.ok ⟨rfl, hr⟩

theorem sim_funArgs (n : Nat) {ts ts1 : List lex} (h : EosRelL ts ts1) :
    SimR QF (parser.funArgs n ts) (parser.funArgs n ts1) :=
  sim_funArgsLoop n (h.drop 1) []

theorem sim_assign (n : Nat) (ih : AllSim n) (ts ts1 : List lex) (f : function)
    (h : EosRelL ts ts1) :
    SimR QF (parser.assign (n + 1) ts f) (parser.assign (n + 1) ts1 f) := by
  simp only [parser.assign, pure_bind, if_true, Bool.false_eq_true, if_false,
    decide_eq_true_eq]
  have hexpr : SimR QF
      (do let y ← parser.expr0 n 0 ts f; pure (y.1 ++ [op.mk opStoreStr .nil], y.2))
      (do let y ← parser.expr0 n 0 ts1 f; pure (y.1 ++ [op.mk opStoreStr .nil], y.2)) :=
    SimR.bindF (ih.expr0 _ _ _ _ h) (fun g r r1 hr => SimR.ok ⟨rfl, hr⟩)
  have hlit : SimR QF
      (do
        let d ← parser.funArgs n ts
        let b ← parser.fun n d.2 d.1
        pure (f ++ [op.mk opFunction (.function b.1)] ++ [op.mk opStoreStr .nil], b.2))
      (do
        let d ← parser.funArgs n ts1
        let b ← parser.fun n d.2 d.1
        pure (f ++ [op.mk opFunction (.function b.1)] ++ [op.mk opStoreStr .nil], b.2)) :=
    SimR.bindF (sim_funArgs n h) (fun args r r1 hr =>
      SimR.bindF (ih.pfun _ _ _ hr) (fun g s s1 hs => SimR.ok ⟨rfl, hs⟩))
  refine SimR.bind (sim_next h 0) ?_
  intro l0 m0 h0
  rw [h0.typ]
  by_cases c0 : l0.typ = lexLeftPar
  · rw [if_pos c0, if_pos c0]
    refine SimR.bind (sim_next h 1) ?_
    intro l1 m1 h1
    rw [h1.typ]
    by_cases c1 : l1.typ = lexRightPar
    · rw [if_pos c1, if_pos c1]
      refine SimR.bind (sim_next (h.drop 2) 0) ?_
      intro l m hl
      rw [hl.typ]
      by_cases c2 : l.typ ≠ lexLeftBrace
      · rw [if_pos c2, if_pos c2]
        exact SimR.error _ _
      · rw [if_neg c2, if_neg c2]
        exact SimR.bindF (ih.pfun _ _ _ (h.drop 2)) (fun g r r1 hr => SimR.ok ⟨rfl, hr⟩)
    rw [if_neg c1, if_neg c1]
    by_cases c3 : l1.typ = lexName
    · rw [if_pos c3, if_pos c3]
      refine SimR.bind (sim_next h 2) ?_
      intro l2 m2 h2
      rw [h2.typ]
      by_cases c4 : l2.typ = lexComma
      · rw [if_pos c4, if_pos c4]
        exact hlit
      rw [if_neg c4, if_neg c4]
      by_cases c5 : l2.typ = lexRightPar
      · rw [if_pos c5, if_pos c5]
        refine SimR.bind (sim_next h 3) ?_
        intro l3 m3 h3
        rw [h3.typ]
        by_cases c6 : l3.typ = lexLeftBrace
        · rw [if_pos c6, if_pos c6]
          exact hlit
        · rw [if_neg c6, if_neg c6]
          exact hexpr
      · rw [if_neg c5, if_neg c5]
        exact hexpr
    · rw [if_neg c3, if_neg c3]
      exact hexpr
  · rw [if_neg c0, if_neg c0]
    exact hexpr

theorem sim_assignOrNone (n : Nat) (ih : AllSim n) (ts ts1 : List lex) (f : function)
    (h : EosRelL ts ts1) :
    SimR QF (parser.assignOrNone (n + 1) ts f) (parser.assignOrNone (n + 1) ts1 f) := by
  simp only [parser.assignOrNone]
  cases h with
  | nil => exact SimR.error _ _
  | cons hab hr =>
    rename_i t t1 r r1
    simp only [parser.next, List.get?, parser.get, bind, Except.bind]
    by_cases hv : t.val = ";"
    · have e := hab.val_semicolon hv
      subst e
      simp only [hv, ne_eq, not_true_eq_false, if_false]
      exact SimR.ok ⟨rfl, List.Forall₂.cons hab hr⟩
    · have hne : t.val ≠ ";" := hv
      rw [if_pos hne]
      by_cases ht : t.typ = lexEos
      · obtain ⟨e, he⟩ := name_eos_fails n r f t ht
        rw [he]
        exact SimR.error _ _
      · have e := hab.eq_of_typ ht
        subst e
        rw [if_pos hne]
        refine SimR.bindF (ih.name _ _ _ _ _ hr hab) ?_
        intro g a a1 ha
        refine SimR.bind (sim_get ha) ?_
        rintro ⟨x, b⟩ ⟨x1, b1⟩ ⟨hx, hb⟩
        dsimp only at hx hb ⊢
        rw [hx.typ]
        by_cases k1 : x.typ ≠ lexEq
        · rw [if_pos k1, if_pos k1]
          exact SimR.error _ _
        · rw [if_neg k1, if_neg k1]
          exact ih.assign _ _ _ hb

theorem sim_pFor (n : Nat) (ih : AllSim n) (ts ts1 : List lex) (f : function)
    (h : EosRelL ts ts1) :
    SimR QF (parser.pFor (n + 1) ts f) (parser.pFor (n + 1) ts1 f) := by
  simp only [parser.pFor]
  refine SimR.bindF (ih.assignOrNone _ _ _ h) ?_
  intro g r r1 hr
  refine SimR.bind (sim_semicolon hr) ?_
  intro a a1 ha
  refine SimR.bindF (ih.expr0 _ _ _ _ ha) ?_
  intro g2 b b1 hb
  refine SimR.bind (sim_semicolon hb) ?_
  intro c c1 hc
  refine SimR.bindF (ih.assignOrNone _ _ _ hc) ?_
  intro after d d1 hd
  refine SimR.bind (sim_next hd 0) ?_
  intro l l1 hl
  rw [hl.typ]
  by_cases h1 : l.typ ≠ lexLeftBrace
  · rw [if_pos h1, if_pos h1]
    exact SimR.error _ _
  · rw [if_neg h1, if_neg h1]
    exact SimR.bindF (ih.pfun _ _ _ hd) (fun body s s1 hs => SimR.ok ⟨rfl, hs⟩)

theorem allSim (n : Nat) : AllSim n := by
  induction n with
  | zero => exact allSim_zero
  | succ n ih =>
    exact ⟨sim_pfun n ih, sim_funLoop n ih, sim_funEnd n ih, sim_assign n ih,
      sim_callArgs n ih, sim_callArgsLoop n ih, sim_expr0 n ih, sim_exprLoop n ih,
      sim_name n ih, sim_nameIndex n ih, sim_call n ih, sim_callLoop n ih, sim_pIf n ih,
      sim_assignOrNone n ih, sim_pFor n ih, sim_pWhile n ih⟩

theorem levelFind_table (level : Nat) (ty : lexType) (p : opType) :
    levelFind level ty = some p ↔
      (level, ty, p) ∈ [(0, lexOr, opOr), (1, lexAnd, opAnd), (2, lexEqEq, opEq),
        (2, lexNeq, opNeq), (3, lexLess, opLess), (3, lexGreater, opGreater),
        (3, lexLeq, opLeq), (3, lexGeq, opGeq), (4, lexPlus, opSum), (4, lexMinus, opSub),
        (5, lexMul, opMul), (5, lexDiv, opDiv), (5, lexMod, opMod)] := by
  constructor
  · intro h
    have hl : level < 6 := by
      by_contra hc
      rw [levelFind_ge level (by omega) ty] at h
      cases h
    interval_cases level <;> cases ty <;>
      simp [levelFind, levelLex, levelOp, findOp] at h <;> subst h <;> simp
  · intro h
    simp only [List.mem_cons, Prod.mk.injEq, List.mem_singleton, List.not_mem_nil, or_false] at h
    rcases h with ⟨rfl, rfl, rfl⟩ | ⟨rfl, rfl, rfl⟩ | ⟨rfl, rfl, rfl⟩ | ⟨rfl, rfl, rfl⟩ |
      ⟨rfl, rfl, rfl⟩ | ⟨rfl, rfl, rfl⟩ | ⟨rfl, rfl, rfl⟩ | ⟨rfl, rfl, rfl⟩ | ⟨rfl, rfl, rfl⟩ |
      ⟨rfl, rfl, rfl⟩ | ⟨rfl, rfl, rfl⟩ | ⟨rfl, rfl, rfl⟩ | ⟨rfl, rfl, rfl⟩ <;> rfl

theorem eosRelL_refl (ts : List lex) : EosRelL ts ts := by
  induction ts with
  | nil => exact List.Forall₂.nil
  | cons t r ih => exact List.Forall₂.cons (Or.inl rfl) ih

theorem eosRelL_replace (pre post : List lex) :
    EosRelL (pre ++ ⟨lexEos, "\n"⟩ :: post) (pre ++ ⟨lexEos, ";"⟩ :: post) := by
  induction pre with
  | nil => exact List.Forall₂.cons (Or.inr ⟨rfl, rfl⟩) (eosRelL_refl post)
  | cons t r ih => exact List.Forall₂.cons (Or.inl rfl) ih

theorem parseLexemes_sim (ts ts1 : List lex) (h : EosRelL ts ts1) (B : function)
    (hp : parseLexemes ts = .ok B) : parseLexemes ts1 = .ok B := by
  unfold parseLexemes at hp ⊢
  have hlen : ts1.length = ts.length := (List.Forall₂.length_eq h).symm
  have hf : parseFuel ts1 = parseFuel ts := by simp [parseFuel, hlen]
  rw [hf]
  cases hx : parser.fun (parseFuel ts) ts [] with
  | error e => rw [hx] at hp; cases hp
  | ok a =>
    rw [hx] at hp
    obtain ⟨a1, h1, hq⟩ := (allSim (parseFuel ts)).pfun ts ts1 [] h a hx
    rw [h1]
    simp only [Except.map] at hp ⊢
    cases hp
    rw [hq.1]

/-- C3 (the code departs from the claim): `opOr` with `true` on top of the stack, and `opAnd`
with `false` on top, pop only that one value and push the result, so the value below stays
on the stack, whatever it is, and a value below that is not a boolean raises no error; with
the other boolean on top both values are popped and the result is the one below. -/
theorem opOr_opAnd_pop_one_operand (a : Value) (b : Bool) (vars : List (String × Value))
    (rest : List Value) (parents : List interpreter) (w : World) :
    interpreter.exec (op.mk opOr .nil) ⟨vars, .bool true :: a :: rest⟩ parents w =
      .ok (⟨vars, .bool true :: a :: rest⟩, parents, w) ∧
    interpreter.exec (op.mk opAnd .nil) ⟨vars, .bool false :: a :: rest⟩ parents w =
      .ok (⟨vars, .bool false :: a :: rest⟩, parents, w) ∧
    interpreter.exec (op.mk opOr .nil) ⟨vars, .bool false :: .bool b :: rest⟩ parents w =
      .ok (⟨vars, .bool b :: rest⟩, parents, w) ∧
    interpreter.exec (op.mk opAnd .nil) ⟨vars, .bool true :: .bool b :: rest⟩ parents w =
      .ok (⟨vars, .bool b :: rest⟩, parents, w) :=
  ⟨rfl, rfl, rfl, rfl⟩

/-- C4 (the code departs from the claim): `opNeg` pushes the Go `int` constant -1 and falls
through to the multiplication, whose `numberOp` accepts only `int64` and `float64`: on every
stack, with a number on top or not, `opNeg` is the runtime error of `opMul`. -/
theorem opNeg_is_runtime_error (p : Value) (i : interpreter) (parents : List interpreter)
    (w : World) :
    interpreter.exec (op.mk opNeg p) i parents w =
      .error (.runtimeErr "opMul failed: wrong type of first argument") :=
  rfl

/-- C5 (the code departs from the claim): the statement `@print(false || true)` compiles to
four opcodes, and running them from an empty stack ends without a runtime error and without
a return, having printed `true`, with the value `false` left on the stack. -/
theorem print_or_leaves_operand_on_stack (w : World) :
    parse "@print(false || true)" =
      .ok [op.mk opBool (.bool false), op.mk opBool (.bool true), op.mk opOr .nil,
        op.mk opPrint (.int 1)] ∧
    interpreter.run 5
        [op.mk opBool (.bool false), op.mk opBool (.bool true), op.mk opOr .nil,
          op.mk opPrint (.int 1)] 0 ⟨[], []⟩ [] w =
      .ok (.nil, ⟨[], [.bool false]⟩, [], { w with stdout := w.stdout ++ "true" }) :=
  ⟨rfl, rfl⟩

/-- C8 (the code departs from the claim): `for ; true ; { }` does not parse, because
`parser.assignOrNone` takes the step for absent only before a semicolon and here meets the
opening brace, while `while true { }` parses. -/
theorem for_with_empty_step_does_not_parse :
    parse "for ; true ; \x7b \x7d" =
      .error (.parseErr "name or ." ⟨lexLeftBrace, "\x7b"⟩) ∧
    parse "while true \x7b \x7d" =
      .ok [op.mk opBool (.bool true), op.mk opJmpFalse (.int 2), op.mk opJmp (.int (-2))] :=
  ⟨rfl, rfl⟩

/-- C9 (the code departs from the claim): the literal `"š"`, whose closing quote follows a
rune of two bytes and no backslash, is lexed as an error lexeme and not as a string, because
the count of backslashes is taken from the byte offset of the start of that rune; the same
literal with an ASCII letter is a string lexeme. -/
theorem string_after_two_byte_rune_is_error :
    lexAll "\"š\"" = .ok [⟨lexError, "\"š\""⟩, ⟨lexEof, ""⟩] ∧
    lexAll "\"s\"" = .ok [⟨lexString, "\"s\""⟩, ⟨lexEof, ""⟩] :=
  ⟨rfl, rfl⟩

/-- Witness of C10: `ifa` is one identifier, and `if` before a space is the keyword. -/
theorem keyword_word_boundary_witness :
    lexAll "ifa" = .ok [⟨lexName, "ifa"⟩, ⟨lexEof, ""⟩] ∧
    lexer.run 3 "if ".toList = .ok [⟨lexIf, "if"⟩, ⟨lexEof, ""⟩] :=
  ⟨(keyword_word_boundary "if" lexIf (by simp)).2 ['a'] (by simp) (by decide),
   (keyword_word_boundary "if" lexIf (by simp)).1 [' '] 2 (by decide)⟩

/-! ### The lexer reads every source text to its end -/

theorem dropBytes_length_le (n : Nat) (cs : List Char) : (dropBytes n cs).length ≤ cs.length := by
  induction cs generalizing n with
  | nil => simp [dropBytes]
  | cons c cs ih =>
    simp only [dropBytes]
    split_ifs
    · exact Nat.le_refl _
    · exact Nat.le_trans (ih _) (Nat.le_succ _)

theorem dropBytes_length_lt (n : Nat) (c : Char) (cs : List Char) (h : 0 < n) :
    (dropBytes n (c :: cs)).length < (c :: cs).length := by
  simp only [dropBytes, if_neg (Nat.pos_iff_ne_zero.mp h), List.length_cons]
  exact Nat.lt_succ_of_le (dropBytes_length_le _ _)

theorem skipUntil_length_le (s cs : List Char) : (lexer.skipUntil s cs).length ≤ cs.length := by
  unfold lexer.skipUntil
  split
  · simp
  · exact dropBytes_length_le _ _

theorem byteLen_pos (c : Char) (cs : List Char) : 0 < byteLen (c :: cs) := by
  have := runeLen_pos c
  simp only [byteLen]
  omega

theorem scanTwoRunes_pos (input : List Char) (str : String) (t : lexType)
    (h : scanTwoRunes input = some (str, t)) : 0 < byteLen str.toList := by
  have hm := List.mem_of_find?_eq_some h
  simp only [twoRunesLexeme, List.mem_cons, Prod.mk.injEq, List.mem_singleton,
    List.not_mem_nil, or_false] at hm
  rcases hm with ⟨rfl, _⟩ | ⟨rfl, _⟩ | ⟨rfl, _⟩ | ⟨rfl, _⟩ | ⟨rfl, _⟩ | ⟨rfl, _⟩ <;> decide

theorem scanString_pos (input : List Char) (str : String) (t : lexType)
    (h : scanString input = some (str, t)) : 0 < byteLen str.toList := by
  have hm := List.mem_of_find?_eq_some h
  simp only [stringLexeme, List.mem_cons, Prod.mk.injEq, List.mem_singleton,
    List.not_mem_nil, or_false] at hm
  rcases hm with ⟨rfl, _⟩ | ⟨rfl, _⟩ | ⟨rfl, _⟩ | ⟨rfl, _⟩ | ⟨rfl, _⟩ | ⟨rfl, _⟩ | ⟨rfl, _⟩ |
    ⟨rfl, _⟩ | ⟨rfl, _⟩ | ⟨rfl, _⟩ | ⟨rfl, _⟩ | ⟨rfl, _⟩ | ⟨rfl, _⟩ | ⟨rfl, _⟩ <;> decide

theorem step_shorter (input : List Char) : (lexer.step input).Shorter input := by
  cases input with
  | nil => simp [lexer.step, lexStep.Shorter]
  | cons r rest0 =>
    have hr := runeLen_pos r
    have hb := byteLen_pos r rest0
    have e1 : ∀ n, 0 < n → (dropBytes n (r :: rest0)).length < (r :: rest0).length :=
      fun n hn => dropBytes_length_lt n r rest0 hn
    have e2 : ∀ (s : List Char) n, 0 < n →
        (lexer.skipUntil s (dropBytes n (r :: rest0))).length < (r :: rest0).length :=
      fun s n hn => Nat.lt_of_le_of_lt (skipUntil_length_le _ _) (e1 n hn)
    have e3 : ∀ (s : List Char) n, 0 < n →
        (dropBytes 0 (lexer.skipUntil s (dropBytes n (r :: rest0)))).length
          < (r :: rest0).length :=
      fun s n hn => Nat.lt_of_le_of_lt (dropBytes_length_le _ _) (e2 s n hn)
    unfold lexer.step
    simp only []
    repeat' split
    all_goals first
      | trivial
      | (simp only [lexStep.Shorter, lexer.emit]; apply e1; omega)
      | (rename_i h
         simp only [lexStep.Shorter, lexer.emit]; apply e1
         first
           | exact scanTwoRunes_pos _ _ _ h
           | exact scanString_pos _ _ _ h)
      | (rename_i h
         repeat' (split at h)
         all_goals first
           | (injection h with h; subst h; exact trivial)
           | (injection h with h; subst h
              simp only [lexStep.Shorter, lexer.emit]
              first | (apply e3; omega) | (apply e2; omega))
           | cases h)

theorem byteLen_dropBytes_le (n : Nat) (cs : List Char) :
    byteLen (dropBytes n cs) ≤ byteLen cs - n := by
  induction cs generalizing n with
  | nil => simp [dropBytes, byteLen]
  | cons c cs ih =>
    simp only [dropBytes]
    split_ifs with h
    · subst h; simp
    · have := ih (n - runeLen c)
      simp only [byteLen]
      omega

theorem index_lt (sep : List Char) (hsep : sep ≠ []) (cs : List Char) (i : Nat)
    (h : index sep cs = some i) : i < byteLen cs := by
  induction cs generalizing i with
  | nil =>
    cases sep with
    | nil => exact absurd rfl hsep
    | cons a b => simp [index] at h
  | cons c cs ih =>
    have hc := runeLen_pos c
    simp only [index] at h
    split_ifs at h with hp
    · cases h
      simp only [byteLen]
      omega
    · cases hi : index sep cs with
      | none => rw [hi] at h; simp at h
      | some j =>
        rw [hi] at h
        simp only [Option.map_some', Option.some.injEq] at h
        have := ih j hi
        simp only [byteLen]
        omega

theorem stringScan_fuel (fuel : Nat) (input : List Char) (s : Nat)
    (h0 : 0 < fuel) (h : byteLen input < fuel + s) (e : Err) :
    stringScan fuel input s ≠ .error e := by
  induction fuel generalizing s with
  | zero => exact absurd h0 (Nat.lt_irrefl 0)
  | succ n ih =>
    rw [stringScan]
    cases hi : index ['"'] (dropBytes s input) with
    | none => simp
    | some i =>
      simp only []
      split_ifs
      · simp
      · have h1 := index_lt ['"'] (by simp) _ i hi
        have h2 := byteLen_dropBytes_le s input
        exact ih (s + i + 1) (by omega) (by omega)

theorem step_failed_panic (input : List Char) (e : Err)
    (hf : lexer.step input = .failed e) : e = .panic "utf8.RuneError" := by
  cases input with
  | nil => simp [lexer.step] at hf
  | cons r rest0 =>
    have hr := runeLen_pos r
    revert hf
    unfold lexer.step
    simp only []
    repeat' split
    all_goals first
      | (intro h; cases h; done)
      | (intro h; cases h; rfl)
      | (rename_i h
         exact absurd h (stringScan_fuel _ _ _ (by omega) (by omega) _))
      | (rename_i h
         repeat' (split at h)
         all_goals first
           | (injection h with h; subst h; intro h2; cases h2; done)
           | (injection h with h; subst h; intro h2; cases h2; rfl)
           | cases h)

theorem lexer_run_ok (fuel : Nat) (input : List Char) (h : input.length < fuel) :
    (∃ ls, lexer.run fuel input = .ok ls) ∨
      lexer.run fuel input = .error (.panic "utf8.RuneError") := by
  induction fuel generalizing input with
  | zero => omega
  | succ n ih =>
    rw [lexer.run]
    have hsh := step_shorter input
    cases hst : lexer.step input with
    | emitted l rest =>
      rw [hst] at hsh
      simp only [lexStep.Shorter] at hsh
      rcases ih rest (by omega) with ⟨ls, hls⟩ | hls
      · exact .inl ⟨l :: ls, by simp only [hls, Except.map]⟩
      · exact .inr (by simp only [hls, Except.map])
    | skipped rest =>
      rw [hst] at hsh
      simp only [lexStep.Shorter] at hsh
      exact ih rest (by omega)
    | halted l => exact .inl ⟨_, rfl⟩
    | atEof => exact .inl ⟨_, rfl⟩
    | failed e => exact .inr (by rw [step_failed_panic input e hst])

/-- The lexer ends on every source text within the fuel `lexAll` gives it: it returns the
lexemes, or stops on the panic of `utf8.RuneError`; it never ends for lack of fuel. -/
theorem lexAll_total (source : String) :
    (∃ ls, lexAll source = .ok ls) ∨ lexAll source = .error (.panic "utf8.RuneError") :=
  lexer_run_ok _ _ (Nat.lt_succ_self _)

/-! ### Arithmetic, comparison, printing and return (C11 to C14, C17, C18) -/

/-- C11: `opSum` on a stack with the right operand `b` on top of the left operand `a` pops
both and pushes the wrapped 64-bit sum for two `int64`, the concatenation for two strings,
`a` followed by the decimal form of `b` for a string and an `int64`, the decimal form of `a`
followed by `b` for an `int64` and a string; it is a runtime error when either operand is a
boolean, a function or `nil`. -/
theorem opSum_contract (p : Value) (vars : List (String × Value)) (rest : List Value)
    (parents : List interpreter) (w : World) :
    (∀ a b : Int, interpreter.exec (op.mk opSum p) ⟨vars, .int64 b :: .int64 a :: rest⟩ parents w =
        .ok (⟨vars, .int64 (wrap64 (a + b)) :: rest⟩, parents, w)) ∧
    (∀ a b : String,
      interpreter.exec (op.mk opSum p) ⟨vars, .string b :: .string a :: rest⟩ parents w =
        .ok (⟨vars, .string (a ++ b) :: rest⟩, parents, w)) ∧
    (∀ (a : String) (b : Int),
      interpreter.exec (op.mk opSum p) ⟨vars, .int64 b :: .string a :: rest⟩ parents w =
        .ok (⟨vars, .string (a ++ itoa b) :: rest⟩, parents, w)) ∧
    (∀ (a : Int) (b : String),
      interpreter.exec (op.mk opSum p) ⟨vars, .string b :: .int64 a :: rest⟩ parents w =
        .ok (⟨vars, .string (itoa a ++ b) :: rest⟩, parents, w)) ∧
    (∀ a b : Value, a.isBoolFunNil = true ∨ b.isBoolFunNil = true →
      ∃ msg, interpreter.exec (op.mk opSum p) ⟨vars, b :: a :: rest⟩ parents w =
        .error (.runtimeErr msg)) := by
  refine ⟨fun _ _ => rfl, fun _ _ => rfl, fun _ _ => rfl, fun _ _ => rfl, ?_⟩
  intro a b h
  cases b <;> cases a <;> simp [Value.isBoolFunNil] at h <;> exact ⟨_, rfl⟩

theorem wrap64_isInt64 (x : Int) : IsInt64 (wrap64 x) := by
  unfold IsInt64 wrap64
  have h1 := Int.emod_nonneg (x + 2 ^ 63) (by norm_num : (2 : Int) ^ 64 ≠ 0)
  have h2 := Int.emod_lt_of_pos (x + 2 ^ 63) (by norm_num : (0 : Int) < 2 ^ 64)
  constructor <;> omega

theorem wrap64_congr (x : Int) : (2 : Int) ^ 64 ∣ wrap64 x - x := by
  unfold wrap64
  have h := Int.emod_add_ediv (x + 2 ^ 63) (2 ^ 64)
  exact ⟨-((x + 2 ^ 63) / 2 ^ 64), by linarith⟩

theorem wrap64_of_isInt64 (x : Int) (h : IsInt64 x) : wrap64 x = x := by
  unfold IsInt64 at h
  unfold wrap64
  rw [Int.emod_eq_of_lt (by omega) (by omega)]
  omega

theorem neg_tmod (a b : Int) : Int.tmod (-a) b = -Int.tmod a b := by
  rw [Int.tmod_def, Int.tmod_def, Int.neg_tdiv]
  ring

theorem tmod_bounds_nonneg (a b : Int) (ha : 0 ≤ a) (hb : b ≠ 0) :
    0 ≤ Int.tmod a b ∧ Int.tmod a b < |b| := by
  refine ⟨Int.tmod_nonneg b ha, ?_⟩
  rcases lt_or_gt_of_ne hb with h | h
  · rw [abs_of_neg h, ← Int.tmod_neg]
    exact Int.tmod_lt_of_pos a (by omega)
  · rw [abs_of_pos h]
    exact Int.tmod_lt_of_pos a h

theorem tmod_bounds (a b : Int) (hb : b ≠ 0) :
    |Int.tmod a b| < |b| ∧ (0 ≤ a → 0 ≤ Int.tmod a b) ∧ (a ≤ 0 → Int.tmod a b ≤ 0) := by
  rcases le_total 0 a with ha | ha
  · obtain ⟨h1, h2⟩ := tmod_bounds_nonneg a b ha hb
    refine ⟨by rw [abs_of_nonneg h1]; exact h2, fun _ => h1, fun h => ?_⟩
    have : a = 0 := le_antisymm h ha
    subst this
    simp
  · obtain ⟨h1, h2⟩ := tmod_bounds_nonneg (-a) b (by omega) hb
    rw [neg_tmod] at h1 h2
    refine ⟨by rw [abs_of_nonpos (by omega)]; exact h2, fun h => ?_, fun _ => by omega⟩
    have : a = 0 := le_antisymm ha h
    subst this
    simp

theorem tdiv_isInt64 (a b : Int) (ha : IsInt64 a) (h : ¬(a = -2 ^ 63 ∧ b = -1)) :
    IsInt64 (Int.tdiv a b) := by
  have hn := Int.natAbs_tdiv a b
  have hle : (Int.tdiv a b).natAbs ≤ a.natAbs := by
    rw [hn]; exact Nat.div_le_self _ _
  unfold IsInt64 at *
  by_cases hb1 : b = -1
  · subst hb1
    rw [show (-1 : Int) = -(1 : Int) from rfl, Int.tdiv_neg, Int.tdiv_one]
    have : a ≠ -2 ^ 63 := fun h1 => h ⟨h1, rfl⟩
    omega
  · by_cases hb0 : b.natAbs ≤ 1
    · have hb : b = 0 ∨ b = 1 := by omega
      rcases hb with rfl | rfl
      · simp
      · simp only [Int.tdiv_one]; exact ha
    · have h2 : a.natAbs / b.natAbs ≤ a.natAbs / 2 :=
        Nat.div_le_div_left (by omega) (by omega)
      have h3 : (Int.tdiv a b).natAbs ≤ a.natAbs / 2 := by
        rw [hn]; exact h2
      omega

/-- C12: for `int64` operands `a` (left) and `b` (right), `opSub` and `opMul` push the wrapped
difference and product; for `b ≠ 0`, `opDiv` and `opMod` push `int64` values `q` and `r` with
`r` the remainder of truncated division, `q` the truncated quotient (except for the pair
`-2^63`, `-1`, whose quotient wraps to `-2^63`), `q * b + r = a` in 64-bit arithmetic,
`|r| < |b|` and `r` of the sign of `a`; `opMod` with a `float64` on either side is a runtime
error. -/
theorem int_arithmetic_contract (p : Value) (vars : List (String × Value)) (rest : List Value)
    (parents : List interpreter) (w : World) (a b : Int) (ha : IsInt64 a) (hb : IsInt64 b) :
    interpreter.exec (op.mk opSub p) ⟨vars, .int64 b :: .int64 a :: rest⟩ parents w =
        .ok (⟨vars, .int64 (wrap64 (a - b)) :: rest⟩, parents, w) ∧
    interpreter.exec (op.mk opMul p) ⟨vars, .int64 b :: .int64 a :: rest⟩ parents w =
        .ok (⟨vars, .int64 (wrap64 (a * b)) :: rest⟩, parents, w) ∧
    (b ≠ 0 → ∃ q r : Int,
      interpreter.exec (op.mk opDiv p) ⟨vars, .int64 b :: .int64 a :: rest⟩ parents w =
        .ok (⟨vars, .int64 q :: rest⟩, parents, w) ∧
      interpreter.exec (op.mk opMod p) ⟨vars, .int64 b :: .int64 a :: rest⟩ parents w =
        .ok (⟨vars, .int64 r :: rest⟩, parents, w) ∧
      IsInt64 q ∧ IsInt64 r ∧ r = Int.tmod a b ∧
      ((a = -2 ^ 63 ∧ b = -1) ∨ (q = Int.tdiv a b ∧ q * b + r = a)) ∧
      wrap64 (q * b + r) = a ∧ |r| < |b| ∧ (0 ≤ a → 0 ≤ r) ∧ (a ≤ 0 → r ≤ 0)) ∧
    (∀ (x : Float) (v : Value),
      (∃ msg, interpreter.exec (op.mk opMod p) ⟨vars, .float64 x :: v :: rest⟩ parents w =
        .error (.runtimeErr msg)) ∧
      (∃ msg, interpreter.exec (op.mk opMod p) ⟨vars, v :: .float64 x :: rest⟩ parents w =
        .error (.runtimeErr msg))) := by
  refine ⟨rfl, rfl, fun hb0 => ?_, fun x v => ?_⟩
  · obtain ⟨hr1, hr2, hr3⟩ := tmod_bounds a b hb0
    have hr : IsInt64 (Int.tmod a b) := by
      unfold IsInt64 at *
      rw [abs_lt] at hr1
      rcases abs_cases b with ⟨h1, _⟩ | ⟨h1, _⟩ <;> rw [h1] at hr1 <;> omega
    refine ⟨wrap64 (Int.tdiv a b), wrap64 (Int.tmod a b), ?_, ?_, wrap64_isInt64 _,
      wrap64_isInt64 _, wrap64_of_isInt64 _ hr, ?_, ?_, ?_, ?_, ?_⟩
    · show (divInt64 a b >>= fun r => pure (interpreter.push ⟨vars, rest⟩ (.int64 r))) >>=
        (fun i => pure (i, parents, w)) = _
      rw [divInt64, if_neg hb0]
      rfl
    · show (modInt64 a b >>= fun r => pure (interpreter.push ⟨vars, rest⟩ (.int64 r))) >>=
        (fun i => pure (i, parents, w)) = _
      rw [modInt64, if_neg hb0]
      rfl
    · by_cases h : a = -2 ^ 63 ∧ b = -1
      · exact .inl h
      · refine .inr ?_
        rw [wrap64_of_isInt64 _ (tdiv_isInt64 a b ha h), wrap64_of_isInt64 _ hr]
        exact ⟨rfl, Int.tdiv_add_tmod' a b⟩
    · by_cases h : a = -2 ^ 63 ∧ b = -1
      · obtain ⟨rfl, rfl⟩ := h
        decide
      · rw [wrap64_of_isInt64 _ (tdiv_isInt64 a b ha h), wrap64_of_isInt64 _ hr,
          Int.tdiv_add_tmod' a b]
        exact wrap64_of_isInt64 _ ha
    · rw [wrap64_of_isInt64 _ hr]; exact hr1
    · rw [wrap64_of_isInt64 _ hr]; exact hr2
    · rw [wrap64_of_isInt64 _ hr]; exact hr3
  · constructor <;> cases v <;> exact ⟨_, rfl⟩

/-- Witness for C12 at `a = -7`, `b = 2`: quotient `-3`, remainder `-1`. -/
theorem int_arithmetic_contract_witness :
    IsInt64 (-7) ∧ IsInt64 2 ∧
    interpreter.exec (op.mk opDiv .nil) ⟨[], [.int64 2, .int64 (-7)]⟩ [] ⟨[], "", fun _ => 0, 0⟩ =
      .ok (⟨[], [.int64 (-3)]⟩, [], ⟨[], "", fun _ => 0, 0⟩) ∧
    interpreter.exec (op.mk opMod .nil) ⟨[], [.int64 2, .int64 (-7)]⟩ [] ⟨[], "", fun _ => 0, 0⟩ =
      .ok (⟨[], [.int64 (-1)]⟩, [], ⟨[], "", fun _ => 0, 0⟩) ∧
    interpreter.exec (op.mk opSub .nil) ⟨[], [.int64 2, .int64 (-7)]⟩ [] ⟨[], "", fun _ => 0, 0⟩ =
      .ok (⟨[], [.int64 (wrap64 (-7 - 2))]⟩, [], ⟨[], "", fun _ => 0, 0⟩) :=
  ⟨by decide, by decide, rfl, rfl,
    (int_arithmetic_contract .nil [] [] [] ⟨[], "", fun _ => 0, 0⟩ (-7) 2 (by decide) (by decide)).1⟩

theorem cmp_cases (t : opType) (ht : t ∈ [opEq, opNeq, opLess, opGreater, opLeq, opGeq])
    (p : Value) (vars : List (String × Value)) (rest : List Value)
    (parents : List interpreter) (w : World) (a b : Value) :
    (Comparable t a b ∧ ∃ r : Bool,
        interpreter.exec (op.mk t p) ⟨vars, b :: a :: rest⟩ parents w =
          .ok (⟨vars, .bool r :: rest⟩, parents, w)) ∨
      (¬Comparable t a b ∧ ∃ msg,
        interpreter.exec (op.mk t p) ⟨vars, b :: a :: rest⟩ parents w =
          .error (.runtimeErr msg)) := by
  simp only [List.mem_cons, List.mem_singleton, List.not_mem_nil, or_false] at ht
  rcases ht with rfl | rfl | rfl | rfl | rfl | rfl <;> cases a <;> cases b <;>
    first
      | exact .inl ⟨by simp [Comparable, Value.isNumber, Value.isString, Value.isBool], _, rfl⟩
      | exact .inr ⟨by simp [Comparable, Value.isNumber, Value.isString, Value.isBool], _, rfl⟩

/-- C13: a comparison opcode on operands `a` (left) and `b` (right) pushes a boolean exactly
when the operands are comparable (two numbers, two strings, or two booleans under `opEq` and
`opNeq`) and is a runtime error otherwise; for two `int64` it pushes the integer comparison,
for two strings the comparison of their lists of runes in lexicographic order, for two
booleans their equality or inequality. -/
theorem comparison_contract (t : opType)
    (ht : t ∈ [opEq, opNeq, opLess, opGreater, opLeq, opGeq])
    (p : Value) (vars : List (String × Value)) (rest : List Value)
    (parents : List interpreter) (w : World) :
    (∀ a b : Value,
      ((∃ r : Bool, interpreter.exec (op.mk t p) ⟨vars, b :: a :: rest⟩ parents w =
          .ok (⟨vars, .bool r :: rest⟩, parents, w)) ↔ Comparable t a b) ∧
      (¬Comparable t a b → ∃ msg,
        interpreter.exec (op.mk t p) ⟨vars, b :: a :: rest⟩ parents w =
          .error (.runtimeErr msg))) ∧
    (∀ x y : Int,
      interpreter.exec (op.mk opEq p) ⟨vars, .int64 y :: .int64 x :: rest⟩ parents w =
        .ok (⟨vars, .bool (x == y) :: rest⟩, parents, w) ∧
      interpreter.exec (op.mk opNeq p) ⟨vars, .int64 y :: .int64 x :: rest⟩ parents w =
        .ok (⟨vars, .bool (x != y) :: rest⟩, parents, w) ∧
      interpreter.exec (op.mk opLess p) ⟨vars, .int64 y :: .int64 x :: rest⟩ parents w =
        .ok (⟨vars, .bool (decide (x < y)) :: rest⟩, parents, w) ∧
      interpreter.exec (op.mk opGreater p) ⟨vars, .int64 y :: .int64 x :: rest⟩ parents w =
        .ok (⟨vars, .bool (decide (x > y)) :: rest⟩, parents, w) ∧
      interpreter.exec (op.mk opLeq p) ⟨vars, .int64 y :: .int64 x :: rest⟩ parents w =
        .ok (⟨vars, .bool (decide (x ≤ y)) :: rest⟩, parents, w) ∧
      interpreter.exec (op.mk opGeq p) ⟨vars, .int64 y :: .int64 x :: rest⟩ parents w =
        .ok (⟨vars, .bool (decide (x ≥ y)) :: rest⟩, parents, w)) ∧
    (∀ x y : String,
      interpreter.exec (op.mk opEq p) ⟨vars, .string y :: .string x :: rest⟩ parents w =
        .ok (⟨vars, .bool (x == y) :: rest⟩, parents, w) ∧
      interpreter.exec (op.mk opNeq p) ⟨vars, .string y :: .string x :: rest⟩ parents w =
        .ok (⟨vars, .bool (x != y) :: rest⟩, parents, w) ∧
      interpreter.exec (op.mk opLess p) ⟨vars, .string y :: .string x :: rest⟩ parents w =
        .ok (⟨vars, .bool (decide (x.toList < y.toList)) :: rest⟩, parents, w) ∧
      interpreter.exec (op.mk opGreater p) ⟨vars, .string y :: .string x :: rest⟩ parents w =
        .ok (⟨vars, .bool (decide (y.toList < x.toList)) :: rest⟩, parents, w) ∧
      interpreter.exec (op.mk opLeq p) ⟨vars, .string y :: .string x :: rest⟩ parents w =
        .ok (⟨vars, .bool (decide (¬y.toList < x.toList)) :: rest⟩, parents, w) ∧
      interpreter.exec (op.mk opGeq p) ⟨vars, .string y :: .string x :: rest⟩ parents w =
        .ok (⟨vars, .bool (decide (¬x.toList < y.toList)) :: rest⟩, parents, w)) ∧
    (∀ x y : Bool,
      interpreter.exec (op.mk opEq p) ⟨vars, .bool y :: .bool x :: rest⟩ parents w =
        .ok (⟨vars, .bool (x == y) :: rest⟩, parents, w) ∧
      interpreter.exec (op.mk opNeq p) ⟨vars, .bool y :: .bool x :: rest⟩ parents w =
        .ok (⟨vars, .bool (x != y) :: rest⟩, parents, w)) := by
  refine ⟨fun a b => ?_, fun _ _ => ⟨rfl, rfl, rfl, rfl, rfl, rfl⟩,
    fun x y => ⟨rfl, rfl, ?_, ?_, ?_, ?_⟩, fun _ _ => ⟨rfl, rfl⟩⟩
  · rcases cmp_cases t ht p vars rest parents w a b with ⟨hc, r, hr⟩ | ⟨hc, msg, hm⟩
    · exact ⟨⟨fun _ => hc, fun _ => ⟨r, hr⟩⟩, fun h => absurd hc h⟩
    · refine ⟨⟨fun ⟨r, hr⟩ => ?_, fun h => absurd h hc⟩, fun _ => ⟨msg, hm⟩⟩
      rw [hm] at hr
      cases hr
  · have e : decide (x < y) = decide (x.toList < y.toList) := by
      simp [String.lt_iff_toList_lt]
    rw [← e]; rfl
  · have e : decide (x > y) = decide (y.toList < x.toList) := by
      simp [String.lt_iff_toList_lt]
    rw [← e]; rfl
  · have e : decide (x ≤ y) = decide (¬y.toList < x.toList) := by
      simp [String.le_iff_toList_le]
    rw [← e]; rfl
  · have e : decide (x ≥ y) = decide (¬x.toList < y.toList) := by
      simp [String.le_iff_toList_le]
    rw [← e]; rfl

/-- Witness for C13 at `opLess`: `2 < 3`, `"ab" < "b"`, and two booleans are an error. -/
theorem comparison_contract_witness :
    opLess ∈ [opEq, opNeq, opLess, opGreater, opLeq, opGeq] ∧
    interpreter.exec (op.mk opLess .nil) ⟨[], [.int64 3, .int64 2]⟩ [] ⟨[], "", fun _ => 0, 0⟩ =
      .ok (⟨[], [.bool true]⟩, [], ⟨[], "", fun _ => 0, 0⟩) ∧
    interpreter.exec (op.mk opLess .nil) ⟨[], [.string "b", .string "ab"]⟩ []
        ⟨[], "", fun _ => 0, 0⟩ =
      .ok (⟨[], [.bool true]⟩, [], ⟨[], "", fun _ => 0, 0⟩) ∧
    ¬Comparable opLess (.bool true) (.bool false) ∧
    ∃ msg, interpreter.exec (op.mk opLess .nil) ⟨[], [.bool false, .bool true]⟩ []
        ⟨[], "", fun _ => 0, 0⟩ = .error (.runtimeErr msg) :=
  have h := comparison_contract opLess (by decide) .nil [] [] [] ⟨[], "", fun _ => 0, 0⟩
  have hn : ¬Comparable opLess (.bool true) (.bool false) := by
    simp [Comparable, Value.isNumber, Value.isString, Value.isBool]
  ⟨by decide, (h.2.1 2 3).2.2.1, (h.2.2.1 "ab" "b").2.2.1, hn,
    (h.1 (.bool true) (.bool false)).2 hn⟩

/-- The cases `opPrint` and `opPrintLn` with operand `n` on a stack whose top `n` values were
pushed in the order `vs`: the values are removed and their text is written. -/
theorem exec_print (n : Nat) (vs rest : List Value) (hn : vs.length = n)
    (vars : List (String × Value)) (parents : List interpreter) (w : World) :
    interpreter.exec (op.mk opPrint (.int n)) ⟨vars, vs.reverse ++ rest⟩ parents w =
        .ok (⟨vars, rest⟩, parents, { w with stdout := w.stdout ++ fprint vs }) ∧
    interpreter.exec (op.mk opPrintLn (.int n)) ⟨vars, vs.reverse ++ rest⟩ parents w =
        .ok (⟨vars, rest⟩, parents, { w with stdout := w.stdout ++ fprintln vs }) := by
  subst hn
  have h1 : ¬((vs.length : Int) > ((vs.reverse ++ rest).length : Int)) := by
    simp only [List.length_append, List.length_reverse]; omega
  have h2 : ¬((vs.length : Int) < 0) := by omega
  have h3 : (vs.reverse ++ rest).drop vs.length = rest := by
    rw [List.drop_left' (by simp)]
  have h4 : ((vs.reverse ++ rest).take vs.length).reverse = vs := by
    rw [List.take_left' (by simp)]; simp
  constructor
  · show (interpreter.print ⟨vars, vs.reverse ++ rest⟩ w (.int vs.length) "opPrint" fprint >>=
      fun r => pure (r.1, parents, r.2)) = _
    simp only [interpreter.print, getInt, if_neg h1, if_neg h2, Int.toNat_ofNat, h3, h4]
    rfl
  · show (interpreter.print ⟨vars, vs.reverse ++ rest⟩ w (.int vs.length) "opPrintLn" fprintln >>=
      fun r => pure (r.1, parents, r.2)) = _
    simp only [interpreter.print, getInt, if_neg h1, if_neg h2, Int.toNat_ofNat, h3, h4]
    rfl

theorem intercalate_go_fprintlnFrom (vs : List Value) (acc : String) :
    String.intercalate.go acc " " (vs.map fmtValue) = acc ++ fprintlnFrom vs false := by
  induction vs generalizing acc with
  | nil => simp [String.intercalate.go, fprintlnFrom]
  | cons v vs ih =>
    simp only [List.map_cons, String.intercalate.go, ih, fprintlnFrom, Bool.false_eq_true,
      if_false, String.append_assoc]

/-- The text `fmt.Fprintln` writes: the operands separated by single spaces, then a newline. -/
theorem fprintln_eq_intercalate (vs : List Value) :
    fprintln vs = " ".intercalate (vs.map fmtValue) ++ "\n" := by
  cases vs with
  | nil => rfl
  | cons v vs =>
    simp only [fprintln, fprintlnFrom, if_true, List.map_cons, String.intercalate,
      intercalate_go_fprintlnFrom, String.empty_append]

theorem intercalate_go_fprintFrom (vs : List Value) (h : ∀ v ∈ vs, v.isString = false)
    (acc : String) :
    String.intercalate.go acc " " (vs.map fmtValue) = acc ++ fprintFrom vs false false := by
  induction vs generalizing acc with
  | nil => simp [String.intercalate.go, fprintFrom]
  | cons v vs ih =>
    have hv := h v (List.mem_cons_self _ _)
    simp only [List.map_cons, String.intercalate.go, ih (fun u hu => h u (List.mem_cons_of_mem _ hu)),
      fprintFrom, hv, Bool.not_false, Bool.and_self, if_true, String.append_assoc]

/-- The text `fmt.Fprint` writes when no operand is a string: the operands separated by
single spaces. -/
theorem fprint_eq_intercalate (vs : List Value) (h : ∀ v ∈ vs, v.isString = false) :
    fprint vs = " ".intercalate (vs.map fmtValue) := by
  cases vs with
  | nil => rfl
  | cons v vs =>
    have hv := h v (List.mem_cons_self _ _)
    simp only [fprint, fprintFrom, Bool.not_true, Bool.false_and, Bool.false_eq_true, if_false,
      List.map_cons, String.intercalate, hv, String.empty_append,
      intercalate_go_fprintFrom vs (fun u hu => h u (List.mem_cons_of_mem _ hu))]

/-- C14 (the code departs from the claim): `@print("a", "b")` compiles to two pushes and
`opPrint 2`, and running them writes `ab`, with no space between the two strings; likewise
`@print("n=", 1)` writes `n=1`. -/
theorem print_joins_strings_without_space (w : World) :
    parse "@print(\"a\", \"b\")" =
      .ok [op.mk opString (.string "a"), op.mk opString (.string "b"),
        op.mk opPrint (.int 2)] ∧
    interpreter.run 4 [op.mk opString (.string "a"), op.mk opString (.string "b"),
        op.mk opPrint (.int 2)] 0 ⟨[], []⟩ [] w =
      .ok (.nil, ⟨[], []⟩, [], { w with stdout := w.stdout ++ "ab" }) ∧
    parse "@print(\"n=\", 1)" =
      .ok [op.mk opString (.string "n="), op.mk opInt (.int64 1), op.mk opPrint (.int 2)] ∧
    interpreter.run 4 [op.mk opString (.string "n="), op.mk opInt (.int64 1),
        op.mk opPrint (.int 2)] 0 ⟨[], []⟩ [] w =
      .ok (.nil, ⟨[], []⟩, [], { w with stdout := w.stdout ++ "n=1" }) :=
  ⟨rfl, rfl, rfl, rfl⟩

/-- Counterexample to C17 as stated: the one-line program, with nothing but a space between
the closing brace of the loop and `@println`, does not parse. -/
theorem while_needs_separator :
    parse "while @int > 0 \x7b @println(\"still positive\") \x7d @println(\"end\")" =
      .error (.parseErr "; or newline" ⟨lexPrintLn, "@println"⟩) := rfl

/-- C17, as amended: with a separator (`;` or a newline) after the closing brace of the loop,
the program parses to the bytecode of `TestWhileRead` and, run on the input `3 0`, writes
`still positive`, a newline, `end`, a newline. -/
theorem while_read_with_separator (rand : Nat → Nat) (drawn : Nat) (sep : String)
    (hsep : sep = ";" ∨ sep = "\n") :
    parse ("while @int > 0 \x7b @println(\"still positive\") \x7d" ++ sep ++
        " @println(\"end\")") =
      .ok [op.mk opReadInt .nil, op.mk opInt (.int64 0), op.mk opGreater .nil,
        op.mk opJmpFalse (.int 4), op.mk opString (.string "still positive"),
        op.mk opPrintLn (.int 1), op.mk opJmp (.int (-6)), op.mk opString (.string "end"),
        op.mk opPrintLn (.int 1)] ∧
    Interpret 20 ("while @int > 0 \x7b @println(\"still positive\") \x7d" ++ sep ++
        " @println(\"end\")") ⟨"3 0".toList, "", rand, drawn⟩ =
      .ok ⟨[], "still positive\nend\n", rand, drawn⟩ := by
  have hp : parse ("while @int > 0 \x7b @println(\"still positive\") \x7d" ++ sep ++
        " @println(\"end\")") =
      .ok [op.mk opReadInt .nil, op.mk opInt (.int64 0), op.mk opGreater .nil,
        op.mk opJmpFalse (.int 4), op.mk opString (.string "still positive"),
        op.mk opPrintLn (.int 1), op.mk opJmp (.int (-6)), op.mk opString (.string "end"),
        op.mk opPrintLn (.int 1)] := by
    rcases hsep with rfl | rfl <;> rfl
  refine ⟨hp, ?_⟩
  rw [Interpret, hp]
  rfl

/-- Witness for C17 with a newline as the separator. -/
theorem while_read_with_separator_witness :
    Interpret 20 "while @int > 0 \x7b @println(\"still positive\") \x7d\n @println(\"end\")"
        ⟨"3 0".toList, "", fun _ => 0, 0⟩ =
      .ok ⟨[], "still positive\nend\n", fun _ => 0, 0⟩ :=
  (while_read_with_separator (fun _ => 0) 0 "\n" (.inr rfl)).2

/-- C18: a frame whose instruction counter is past the end of the bytecode, or at an
`opReturn 0`, ends at once with the result `nil`; at an `opReturn 1` it ends at once with the
value popped from its stack.  The parser emits `opReturn 0` for a `return` followed by an
end-of-statement lexeme or by the lexeme that ends the block, and otherwise the code of the
expression followed by `opReturn 1`. -/
theorem return_contract (n : Nat) (f : function) (ic : Int) (vars : List (String × Value))
    (st : List Value) (parents : List interpreter) (w : World) (hic : 0 ≤ ic) :
    (f.get? ic.toNat = none →
      interpreter.run (n + 1) f ic ⟨vars, st⟩ parents w = .ok (.nil, ⟨vars, st⟩, parents, w)) ∧
    (f.get? ic.toNat = some (op.mk opReturn (.int 0)) →
      interpreter.run (n + 1) f ic ⟨vars, st⟩ parents w = .ok (.nil, ⟨vars, st⟩, parents, w)) ∧
    (∀ v : Value, f.get? ic.toNat = some (op.mk opReturn (.int 1)) →
      interpreter.run (n + 1) f ic ⟨vars, v :: st⟩ parents w =
        .ok (v, ⟨vars, st⟩, parents, w)) ∧
    (∀ (e : lexType) (val : String) (t : lex) (ts : List lex) (g : function),
      t.typ = lexEos ∨ t.typ = e →
      parser.funLoop (n + 1) e (⟨lexReturn, val⟩ :: t :: ts) g =
        parser.funEnd n e (t :: ts) (g ++ [op.mk opReturn (.int 0)])) ∧
    (∀ (e : lexType) (val : String) (t : lex) (ts ts1 : List lex) (g g1 : function),
      t.typ ≠ lexEos → t.typ ≠ e → parser.expr n (t :: ts) g = .ok (g1, ts1) →
      parser.funLoop (n + 1) e (⟨lexReturn, val⟩ :: t :: ts) g =
        parser.funEnd n e ts1 (g1 ++ [op.mk opReturn (.int 1)])) := by
  have h0 : ¬ic < 0 := by omega
  refine ⟨fun h => ?_, fun h => ?_, fun v h => ?_, ?_, ?_⟩
  · rw [interpreter.run, if_neg h0, h]
  · rw [interpreter.run, if_neg h0, h]; rfl
  · rw [interpreter.run, if_neg h0, h]; rfl
  · intro e val t ts g ht
    have hc : ¬(t.typ ≠ lexEos ∧ t.typ ≠ e) := by
      rcases ht with h | h <;> simp [h]
    simp only [parser.funLoop, parser.get, parser.next, List.get?, bind, Except.bind, hc,
      if_false]
  · intro e val t ts ts1 g g1 h1 h2 he
    have hc : (t.typ ≠ lexEos ∧ t.typ ≠ e) := ⟨h1, h2⟩
    simp only [parser.expr] at he
    simp only [parser.funLoop, parser.get, parser.next, List.get?, bind, Except.bind, he]
    rw [if_pos hc]

/-- Witness for C18: a frame at an `opReturn 1` with 7 on its stack returns 7. -/
theorem return_contract_witness :
    (0 : Int) ≤ 1 ∧
    interpreter.run 1 [op.mk opInt (.int64 7), op.mk opReturn (.int 1)] 1 ⟨[], [.int64 7]⟩ []
        ⟨[], "", fun _ => 0, 0⟩ =
      .ok (.int64 7, ⟨[], []⟩, [], ⟨[], "", fun _ => 0, 0⟩) :=
  ⟨by decide, (return_contract 0 [op.mk opInt (.int64 7), op.mk opReturn (.int 1)] 1 [] [] []
    ⟨[], "", fun _ => 0, 0⟩ (by decide)).2.2.1 (.int64 7) rfl⟩

/-! ### Indexed names (C15) -/

theorem Runs.refl (e : Env) (st : List Value) : Runs [] e st e st :=
  ⟨0, fun n pre post => by simp⟩

/-- Two pieces of code that run one after the other run as one piece. -/
theorem Runs.append {c1 c2 : function} {e e1 e2 : Env} {st st1 st2 : List Value}
    (h1 : Runs c1 e st e1 st1) (h2 : Runs c2 e1 st1 e2 st2) : Runs (c1 ++ c2) e st e2 st2 := by
  obtain ⟨k1, hk1⟩ := h1
  obtain ⟨k2, hk2⟩ := h2
  refine ⟨k2 + k1, fun n pre post => ?_⟩
  have e1' : pre ++ (c1 ++ c2) ++ post = pre ++ c1 ++ (c2 ++ post) := by
    simp only [List.append_assoc]
  have e2' : pre ++ c1 ++ (c2 ++ post) = (pre ++ c1) ++ c2 ++ post := by
    simp only [List.append_assoc]
  rw [e1', ← Nat.add_assoc, hk1 (n + k2) pre (c2 ++ post), e2']
  have e3 : ((pre.length + c1.length : Nat) : Int) = ((pre ++ c1).length : Int) := by simp
  rw [e3, hk2 n (pre ++ c1) post]
  simp [Nat.add_assoc]

theorem get?_mid (pre post : function) (o : op) :
    (pre ++ [o] ++ post).get? pre.length = some o := by
  rw [List.append_assoc, List.get?_eq_getElem?, List.getElem?_append_right (Nat.le_refl _)]
  simp

theorem run_exec_step (n : Nat) (f : function) (ic : Nat) (o : op) (hget : f.get? ic = some o)
    (ht : o.typ ≠ opCall ∧ o.typ ≠ opJmp ∧ o.typ ≠ opJmpFalse ∧ o.typ ≠ opReturn)
    (i i1 : interpreter) (parents parents1 : List interpreter) (w w1 : World)
    (h : interpreter.exec o i parents w = .ok (i1, parents1, w1)) :
    interpreter.run (n + 1) f (ic : Int) i parents w =
      interpreter.run n f ((ic : Int) + 1) i1 parents1 w1 := by
  have hlt : ¬((ic : Int) < 0) := by omega
  rw [interpreter.run]
  simp only [hlt, if_false, Int.toNat_ofNat, hget]
  obtain ⟨t, p⟩ := o
  obtain ⟨h1, h2, h3, h4⟩ := ht
  simp only [op.typ] at h1 h2 h3 h4
  cases t <;> first
    | exact absurd rfl h1
    | exact absurd rfl h2
    | exact absurd rfl h3
    | exact absurd rfl h4
    | (simp only [op.typ, h])

/-- One opcode that neither calls, jumps nor returns runs as `interpreter.exec` says. -/
theorem Runs.single {o : op} {e e1 : Env} {st st1 : List Value}
    (ht : o.typ ≠ opCall ∧ o.typ ≠ opJmp ∧ o.typ ≠ opJmpFalse ∧ o.typ ≠ opReturn)
    (h : interpreter.exec o ⟨e.vars, st⟩ e.parents e.world =
      .ok (⟨e1.vars, st1⟩, e1.parents, e1.world)) :
    Runs [o] e st e1 st1 := by
  refine ⟨1, fun n pre post => ?_⟩
  rw [run_exec_step n _ pre.length o (get?_mid pre post o) ht _ _ _ _ _ _ h]
  simp

theorem indexCode_runs {cs : List function} {vs : List Int} {e e1 : Env}
    (h : EvaluatesAll cs vs e e1) (nm : String) (st : List Value) :
    Runs (indexCode cs) e (.string nm :: st) e1 (.string (indexedName nm vs) :: st) := by
  induction h generalizing nm with
  | nil e => exact Runs.refl e _
  | @cons c cs v vs e e1 e2 hc _ ih =>
    have s1 : Runs [op.mk opString (.string "[")] e (.string nm :: st) e
        (.string "[" :: .string nm :: st) := Runs.single (by decide) rfl
    have s2 : Runs [op.mk opSum .nil] e (.string "[" :: .string nm :: st) e
        (.string (nm ++ "[") :: st) := Runs.single (by decide) rfl
    have s3 := hc (.string (nm ++ "[") :: st)
    have s4 : Runs [op.mk opSum .nil] e1 (.int64 v :: .string (nm ++ "[") :: st) e1
        (.string (nm ++ "[" ++ itoa v) :: st) := Runs.single (by decide) rfl
    have s5 : Runs [op.mk opString (.string "]")] e1 (.string (nm ++ "[" ++ itoa v) :: st) e1
        (.string "]" :: .string (nm ++ "[" ++ itoa v) :: st) := Runs.single (by decide) rfl
    have s6 : Runs [op.mk opSum .nil] e1 (.string "]" :: .string (nm ++ "[" ++ itoa v) :: st) e1
        (.string (nm ++ "[" ++ itoa v ++ "]") :: st) := Runs.single (by decide) rfl
    have hall := ((((s1.append s2).append s3).append s4).append s5).append s6 |>.append
      (ih (nm ++ "[" ++ itoa v ++ "]"))
    simpa only [indexCode, indexedName, List.append_assoc, List.singleton_append,
      List.cons_append, List.nil_append] using hall

theorem nameCode_evaluates {cs : List function} {vs : List Int} {e e1 : Env}
    (h : EvaluatesAll cs vs e e1) (nm : String) :
    Evaluates (nameCode nm cs) (.string (indexedName nm vs)) e e1 := by
  intro st
  have s1 : Runs [op.mk opString (.string nm)] e st e (.string nm :: st) :=
    Runs.single (by simp [op.typ]) rfl
  exact s1.append (indexCode_runs h nm st)

theorem indexedName_append (s1 s2 : String) (vs : List Int) :
    indexedName (s1 ++ s2) vs = s1 ++ indexedName s2 vs := by
  induction vs generalizing s2 with
  | nil => rfl
  | cons v vs ih =>
    simp only [indexedName, String.append_assoc]
    rw [← ih]

theorem indexedName_toList (nm : String) (vs : List Int) :
    ∃ s : List Char, (indexedName nm vs).toList = nm.toList ++ s := by
  induction vs generalizing nm with
  | nil => exact ⟨[], by simp [indexedName]⟩
  | cons v vs ih =>
    obtain ⟨s, hs⟩ := ih (nm ++ "[" ++ itoa v ++ "]")
    exact ⟨("[" ++ itoa v ++ "]").toList ++ s, by
      rw [indexedName, hs]; simp [String.toList, List.append_assoc]⟩

theorem indexedName_dotted (k : Nat) (b : List Char) (vs : List Int) :
    indexedName (dotted k b) vs = dotted k (indexedName (String.mk b) vs).toList := by
  have h1 : dotted k b = String.mk (List.replicate k '.') ++ String.mk b := rfl
  rw [h1, indexedName_append]
  apply String.ext
  simp [dotted, String.toList]

theorem nameDots_dots (j : Nat) (acc sb : String) (rest : List lex) :
    parser.nameDots ⟨lexDot, "."⟩ acc (List.replicate j ⟨lexDot, "."⟩ ++ ⟨lexName, sb⟩ :: rest) =
      .ok (acc ++ String.mk (List.replicate j '.') ++ sb, ⟨lexName, sb⟩, rest) := by
  induction j generalizing acc with
  | zero =>
    cases rest <;> simp [parser.nameDots]
  | succ j ih =>
    have e : List.replicate (j + 1) (lex.mk lexDot ".") ++ ⟨lexName, sb⟩ :: rest =
        ⟨lexDot, "."⟩ :: (List.replicate j ⟨lexDot, "."⟩ ++ ⟨lexName, sb⟩ :: rest) := rfl
    rw [e, parser.nameDots, if_pos rfl, ih]
    congr 2
    apply String.ext
    simp [String.toList, List.replicate_succ]

theorem stops_rightBracket (v : String) : Stops 0 ⟨lexRightBracket, v⟩ := by
  refine ⟨by simp, by simp, fun j _ => ?_⟩
  by_cases hj : j < 6
  · interval_cases j <;> rfl
  · exact levelFind_ge j (by omega) _

theorem nameIndex_parses {Es : List (List lex)} {cs : List function}
    (hE : List.Forall₂ (ParsesAt 0) Es cs) (t : lex) (ht : t.typ ≠ lexLeftBracket)
    (r : List lex) (f : function) :
    ∃ n0, ∀ n, n0 ≤ n →
      parser.nameIndex n (indexLexemes Es ++ t :: r) f = .ok (f ++ indexCode cs, t :: r) := by
  induction hE generalizing f with
  | nil =>
    refine ⟨1, fun n hn => ?_⟩
    obtain ⟨m, rfl⟩ : ∃ m, n = m + 1 := ⟨n - 1, by omega⟩
    simp [parser.nameIndex, indexLexemes, indexCode, parser.next, ht, bind, Except.bind, pure,
      Except.pure]
  | @cons E c Es cs hEc _ ih =>
    obtain ⟨nE, hnE⟩ := hEc (f ++ [op.mk opString (.string "["), op.mk opSum .nil])
      ⟨lexRightBracket, "]"⟩ (indexLexemes Es ++ t :: r) (stops_rightBracket _)
    obtain ⟨n1, hn1⟩ := ih (f ++ [op.mk opString (.string "["), op.mk opSum .nil] ++ c ++
      [op.mk opSum .nil] ++ [op.mk opString (.string "]"), op.mk opSum .nil])
    refine ⟨max nE n1 + 1, fun n hn => ?_⟩
    obtain ⟨m, rfl⟩ : ∃ m, n = m + 1 := ⟨n - 1, by omega⟩
    have h1 := hnE m (by omega)
    have h2 := hn1 m (by omega)
    have e : indexLexemes (E :: Es) ++ t :: r = ⟨lexLeftBracket, "["⟩ ::
        (E ++ ⟨lexRightBracket, "]"⟩ :: (indexLexemes Es ++ t :: r)) := by
      simp [indexLexemes]
    rw [e, parser.nameIndex]
    simp only [parser.next, List.get?, parser.skip, List.drop, bind, Except.bind, if_true, h1,
      parser.get, ne_eq, not_true_eq_false, if_false, h2]
    simp [indexCode, pure, Except.pure]

/-- What `parser.name` emits for a name with index expressions, whatever lexeme other than
an opening bracket follows. -/
theorem name_parses (k : Nat) (b : List Char) {Es : List (List lex)} {cs : List function}
    (hE : List.Forall₂ (ParsesAt 0) Es cs) (t : lex) (ht : t.typ ≠ lexLeftBracket)
    (r : List lex) (f : function) (l : lex) (ts0 : List lex)
    (hl : l :: ts0 = nameLexemes k b) :
    ∃ n0, ∀ n, n0 ≤ n →
      parser.name n (ts0 ++ indexLexemes Es ++ t :: r) f l =
        .ok (f ++ nameCode (dotted k b) cs, t :: r) := by
  obtain ⟨n1, hn1⟩ := nameIndex_parses hE t ht r (f ++ [op.mk opString (.string (dotted k b))])
  refine ⟨n1 + 1, fun n hn => ?_⟩
  obtain ⟨m, rfl⟩ : ∃ m, n = m + 1 := ⟨n - 1, by omega⟩
  have h2 := hn1 m (by omega)
  have hd : parser.nameDots l l.val (ts0 ++ indexLexemes Es ++ t :: r) =
      .ok (dotted k b, ⟨lexName, String.mk b⟩, indexLexemes Es ++ t :: r) := by
    cases k with
    | zero =>
      simp only [nameLexemes, List.replicate_zero, List.nil_append, List.cons.injEq] at hl
      obtain ⟨rfl, rfl⟩ := hl
      obtain ⟨x, xs, hx⟩ : ∃ x xs, indexLexemes Es ++ t :: r = x :: xs := by
        cases h : indexLexemes Es ++ t :: r with
        | nil => simp at h
        | cons x xs => exact ⟨x, xs, rfl⟩
      rw [List.nil_append, hx]
      simp [parser.nameDots, dotted]
    | succ j =>
      simp only [nameLexemes, List.replicate_succ, List.cons_append, List.cons.injEq] at hl
      obtain ⟨rfl, rfl⟩ := hl
      rw [List.append_assoc, List.append_assoc, List.singleton_append, nameDots_dots]
      rfl
  rw [List.append_assoc] at hd
  simp only [parser.name, hd, bind, Except.bind, ne_eq, not_true_eq_false, if_false, h2,
    nameCode, List.append_assoc, List.singleton_append]

theorem nameLexemes_cons (k : Nat) (b : List Char) :
    ∃ l ts0, nameLexemes k b = l :: ts0 ∧ (l.typ = lexDot ∨ l.typ = lexName) := by
  cases k with
  | zero => exact ⟨_, _, rfl, .inr rfl⟩
  | succ j => exact ⟨_, _, rfl, .inl rfl⟩

/-- C15: for the name made of `k` dots and the bare name `b`, with index expressions `Es`
that compile to the codes `cs`: the parser emits `nameCode (dotted k b) cs` for it, followed
by `opLoadStr` where the name is read and by the code of the assignment where it is assigned;
when the codes evaluate to the integers `vs`, running `nameCode` pushes exactly one value,
the string `indexedName (dotted k b) vs`; and the `opLoadStr` or `opStoreStr` that follows
reads or writes the variable called `indexedName b vs` of the frame `k` levels up. -/
theorem indexed_name_is_string_key (k : Nat) (b : List Char) (hb : b ≠ [])
    (hdot : b.head? ≠ some '.') (Es : List (List lex)) (cs : List function)
    (hE : List.Forall₂ (ParsesAt 0) Es cs) :
    ParsesAt 6 (nameLexemes k b ++ indexLexemes Es)
      (nameCode (dotted k b) cs ++ [op.mk opLoadStr .nil]) ∧
    (∀ (e : lexType) (ev : String) (ts : List lex) (f : function), ∃ n0, ∀ n, n0 ≤ n →
      parser.funLoop (n + 1) e (nameLexemes k b ++ indexLexemes Es ++ ⟨lexEq, ev⟩ :: ts) f =
        (parser.assign n ts (f ++ nameCode (dotted k b) cs)).bind
          (fun r => parser.funEnd n e r.2 r.1)) ∧
    (∀ (vs : List Int) (e e1 : Env), EvaluatesAll cs vs e e1 →
      Evaluates (nameCode (dotted k b) cs) (.string (indexedName (dotted k b) vs)) e e1) ∧
    (∀ (vs : List Int) (vars : List (String × Value)) (st : List Value)
        (parents : List interpreter) (w : World) (val : Value), k ≤ parents.length →
      interpreter.exec (op.mk opLoadStr .nil)
          ⟨vars, .string (indexedName (dotted k b) vs) :: st⟩ parents w =
        (match getVar (indexedName (String.mk b) vs) (frameVars ⟨vars, st⟩ parents k) with
          | some v => .ok (⟨vars, v :: st⟩, parents, w)
          | none => .error (.runtimeErr ("opLoadStr failed: variable " ++
              indexedName (dotted k b) vs ++ " is undefined"))) ∧
      interpreter.exec (op.mk opStoreStr .nil)
          ⟨vars, val :: .string (indexedName (dotted k b) vs) :: st⟩ parents w =
        .ok ((storeVar ⟨vars, st⟩ parents k (indexedName (String.mk b) vs) val).1,
          (storeVar ⟨vars, st⟩ parents k (indexedName (String.mk b) vs) val).2, w)) := by
  obtain ⟨l, ts0, hl, hlt⟩ := nameLexemes_cons k b
  refine ⟨?_, ?_, fun vs e e1 h => nameCode_evaluates h _, ?_⟩
  · intro f t r ht
    obtain ⟨n0, hn0⟩ := name_parses k b hE t ht.2.1 r f l ts0 hl.symm
    refine ⟨n0 + 1, fun n hn => ?_⟩
    obtain ⟨m, rfl⟩ : ∃ m, n = m + 1 := ⟨n - 1, by omega⟩
    have h6 : ¬(6 < levelLex.length) := by simp [levelLex]
    have h1 := hn0 m (by omega)
    have hp := ht.1
    rw [hl, List.cons_append, List.cons_append, parser.expr0, if_neg h6]
    rw [List.append_assoc] at h1
    rcases hlt with h | h <;>
      simp [parser.get, bind, Except.bind, h, h1, parser.next, hp, pure, Except.pure]
  · intro e ev ts f
    obtain ⟨n0, hn0⟩ := name_parses k b hE ⟨lexEq, ev⟩ (by simp) ts f l ts0 hl.symm
    refine ⟨n0, fun n hn => ?_⟩
    have h1 := hn0 n hn
    rw [hl, List.cons_append, List.cons_append, parser.funLoop]
    rw [List.append_assoc] at h1
    rcases hlt with h | h <;>
      simp [parser.get, bind, Except.bind, h, h1]
  · intro vs vars st parents w val hk
    obtain ⟨s, hs⟩ := indexedName_toList (String.mk b) vs
    have hb1 : (indexedName (String.mk b) vs).toList ≠ [] := by
      rw [hs]; simpa using fun h => absurd h hb
    have hd1 : (indexedName (String.mk b) vs).toList.head? ≠ some '.' := by
      rw [hs]
      obtain ⟨c, cs', rfl⟩ := List.exists_cons_of_ne_nil hb
      simpa using hdot
    have hmk : String.mk (indexedName (String.mk b) vs).toList = indexedName (String.mk b) vs :=
      rfl
    have hkey : indexedName (dotted k b) vs =
        String.mk (List.replicate k '.' ++ (indexedName (String.mk b) vs).toList) :=
      indexedName_dotted k b vs
    constructor
    · rw [exec_opLoadStr, hkey, load_dots k _ hb1 hd1, if_pos hk, hmk]
      cases getVar (indexedName (String.mk b) vs) (frameVars ⟨vars, st⟩ parents k) <;> rfl
    · rw [exec_opStoreStr, hkey, trimDots_dots _ _ hb1 hd1, if_pos hk, hmk]
      rfl

theorem parsesAt_int (s : String) (v : Int) (h : parseInt s = some v) :
    ParsesAt 6 [⟨lexInt, s⟩] [op.mk opInt (.int64 v)] := by
  intro f t r _
  refine ⟨1, fun n hle => ?_⟩
  obtain ⟨m, rfl⟩ : ∃ m, n = m + 1 := ⟨n - 1, by omega⟩
  have h6 : ¬(6 < levelLex.length) := by simp [levelLex]
  simp [parser.expr0, h6, parser.get, bind, Except.bind, pure, Except.pure, h]

theorem evaluates_int (v : Int) (e : Env) : Evaluates [op.mk opInt (.int64 v)] (.int64 v) e e :=
  fun _ => Runs.single (by simp [op.typ]) rfl

/-- Witness for C15: the code of `a[5]` pushes the string `a[5]`. -/
theorem indexed_name_is_string_key_witness :
    ['a'] ≠ [] ∧ ['a'].head? ≠ some '.' ∧
    List.Forall₂ (ParsesAt 0) [[⟨lexInt, "5"⟩]] [[op.mk opInt (.int64 5)]] ∧
    Evaluates [op.mk opString (.string "a"), op.mk opString (.string "["), op.mk opSum .nil,
        op.mk opInt (.int64 5), op.mk opSum .nil, op.mk opString (.string "]"),
        op.mk opSum .nil]
      (.string "a[5]") ⟨[], [], ⟨[], "", fun _ => 0, 0⟩⟩ ⟨[], [], ⟨[], "", fun _ => 0, 0⟩⟩ :=
  have hE : List.Forall₂ (ParsesAt 0) [[⟨lexInt, "5"⟩]] [[op.mk opInt (.int64 5)]] :=
    .cons ((parsesAt_int "5" 5 rfl).liftTo (Nat.le_refl 6) (Nat.zero_le 6)) .nil
  ⟨by simp, by simp, hE,
    (indexed_name_is_string_key 0 ['a'] (by simp) (by simp) _ _ hE).2.2.1 [5] _ _
      (.cons (evaluates_int 5 _) (.nil _))⟩

/-! ### The lexemes tile the source (C19) -/

theorem byteLen_append (a b : List Char) : byteLen (a ++ b) = byteLen a + byteLen b := by
  induction a with
  | nil => simp [byteLen]
  | cons c cs ih => simp [byteLen, ih, Nat.add_assoc]

theorem takeBytes_dropBytes (n : Nat) (cs : List Char) :
    takeBytes n cs ++ dropBytes n cs = cs := by
  induction cs generalizing n with
  | nil => simp [takeBytes, dropBytes]
  | cons c cs ih =>
    simp only [takeBytes, dropBytes]
    split_ifs
    · rfl
    · simp [ih]

theorem dropBytes_zero (cs : List Char) : dropBytes 0 cs = cs := by
  cases cs <;> simp [dropBytes]

theorem takeBytes_zero (cs : List Char) : takeBytes 0 cs = [] := by
  cases cs <;> simp [takeBytes]

theorem dropBytes_cons (c : Char) (cs : List Char) (n : Nat) :
    dropBytes (runeLen c + n) (c :: cs) = dropBytes n cs := by
  have := runeLen_pos c
  simp only [dropBytes]
  rw [if_neg (by omega)]
  congr 1
  omega

theorem skipUntil_suffix (s cs : List Char) : ∃ g, cs = g ++ lexer.skipUntil s cs := by
  unfold lexer.skipUntil
  split
  · exact ⟨cs, by simp⟩
  · exact ⟨_, (takeBytes_dropBytes _ cs).symm⟩

theorem emit_splits (t : lexType) (n : Nat) (input : List Char) :
    input = [] ++ (lexer.emit t n input).1.val.toList ++ (lexer.emit t n input).2 := by
  simp only [lexer.emit, List.nil_append]
  exact (takeBytes_dropBytes n input).symm

theorem lookup_newline (r : Char) (h : runeLexeme.lookup r = none) : r ≠ '\n' := by
  intro hr
  subst hr
  simp [runeLexeme, List.lookup] at h

theorem comment_line_splits (tl : List Char) :
    lexStep.Splits ('/' :: '/' :: tl)
      (.emitted (lexer.emit lexEos 0 (lexer.skipUntil ['\n'] tl)).1
        (lexer.emit lexEos 0 (lexer.skipUntil ['\n'] tl)).2) := by
  obtain ⟨g, hg⟩ := skipUntil_suffix ['\n'] tl
  refine ⟨'/' :: '/' :: g, ?_, .inr (.inr (.inl ⟨g, rfl⟩))⟩
  show '/' :: '/' :: tl = '/' :: '/' :: g ++
    (String.mk (takeBytes 0 (lexer.skipUntil ['\n'] tl))).toList ++
      dropBytes 0 (lexer.skipUntil ['\n'] tl)
  rw [takeBytes_zero, dropBytes_zero]
  exact congrArg _ (congrArg _ (by simpa using hg))

theorem dropBytes_two (a b : Char) (tl : List Char) :
    dropBytes (runeLen a + runeLen b) (a :: b :: tl) = tl := by
  rw [dropBytes_cons]
  have := dropBytes_cons b tl 0
  rw [Nat.add_zero] at this
  rw [this, dropBytes_zero]

theorem comment_block_splits (tl : List Char) :
    lexStep.Splits ('/' :: '*' :: tl) (.skipped (lexer.skipUntil ['*', '/'] tl)) := by
  obtain ⟨g, hg⟩ := skipUntil_suffix ['*', '/'] tl
  refine ⟨'/' :: '*' :: g, ?_, .inr (.inr ⟨g, rfl⟩)⟩
  simp only [List.cons_append]
  exact congrArg _ (congrArg _ hg)

/-- One pass of the loop of `lexer.run` takes its lexeme from the front of the input, after
the text it skips, and leaves the rest. -/
theorem step_splits (input : List Char) (hnul : ∀ r ∈ input.head?, r.toNat ≠ 0) :
    (lexer.step input).Splits input := by
  cases input with
  | nil => simp [lexer.step, lexStep.Splits]
  | cons r rest0 =>
    have hr0 : r.toNat ≠ 0 := hnul r rfl
    have hd : dropBytes (runeLen r) (r :: rest0) = rest0 := by
      have := dropBytes_cons r rest0 0
      rw [Nat.add_zero] at this
      rw [this, dropBytes_zero]
    unfold lexer.step
    simp only []
    repeat' split
    all_goals first
      | trivial
      | contradiction
      | exact ⟨[], emit_splits _ _ _, .inl rfl⟩
      | rfl
      | (rename_i h1 h2
         exact ⟨[r], by rw [hd]; rfl, .inl ⟨r, rfl, by simpa using h2, lookup_newline r h1⟩⟩)
      | (rename_i h
         repeat' (split at h)
         all_goals try simp only [dropBytes_two] at h
         all_goals first
           | (cases h; done)
           | (cases h; exact trivial)
           | (cases h; subst_vars; exact comment_line_splits _)
           | (cases h; subst_vars; exact comment_block_splits _))

theorem meetsNul_head (n : Nat) (input : List Char)
    (h : lexer.meetsNul (n + 1) input = false) : ∀ r ∈ input.head?, r.toNat ≠ 0 := by
  intro r hr
  cases input with
  | nil => cases hr
  | cons c cs =>
    simp only [List.head?, Option.mem_def, Option.some.injEq] at hr
    subst hr
    intro h0
    simp [lexer.meetsNul, h0] at h

theorem meetsNul_step (n : Nat) (input : List Char)
    (h : lexer.meetsNul (n + 1) input = false) :
    (∀ l rest, lexer.step input = .emitted l rest → lexer.meetsNul n rest = false) ∧
    (∀ rest, lexer.step input = .skipped rest → lexer.meetsNul n rest = false) := by
  cases input with
  | nil => simp [lexer.step]
  | cons c cs =>
    have h0 := meetsNul_head n _ h c rfl
    simp only [lexer.meetsNul, if_neg h0] at h
    constructor
    · intro l rest hst
      simpa only [hst] using h
    · intro rest hst
      simpa only [hst] using h

theorem run_tiles (fuel : Nat) (input : List Char) (ls : List lex)
    (h : lexer.run fuel input = .ok ls) (hnul : lexer.meetsNul fuel input = false)
    (herr : ∀ l ∈ ls, l.typ ≠ lexError) : ∃ k, Tiles ls k input := by
  induction fuel generalizing input ls with
  | zero => simp [lexer.run] at h
  | succ n ih =>
    rw [lexer.run] at h
    have hs := step_splits input (meetsNul_head n input hnul)
    obtain ⟨hm1, hm2⟩ := meetsNul_step n input hnul
    cases hst : lexer.step input with
    | emitted l rest =>
      rw [hst] at hs
      simp only [hst] at h
      obtain ⟨g, hg, hgs⟩ := hs
      cases hr : lexer.run n rest with
      | error e => rw [hr] at h; cases h
      | ok ls1 =>
        rw [hr] at h
        cases h
        obtain ⟨k, hk⟩ := ih rest ls1 hr (hm1 l rest hst)
          (fun l1 hl1 => herr l1 (List.mem_cons_of_mem _ hl1))
        rcases hgs with rfl | hgs
        · exact ⟨k, by rw [hg]; exact Tiles.token l hk⟩
        · exact ⟨byteLen g + k, by
            rw [hg, List.append_assoc]; exact Tiles.skip g hgs (Tiles.token l hk)⟩
    | skipped rest =>
      rw [hst] at hs
      simp only [hst] at h
      obtain ⟨g, hg, hgs⟩ := hs
      obtain ⟨k, hk⟩ := ih rest ls h (hm2 rest hst) herr
      exact ⟨byteLen g + k, by rw [hg]; exact Tiles.skip g hgs hk⟩
    | halted l =>
      rw [hst] at hs
      simp only [hst] at h
      cases h
      exact absurd hs (herr l (List.mem_singleton_self _))
    | atEof =>
      rw [hst] at hs
      simp only [hst] at h
      cases h
      subst hs
      exact ⟨0, Tiles.eof⟩
    | failed e =>
      simp only [hst] at h
      cases h

/-- On a source without NUL runes no pass of the loop starts at a NUL rune. -/
theorem meetsNul_of_nulFree (fuel : Nat) (input : List Char)
    (hnul : ∀ c ∈ input, c.toNat ≠ 0) : lexer.meetsNul fuel input = false := by
  induction fuel generalizing input with
  | zero => rfl
  | succ n ih =>
    cases input with
    | nil => rfl
    | cons c cs =>
      have h0 := hnul c (List.mem_cons_self _ _)
      have hs := step_splits (c :: cs) (fun r hr => by cases hr; exact h0)
      simp only [lexer.meetsNul, if_neg h0]
      cases hst : lexer.step (c :: cs) with
      | emitted l rest =>
        rw [hst] at hs
        obtain ⟨g, hg, _⟩ := hs
        exact ih rest (fun x hx => hnul x (by rw [hg]; exact List.mem_append_right _ hx))
      | skipped rest =>
        rw [hst] at hs
        obtain ⟨g, hg, _⟩ := hs
        exact ih rest (fun x hx => hnul x (by rw [hg]; exact List.mem_append_right _ hx))
      | halted l => rfl
      | atEof => rfl
      | failed e => rfl

theorem tiles_sum {ls : List lex} {k : Nat} {input : List Char} (h : Tiles ls k input) :
    (ls.map (fun l => byteLen l.val.toList)).sum + k = byteLen input := by
  induction h with
  | eof => rfl
  | token l _ ih =>
    simp only [List.map_cons, List.sum_cons, byteLen_append]
    omega
  | skip g _ _ ih =>
    simp only [byteLen_append]
    omega

theorem tiles_no_skip {ls : List lex} {k : Nat} {input : List Char} (h : Tiles ls k input)
    (hsp : ∀ c ∈ input, isSpace c = true → c = '\n')
    (h1 : ¬['/', '/'] <:+: input) (h2 : ¬['/', '*'] <:+: input) :
    (ls.map (fun l => l.val.toList)).flatten = input ∧ k = 0 := by
  induction h with
  | eof => exact ⟨rfl, rfl⟩
  | @token l ls k rest _ ih =>
    have hsuf : rest <:+: l.val.toList ++ rest := (List.suffix_append _ _).isInfix
    obtain ⟨e1, e2⟩ := ih (fun c hc => hsp c (List.mem_append_right _ hc))
      (fun hi => h1 (hi.trans hsuf)) (fun hi => h2 (hi.trans hsuf))
    exact ⟨by simp only [List.map_cons, List.flatten_cons, e1], e2⟩
  | @skip g ls k rest hg _ _ =>
    exfalso
    rcases hg with ⟨c, rfl, hc, hn⟩ | ⟨t, rfl⟩ | ⟨t, rfl⟩
    · exact hn (hsp c (by simp) hc)
    · exact h1 ⟨[], t ++ rest, by simp⟩
    · exact h2 ⟨[], t ++ rest, by simp⟩

/-- C19: when the lexer reads a source to its end (no pass of its loop starts at a NUL rune)
and emits no error lexeme, the lexemes tile the source: read from left to right the source is
the text of each lexeme in turn, with skipped white space and comments between them, up to
the end-of-file lexeme, and the byte lengths of the lexemes plus the `k` bytes skipped add up
to the byte length of the source.  If moreover the source has no white space other than
newlines and no `//` or `/*`, the lexemes joined together are the source. -/
theorem lexemes_tile_input (src : String) (ls : List lex) (h : lexAll src = .ok ls)
    (hnul : lexer.meetsNul (src.length + 1) src.toList = false)
    (herr : ∀ l ∈ ls, l.typ ≠ lexError) :
    (∃ k, Tiles ls k src.toList ∧
      (ls.map (fun l => byteLen l.val.toList)).sum + k = byteLen src.toList) ∧
    ((∀ c ∈ src.toList, isSpace c = true → c = '\n') →
      ¬['/', '/'] <:+: src.toList → ¬['/', '*'] <:+: src.toList →
      String.join (ls.map lex.val) = src) := by
  obtain ⟨k, hk⟩ := run_tiles _ _ _ h hnul herr
  refine ⟨⟨k, hk, tiles_sum hk⟩, fun hsp h1 h2 => ?_⟩
  obtain ⟨e, _⟩ := tiles_no_skip hk hsp h1 h2
  rw [String.join_eq]
  apply String.ext
  simpa [List.map_map, Function.comp_def, String.toList] using e

/-- Witness for C19: a line with spaces and a comment; 4 bytes of lexemes and 8 bytes skipped
make the 12 bytes of the source. -/
theorem lexemes_tile_input_witness :
    lexAll "a = 1 // x\nb" =
      .ok [⟨lexName, "a"⟩, ⟨lexEq, "="⟩, ⟨lexInt, "1"⟩, ⟨lexEos, ""⟩, ⟨lexName, "b"⟩,
        ⟨lexEof, ""⟩] ∧
    (∃ k, Tiles [⟨lexName, "a"⟩, ⟨lexEq, "="⟩, ⟨lexInt, "1"⟩, ⟨lexEos, ""⟩, ⟨lexName, "b"⟩,
        ⟨lexEof, ""⟩] k "a = 1 // x\nb".toList ∧ 4 + k = 12) := by
  obtain ⟨k, hk, hs⟩ := (lexemes_tile_input "a = 1 // x\nb"
    [⟨lexName, "a"⟩, ⟨lexEq, "="⟩, ⟨lexInt, "1"⟩, ⟨lexEos, ""⟩, ⟨lexName, "b"⟩, ⟨lexEof, ""⟩]
    rfl (meetsNul_of_nulFree _ _ (by decide)) (by decide)).1
  have h3 : (List.map (fun l => byteLen l.val.toList)
      [lex.mk lexName "a", ⟨lexEq, "="⟩, ⟨lexInt, "1"⟩, ⟨lexEos, ""⟩, ⟨lexName, "b"⟩,
        ⟨lexEof, ""⟩]).sum = 4 := by decide
  have h11 : byteLen "a = 1 // x\nb".toList = 12 := by decide
  rw [h3, h11] at hs
  exact ⟨rfl, k, hk, hs⟩

/-- A NUL rune where a lexeme could start ends the lexing: the loop of `lexer.run` compares
the rune with `eof = 0`. -/
theorem nul_ends_lexing :
    lexAll "a\x00b" = .ok [⟨lexName, "a"⟩, ⟨lexEof, ""⟩] := rfl

/-! ### Jump offsets stay inside their sequence (C20) -/

theorem opsValidFrom_append (a b : List op) (i total : Nat) :
    opsValidFrom (a ++ b) i total =
      (opsValidFrom a i total && opsValidFrom b (i + a.length) total) := by
  induction a generalizing i with
  | nil => simp [opsValidFrom]
  | cons o r ih =>
    have e : i + 1 + r.length = i + (r.length + 1) := by omega
    show (o.validAt i total && opsValidFrom (r ++ b) (i + 1) total) =
      ((o.validAt i total && opsValidFrom r (i + 1) total) &&
        opsValidFrom b (i + (r.length + 1)) total)
    rw [ih, e, Bool.and_assoc]

theorem validAt_shift (o : op) (i total s total1 : Nat) (h : o.validAt i total = true)
    (ht : total + s ≤ total1) : o.validAt (i + s) total1 = true := by
  obtain ⟨t, p⟩ := o
  simp only [op.validAt, Bool.and_eq_true] at h ⊢
  refine ⟨?_, h.2⟩
  have h1 := h.1
  split_ifs at h1 ⊢ with hj
  · cases p <;> simp at h1 ⊢
    omega
  · rfl

theorem opsValidFrom_shift (c : List op) (i total s total1 : Nat)
    (h : opsValidFrom c i total = true) (ht : total + s ≤ total1) :
    opsValidFrom c (i + s) total1 = true := by
  induction c generalizing i with
  | nil => rfl
  | cons o r ih =>
    simp only [opsValidFrom, Bool.and_eq_true] at h ⊢
    refine ⟨validAt_shift o i total s total1 h.1 ht, ?_⟩
    have := ih (i + 1) h.2
    rwa [Nat.add_right_comm] at this

theorem ValidJumps.at {c : List op} (h : ValidJumps c) (off total : Nat)
    (ht : off + c.length ≤ total) : opsValidFrom c off total = true := by
  have := opsValidFrom_shift c 0 c.length off total h (by omega)
  rwa [Nat.zero_add] at this

theorem validJumps_nil : ValidJumps [] := rfl

theorem Grows.self (f : function) : Grows f f := ⟨Nat.le_refl _, id⟩

theorem Grows.trans {f g h : function} (h1 : Grows f g) (h2 : Grows g h) : Grows f h :=
  ⟨Nat.le_trans h1.1 h2.1, fun hf => h2.2 (h1.2 hf)⟩

theorem ValidJumps.concat {f c : function} (hf : ValidJumps f) (hc : ValidJumps c) :
    ValidJumps (f ++ c) := by
  unfold ValidJumps
  rw [opsValidFrom_append, Bool.and_eq_true]
  exact ⟨hf.at 0 _ (by simp), hc.at _ _ (by simp)⟩

theorem Grows.appendRight (f : function) {c : function} (hc : ValidJumps c) : Grows f (f ++ c) :=
  ⟨by simp, fun hf => hf.concat hc⟩

theorem validJumps_single {o : op} (h : o.Plain) : ValidJumps [o] := by
  simp [ValidJumps, opsValidFrom, h 0 1]

theorem Grows.push (f : function) {o : op} (h : o.Plain) : Grows f (f ++ [o]) :=
  Grows.appendRight f (validJumps_single h)

theorem Grows.valid {f : function} (h : Grows [] f) : ValidJumps f := h.2 validJumps_nil

theorem plain_function {body : function} (h : ValidJumps body) :
    (op.mk opFunction (.function body)).Plain := by
  intro i total
  simp only [op.validAt, Value.validJumps, Bool.and_eq_true]
  exact ⟨by simp, h⟩

theorem validAt_jmp (i total : Nat) (d : Int) (h0 : 0 ≤ (i : Int) + d)
    (h1 : (i : Int) + d ≤ (total : Int)) : (op.mk opJmp (.int d)).validAt i total = true := by
  simp [op.validAt, Value.validJumps, h0, h1]

theorem validAt_jmpFalse (i total : Nat) (d : Int) (h0 : 0 ≤ (i : Int) + d)
    (h1 : (i : Int) + d ≤ (total : Int)) :
    (op.mk opJmpFalse (.int d)).validAt i total = true := by
  simp [op.validAt, Value.validJumps, h0, h1]

theorem valid_while {f1 body : function} (h1 : ValidJumps f1) (hb : ValidJumps body)
    (start : Nat) (hs : start ≤ f1.length) :
    ValidJumps (f1 ++ [op.mk opJmpFalse (.int ((body.length : Int) + 2))] ++ body ++
      [op.mk opJmp (.int ((start : Int) -
        ((f1 ++ [op.mk opJmpFalse (.int ((body.length : Int) + 2))] ++ body).length : Int)))]) := by
  unfold ValidJumps
  simp only [opsValidFrom_append, opsValidFrom, Bool.and_eq_true, Bool.and_true,
    List.length_append, List.length_singleton, List.length_cons, List.length_nil]
  refine ⟨⟨⟨h1.at 0 _ (by omega), ?_⟩, hb.at _ _ (by omega)⟩, ?_⟩
  · exact validAt_jmpFalse _ _ _ (by push_cast; omega) (by push_cast; omega)
  · exact validAt_jmp _ _ _ (by push_cast; omega) (by push_cast; omega)

theorem valid_for {f1 body after : function} (h1 : ValidJumps f1) (hb : ValidJumps body)
    (ha : ValidJumps after) (start : Nat) (hs : start ≤ f1.length) :
    ValidJumps (f1 ++
      [op.mk opJmpFalse (.int ((body.length : Int) + (after.length : Int) + 2))] ++ body ++
      after ++ [op.mk opJmp (.int ((start : Int) -
        ((f1 ++ [op.mk opJmpFalse (.int ((body.length : Int) + (after.length : Int) + 2))] ++
          body ++ after).length : Int)))]) := by
  unfold ValidJumps
  simp only [opsValidFrom_append, opsValidFrom, Bool.and_eq_true, Bool.and_true,
    List.length_append, List.length_singleton, List.length_cons, List.length_nil]
  refine ⟨⟨⟨⟨h1.at 0 _ (by omega), ?_⟩, hb.at _ _ (by omega)⟩, ha.at _ _ (by omega)⟩, ?_⟩
  · exact validAt_jmpFalse _ _ _ (by push_cast; omega) (by push_cast; omega)
  · exact validAt_jmp _ _ _ (by push_cast; omega) (by push_cast; omega)

theorem valid_if {f1 body : function} (h1 : ValidJumps f1) (hb : ValidJumps body) :
    ValidJumps (f1 ++ [op.mk opJmpFalse (.int ((body.length : Int) + 1))] ++ body ++ []) := by
  unfold ValidJumps
  simp only [opsValidFrom_append, opsValidFrom, Bool.and_eq_true, Bool.and_true,
    List.length_append, List.length_singleton, List.length_cons, List.length_nil]
  refine ⟨⟨h1.at 0 _ (by omega), ?_⟩, hb.at _ _ (by omega)⟩
  exact validAt_jmpFalse _ _ _ (by push_cast; omega) (by push_cast; omega)

theorem valid_ifElse {f1 body elseBody : function} (h1 : ValidJumps f1) (hb : ValidJumps body)
    (he : ValidJumps elseBody) :
    ValidJumps (f1 ++
      [op.mk opJmpFalse (.int (((body ++
        [op.mk opJmp (.int ((elseBody.length : Int) + 1))]).length : Int) + 1))] ++
      (body ++ [op.mk opJmp (.int ((elseBody.length : Int) + 1))]) ++ elseBody) := by
  unfold ValidJumps
  simp only [opsValidFrom_append, opsValidFrom, Bool.and_eq_true, Bool.and_true,
    List.length_append, List.length_singleton, List.length_cons, List.length_nil]
  refine ⟨⟨⟨h1.at 0 _ (by omega), ?_⟩, hb.at _ _ (by omega), ?_⟩, he.at _ _ (by omega)⟩
  · exact validAt_jmpFalse _ _ _ (by push_cast; omega) (by push_cast; omega)
  · exact validAt_jmp _ _ _ (by push_cast; omega) (by push_cast; omega)

theorem Post.ofError {α : Type} {P : α → Prop} (e : Err) : Post P (.error e) := by
  intro a h; cases h

theorem Post.ofOk {α : Type} {P : α → Prop} {a : α} (h : P a) : Post P (.ok a) := by
  intro b hb; cases hb; exact h

theorem Post.pure {α : Type} {P : α → Prop} {a : α} (h : P a) :
    Post P (pure a : Except Err α) := Post.ofOk h

theorem Post.andThen {α β : Type} {P : α → Prop} {Q : β → Prop} {x : Except Err α}
    {k : α → Except Err β} (hx : Post P x) (hk : ∀ a, P a → Post Q (k a)) :
    Post Q (x >>= k) := by
  intro b hb
  cases x with
  | error e => cases hb
  | ok a => exact hk a (hx a rfl) b hb

theorem Post.bindAny {α β : Type} {Q : β → Prop} (x : Except Err α)
    {k : α → Except Err β} (hk : ∀ a, Post Q (k a)) : Post Q (x >>= k) :=
  Post.andThen (P := fun _ => True) (fun _ _ => trivial) (fun a _ => hk a)

theorem Post.weaken {α : Type} {P Q : α → Prop} {x : Except Err α} (hx : Post P x)
    (h : ∀ a, P a → Q a) : Post Q x := fun a ha => h a (hx a ha)

theorem Post.after {f g : function} {α : Type} {pr : α → function} {x : Except Err α}
    (hg : Grows f g) (hx : Post (fun r => Grows g (pr r)) x) :
    Post (fun r => Grows f (pr r)) x := hx.weaken (fun _ h => hg.trans h)

theorem allGrow_zero : AllGrow 0 := by
  constructor <;> intros <;> exact Post.ofError _

theorem grows_while {f f1 body : function} (hg : Grows f f1) (hb : ValidJumps body) :
    Grows f (f1 ++ [op.mk opJmpFalse (.int ((body.length : Int) + 2))] ++ body ++
      [op.mk opJmp (.int ((f.length : Int) -
        ((f1 ++ [op.mk opJmpFalse (.int ((body.length : Int) + 2))] ++ body).length : Int)))]) := by
  refine ⟨?_, fun hf => valid_while (hg.2 hf) hb f.length hg.1⟩
  have := hg.1
  simp only [List.length_append, List.length_singleton]
  omega

theorem grows_for {f f0 f1 body after : function} (hg0 : Grows f f0) (hg1 : Grows f0 f1)
    (hb : ValidJumps body) (ha : ValidJumps after) :
    Grows f (f1 ++
      [op.mk opJmpFalse (.int ((body.length : Int) + (after.length : Int) + 2))] ++ body ++
      after ++ [op.mk opJmp (.int ((f0.length : Int) -
        ((f1 ++ [op.mk opJmpFalse (.int ((body.length : Int) + (after.length : Int) + 2))] ++
          body ++ after).length : Int)))]) := by
  refine ⟨?_, fun hf => valid_for (hg1.2 (hg0.2 hf)) hb ha f0.length hg1.1⟩
  have := hg0.1
  have := hg1.1
  simp only [List.length_append, List.length_singleton]
  omega

theorem grows_if {f f1 body : function} (hg : Grows f f1) (hb : ValidJumps body) :
    Grows f (f1 ++ [op.mk opJmpFalse (.int ((body.length : Int) + 1))] ++ body ++ []) := by
  refine ⟨?_, fun hf => valid_if (hg.2 hf) hb⟩
  have := hg.1
  simp only [List.length_append, List.length_singleton]
  omega

theorem grows_ifElse {f f1 body elseBody : function} (hg : Grows f f1) (hb : ValidJumps body)
    (he : ValidJumps elseBody) :
    Grows f (f1 ++
      [op.mk opJmpFalse (.int (((body ++
        [op.mk opJmp (.int ((elseBody.length : Int) + 1))]).length : Int) + 1))] ++
      (body ++ [op.mk opJmp (.int ((elseBody.length : Int) + 1))]) ++ elseBody) := by
  refine ⟨?_, fun hf => valid_ifElse (hg.2 hf) hb he⟩
  have := hg.1
  simp only [List.length_append, List.length_singleton]
  omega

theorem grow_pWhile (n : Nat) (ih : AllGrow n) (ts : List lex) (f : function) :
    Post (fun r => Grows f r.1) (parser.pWhile (n + 1) ts f) := by
  simp only [parser.pWhile]
  refine Post.andThen (ih.expr0 0 ts f) ?_
  rintro ⟨f1, ts1⟩ hg
  refine Post.bindAny _ ?_
  intro l
  by_cases h1 : l.typ ≠ lexLeftBrace
  · rw [if_pos h1]
    exact Post.ofError _
  · rw [if_neg h1]
    refine Post.andThen (ih.pfun ts1 []) ?_
    rintro ⟨body, ts2⟩ hb
    exact Post.pure (grows_while hg hb.valid)

theorem grow_pFor (n : Nat) (ih : AllGrow n) (ts : List lex) (f : function) :
    Post (fun r => Grows f r.1) (parser.pFor (n + 1) ts f) := by
  simp only [parser.pFor]
  refine Post.andThen (ih.assignOrNone ts f) ?_
  rintro ⟨f0, ts0⟩ hg0
  refine Post.bindAny _ ?_
  intro ts1
  refine Post.andThen (ih.expr0 0 ts1 f0) ?_
  rintro ⟨f1, ts2⟩ hg1
  refine Post.bindAny _ ?_
  intro ts3
  refine Post.andThen (ih.assignOrNone ts3 []) ?_
  rintro ⟨after, ts4⟩ ha
  refine Post.bindAny _ ?_
  intro l
  by_cases h1 : l.typ ≠ lexLeftBrace
  · rw [if_pos h1]
    exact Post.ofError _
  · rw [if_neg h1]
    refine Post.andThen (ih.pfun ts4 []) ?_
    rintro ⟨body, ts5⟩ hb
    exact Post.pure (grows_for hg0 hg1 hb.valid ha.valid)

theorem grow_pIf (n : Nat) (ih : AllGrow n) (ts : List lex) (f : function) :
    Post (fun r => Grows f r.1) (parser.pIf (n + 1) ts f) := by
  simp only [parser.pIf]
  refine Post.andThen (ih.expr0 0 ts f) ?_
  rintro ⟨f1, ts1⟩ hg
  refine Post.bindAny _ ?_
  intro l
  by_cases h1 : l.typ ≠ lexLeftBrace
  · rw [if_pos h1]
    exact Post.ofError _
  rw [if_neg h1]
  refine Post.andThen (ih.pfun ts1 []) ?_
  rintro ⟨body, ts2⟩ hb
  refine Post.bindAny _ ?_
  intro e
  by_cases h2 : e.typ = lexElse
  · rw [if_pos h2]
    refine Post.bindAny _ ?_
    intro b
    by_cases h3 : b.typ ≠ lexLeftBrace
    · rw [if_pos h3]
      exact Post.ofError _
    rw [if_neg h3]
    refine Post.andThen (ih.pfun _ []) ?_
    rintro ⟨elseBody, ts3⟩ he
    exact Post.pure (grows_ifElse hg hb.valid he.valid)
  · rw [if_neg h2]
    exact Post.pure (grows_if hg hb.valid)

theorem grow_pfun (n : Nat) (ih : AllGrow n) (ts : List lex) (f : function) :
    Post (fun r => Grows f r.1) (parser.fun (n + 1) ts f) := by
  simp only [parser.fun]
  refine Post.bindAny _ ?_
  intro l
  split_ifs
  · exact ih.funLoop _ _ _
  · exact ih.funLoop _ _ _

theorem grow_funEnd (n : Nat) (ih : AllGrow n) (e : lexType) (ts : List lex) (f : function) :
    Post (fun r => Grows f r.1) (parser.funEnd (n + 1) e ts f) := by
  simp only [parser.funEnd]
  refine Post.bindAny _ ?_
  rintro ⟨l, ts1⟩
  dsimp only
  split_ifs
  · exact Post.ofError _
  · exact Post.pure (Grows.self f)
  · exact ih.funLoop _ _ _

theorem grow_callArgs (n : Nat) (ih : AllGrow n) (ts : List lex) (f : function) :
    Post (fun r => Grows f r.1) (parser.callArgs (n + 1) ts f) := by
  simp only [parser.callArgs]
  refine Post.bindAny _ ?_
  rintro ⟨l, ts1⟩
  dsimp only
  split_ifs
  · exact Post.ofError _
  · exact ih.callArgsLoop _ _ _

theorem grow_callArgsLoop (n : Nat) (ih : AllGrow n) (a : Int) (ts : List lex) (f : function) :
    Post (fun r => Grows f r.1) (parser.callArgsLoop (n + 1) a ts f) := by
  simp only [parser.callArgsLoop]
  refine Post.bindAny _ ?_
  intro l
  by_cases h1 : l.typ ≠ lexRightPar
  · rw [if_pos h1]
    refine Post.andThen (ih.expr0 0 ts f) ?_
    rintro ⟨f1, ts1⟩ hg
    refine Post.bindAny _ ?_
    intro nx
    dsimp only
    split_ifs
    · exact (ih.callArgsLoop _ _ _).after hg
    · exact Post.ofError _
    · exact (ih.callArgsLoop _ _ _).after hg
  · rw [if_neg h1]
    exact Post.pure (Grows.self f)

theorem grow_call (n : Nat) (ih : AllGrow n) (ts : List lex) (f : function) :
    Post (fun r => Grows f r.1) (parser.call (n + 1) ts f) := by
  simp only [parser.call]
  exact (ih.callLoop _ _ _).after (Grows.push f (by intro _ _; rfl))

theorem grow_callLoop (n : Nat) (ih : AllGrow n) (a : Int) (ts : List lex) (f : function) :
    Post (fun r => Grows f r.1) (parser.callLoop (n + 1) a ts f) := by
  simp only [parser.callLoop]
  refine Post.bindAny _ ?_
  intro l
  by_cases h1 : l.typ ≠ lexRightPar
  · rw [if_pos h1]
    refine Post.andThen (ih.expr0 0 ts f) ?_
    rintro ⟨f1, ts1⟩ hg
    refine Post.bindAny _ ?_
    intro nx
    dsimp only
    split_ifs
    · exact (ih.callLoop _ _ _).after hg
    · exact (ih.callLoop _ _ _).after hg
  · rw [if_neg h1]
    refine Post.pure (Grows.appendRight f ?_)
    simp [ValidJumps, opsValidFrom, op.validAt, Value.validJumps]

theorem grow_name (n : Nat) (ih : AllGrow n) (ts : List lex) (f : function) (l : lex) :
    Post (fun r => Grows f r.1) (parser.name (n + 1) ts f l) := by
  simp only [parser.name]
  refine Post.bindAny _ ?_
  rintro ⟨nm, m, r⟩
  dsimp only
  split_ifs
  · exact Post.ofError _
  · exact (ih.nameIndex _ _).after (Grows.push f (by intro _ _; rfl))

theorem grow_nameIndex (n : Nat) (ih : AllGrow n) (ts : List lex) (f : function) :
    Post (fun r => Grows f r.1) (parser.nameIndex (n + 1) ts f) := by
  simp only [parser.nameIndex]
  refine Post.bindAny _ ?_
  intro l
  by_cases h1 : l.typ = lexLeftBracket
  · rw [if_pos h1]
    have g1 : Grows f (f ++ [op.mk opString (.string "["), op.mk opSum .nil]) :=
      Grows.appendRight f (by simp [ValidJumps, opsValidFrom, op.validAt, Value.validJumps])
    refine Post.andThen (ih.expr0 0 _ _) ?_
    rintro ⟨f1, ts1⟩ hg
    refine Post.bindAny _ ?_
    rintro ⟨r, ts2⟩
    dsimp only
    split_ifs
    · exact Post.ofError _
    · have g2 : Grows f1 (f1 ++ [op.mk opSum .nil] ++
          [op.mk opString (.string "]"), op.mk opSum .nil]) :=
        (Grows.push f1 (by intro _ _; rfl)).trans
          (Grows.appendRight _ (by simp [ValidJumps, opsValidFrom, op.validAt, Value.validJumps]))
      exact (ih.nameIndex _ _).after ((g1.trans hg).trans g2)
  · rw [if_neg h1]
    exact Post.pure (Grows.self f)

theorem levelFind_plain (level : Nat) (ty : lexType) (o : opType)
    (h : levelFind level ty = some o) : (op.mk o .nil).Plain := by
  have := (levelFind_table level ty o).mp h
  simp only [List.mem_cons, Prod.mk.injEq, List.mem_singleton, List.not_mem_nil, or_false]
    at this
  rcases this with ⟨_, _, rfl⟩ | ⟨_, _, rfl⟩ | ⟨_, _, rfl⟩ | ⟨_, _, rfl⟩ | ⟨_, _, rfl⟩ |
    ⟨_, _, rfl⟩ | ⟨_, _, rfl⟩ | ⟨_, _, rfl⟩ | ⟨_, _, rfl⟩ | ⟨_, _, rfl⟩ | ⟨_, _, rfl⟩ |
    ⟨_, _, rfl⟩ | ⟨_, _, rfl⟩ <;> (intro _ _; rfl)

theorem grow_exprLoop (n : Nat) (ih : AllGrow n) (level : Nat) (ts : List lex) (f : function) :
    Post (fun r => Grows f r.1) (parser.exprLoop (n + 1) level ts f) := by
  simp only [parser.exprLoop]
  refine Post.bindAny _ ?_
  intro l
  cases ho : levelFind level l.typ with
  | none => exact Post.pure (Grows.self f)
  | some o =>
    refine Post.andThen (ih.expr0 _ _ _) ?_
    rintro ⟨f1, ts1⟩ hg
    exact (ih.exprLoop _ _ _).after (hg.trans (Grows.push f1 (levelFind_plain _ _ _ ho)))

theorem grow_funArgsLoop (n : Nat) (ts : List lex) (ret : function) :
    Post (fun r => Grows ret r.1) (parser.funArgsLoop n ts ret) := by
  induction n generalizing ts ret with
  | zero => exact Post.ofError _
  | succ n ih =>
    simp only [parser.funArgsLoop]
    refine Post.bindAny _ ?_
    rintro ⟨arg, ts1⟩
    dsimp only
    by_cases h1 : arg.typ = lexRightPar
    · rw [if_pos h1]
      exact Post.pure (Grows.self ret)
    rw [if_neg h1]
    by_cases h2 : arg.typ ≠ lexName
    · rw [if_pos h2]
      exact Post.ofError _
    rw [if_neg h2]
    refine Post.bindAny _ ?_
    intro nx
    split_ifs
    · exact (ih _ _).after (Grows.push ret (by intro _ _; rfl))
    · exact (ih _ _).after (Grows.push ret (by intro _ _; rfl))

theorem grow_funArgs (n : Nat) (ts : List lex) :
    Post (fun r => ValidJumps r.1) (parser.funArgs n ts) :=
  (grow_funArgsLoop n _ []).weaken (fun _ h => h.valid)

theorem grow_assign (n : Nat) (ih : AllGrow n) (ts : List lex) (f : function) :
    Post (fun r => Grows f r.1) (parser.assign (n + 1) ts f) := by
  simp only [parser.assign, pure_bind, if_true, Bool.false_eq_true, if_false,
    decide_eq_true_eq]
  have hexpr : Post (fun r => Grows f r.1)
      (do let y ← parser.expr0 n 0 ts f; pure (y.1 ++ [op.mk opStoreStr .nil], y.2)) :=
    Post.andThen (ih.expr0 _ _ _) (fun y hy =>
      Post.pure (hy.trans (Grows.push y.1 (by intro _ _; rfl))))
  have hlit : Post (fun r => Grows f r.1)
      (do
        let d ← parser.funArgs n ts
        let b ← parser.fun n d.2 d.1
        pure (f ++ [op.mk opFunction (.function b.1)] ++ [op.mk opStoreStr .nil], b.2)) :=
    Post.andThen (grow_funArgs n ts) (fun d hd =>
      Post.andThen (ih.pfun d.2 d.1) (fun b hb =>
        Post.pure ((Grows.push f (plain_function (hb.2 hd))).trans
          (Grows.push _ (by intro _ _; rfl)))))
  refine Post.bindAny _ ?_
  intro l0
  by_cases c0 : l0.typ = lexLeftPar
  · rw [if_pos c0]
    refine Post.bindAny _ ?_
    intro l1
    by_cases c1 : l1.typ = lexRightPar
    · rw [if_pos c1]
      refine Post.bindAny _ ?_
      intro l
      by_cases c2 : l.typ ≠ lexLeftBrace
      · rw [if_pos c2]
        exact Post.ofError _
      · rw [if_neg c2]
        exact Post.andThen (ih.pfun _ []) (fun b hb =>
          Post.pure ((Grows.push f (plain_function hb.valid)).trans
            (Grows.push _ (by intro _ _; rfl))))
    rw [if_neg c1]
    by_cases c3 : l1.typ = lexName
    · rw [if_pos c3]
      refine Post.bindAny _ ?_
      intro l2
      by_cases c4 : l2.typ = lexComma
      · rw [if_pos c4]
        exact hlit
      rw [if_neg c4]
      by_cases c5 : l2.typ = lexRightPar
      · rw [if_pos c5]
        refine Post.bindAny _ ?_
        intro l3
        by_cases c6 : l3.typ = lexLeftBrace
        · rw [if_pos c6]
          exact hlit
        · rw [if_neg c6]
          exact hexpr
      · rw [if_neg c5]
        exact hexpr
    · rw [if_neg c3]
      exact hexpr
  · rw [if_neg c0]
    exact hexpr

theorem grow_assignOrNone (n : Nat) (ih : AllGrow n) (ts : List lex) (f : function) :
    Post (fun r => Grows f r.1) (parser.assignOrNone (n + 1) ts f) := by
  simp only [parser.assignOrNone]
  refine Post.bindAny _ ?_
  intro l
  by_cases h1 : l.val ≠ ";"
  · rw [if_pos h1]
    refine Post.bindAny _ ?_
    rintro ⟨l1, ts1⟩
    refine Post.andThen (ih.name _ _ _) ?_
    rintro ⟨f1, ts2⟩ hg
    refine Post.bindAny _ ?_
    rintro ⟨e, ts3⟩
    dsimp only
    split_ifs
    · exact Post.ofError _
    · exact (ih.assign _ _).after hg
  · rw [if_neg h1]
    exact Post.pure (Grows.self f)

theorem grow_funLoop (n : Nat) (ih : AllGrow n) (e : lexType) (ts : List lex) (f : function) :
    Post (fun r => Grows f r.1) (parser.funLoop (n + 1) e ts f) := by
  rw [funLoop_unfold]
  refine Post.bindAny _ ?_
  rintro ⟨l, ts1⟩
  dsimp only
  have hstmt : ∀ x : Except Err (function × List lex), Post (fun r => Grows f r.1) x →
      Post (fun r => Grows f r.1) (do let (g, r) ← x; parser.funEnd n e r g) :=
    fun x hx => Post.andThen hx (fun y hy => (ih.funEnd _ _ _).after hy)
  by_cases c1 : l.typ = lexEos
  · rw [if_pos c1]; exact ih.funLoop _ _ _
  rw [if_neg c1]
  by_cases c2 : l.typ = lexIf
  · rw [if_pos c2]; exact hstmt _ (ih.pIf _ _)
  rw [if_neg c2]
  by_cases c3 : l.typ = lexFor
  · rw [if_pos c3]; exact hstmt _ (ih.pFor _ _)
  rw [if_neg c3]
  by_cases c4 : l.typ = lexWhile
  · rw [if_pos c4]; exact hstmt _ (ih.pWhile _ _)
  rw [if_neg c4]
  by_cases c5 : l.typ = lexPrint
  · rw [if_pos c5]
    exact Post.andThen (ih.callArgs _ _) (fun y hy =>
      (ih.funEnd _ _ _).after (hy.trans (Grows.push y.1 (by intro _ _; rfl))))
  rw [if_neg c5]
  by_cases c6 : l.typ = lexPrintLn
  · rw [if_pos c6]
    exact Post.andThen (ih.callArgs _ _) (fun y hy =>
      (ih.funEnd _ _ _).after (hy.trans (Grows.push y.1 (by intro _ _; rfl))))
  rw [if_neg c6]
  by_cases c7 : l.typ = lexReturn
  · rw [if_pos c7]
    refine Post.bindAny _ ?_
    intro nt
    split_ifs
    · exact Post.andThen (ih.expr0 _ _ _) (fun y hy =>
        (ih.funEnd _ _ _).after (hy.trans (Grows.push y.1 (by intro _ _; rfl))))
    · exact (ih.funEnd _ _ _).after (Grows.push f (by intro _ _; rfl))
  rw [if_neg c7]
  by_cases c8 : l.typ = lexDot ∨ l.typ = lexName
  · rw [if_pos c8]
    refine Post.andThen (ih.name _ _ _) ?_
    rintro ⟨f1, ts2⟩ hg
    refine Post.bindAny _ ?_
    rintro ⟨nx, ts3⟩
    dsimp only
    split_ifs
    · exact Post.andThen (ih.assign _ _) (fun y hy => (ih.funEnd _ _ _).after (hg.trans hy))
    · exact Post.andThen (ih.call _ _) (fun y hy => (ih.funEnd _ _ _).after (hg.trans hy))
    · exact Post.ofError _
  rw [if_neg c8]
  split_ifs
  · exact Post.pure (Grows.self f)
  · exact Post.ofError _

theorem grow_literal (n level : Nat) (hl : ¬level < 6) (l : lex) (f : function)
    (h1 : l.typ ≠ lexMinus) (h2 : l.typ ≠ lexNot) (h3 : l.typ ≠ lexLeftPar)
    (h4 : ¬(l.typ = lexDot ∨ l.typ = lexName)) :
    Post (fun r => Grows f r.1) (parser.expr0 (n + 1) level [l] f) := by
  have h6 : ¬(level < levelLex.length) := by simpa [levelLex] using hl
  obtain ⟨ty, v⟩ := l
  simp only [not_or] at h4
  cases ty <;> first
    | exact absurd rfl h1
    | exact absurd rfl h2
    | exact absurd rfl h3
    | exact absurd rfl h4.1
    | exact absurd rfl h4.2
    | (simp only [parser.expr0, h6, if_false, parser.get, bind, Except.bind]
       first
         | exact Post.ofError _
         | exact Post.pure (Grows.push f (by intro _ _; rfl))
         | (cases parseInt v <;> first
              | exact Post.ofError _
              | exact Post.pure (Grows.push f (by intro _ _; rfl)))
         | (cases parseFloat v <;> first
              | exact Post.ofError _
              | exact Post.pure (Grows.push f (by intro _ _; rfl)))
         | (cases parseBool v <;> first
              | exact Post.ofError _
              | exact Post.pure (Grows.push f (by intro _ _; rfl)))
         | (cases unquote v <;> first
              | exact Post.ofError _
              | exact Post.pure (Grows.push f (by intro _ _; rfl))))

theorem grow_expr0 (n : Nat) (ih : AllGrow n) (level : Nat) (ts : List lex) (f : function) :
    Post (fun r => Grows f r.1) (parser.expr0 (n + 1) level ts f) := by
  by_cases hl : level < 6
  · have h6 : level < levelLex.length := by simpa [levelLex] using hl
    simp only [parser.expr0, if_pos h6]
    exact Post.andThen (ih.expr0 _ _ _) (fun y hy => (ih.exprLoop _ _ _).after hy)
  rw [expr0_primary_unfold n level hl]
  refine Post.bindAny _ ?_
  rintro ⟨l, ts1⟩
  dsimp only
  by_cases c1 : l.typ = lexMinus
  · rw [if_pos c1]
    exact Post.andThen (ih.expr0 _ _ _) (fun y hy =>
      Post.pure (hy.trans (Grows.push y.1 (by intro _ _; rfl))))
  rw [if_neg c1]
  by_cases c2 : l.typ = lexNot
  · rw [if_pos c2]
    exact Post.andThen (ih.expr0 _ _ _) (fun y hy =>
      Post.pure (hy.trans (Grows.push y.1 (by intro _ _; rfl))))
  rw [if_neg c2]
  by_cases c3 : l.typ = lexLeftPar
  · rw [if_pos c3]
    refine Post.andThen (ih.expr0 _ _ _) ?_
    rintro ⟨f1, ts2⟩ hg
    refine Post.bindAny _ ?_
    rintro ⟨r, ts3⟩
    dsimp only
    split_ifs
    · exact Post.ofError _
    · exact Post.pure hg
  rw [if_neg c3]
  by_cases c4 : l.typ = lexDot ∨ l.typ = lexName
  · rw [if_pos c4]
    refine Post.andThen (ih.name _ _ _) ?_
    rintro ⟨f1, ts2⟩ hg
    have hg1 : Grows f (f1 ++ [op.mk opLoadStr .nil]) :=
      hg.trans (Grows.push f1 (by intro _ _; rfl))
    refine Post.bindAny _ ?_
    intro nx
    dsimp only
    split_ifs
    · exact Post.andThen (ih.callArgs _ _) (fun y hy =>
        Post.pure ((hg1.trans hy).trans (Grows.push y.1 (by intro _ _; rfl))))
    · exact Post.pure hg1
  rw [if_neg c4]
  split_ifs
  · exact Post.ofError _
  · have hlit := grow_literal n level hl l f c1 c2 c3 c4
    cases hx : parser.expr0 (n + 1) level [l] f with
    | error e => exact Post.ofError _
    | ok y => exact Post.pure (hlit y hx)

/-- Every function of the parser, at every amount of fuel, keeps the jumps of the code valid. -/
theorem allGrow (n : Nat) : AllGrow n := by
  induction n with
  | zero => exact allGrow_zero
  | succ n ih =>
    exact ⟨grow_pfun n ih, grow_funLoop n ih, grow_funEnd n ih, grow_assign n ih,
      grow_callArgs n ih, grow_callArgsLoop n ih, grow_expr0 n ih, grow_exprLoop n ih,
      grow_name n ih, grow_nameIndex n ih, grow_call n ih, grow_callLoop n ih, grow_pIf n ih,
      grow_assignOrNone n ih, grow_pFor n ih, grow_pWhile n ih⟩

theorem opsValidFrom_get (c : List op) (i total k : Nat) (o : op)
    (h : opsValidFrom c i total = true) (hk : c.get? k = some o) :
    o.validAt (i + k) total = true := by
  induction c generalizing i k with
  | nil => cases hk
  | cons a r ih =>
    simp only [opsValidFrom, Bool.and_eq_true] at h
    cases k with
    | zero =>
      simp only [List.get?, Option.some.injEq] at hk
      subst hk
      exact h.1
    | succ k =>
      have := ih (i + 1) k h.2 hk
      rwa [Nat.add_assoc, Nat.add_comm 1 k] at this

/-- What `ValidJumps` says of the opcode at index `i`: if it is a jump, its offset `d` is an
`int` with `0 ≤ i + d ≤ length`; if it carries a function, that function has valid jumps. -/
theorem ValidJumps.get {f : function} (h : ValidJumps f) (i : Nat) (t : opType) (p : Value)
    (hg : f.get? i = some (op.mk t p)) :
    ((t = opJmp ∨ t = opJmpFalse) →
      ∃ d : Int, p = .int d ∧ 0 ≤ (i : Int) + d ∧ (i : Int) + d ≤ (f.length : Int)) ∧
    (∀ g : function, p = .function g → ValidJumps g) := by
  have hv := opsValidFrom_get f 0 f.length i _ h hg
  rw [Nat.zero_add] at hv
  simp only [op.validAt, Bool.and_eq_true] at hv
  constructor
  · intro ht
    have h1 := hv.1
    rw [if_pos ht] at h1
    cases p <;> simp at h1
    exact ⟨_, rfl, h1⟩
  · intro g hp
    subst hp
    exact hv.2

/-- C20: the bytecode of every source that parses has valid jumps, at the top level and in
every nested function: each `opJmp` and `opJmpFalse` at index `i` has an `int` offset `d`
with `0 ≤ i + d ≤ length` of the sequence it stands in, and each function carried by an
opcode has valid jumps in turn. -/
theorem parsed_jumps_valid (source : String) (f : function) (h : parse source = .ok f) :
    ValidJumps f ∧
    ∀ (i : Nat) (t : opType) (p : Value), f.get? i = some (op.mk t p) →
      ((t = opJmp ∨ t = opJmpFalse) →
        ∃ d : Int, p = .int d ∧ 0 ≤ (i : Int) + d ∧ (i : Int) + d ≤ (f.length : Int)) ∧
      (∀ g : function, p = .function g → ValidJumps g) := by
  have hv : ValidJumps f := by
    unfold parse at h
    cases hl : lexAll source with
    | error e => rw [hl] at h; cases h
    | ok ts =>
      rw [hl] at h
      simp only [parseLexemes] at h
      cases hp : parser.fun (parseFuel ts) ts [] with
      | error e => rw [hp] at h; cases h
      | ok r =>
        rw [hp] at h
        cases h
        exact ((allGrow _).pfun ts [] r hp).valid
  exact ⟨hv, fun i t p hg => hv.get i t p hg⟩

/-- Witness for C20: an `if` with an `else`, holding a function literal with a `while`. -/
theorem parsed_jumps_valid_witness :
    parse "if a \x7b f = () \x7b while b \x7b x = 1 \x7d \x7d \x7d else \x7b y = 2 \x7d" =
      .ok [op.mk opString (.string "a"), op.mk opLoadStr .nil, op.mk opJmpFalse (.int 5),
        op.mk opString (.string "f"),
        op.mk opFunction (.function [op.mk opString (.string "b"), op.mk opLoadStr .nil,
          op.mk opJmpFalse (.int 5), op.mk opString (.string "x"), op.mk opInt (.int64 1),
          op.mk opStoreStr .nil, op.mk opJmp (.int (-6))]),
        op.mk opStoreStr .nil, op.mk opJmp (.int 4), op.mk opString (.string "y"),
        op.mk opInt (.int64 2), op.mk opStoreStr .nil] ∧
    ValidJumps [op.mk opString (.string "a"), op.mk opLoadStr .nil, op.mk opJmpFalse (.int 5),
        op.mk opString (.string "f"),
        op.mk opFunction (.function [op.mk opString (.string "b"), op.mk opLoadStr .nil,
          op.mk opJmpFalse (.int 5), op.mk opString (.string "x"), op.mk opInt (.int64 1),
          op.mk opStoreStr .nil, op.mk opJmp (.int (-6))]),
        op.mk opStoreStr .nil, op.mk opJmp (.int 4), op.mk opString (.string "y"),
        op.mk opInt (.int64 2), op.mk opStoreStr .nil] :=
  ⟨rfl, (parsed_jumps_valid
    "if a \x7b f = () \x7b while b \x7b x = 1 \x7d \x7d \x7d else \x7b y = 2 \x7d" _
    rfl).1⟩

/-! ### The factorial program (C16) -/

theorem lexSteps_append (a b : Nat) (input r1 r2 : List Char) (t1 t2 : List lex)
    (h1 : lexSteps a input = some (t1, r1)) (h2 : lexSteps b r1 = some (t2, r2)) :
    lexSteps (b + a) input = some (t1 ++ t2, r2) := by
  induction a generalizing input t1 with
  | zero =>
    simp only [lexSteps, Option.some.injEq, Prod.mk.injEq] at h1
    obtain ⟨rfl, rfl⟩ := h1
    simpa using h2
  | succ a ih =>
    rw [← Nat.add_assoc, lexSteps]
    rw [lexSteps] at h1
    cases hs : lexer.step input with
    | emitted l rest =>
      simp only [hs] at h1 ⊢
      cases hr : lexSteps a rest with
      | none => simp [hr] at h1
      | some p =>
        obtain ⟨ts, r⟩ := p
        simp only [hr, Option.map_some', Option.some.injEq, Prod.mk.injEq] at h1
        obtain ⟨rfl, rfl⟩ := h1
        rw [ih rest ts hr]
        rfl
    | skipped rest =>
      simp only [hs] at h1 ⊢
      exact ih rest t1 h1
    | halted l => simp [hs] at h1
    | atEof => simp [hs] at h1
    | failed e => simp [hs] at h1

theorem lexSteps_run (k : Nat) (input rest : List Char) (ts : List lex)
    (h : lexSteps k input = some (ts, rest)) (m : Nat) :
    lexer.run (m + k) input = (lexer.run m rest).map (fun ls => ts ++ ls) := by
  induction k generalizing input ts with
  | zero =>
    simp only [lexSteps, Option.some.injEq, Prod.mk.injEq] at h
    obtain ⟨rfl, rfl⟩ := h
    rw [Nat.add_zero]
    cases lexer.run m input <;> rfl
  | succ k ih =>
    rw [← Nat.add_assoc, lexer.run]
    rw [lexSteps] at h
    cases hs : lexer.step input with
    | emitted l r =>
      simp only [hs] at h ⊢
      cases hr : lexSteps k r with
      | none => simp [hr] at h
      | some p =>
        obtain ⟨ts1, r1⟩ := p
        simp only [hr, Option.map_some', Option.some.injEq, Prod.mk.injEq] at h
        obtain ⟨rfl, rfl⟩ := h
        rw [ih r ts1 hr]
        cases lexer.run m r1 <;> rfl
    | skipped r =>
      simp only [hs] at h ⊢
      exact ih r ts h
    | halted l => simp [hs] at h
    | atEof => simp [hs] at h
    | failed e => simp [hs] at h

set_option maxHeartbeats 4000000 in
theorem factorial_chunks :
    LexChunk 7 "fun = (x)" ' ' [⟨lexName, "fun"⟩, ⟨lexEq, "="⟩, ⟨lexLeftPar, "("⟩,
      ⟨lexName, "x"⟩, ⟨lexRightPar, ")"⟩] ∧
    LexChunk 6 " \x7b\n\t\tfun" ' ' [⟨lexLeftBrace, "\x7b"⟩, ⟨lexEos, "\n"⟩, ⟨lexName, "fun"⟩] ∧
    LexChunk 5 " = .fun" '\n' [⟨lexEq, "="⟩, ⟨lexDot, "."⟩, ⟨lexName, "fun"⟩] ∧
    LexChunk 6 "\n\t\tif x" ' ' [⟨lexEos, "\n"⟩, ⟨lexIf, "if"⟩, ⟨lexName, "x"⟩] ∧
    LexChunk 6 " == 0 \x7b" '\n' [⟨lexEqEq, "=="⟩, ⟨lexInt, "0"⟩, ⟨lexLeftBrace, "\x7b"⟩] ∧
    LexChunk 7 "\n\t\t\treturn 1" '\n' [⟨lexEos, "\n"⟩, ⟨lexReturn, "return"⟩, ⟨lexInt, "1"⟩] ∧
    LexChunk 8 "\n\t\t\x7d else \x7b" '\n' [⟨lexEos, "\n"⟩, ⟨lexRightBrace, "\x7d"⟩,
      ⟨lexElse, "else"⟩, ⟨lexLeftBrace, "\x7b"⟩] ∧
    LexChunk 7 "\n\t\t\treturn x" ' ' [⟨lexEos, "\n"⟩, ⟨lexReturn, "return"⟩, ⟨lexName, "x"⟩] ∧
    LexChunk 6 " * fun(x" ' ' [⟨lexMul, "*"⟩, ⟨lexName, "fun"⟩, ⟨lexLeftPar, "("⟩,
      ⟨lexName, "x"⟩] ∧
    LexChunk 5 " - 1)" '\n' [⟨lexMinus, "-"⟩, ⟨lexInt, "1"⟩, ⟨lexRightPar, ")"⟩] ∧
    LexChunk 7 "\n\t\t\x7d\n\t\x7d" '\n' [⟨lexEos, "\n"⟩, ⟨lexRightBrace, "\x7d"⟩, ⟨lexEos, "\n"⟩,
      ⟨lexRightBrace, "\x7d"⟩] ∧
    LexChunk 5 "\n\t@print(fun" '(' [⟨lexEos, "\n"⟩, ⟨lexPrint, "@print"⟩, ⟨lexLeftPar, "("⟩,
      ⟨lexName, "fun"⟩] :=
  ⟨fun _ => rfl, fun _ => rfl, fun _ => rfl, fun _ => rfl, fun _ => rfl, fun _ => rfl,
    fun _ => rfl, fun _ => rfl, fun _ => rfl, fun _ => rfl, fun _ => rfl, fun _ => rfl⟩

theorem step_leftPar (tail : List Char) :
    lexer.step ('(' :: tail) = .emitted ⟨lexLeftPar, "("⟩ tail := by
  have h1 : takeBytes 0 tail = [] := by cases tail <;> rfl
  have h2 : dropBytes 0 tail = tail := by cases tail <;> rfl
  show lexStep.emitted ⟨lexLeftPar, String.mk ('(' :: takeBytes 0 tail)⟩ (dropBytes 0 tail) = _
  rw [h1, h2]


theorem indexFunc_notNumber (ds tail : List Char) (h : ∀ c ∈ ds, c ∈ asciiDigits) :
    indexFunc notNumber (ds ++ ')' :: tail) = some (byteLen ds) := by
  induction ds with
  | nil => rfl
  | cons c cs ih =>
    have hc := h c (List.mem_cons_self _ _)
    have ih1 := ih (fun d hd => h d (List.mem_cons_of_mem _ hd))
    simp only [asciiDigits, List.mem_cons, List.mem_singleton, List.not_mem_nil, or_false] at hc
    rcases hc with rfl | rfl | rfl | rfl | rfl | rfl | rfl | rfl | rfl | rfl <;>
      simp [indexFunc, notNumber, isNumber, ih1, byteLen, runeLen, Nat.add_comm]

theorem runeLen_digit (d : Char) (hd : d ∈ asciiDigits) : runeLen d = 1 := by
  simp only [asciiDigits, List.mem_cons, List.mem_singleton, List.not_mem_nil, or_false] at hd
  rcases hd with rfl | rfl | rfl | rfl | rfl | rfl | rfl | rfl | rfl | rfl <;> rfl

theorem step_digits (d : Char) (ds tail : List Char) (hd : d ∈ asciiDigits)
    (h : ∀ c ∈ ds, c ∈ asciiDigits) :
    lexer.step (d :: ds ++ ')' :: tail) = .emitted ⟨lexInt, String.mk (d :: ds)⟩ (')' :: tail) := by
  have hi := indexFunc_notNumber ds tail h
  have hl := runeLen_digit d hd
  have ht : takeBytes (1 + byteLen ds) (d :: (ds ++ ')' :: tail)) = d :: ds := by
    have := takeBytes_append (d :: ds) (')' :: tail)
    simpa [byteLen, hl] using this
  have hr : dropBytes (1 + byteLen ds) (d :: (ds ++ ')' :: tail)) = ')' :: tail := by
    have := dropBytes_append (d :: ds) (')' :: tail)
    simpa [byteLen, hl] using this
  have e1 : dropBytes 1 (d :: (ds ++ ')' :: tail)) = ds ++ ')' :: tail := by
    have := dropBytes_append [d] (ds ++ ')' :: tail)
    simpa [byteLen, hl] using this
  simp only [asciiDigits, List.mem_cons, List.mem_singleton, List.not_mem_nil, or_false] at hd
  rcases hd with rfl | rfl | rfl | rfl | rfl | rfl | rfl | rfl | rfl | rfl
  all_goals
    simp [lexer.step, runeLen, runeError, runeLexeme, List.lookup, isSpace, scanTwoRunes,
      twoRunesLexeme, hasPrefix, scanString, stringLexeme, conflictingRuneLexeme, isNumber,
      lexer.emit, e1, hi, ht, hr, decodeRune]

theorem toString_toList (n : Nat) : (toString n).toList = Nat.toDigits 10 n := rfl

theorem digitChar_digit (k : Nat) (h : k < 10) :
    Nat.digitChar k ∈ asciiDigits ∧ digitVal (Nat.digitChar k) = some k := by
  interval_cases k <;> exact ⟨by decide, by decide⟩

theorem digitsVal_append (a b : List Char) (acc v : Nat) (h : digitsVal a acc = some v) :
    digitsVal (a ++ b) acc = digitsVal b v := by
  induction a generalizing acc with
  | nil =>
    simp only [digitsVal, Option.some.injEq] at h
    subst h
    rfl
  | cons c cs ih =>
    simp only [List.cons_append, digitsVal] at h ⊢
    cases hc : digitVal c with
    | none => simp [hc] at h
    | some d =>
      simp only [hc] at h ⊢
      exact ih _ h

theorem toDigitsCore_digits (fuel n : Nat) (ds : List Char) (h : n < fuel) :
    ∃ l, Nat.toDigitsCore 10 fuel n ds = l ++ ds ∧ l ≠ [] ∧ (∀ c ∈ l, c ∈ asciiDigits) ∧
      digitsVal l 0 = some n := by
  induction fuel generalizing n ds with
  | zero => omega
  | succ fuel ih =>
    have hd := digitChar_digit (n % 10) (Nat.mod_lt _ (by decide))
    rw [Nat.toDigitsCore]
    by_cases h0 : n / 10 = 0
    · simp only [h0, if_true]
      refine ⟨[Nat.digitChar (n % 10)], rfl, by simp, ?_, ?_⟩
      · intro c hc
        rw [List.mem_singleton] at hc
        rw [hc]
        exact hd.1
      · have : n % 10 = n := by omega
        simp only [digitsVal, hd.2]
        simp [this]
    · simp only [h0, if_false]
      obtain ⟨l, hl, hne, hall, hv⟩ := ih (n / 10) (Nat.digitChar (n % 10) :: ds) (by omega)
      refine ⟨l ++ [Nat.digitChar (n % 10)], ?_, by simp, ?_, ?_⟩
      · rw [hl]; simp
      · intro c hc
        rcases List.mem_append.mp hc with h1 | h1
        · exact hall c h1
        · rw [List.mem_singleton] at h1
          rw [h1]
          exact hd.1
      · rw [digitsVal_append l _ 0 _ hv]
        simp only [digitsVal, hd.2]
        congr 1
        omega

theorem toString_digits (n : Nat) :
    ∃ d ds, (toString n).toList = d :: ds ∧ d ∈ asciiDigits ∧ (∀ c ∈ ds, c ∈ asciiDigits) ∧
      digitsVal (d :: ds) 0 = some n := by
  obtain ⟨l, hl, hne, hall, hv⟩ := toDigitsCore_digits (n + 1) n [] (by omega)
  obtain ⟨d, ds, rfl⟩ := List.exists_cons_of_ne_nil hne
  refine ⟨d, ds, ?_, hall d (List.mem_cons_self _ _),
    fun c hc => hall c (List.mem_cons_of_mem _ hc), hv⟩
  rw [toString_toList, Nat.toDigits, hl, List.append_nil]

theorem parseInt_toString (n : Nat) (h : n < 2 ^ 63) : parseInt (toString n) = some (n : Int) := by
  obtain ⟨d, ds, hl, hd, hds, hv⟩ := toString_digits n
  have h1 : d ≠ '-' := by
    intro e; rw [e] at hd; revert hd; decide
  have h2 : d ≠ '+' := by
    intro e; rw [e] at hd; revert hd; decide
  have hl1 : (toString n).data = d :: ds := hl
  have h3 : n < 9223372036854775808 := by simpa using h
  simp [parseInt, hl1, h1, h2, hv, h3]

theorem factorial_parse_def (m : Nat) (rest : List lex) :
    parser.fun (m + 60) (factorialDefLexemes ++ rest) [] =
      parser.funLoop (m + 57) lexEof rest
        [op.mk opString (.string "fun"), op.mk opFunction (.function factorialBody),
          op.mk opStoreStr .nil] := rfl

set_option maxRecDepth 10000 in
theorem factorial_parse_print (m : Nat) (s : String) (v : Int) (h : parseInt s = some v) (f : function) :
    parser.funLoop (m + 57) lexEof (factorialPrintLexemes s) f =
      .ok (f ++ [op.mk opString (.string "fun"), op.mk opLoadStr .nil, op.mk opInt (.int64 v),
        op.mk opCall (.int 1), op.mk opPrint (.int 1)], []) := by
  simp [factorialPrintLexemes, parser.funLoop, parser.funEnd, parser.callArgs,
    parser.callArgsLoop, parser.expr0, parser.exprLoop, parser.name, parser.nameIndex,
    parser.get, parser.next, parser.skip, parser.nameDots, levelFind, levelLex, levelOp, findOp,
    bind, Except.bind, pure, Except.pure, h]

theorem factorial_body_enter (N : Nat) (x : Int) (P : List interpreter) (w : World) :
    interpreter.run (N + 3) factorialBody 0 ⟨[], [.int64 x]⟩ P w =
      interpreter.run N factorialBody 3 ⟨[("x", .int64 x)], [.string ".fun", .string "fun"]⟩
        P w := rfl

theorem factorial_body_base (N : Nat) (P : List interpreter) (w : World) :
    interpreter.run (N + 8) factorialBody 4
        ⟨[("x", .int64 0)], [.function factorialBody, .string "fun"]⟩ P w =
      .ok (.int64 1, ⟨[("x", .int64 0), ("fun", .function factorialBody)], []⟩, P, w) := rfl

theorem factorial_body_call (N y : Nat) (P : List interpreter) (w : World) :
    interpreter.run (N + 15) factorialBody 4
        ⟨[("x", .int64 ((y + 1 : Nat) : Int))], [.function factorialBody, .string "fun"]⟩ P w =
      match interpreter.run N factorialBody 0
          ⟨[], [.int64 (wrap64 (((y + 1 : Nat) : Int) - 1))]⟩
          (⟨[("x", .int64 ((y + 1 : Nat) : Int)), ("fun", .function factorialBody)],
            [.int64 ((y + 1 : Nat) : Int)]⟩ :: P) w with
      | .error e => .error e
      | .ok (ret, _, ps, w1) =>
        interpreter.run N factorialBody 22
          ((ps.headD ⟨[("x", .int64 ((y + 1 : Nat) : Int)), ("fun", .function factorialBody)],
            [.int64 ((y + 1 : Nat) : Int)]⟩).push ret) ps.tail w1 := rfl

theorem factorial_body_leave (N : Nat) (x r : Int) (vars : List (String × Value)) (P : List interpreter)
    (w : World) :
    interpreter.run (N + 2) factorialBody 22 ⟨vars, [.int64 r, .int64 x]⟩ P w =
      .ok (.int64 (wrap64 (x * r)), ⟨vars, []⟩, P, w) := rfl

theorem factorial_body_load (N : Nat) (vars : List (String × Value)) (st : List Value) (p : interpreter)
    (ps : List interpreter) (w : World) (hp : CallerVars p.vars) :
    interpreter.run (N + 1) factorialBody 3 ⟨vars, .string ".fun" :: st⟩ (p :: ps) w =
      interpreter.run N factorialBody 4 ⟨vars, .function factorialBody :: st⟩ (p :: ps) w := by
  have ht : trimDots (p :: ps).length ".fun" = .ok (1, "fun") := by
    simp [trimDots, trimDotsFrom]
  have hg : getVar "fun" p.vars = some (.function factorialBody) := by
    rcases hp with h | ⟨v, h⟩ <;> rw [h] <;> simp [getVar]
  have h := run_exec_step N factorialBody 3 (op.mk opLoadStr .nil) rfl (by decide)
    ⟨vars, .string ".fun" :: st⟩ ⟨vars, .function factorialBody :: st⟩ (p :: ps) (p :: ps) w w
    (by
      show (interpreter.load ⟨vars, st⟩ (p :: ps) "opLoadStr" ".fun" >>= fun i =>
        pure (i, p :: ps, w)) = _
      rw [interpreter.load, ht]
      simp only [frameVars, List.get?, Option.getD, hg]
      rfl)
  exact h

theorem wrap64_pred (y : Nat) (h : y + 1 < 2 ^ 63) : wrap64 (((y + 1 : Nat) : Int) - 1) = y := by
  rw [wrap64_of_isInt64]
  · push_cast; ring
  · unfold IsInt64; push_cast; constructor <;> omega

theorem wrap64_mul (x r : Int) : wrap64 (x * wrap64 r) = wrap64 (x * r) := by
  obtain ⟨c, hc⟩ := wrap64_congr r
  have : x * wrap64 r = x * r + x * c * 2 ^ 64 := by
    have : wrap64 r = r + 2 ^ 64 * c := by linarith
    rw [this]; ring
  rw [this]
  unfold wrap64
  rw [show x * r + x * c * 2 ^ 64 + 2 ^ 63 = x * r + 2 ^ 63 + x * c * 2 ^ 64 by ring,
    Int.add_mul_emod_self]

theorem factorial_body_runs (y : Nat) (hy : y < 2 ^ 63) (m : Nat) (p : interpreter) (ps : List interpreter)
    (w : World) (hp : CallerVars p.vars) :
    interpreter.run (m + 19 * y + 12) factorialBody 0 ⟨[], [.int64 (y : Int)]⟩ (p :: ps) w =
      .ok (.int64 (wrap64 ((y.factorial : Nat) : Int)),
        ⟨[("x", .int64 (y : Int)), ("fun", .function factorialBody)], []⟩, p :: ps, w) := by
  induction y generalizing m p ps w with
  | zero =>
    show interpreter.run (m + 8 + 1 + 3) _ _ _ _ _ = _
    rw [factorial_body_enter, factorial_body_load _ _ _ _ _ _ hp]
    exact factorial_body_base _ _ _
  | succ y ih =>
    have e : m + 19 * (y + 1) + 12 = m + 19 * y + 12 + 15 + 1 + 3 := by ring
    rw [e, factorial_body_enter, factorial_body_load _ _ _ _ _ _ hp, factorial_body_call, wrap64_pred y hy,
      ih (by omega) m _ _ w (Or.inr ⟨_, rfl⟩)]
    show interpreter.run (m + 19 * y + 10 + 2) _ _ _ _ _ = _
    rw [List.headD_cons, List.tail_cons]
    show interpreter.run (m + 19 * y + 10 + 2) factorialBody 22 ⟨_, [_, _]⟩ _ _ = _
    rw [factorial_body_leave, wrap64_mul, Nat.factorial_succ]
    push_cast
    rfl

theorem factorial_prefix_lex (rest : List Char) :
    lexSteps 75 ("fun = (x) \x7b\n\t\tfun = .fun\n\t\tif x == 0 \x7b\n\t\t\treturn 1\n\t\t\x7d else \x7b\n\t\t\treturn x * fun(x - 1)\n\t\t\x7d\n\t\x7d\n\t@print(fun".toList ++ '(' :: rest) =
      some (factorialDefLexemes ++ [⟨lexPrint, "@print"⟩, ⟨lexLeftPar, "("⟩, ⟨lexName, "fun"⟩],
        '(' :: rest) := by
  obtain ⟨c1, c2, c3, c4, c5, c6, c7, c8, c9, c10, c11, c12⟩ := factorial_chunks
  have s12 := c12 rest
  have s11 := lexSteps_append _ _ _ _ _ _ _ (c11 _) s12
  have s10 := lexSteps_append _ _ _ _ _ _ _ (c10 _) s11
  have s9 := lexSteps_append _ _ _ _ _ _ _ (c9 _) s10
  have s8 := lexSteps_append _ _ _ _ _ _ _ (c8 _) s9
  have s7 := lexSteps_append _ _ _ _ _ _ _ (c7 _) s8
  have s6 := lexSteps_append _ _ _ _ _ _ _ (c6 _) s7
  have s5 := lexSteps_append _ _ _ _ _ _ _ (c5 _) s6
  have s4 := lexSteps_append _ _ _ _ _ _ _ (c4 _) s5
  have s3 := lexSteps_append _ _ _ _ _ _ _ (c3 _) s4
  have s2 := lexSteps_append _ _ _ _ _ _ _ (c2 _) s3
  have s1 := lexSteps_append _ _ _ _ _ _ _ (c1 _) s2
  exact s1

theorem factorial_lexAll (n : Nat) :
    lexAll (factorialSource n) =
      .ok (factorialDefLexemes ++ factorialPrintLexemes (toString n)) := by
  obtain ⟨d, ds, hl, hd, hds, _⟩ := toString_digits n
  have hs : toString n = String.mk (d :: ds) := String.ext hl
  have hsrc : (factorialSource n).toList =
      "fun = (x) \x7b\n\t\tfun = .fun\n\t\tif x == 0 \x7b\n\t\t\treturn 1\n\t\t\x7d else \x7b\n\t\t\treturn x * fun(x - 1)\n\t\t\x7d\n\t\x7d\n\t@print(fun".toList ++
        '(' :: (d :: ds ++ ')' :: [')']) := by
    show (_ ++ toString n ++ "))").data = _
    rw [String.data_append, String.data_append, hs]
    rfl
  have h1 := factorial_prefix_lex (d :: ds ++ ')' :: [')'])
  have h2 : lexSteps 2 ('(' :: (d :: ds ++ ')' :: [')'])) =
      some ([⟨lexLeftPar, "("⟩, ⟨lexInt, String.mk (d :: ds)⟩], ')' :: [')']) := by
    rw [lexSteps, step_leftPar]
    show (lexSteps 1 (d :: ds ++ ')' :: [')'])).map _ = _
    rw [lexSteps, step_digits d ds [')'] hd hds]
    rfl
  have h3 := lexSteps_run _ _ _ _ (lexSteps_append _ _ _ _ _ _ _ h1 h2) (ds.length + 30 + 3)
  have hlen : (factorialSource n).length + 1 = ds.length + 30 + 3 + (2 + 75) := by
    show (factorialSource n).toList.length + 1 = _
    rw [hsrc]
    simp only [List.length_append, List.length_cons, List.length_nil]
    have : "fun = (x) \x7b\n\t\tfun = .fun\n\t\tif x == 0 \x7b\n\t\t\treturn 1\n\t\t\x7d else \x7b\n\t\t\treturn x * fun(x - 1)\n\t\t\x7d\n\t\x7d\n\t@print(fun".toList.length = 105 := by
      decide
    omega
  rw [lexAll, hlen, hsrc, h3, hs]
  rfl

theorem factorial_parse (n : Nat) (hn : n < 2 ^ 63) :
    parse (factorialSource n) = .ok (factorialCode n) := by
  rw [parse, factorial_lexAll]
  show (parser.fun (708 + 60) (factorialDefLexemes ++ factorialPrintLexemes (toString n)) []).map
    (fun r => r.1) = _
  rw [factorial_parse_def, factorial_parse_print 708 _ _ (parseInt_toString n hn)]
  rfl

theorem factorial_top_call (N : Nat) (x : Int) (w : World) :
    interpreter.run (N + 7) (factorialCode x) 0 newInterpreter [] w =
      match interpreter.run N factorialBody 0 ⟨[], [.int64 x]⟩
          [⟨[("fun", .function factorialBody)], []⟩] w with
      | .error e => .error e
      | .ok (ret, _, ps, w1) =>
        interpreter.run N (factorialCode x) 7
          ((ps.headD ⟨[("fun", .function factorialBody)], []⟩).push ret) ps.tail w1 := rfl

theorem factorial_top_print (N : Nat) (x r : Int) (vars : List (String × Value)) (w : World) :
    interpreter.run (N + 2) (factorialCode x) 7 ⟨vars, [.int64 r]⟩ [] w =
      .ok (.nil, ⟨vars, []⟩, [], { w with stdout := w.stdout ++ fprint [.int64 r] }) := rfl

theorem fprint_int64 (r : Int) : fprint [.int64 r] = itoa r := by
  simp [fprint, fprintFrom, fmtValue, itoa]

theorem parseInt_toString_large (n : Nat) (h : 2 ^ 63 ≤ n) : parseInt (toString n) = none := by
  obtain ⟨d, ds, hl, hd, hds, hv⟩ := toString_digits n
  have h1 : d ≠ '-' := by
    intro e; rw [e] at hd; revert hd; decide
  have h2 : d ≠ '+' := by
    intro e; rw [e] at hd; revert hd; decide
  have hl1 : (toString n).data = d :: ds := hl
  have h3 : ¬ n < 9223372036854775808 := by
    have : (2 : Nat) ^ 63 = 9223372036854775808 := by norm_num
    omega
  simp [parseInt, hl1, h1, h2, hv, h3]

set_option maxRecDepth 10000 in
theorem factorial_parse_large (n : Nat) (h : 2 ^ 63 ≤ n) :
    parse (factorialSource n) = .error (.parseErr "int" ⟨lexInt, toString n⟩) := by
  rw [parse, factorial_lexAll]
  show (parser.fun (708 + 60) (factorialDefLexemes ++ factorialPrintLexemes (toString n)) []).map
    (fun r => r.1) = _
  rw [factorial_parse_def]
  simp [factorialPrintLexemes, parser.funLoop, parser.funEnd, parser.callArgs,
    parser.callArgsLoop, parser.expr0, parser.exprLoop, parser.name, parser.nameIndex,
    parser.get, parser.next, parser.skip, parser.nameDots, levelFind, levelLex, levelOp, findOp,
    bind, Except.bind, pure, Except.pure, parseInt_toString_large n h, Except.map]

/-- C16, as amended: for every integer literal `n` with `0 ≤ n < 2 ^ 63`, the range of
`int64`, interpreting the factorial program of `ExampleFactorial` with the argument `n`
returns without an error, for every bound on the number of instructions from `19 * n + 19`
on, and what it has written is exactly the decimal form of `n!` reduced to a signed 64-bit
integer; for `n = 5` it writes `120`. -/
theorem factorial_program (n : Nat) (hn : n < 2 ^ 63) (m : Nat) (w : World) :
    Interpret (m + 19 * n + 19) (factorialSource n) w =
        .ok { w with stdout := w.stdout ++ itoa (wrap64 ((n.factorial : Nat) : Int)) } ∧
      (n = 5 → Interpret (m + 19 * n + 19) (factorialSource n) w =
        .ok { w with stdout := w.stdout ++ "120" }) := by
  have h : Interpret (m + 19 * n + 19) (factorialSource n) w =
      .ok { w with stdout := w.stdout ++ itoa (wrap64 ((n.factorial : Nat) : Int)) } := by
    rw [Interpret, factorial_parse n hn]
    show (interpreter.run (m + 19 * n + 12 + 7) _ _ _ _ _).map _ = _
    rw [factorial_top_call, factorial_body_runs n hn m _ _ w (Or.inl rfl)]
    show (interpreter.run (m + 19 * n + 10 + 2) (factorialCode n) 7 ⟨_, [_]⟩ [] w).map _ = _
    rw [factorial_top_print, fprint_int64]
    rfl
  refine ⟨h, ?_⟩
  intro h5
  subst h5
  exact h

/-- Witness for C16: with the literal 5 and 114 instructions allowed, the factorial program
writes `120`. -/
theorem factorial_program_witness :
    (5 < 2 ^ 63) ∧ Interpret 114 (factorialSource 5) ⟨[], "", fun _ => 0, 0⟩ =
      .ok ⟨[], "120", fun _ => 0, 0⟩ :=
  ⟨by decide, (factorial_program 5 (by decide) 0 ⟨[], "", fun _ => 0, 0⟩).2 rfl⟩

/-! ### The built-in names and the table scans (C22, C27) -/

theorem lookup_mem {α : Type} (r : Char) (t : α) (l : List (Char × α))
    (h : l.lookup r = some t) : (r, t) ∈ l := by
  induction l with
  | nil => simp at h
  | cons a l ih =>
    obtain ⟨c, u⟩ := a
    rw [List.lookup_cons] at h
    by_cases hc : r == c
    · rw [hc] at h
      simp only [Option.some.injEq] at h
      have : r = c := by simpa using hc
      subst this; subst h
      exact List.mem_cons_self _ _
    · have hc1 : (r == c) = false := by simpa using hc
      rw [hc1] at h
      exact List.mem_cons_of_mem _ (ih h)

theorem step_never_readString (input : List Char) (l : lex) (rest : List Char)
    (h : lexer.step input = .emitted l rest ∨ lexer.step input = .halted l) :
    l.typ ≠ lexReadString := by
  have hrune : ∀ r t, runeLexeme.lookup r = some t → t ≠ lexReadString := by
    intro r t h
    have hm := lookup_mem r t _ h
    simp only [runeLexeme, List.mem_cons, Prod.mk.injEq, List.mem_singleton, List.not_mem_nil,
      or_false] at hm
    rcases hm with ⟨_, rfl⟩ | ⟨_, rfl⟩ | ⟨_, rfl⟩ | ⟨_, rfl⟩ | ⟨_, rfl⟩ | ⟨_, rfl⟩ | ⟨_, rfl⟩ |
      ⟨_, rfl⟩ | ⟨_, rfl⟩ | ⟨_, rfl⟩ | ⟨_, rfl⟩ | ⟨_, rfl⟩ | ⟨_, rfl⟩ | ⟨_, rfl⟩ <;> decide
  have hconf : ∀ r t, conflictingRuneLexeme.lookup r = some t → t ≠ lexReadString := by
    intro r t h
    have hm := lookup_mem r t _ h
    simp only [conflictingRuneLexeme, List.mem_cons, Prod.mk.injEq, List.mem_singleton,
      List.not_mem_nil, or_false] at hm
    rcases hm with ⟨_, rfl⟩ | ⟨_, rfl⟩ | ⟨_, rfl⟩ | ⟨_, rfl⟩ | ⟨_, rfl⟩ <;> decide
  have htwo : ∀ inp s t, scanTwoRunes inp = some (s, t) → t ≠ lexReadString := by
    intro inp s t h
    have hm := List.mem_of_find?_eq_some h
    simp only [twoRunesLexeme, List.mem_cons, Prod.mk.injEq, List.mem_singleton,
      List.not_mem_nil, or_false] at hm
    rcases hm with ⟨_, rfl⟩ | ⟨_, rfl⟩ | ⟨_, rfl⟩ | ⟨_, rfl⟩ | ⟨_, rfl⟩ | ⟨_, rfl⟩ <;> decide
  have hstr : ∀ inp s t, scanString inp = some (s, t) → t ≠ lexReadString := by
    intro inp s t h
    have hm := List.mem_of_find?_eq_some h
    simp only [stringLexeme, List.mem_cons, Prod.mk.injEq, List.mem_singleton,
      List.not_mem_nil, or_false] at hm
    rcases hm with ⟨_, rfl⟩ | ⟨_, rfl⟩ | ⟨_, rfl⟩ | ⟨_, rfl⟩ | ⟨_, rfl⟩ | ⟨_, rfl⟩ | ⟨_, rfl⟩ |
      ⟨_, rfl⟩ | ⟨_, rfl⟩ | ⟨_, rfl⟩ | ⟨_, rfl⟩ | ⟨_, rfl⟩ | ⟨_, rfl⟩ | ⟨_, rfl⟩ <;> decide
  cases input with
  | nil => simp [lexer.step] at h
  | cons r rest0 =>
    unfold lexer.step at h
    simp only [] at h
    rcases h with h | h
    all_goals
      repeat' (split at h)
      all_goals first
        | (cases h; done)
        | (cases h; simp only [lexer.emit]; decide)
        | (cases h; simp only [lexer.emit]; exact hrune _ _ (by assumption))
        | (cases h; simp only [lexer.emit]; exact hconf _ _ (by assumption))
        | (cases h; simp only [lexer.emit]; exact htwo _ _ _ (by assumption))
        | (cases h; simp only [lexer.emit]; exact hstr _ _ _ (by assumption))
        | (rename_i h1
           repeat' (split at h1)
           all_goals first
             | (cases h1; done)
             | (cases h1; cases h; done)
             | (cases h1; cases h; simp only [lexer.emit]; decide))

theorem run_never_readString (fuel : Nat) (input : List Char) (ls : List lex)
    (h : lexer.run fuel input = .ok ls) : ∀ l ∈ ls, l.typ ≠ lexReadString := by
  induction fuel generalizing input ls with
  | zero => simp [lexer.run] at h
  | succ n ih =>
    rw [lexer.run] at h
    cases hst : lexer.step input with
    | emitted l rest =>
      simp only [hst] at h
      cases hr : lexer.run n rest with
      | error e => simp [hr, Except.map] at h
      | ok ls1 =>
        simp only [hr, Except.map, Except.ok.injEq] at h
        subst h
        intro l1 hl1
        rcases List.mem_cons.mp hl1 with rfl | h1
        · exact step_never_readString input _ rest (.inl hst)
        · exact ih rest ls1 hr l1 h1
    | skipped rest =>
      simp only [hst] at h
      exact ih rest ls h
    | halted l =>
      simp only [hst, Except.ok.injEq] at h
      subst h
      intro l1 hl1
      rw [List.mem_singleton] at hl1
      subst hl1
      exact step_never_readString input _ [] (.inr hst)
    | atEof =>
      simp only [hst, Except.ok.injEq] at h
      subst h
      intro l1 hl1
      rw [List.mem_singleton] at hl1
      subst hl1
      simp [lexer.emit]
    | failed e => simp [hst] at h

theorem step_at_found (k : String) (t : lexType) (tl rest : List Char)
    (hk : k.toList = '@' :: tl) (hs : scanString (k.toList ++ rest) = some (k, t)) :
    lexer.step (k.toList ++ rest) = .emitted ⟨t, k⟩ rest := by
  have h1 := takeBytes_append k.toList rest
  have h2 := dropBytes_append k.toList rest
  rw [hk] at hs h1 h2 ⊢
  rw [List.cons_append] at hs h1 h2 ⊢
  unfold lexer.step
  simp only [hs, lexer.emit]
  rw [hk, h1, h2]
  simp [runeError, runeLexeme, List.lookup, isSpace, scanTwoRunes, twoRunesLexeme, hasPrefix]
  exact String.ext hk.symm

theorem step_at_name (k : String) (t : lexType)
    (hk : (k, t) ∈ [("@int", lexReadInt), ("@float", lexReadFloat), ("@line", lexReadLine),
      ("@char", lexReadChar)])
    (rest : List Char) (h : isAlphaNum (decodeRune rest) = false) :
    lexer.step (k.toList ++ rest) = .emitted ⟨t, k⟩ rest := by
  simp only [List.mem_cons, List.mem_singleton, Prod.mk.injEq, List.not_mem_nil, or_false] at hk
  rcases hk with ⟨rfl, rfl⟩ | ⟨rfl, rfl⟩ | ⟨rfl, rfl⟩ | ⟨rfl, rfl⟩
  all_goals
    refine step_at_found _ _ _ rest rfl ?_
    cases rest <;>
      simp_all [scanString, stringLexeme, List.find?, hasPrefix, dropBytes, byteLen, runeLen,
        decodeRune]

/-- C22: the lexer has no entry for `@string`, although common.go declares the lexeme kind
`lexReadString` with the comment `@string`: on the text `@string`, whatever follows it, the
lexer emits an error lexeme with the text `@` and stops, and no input at all yields a lexeme of
kind `lexReadString`; whereas each of `@int`, `@float`, `@line` and `@char`, followed by the
end of input or a rune that is neither a letter nor a number, yields its read lexeme. -/
theorem at_string_is_not_lexed :
    (∀ (rest : List Char) (fuel : Nat),
      lexer.run (fuel + 1) ("@string".toList ++ rest) = .ok [⟨lexError, "@"⟩]) ∧
    lexAll "@string" = .ok [⟨lexError, "@"⟩] ∧
    (∀ (source : String) (ls : List lex), lexAll source = .ok ls →
      ∀ l ∈ ls, l.typ ≠ lexReadString) ∧
    (∀ (k : String) (t : lexType), (k, t) ∈ [("@int", lexReadInt), ("@float", lexReadFloat),
        ("@line", lexReadLine), ("@char", lexReadChar)] →
      ∀ rest, isAlphaNum (decodeRune rest) = false →
        lexer.step (k.toList ++ rest) = .emitted ⟨t, k⟩ rest) :=
  ⟨fun _ _ => rfl, rfl, fun _ ls h => run_never_readString _ _ ls h,
    fun k t hk rest h => step_at_name k t hk rest h⟩

theorem hasPrefix_iff (input p : List Char) :
    hasPrefix input p = true ↔ ∃ t, input = p ++ t := by
  induction p generalizing input with
  | nil => cases input <;> simp [hasPrefix]
  | cons c cs ih =>
    cases input with
    | nil => simp [hasPrefix]
    | cons a as =>
      simp only [hasPrefix, Bool.and_eq_true, beq_iff_eq, ih, List.cons_append, List.cons.injEq]
      constructor
      · rintro ⟨rfl, t, rfl⟩
        exact ⟨t, rfl, rfl⟩
      · rintro ⟨t, rfl, rfl⟩
        exact ⟨rfl, t, rfl⟩

theorem twoRunes_unique (input : List Char) (e1 e2 : String × lexType)
    (h1 : e1 ∈ twoRunesLexeme) (h2 : e2 ∈ twoRunesLexeme)
    (p1 : hasPrefix input e1.1.toList = true) (p2 : hasPrefix input e2.1.toList = true) :
    e1 = e2 := by
  rw [hasPrefix_iff] at p1 p2
  obtain ⟨t1, q1⟩ := p1
  obtain ⟨t2, q2⟩ := p2
  rw [q1] at q2
  simp only [twoRunesLexeme, List.mem_cons, List.mem_singleton, List.not_mem_nil, or_false]
    at h1 h2
  rcases h1 with rfl | rfl | rfl | rfl | rfl | rfl <;>
    rcases h2 with rfl | rfl | rfl | rfl | rfl | rfl <;>
    first
      | rfl
      | (exfalso; revert q2; simp)

theorem string_unique (input : List Char) (e1 e2 : String × lexType)
    (h1 : e1 ∈ stringLexeme) (h2 : e2 ∈ stringLexeme)
    (p1 : Qualifies input e1 = true) (p2 : Qualifies input e2 = true) :
    e1 = e2 := by
  unfold Qualifies at p1 p2
  rw [Bool.and_eq_true] at p1 p2
  obtain ⟨p1, r1⟩ := p1
  obtain ⟨p2, r2⟩ := p2
  rw [hasPrefix_iff] at p1 p2
  obtain ⟨t1, q1⟩ := p1
  obtain ⟨t2, q2⟩ := p2
  rw [q1, dropBytes_append] at r1
  rw [q2, dropBytes_append] at r2
  rw [q1] at q2
  simp only [stringLexeme, List.mem_cons, List.mem_singleton, List.not_mem_nil, or_false]
    at h1 h2
  rcases h1 with rfl | rfl | rfl | rfl | rfl | rfl | rfl | rfl | rfl | rfl | rfl | rfl | rfl | rfl <;>
    rcases h2 with rfl | rfl | rfl | rfl | rfl | rfl | rfl | rfl | rfl | rfl | rfl | rfl | rfl | rfl <;>
    first
      | rfl
      | (exfalso; revert q2; simp; done)
      | (exfalso
         simp only [String.toList, List.cons_append, List.cons.injEq, true_and,
           List.nil_append] at q2
         subst q2
         revert r1 r2
         simp [decodeRune, isAlphaNum, isLetter])

theorem find?_perm_unique {α : Type} (p : α → Bool) (l1 l2 : List α) (hp : l1.Perm l2)
    (hu : ∀ a ∈ l2, ∀ b ∈ l2, p a = true → p b = true → a = b) :
    l1.find? p = l2.find? p := by
  cases h1 : l1.find? p with
  | none =>
    rw [List.find?_eq_none] at h1
    symm
    rw [List.find?_eq_none]
    intro x hx
    exact h1 x (hp.mem_iff.mpr hx)
  | some a =>
    have ha := List.find?_some h1
    have hm := hp.mem_iff.mp (List.mem_of_find?_eq_some h1)
    cases h2 : l2.find? p with
    | none =>
      rw [List.find?_eq_none] at h2
      exact absurd ha (h2 a hm)
    | some b =>
      rw [hu a hm b (List.mem_of_find?_eq_some h2) ha (List.find?_some h2)]

/-- C27: the lexemes do not depend on the order in which the loops of `lexer.run` visit the
maps `twoRunesLexeme` and `stringLexeme`: on every unread input at most one key of
`twoRunesLexeme` is a prefix of it, and at most one key of `stringLexeme` is a prefix of it
that is followed by the end of input or by a rune that is neither a letter nor a number; so
the two scans find the same entry in whatever order the entries are visited.  On `@println(`
the entry `@println` passes the test and the entry `@print` does not. -/
theorem table_scans_order_independent :
    (∀ (input : List Char) (e1 e2 : String × lexType), e1 ∈ twoRunesLexeme →
      e2 ∈ twoRunesLexeme → hasPrefix input e1.1.toList = true →
      hasPrefix input e2.1.toList = true → e1 = e2) ∧
    (∀ (input : List Char) (e1 e2 : String × lexType), e1 ∈ stringLexeme → e2 ∈ stringLexeme →
      Qualifies input e1 = true → Qualifies input e2 = true → e1 = e2) ∧
    (∀ (order : List (String × lexType)), order.Perm twoRunesLexeme → ∀ input,
      order.find? (fun e => hasPrefix input e.1.toList) = scanTwoRunes input) ∧
    (∀ (order : List (String × lexType)), order.Perm stringLexeme → ∀ input,
      order.find? (Qualifies input) = scanString input) ∧
    (∀ rest, Qualifies ("@println(".toList ++ rest) ("@println", lexPrintLn) = true ∧
      Qualifies ("@println(".toList ++ rest) ("@print", lexPrint) = false ∧
      scanString ("@println(".toList ++ rest) = some ("@println", lexPrintLn)) :=
  ⟨twoRunes_unique, string_unique,
    fun order hp input => find?_perm_unique _ order _ hp
      (fun a ha b hb => twoRunes_unique input a b ha hb),
    fun order hp input => find?_perm_unique _ order _ hp
      (fun a ha b hb => string_unique input a b ha hb),
    fun _ => ⟨rfl, rfl, rfl⟩⟩

/-! ### Numeric literals (C28) -/

theorem lookup_none_of_keys {α : Type} (r : Char) (l : List (Char × α))
    (h : ∀ e ∈ l, e.1 ≠ r) : l.lookup r = none := by
  induction l with
  | nil => rfl
  | cons a l ih =>
    obtain ⟨c, u⟩ := a
    have hc : c ≠ r := h (c, u) (List.mem_cons_self _ _)
    have hc1 : (r == c) = false := by
      simpa using fun e => hc e.symm
    rw [List.lookup_cons, hc1]
    exact ih (fun e he => h e (List.mem_cons_of_mem _ he))

theorem scanString_none (r : Char) (rest : List Char)
    (h : ∀ e ∈ stringLexeme, e.1.toList.head? ≠ some r) : scanString (r :: rest) = none := by
  unfold scanString
  rw [List.find?_eq_none]
  intro e he
  have := h e he
  revert this
  cases hl : e.1.toList with
  | nil =>
    exfalso
    simp [stringLexeme] at he
    rcases he with rfl | rfl | rfl | rfl | rfl | rfl | rfl | rfl | rfl | rfl | rfl | rfl | rfl |
      rfl <;> simp at hl
  | cons c cs =>
    intro hne
    simp at hne
    simp [hasPrefix]
    intro h1
    exact absurd h1.symm hne

theorem isSpace_not_number (r : Char) (h : isNumber r = true) : isSpace r = false := by
  by_contra hs
  rw [Bool.not_eq_false] at hs
  revert h
  unfold isSpace at hs
  unfold isNumber
  generalize r.toNat = n at hs ⊢
  simp only [Bool.or_eq_true, Bool.and_eq_true, decide_eq_true_eq] at hs
  rcases hs with ((((((((((⟨h1, h2⟩ | h) | h) | h) | h) | ⟨h1, h2⟩) | h) | h) | h) | h) | h)
  · interval_cases n <;> decide
  · subst h; decide
  · subst h; decide
  · subst h; decide
  · subst h; decide
  · interval_cases n <;> decide
  · subst h; decide
  · subst h; decide
  · subst h; decide
  · subst h; decide
  · subst h; decide

theorem not_number_of_ascii (r c : Char) (h : isNumber r = true) (hc : isNumber c = false) :
    c ≠ r := by
  intro e
  rw [e, h] at hc
  cases hc

theorem step_number (r : Char) (rest : List Char) (h : isNumber r = true) :
    lexer.step (r :: rest) =
      match indexFunc notNumber (dropBytes (runeLen r) (r :: rest)) with
      | none => .emitted (lexer.emit lexInt (byteLen (r :: rest)) (r :: rest)).1
          (lexer.emit lexInt (byteLen (r :: rest)) (r :: rest)).2
      | some i =>
        if decodeRune (dropBytes (runeLen r + i) (r :: rest)) = '.' then
          match indexFunc notNumber (dropBytes (runeLen r + (i + 1)) (r :: rest)) with
          | none => .emitted (lexer.emit lexFloat (byteLen (r :: rest)) (r :: rest)).1
              (lexer.emit lexFloat (byteLen (r :: rest)) (r :: rest)).2
          | some j => .emitted (lexer.emit lexFloat (runeLen r + (i + 1) + j) (r :: rest)).1
              (lexer.emit lexFloat (runeLen r + (i + 1) + j) (r :: rest)).2
        else .emitted (lexer.emit lexInt (runeLen r + i) (r :: rest)).1
          (lexer.emit lexInt (runeLen r + i) (r :: rest)).2 := by
  have hne : ∀ c, isNumber c = false → c ≠ r := fun c hc => not_number_of_ascii r c h hc
  have h1 : r ≠ runeError := (hne _ (by decide)).symm
  have h2 : r.toNat ≠ 0 := by
    intro e
    unfold isNumber at h
    rw [e] at h
    simp at h
  have h3 : runeLexeme.lookup r = none := by
    apply lookup_none_of_keys
    intro e he
    simp only [runeLexeme, List.mem_cons, List.mem_singleton, List.not_mem_nil, or_false] at he
    rcases he with rfl | rfl | rfl | rfl | rfl | rfl | rfl | rfl | rfl | rfl | rfl | rfl | rfl |
      rfl <;> exact hne _ (by decide)
  have h4 := isSpace_not_number r h
  have h5 : r ≠ '/' := (hne _ (by decide)).symm
  have h6 : scanTwoRunes (r :: rest) = none := by
    apply scanTwoRunes_none
    intro e he
    simp only [twoRunesLexeme, List.mem_cons, List.mem_singleton, List.not_mem_nil, or_false]
      at he
    rcases he with rfl | rfl | rfl | rfl | rfl | rfl <;>
      (intro e1; simp at e1; exact hne _ (by decide) e1)
  have h7 : scanString (r :: rest) = none := by
    apply scanString_none
    intro e he
    simp only [stringLexeme, List.mem_cons, List.mem_singleton, List.not_mem_nil, or_false]
      at he
    rcases he with rfl | rfl | rfl | rfl | rfl | rfl | rfl | rfl | rfl | rfl | rfl | rfl | rfl |
      rfl <;> (intro e1; simp at e1; exact hne _ (by decide) e1)
  have h8 : conflictingRuneLexeme.lookup r = none := by
    apply lookup_none_of_keys
    intro e he
    simp only [conflictingRuneLexeme, List.mem_cons, List.mem_singleton, List.not_mem_nil,
      or_false] at he
    rcases he with rfl | rfl | rfl | rfl | rfl <;> exact hne _ (by decide)
  unfold lexer.step
  simp only [h1, h2, h3, h4, h5, h6, h7, h8, h, if_false, if_true]
  rfl

theorem indexFunc_numbers (ds : List Char) (c : Char) (tail : List Char)
    (h : ∀ x ∈ ds, isNumber x = true) (hc : isNumber c = false) :
    indexFunc notNumber (ds ++ c :: tail) = some (byteLen ds) := by
  induction ds with
  | nil => simp [indexFunc, notNumber, hc, byteLen]
  | cons x xs ih =>
    have hx := h x (List.mem_cons_self _ _)
    have ih1 := ih (fun y hy => h y (List.mem_cons_of_mem _ hy))
    simp [indexFunc, notNumber, hx, ih1, byteLen, Nat.add_comm]

theorem indexFunc_numbers_end (ds : List Char) (h : ∀ x ∈ ds, isNumber x = true) :
    indexFunc notNumber ds = none :=
  indexFunc_none _ _ (fun c hc => by simp [notNumber, h c hc])

theorem step_int_general (r : Char) (ds tail : List Char) (hr : isNumber r = true)
    (h : ∀ x ∈ ds, isNumber x = true)
    (ht : tail = [] ∨ ∃ c t, tail = c :: t ∧ isNumber c = false ∧ c ≠ '.') :
    lexer.step (r :: ds ++ tail) = .emitted ⟨lexInt, String.mk (r :: ds)⟩ tail := by
  have h0 : dropBytes (runeLen r) (r :: (ds ++ tail)) = ds ++ tail := by
    have := dropBytes_append [r] (ds ++ tail)
    simpa [byteLen] using this
  have e1 := takeBytes_append (r :: ds) tail
  have e2 := dropBytes_append (r :: ds) tail
  rw [List.cons_append, step_number r (ds ++ tail) hr, h0]
  rcases ht with rfl | ⟨c, t, rfl, hc, hdot⟩
  · rw [List.append_nil, indexFunc_numbers_end ds h]
    rw [List.append_nil] at e1 e2
    simp only [lexer.emit]
    rw [e1, e2]
  · rw [indexFunc_numbers ds c t h hc]
    have e3 : byteLen (r :: ds) = runeLen r + byteLen ds := rfl
    simp only [lexer.emit]
    rw [← e3, ← List.cons_append, e1, e2, if_neg]
    exact hdot

theorem step_float_general (r : Char) (ds e tail : List Char) (hr : isNumber r = true)
    (h : ∀ x ∈ ds, isNumber x = true) (he : ∀ x ∈ e, isNumber x = true)
    (ht : tail = [] ∨ ∃ c t, tail = c :: t ∧ isNumber c = false) :
    lexer.step (r :: ds ++ '.' :: e ++ tail) =
      .emitted ⟨lexFloat, String.mk (r :: ds ++ '.' :: e)⟩ tail := by
  have hdotn : isNumber '.' = false := by decide
  have h0 : dropBytes (runeLen r) (r :: (ds ++ '.' :: (e ++ tail))) = ds ++ '.' :: (e ++ tail) := by
    have := dropBytes_append [r] (ds ++ '.' :: (e ++ tail))
    simpa [byteLen] using this
  have e1 := takeBytes_append (r :: ds ++ '.' :: e) tail
  have e2 := dropBytes_append (r :: ds ++ '.' :: e) tail
  have e3 := dropBytes_append (r :: ds) ('.' :: (e ++ tail))
  have e4 := dropBytes_append (r :: ds ++ ['.']) (e ++ tail)
  have b3 : byteLen (r :: ds) = runeLen r + byteLen ds := rfl
  have b4 : byteLen (r :: ds ++ ['.']) = runeLen r + (byteLen ds + 1) := by
    rw [byteLen_append, b3]
    simp [byteLen, runeLen, Nat.add_assoc]
  have w : r :: ds ++ '.' :: e ++ tail = r :: (ds ++ '.' :: (e ++ tail)) := by simp
  have w4 : r :: ds ++ ['.'] ++ (e ++ tail) = r :: (ds ++ '.' :: (e ++ tail)) := by simp
  rw [w] at e1 e2 ⊢
  rw [w4] at e4
  rw [List.cons_append] at e3
  rw [step_number r _ hr, h0, indexFunc_numbers ds '.' (e ++ tail) h hdotn]
  simp only [lexer.emit]
  rw [← b3, e3]
  simp only [decodeRune, if_true]
  rw [← b4, e4]
  rcases ht with rfl | ⟨c, t, rfl, hc⟩
  · rw [List.append_nil, indexFunc_numbers_end e he]
    rw [List.append_nil] at e1 e2
    simp only []
    have b5 : byteLen (r :: (ds ++ '.' :: e)) = byteLen (r :: ds ++ '.' :: e) := by simp
    rw [b5, e1, e2]
  · rw [indexFunc_numbers e c t he hc]
    have b6 : byteLen (r :: ds ++ ['.']) + byteLen e = byteLen (r :: ds ++ '.' :: e) := by
      rw [← byteLen_append]; simp
    simp only []
    rw [b6, e1, e2]

/-- C28: for every non-empty string `d` and every string `e` of runes that are numbers for
`unicode.IsNumber`, as the decimal digits `0` to `9` are: `d` at the end of the input, or
followed by a rune that is neither a number nor a dot, is lexed as one integer lexeme with the
text `d`; `d`, a dot and `e` at the end of the input, or followed by a rune that is not a
number, is lexed as one float lexeme with the text `d.e`; in each case lexing goes on with the
rune that follows.  So `16.` is one float lexeme, and `1.2.3` is the float `1.2`, a dot and
the integer `3`. -/
theorem numeric_literal_lexing (d e : List Char) (hd : d ≠ [])
    (hdn : ∀ x ∈ d, isNumber x = true) (hen : ∀ x ∈ e, isNumber x = true) :
    (∀ x ∈ asciiDigits, isNumber x = true) ∧
    lexer.step d = .emitted ⟨lexInt, String.mk d⟩ [] ∧
    (∀ c rest, isNumber c = false → c ≠ '.' →
      lexer.step (d ++ c :: rest) = .emitted ⟨lexInt, String.mk d⟩ (c :: rest)) ∧
    lexer.step (d ++ '.' :: e) = .emitted ⟨lexFloat, String.mk (d ++ '.' :: e)⟩ [] ∧
    (∀ c rest, isNumber c = false →
      lexer.step (d ++ '.' :: e ++ c :: rest) =
        .emitted ⟨lexFloat, String.mk (d ++ '.' :: e)⟩ (c :: rest)) ∧
    lexAll "16." = .ok [⟨lexFloat, "16."⟩, ⟨lexEof, ""⟩] ∧
    lexAll "1.2.3" = .ok [⟨lexFloat, "1.2"⟩, ⟨lexDot, "."⟩, ⟨lexInt, "3"⟩, ⟨lexEof, ""⟩] := by
  obtain ⟨r, ds, rfl⟩ := List.exists_cons_of_ne_nil hd
  have hr := hdn r (List.mem_cons_self _ _)
  have hds : ∀ x ∈ ds, isNumber x = true := fun x hx => hdn x (List.mem_cons_of_mem _ hx)
  refine ⟨by decide, ?_, ?_, ?_, ?_, rfl, rfl⟩
  · have := step_int_general r ds [] hr hds (.inl rfl)
    rwa [List.append_nil] at this
  · intro c rest hc hdot
    exact step_int_general r ds (c :: rest) hr hds (.inr ⟨c, rest, rfl, hc, hdot⟩)
  · have := step_float_general r ds e [] hr hds hen (.inl rfl)
    rwa [List.append_nil] at this
  · intro c rest hc
    exact step_float_general r ds e (c :: rest) hr hds hen (.inr ⟨c, rest, rfl, hc⟩)

/-- Witness for C28: the digits `16` and `5`. -/
theorem numeric_literal_lexing_witness :
    "16".toList ≠ [] ∧ (∀ x ∈ "16".toList, isNumber x = true) ∧
      (∀ x ∈ "5".toList, isNumber x = true) ∧
      lexer.step ("16".toList ++ '+' :: "1".toList) =
        .emitted ⟨lexInt, "16"⟩ ('+' :: "1".toList) ∧
      lexer.step ("16".toList ++ '.' :: "5".toList ++ ' ' :: "x".toList) =
        .emitted ⟨lexFloat, "16.5"⟩ (' ' :: "x".toList) :=
  have h := numeric_literal_lexing "16".toList "5".toList (by decide) (by decide) (by decide)
  ⟨by decide, by decide, by decide, h.2.2.1 '+' "1".toList (by decide) (by decide),
    h.2.2.2.2.1 ' ' "x".toList (by decide)⟩

/-! ### Variables change only at stores (C21) -/

theorem pop_vars (i : interpreter) : Post (fun r => r.2.vars = i.vars) i.pop := by
  intro a h
  unfold interpreter.pop at h
  split at h
  · cases h
  · cases h; rfl

theorem popBool_vars (i : interpreter) (err : String) :
    Post (fun r => r.2.vars = i.vars) (i.popBool err) := by
  intro a h
  unfold interpreter.popBool at h
  split at h
  · cases h
  · rename_i b j hp
    cases h
    exact pop_vars i _ hp
  · cases h

theorem load_vars (i : interpreter) (parents : List interpreter) (opName name0 : String) :
    Post (fun j => j.vars = i.vars) (i.load parents opName name0) := by
  intro a h
  unfold interpreter.load at h
  repeat' (split at h)
  all_goals first
    | (cases h; done)
    | (cases h; rfl)

theorem numberOp_vars (i : interpreter) (name : String) (fi : Int → Int → Except Err Int)
    (ff : Float → Float → Except Err Float) :
    Post (fun j => j.vars = i.vars) (i.numberOp name fi ff) := by
  unfold interpreter.numberOp
  refine Post.andThen (pop_vars i) ?_
  rintro ⟨s1, i1⟩ h1
  cases s1 <;> simp only [] <;> first
    | exact Post.ofError _
    | (refine Post.andThen (pop_vars i1) ?_
       rintro ⟨s2, i2⟩ h2
       cases s2 <;> simp only [] <;> first
         | exact Post.ofError _
         | (refine Post.bindAny _ ?_
            intro r
            exact Post.pure (h2.trans h1)))

theorem cmpOp_vars (i : interpreter) (name : String) (fi : Int → Int → Bool)
    (ff : Float → Float → Bool) (fb : Bool → Bool → Except Err Bool)
    (fs : String → String → Bool) :
    Post (fun j => j.vars = i.vars) (i.cmpOp name fi ff fb fs) := by
  unfold interpreter.cmpOp
  refine Post.andThen (pop_vars i) ?_
  rintro ⟨s1, i1⟩ h1
  cases s1 <;> simp only [] <;> first
    | exact Post.ofError _
    | (refine Post.andThen (pop_vars i1) ?_
       rintro ⟨s2, i2⟩ h2
       cases s2 <;> simp only [] <;> first
         | exact Post.ofError _
         | exact Post.pure (h2.trans h1)
         | (refine Post.bindAny _ ?_
            intro r
            exact Post.pure (h2.trans h1)))

theorem sum_vars (i : interpreter) : Post (fun j => j.vars = i.vars) i.sum := by
  unfold interpreter.sum
  refine Post.andThen (pop_vars i) ?_
  rintro ⟨s1, i1⟩ h1
  cases s1 <;> simp only [] <;> first
    | exact Post.ofError _
    | (refine Post.andThen (pop_vars i1) ?_
       rintro ⟨s2, i2⟩ h2
       cases s2 <;> simp only [] <;> first
         | exact Post.ofError _
         | exact Post.pure (h2.trans h1))

theorem print_vars (i : interpreter) (w : World) (param : Value) (name : String)
    (text : List Value → String) :
    Post (fun r => r.1.vars = i.vars) (i.print w param name text) := by
  intro a h
  unfold interpreter.print at h
  repeat' (split at h)
  all_goals first
    | (cases h; done)
    | (cases h; rfl)

theorem exec_keeps_frames (o : op) (i : interpreter) (parents : List interpreter) (w : World)
    (h1 : o.typ ≠ opStore) (h2 : o.typ ≠ opStoreStr) :
    Post (fun r => r.1.vars = i.vars ∧ r.2.1 = parents) (interpreter.exec o i parents w) := by
  obtain ⟨t, p⟩ := o
  simp only [op.typ] at h1 h2
  unfold interpreter.exec
  cases t <;> simp only [op.typ]
  all_goals first
    | exact absurd rfl h1
    | exact absurd rfl h2
    | exact Post.ofOk ⟨rfl, rfl⟩
    | exact Post.andThen (cmpOp_vars _ _ _ _ _ _) (fun _ hj => Post.pure ⟨hj, rfl⟩)
    | exact Post.andThen (numberOp_vars _ _ _ _) (fun _ hj => Post.pure ⟨hj, rfl⟩)
    | exact Post.andThen (sum_vars _) (fun _ hj => Post.pure ⟨hj, rfl⟩)
    | (refine Post.andThen (print_vars _ _ _ _ _) ?_
       rintro ⟨j, w1⟩ hj
       exact Post.pure ⟨hj, rfl⟩)
    | (refine Post.bindAny _ ?_
       rintro ⟨val, rest⟩
       exact Post.pure ⟨rfl, rfl⟩)
    | (refine Post.bindAny _ ?_
       intro name0
       refine Post.andThen (load_vars _ _ _ _) ?_
       intro j hj
       exact Post.pure ⟨hj, rfl⟩)
    | (refine Post.andThen (pop_vars i) ?_
       rintro ⟨v, j⟩ hj
       first
         | exact Post.pure ⟨hj, rfl⟩
         | (refine Post.bindAny _ ?_
            intro name0
            refine Post.andThen (load_vars _ _ _ _) ?_
            intro j2 hj2
            exact Post.pure ⟨hj2.trans hj, rfl⟩))
    | (refine Post.andThen (popBool_vars i _) ?_
       rintro ⟨b, j⟩ hj
       first
         | exact Post.pure ⟨hj, rfl⟩
         | (cases b <;> simp only [Bool.false_eq_true, if_false, if_true] <;> first
             | exact Post.pure ⟨hj, rfl⟩
             | (refine Post.andThen (popBool_vars j _) ?_
                rintro ⟨b2, j2⟩ hj2
                exact Post.pure ⟨hj2.trans hj, rfl⟩)))
    | (split
       · exact Post.ofError _
       · exact Post.ofOk ⟨rfl, rfl⟩)

theorem exec_store_modify (o : op) (i i1 : interpreter) (parents ps1 : List interpreter)
    (w w1 : World) (ho : o.typ = opStore ∨ o.typ = opStoreStr)
    (h : interpreter.exec o i parents w = .ok (i1, ps1, w1)) :
    ∃ name0 k name val st, storeName o i = some name0 ∧
      trimDots parents.length name0 = .ok (k, name) ∧
      i1 :: ps1 = (interpreter.mk i.vars st :: parents).modify
        (fun p => { p with vars := setVar name val p.vars }) k ∧ w1 = w := by
  obtain ⟨t, p⟩ := o
  obtain ⟨vars, stack⟩ := i
  simp only [op.typ] at ho
  rcases ho with rfl | rfl
  · cases p with
    | string name0 =>
      cases stack with
      | nil =>
        exfalso
        simp only [interpreter.exec, op.typ, op.param, getString, interpreter.pop, bind,
          Except.bind] at h
        cases ht : trimDots parents.length name0 <;> simp [ht] at h
      | cons val rest =>
        rw [exec_opStore] at h
        cases ht : trimDots parents.length name0 with
        | error e => rw [ht] at h; cases h
        | ok r =>
          obtain ⟨k, name⟩ := r
          rw [ht] at h
          simp only [Except.map, Except.ok.injEq, Prod.mk.injEq] at h
          obtain ⟨rfl, rfl, rfl⟩ := h
          exact ⟨name0, k, name, val, rest, rfl, ht, storeVar_eq _ _ _ _ _, rfl⟩
    | _ =>
      exfalso
      simp [interpreter.exec, op.typ, op.param, getString, bind, Except.bind] at h
  · rcases stack with _ | ⟨val, _ | ⟨nm, rest⟩⟩
    · exfalso
      simp [interpreter.exec, op.typ, interpreter.pop, bind, Except.bind] at h
    · exfalso
      simp [interpreter.exec, op.typ, interpreter.pop, bind, Except.bind] at h
    · cases nm with
      | string name0 =>
        change interpreter.exec (op.mk opStoreStr .nil) _ _ _ = _ at h
        rw [exec_opStoreStr] at h
        cases ht : trimDots parents.length name0 with
        | error e => rw [ht] at h; cases h
        | ok r =>
          obtain ⟨k, name⟩ := r
          rw [ht] at h
          simp only [Except.map, Except.ok.injEq, Prod.mk.injEq] at h
          obtain ⟨rfl, rfl, rfl⟩ := h
          exact ⟨name0, k, name, val, rest, rfl, ht, storeVar_eq _ _ _ _ _, rfl⟩
      | _ =>
        exfalso
        simp [interpreter.exec, op.typ, interpreter.pop, getString, bind, Except.bind] at h

theorem trimDots_undotted (n : Nat) (s : String) (k : Nat) (name : String)
    (hs : s.toList.head? ≠ some '.') (h : trimDots n s = .ok (k, name)) : k = 0 := by
  unfold trimDots at h
  cases hl : s.toList with
  | nil => rw [hl] at h; simp [trimDotsFrom] at h
  | cons c cs =>
    rw [hl] at h hs
    have hc : c ≠ '.' := by simpa using hs
    simp only [trimDotsFrom, if_neg hc, Except.ok.injEq, Prod.mk.injEq] at h
    exact h.1.symm

theorem exec_keeps_parents (o : op) (i i1 : interpreter) (parents ps1 : List interpreter)
    (w w1 : World) (h : interpreter.exec o i parents w = .ok (i1, ps1, w1))
    (hs : storesUndotted o i = true) : ps1 = parents := by
  by_cases ho : o.typ = opStore ∨ o.typ = opStoreStr
  · obtain ⟨name0, k, name, val, st, hn, ht, hm, _⟩ :=
      exec_store_modify o i i1 parents ps1 w w1 ho h
    unfold storesUndotted at hs
    rw [hn] at hs
    have hk := trimDots_undotted _ _ _ _ (by simpa using hs) ht
    subst hk
    simp only [List.modify] at hm
    exact (List.cons.inj hm).2
  · rw [not_or] at ho
    exact (exec_keeps_frames o i parents w ho.1 ho.2 _ h).2

theorem run_keeps_parents (n : Nat) (f : function) (ic : Int) (i : interpreter)
    (parents : List interpreter) (w : World) (ret : Value) (i1 : interpreter)
    (ps : List interpreter) (w1 : World)
    (h : interpreter.run n f ic i parents w = .ok (ret, i1, ps, w1))
    (hs : interpreter.storesOwn n f ic i parents w = true) : ps = parents := by
  induction n generalizing f ic i parents w ret i1 ps w1 with
  | zero => simp [interpreter.run] at h
  | succ n ih =>
    rw [interpreter.run] at h
    rw [interpreter.storesOwn] at hs
    by_cases hic : ic < 0
    · rw [if_pos hic] at h; cases h
    · rw [if_neg hic] at h hs
      cases hg : f.get? ic.toNat with
      | none =>
        simp only [hg, Except.ok.injEq, Prod.mk.injEq] at h
        exact h.2.2.1.symm
      | some o =>
        simp only [hg] at h hs
        obtain ⟨t, p⟩ := o
        simp only [op.typ, op.param] at h hs
        have generic : ∀ (h : (match interpreter.exec (op.mk t p) i parents w with
              | .error e => .error e
              | .ok (i, parents, w) => interpreter.run n f (ic + 1) i parents w) =
                Except.ok (ret, i1, ps, w1))
            (hs : (storesUndotted (op.mk t p) i &&
              match interpreter.exec (op.mk t p) i parents w with
              | .error _ => true
              | .ok (i, parents, w) => interpreter.storesOwn n f (ic + 1) i parents w) = true),
            ps = parents := by
          intro hx hsx
          rw [Bool.and_eq_true] at hsx
          cases he : interpreter.exec (op.mk t p) i parents w with
          | error e => rw [he] at hx; cases hx
          | ok r =>
            obtain ⟨i2, ps2, w2⟩ := r
            rw [he] at hx
            have hs2 := hsx.2
            rw [he] at hs2
            have e2 := exec_keeps_parents _ _ _ _ _ _ _ he hsx.1
            rw [e2] at hx hs2
            exact ih _ _ _ _ _ _ _ _ _ hx hs2
        cases t with
        | opCall =>
          simp only [] at h hs
          cases hgi : getInt p "opCall failed: number of arguments is not int" with
          | error e => rw [hgi] at h; cases h
          | ok args =>
            simp only [hgi] at h hs
            cases hm : moveArgs args.toNat i newInterpreter with
            | error e => rw [hm] at h; cases h
            | ok r =>
              obtain ⟨i2, child⟩ := r
              simp only [hm] at h hs
              cases hp : i2.pop with
              | error e => rw [hp] at h; cases h
              | ok r2 =>
                obtain ⟨v, i3⟩ := r2
                cases v with
                | function g =>
                  simp only [hp] at h hs
                  rw [Bool.and_eq_true] at hs
                  cases hr : interpreter.run n g 0 child (i3 :: parents) w with
                  | error e => rw [hr] at h; cases h
                  | ok r3 =>
                    obtain ⟨ret2, c2, ps2, w2⟩ := r3
                    have hs2 := hs.2
                    simp only [hr] at h hs2
                    have e2 := ih _ _ _ _ _ _ _ _ _ hr hs.1
                    rw [e2] at h hs2
                    simp only [List.headD, List.tail] at h hs2
                    exact ih _ _ _ _ _ _ _ _ _ h hs2
                | _ => simp only [hp] at h; cases h
        | opJmp =>
          simp only [] at h hs
          cases hgi : getInt p "opJmp failed" with
          | error e => rw [hgi] at h; cases h
          | ok d =>
            simp only [hgi] at h hs
            exact ih _ _ _ _ _ _ _ _ _ h hs
        | opJmpFalse =>
          simp only [] at h hs
          cases hb : i.popBool "opJmpFalse failed: non-bool" with
          | error e => rw [hb] at h; cases h
          | ok r =>
            obtain ⟨b, i2⟩ := r
            simp only [hb] at h hs
            cases b
            · simp only [Bool.not_false, if_true] at h hs
              cases hgi : getInt p "opJmpFalse failed: non-int param" with
              | error e => rw [hgi] at h; cases h
              | ok d =>
                simp only [hgi] at h hs
                exact ih _ _ _ _ _ _ _ _ _ h hs
            · simp only [Bool.not_true, Bool.false_eq_true, if_false] at h hs
              exact ih _ _ _ _ _ _ _ _ _ h hs
        | opReturn =>
          simp only [] at h
          cases hgi : getInt p "opReturn failed: param not int" with
          | error e => rw [hgi] at h; cases h
          | ok r =>
            simp only [hgi] at h
            by_cases hr0 : r = 0
            · rw [if_pos hr0] at h
              simp only [Except.ok.injEq, Prod.mk.injEq] at h
              exact h.2.2.1.symm
            · rw [if_neg hr0] at h
              cases hp : i.pop with
              | error e => rw [hp] at h; cases h
              | ok r2 =>
                obtain ⟨v, i2⟩ := r2
                simp only [hp, Except.ok.injEq, Prod.mk.injEq] at h
                exact h.2.2.1.symm
        | _ => exact generic h hs

theorem moveArgs_vars (k : Nat) (i child i1 child1 : interpreter)
    (h : moveArgs k i child = .ok (i1, child1)) :
    i1.vars = i.vars ∧ child1.vars = child.vars := by
  induction k generalizing i child with
  | zero =>
    simp only [moveArgs, Except.ok.injEq, Prod.mk.injEq] at h
    obtain ⟨rfl, rfl⟩ := h
    exact ⟨rfl, rfl⟩
  | succ k ih =>
    rw [moveArgs] at h
    cases hp : i.pop with
    | error e => rw [hp] at h; cases h
    | ok r =>
      obtain ⟨v, i2⟩ := r
      rw [hp] at h
      have h1 := pop_vars i _ hp
      obtain ⟨h2, h3⟩ := ih _ _ h
      exact ⟨h2.trans h1, h3⟩

theorem exec_store_bindings (o : op) (i i1 : interpreter) (parents ps1 : List interpreter)
    (w w1 : World) (ho : o.typ = opStore ∨ o.typ = opStoreStr)
    (h : interpreter.exec o i parents w = .ok (i1, ps1, w1)) :
    ∃ name0 k name val, storeName o i = some name0 ∧
      trimDots parents.length name0 = .ok (k, name) ∧
      (i1 :: ps1).length = (i :: parents).length ∧
      ∀ j fr, (i :: parents).get? j = some fr →
        ∃ fr1, (i1 :: ps1).get? j = some fr1 ∧
          (∀ q, j ≠ k ∨ q ≠ name → getVar q fr1.vars = getVar q fr.vars) ∧
          (j = k → getVar name fr1.vars = some val) := by
  obtain ⟨name0, k, name, val, st, hn, ht, hm, _⟩ :=
    exec_store_modify o i i1 parents ps1 w w1 ho h
  refine ⟨name0, k, name, val, hn, ht, ?_, ?_⟩
  · rw [hm, List.length_modify]
    rfl
  · intro j fr hj
    rw [hm, List.get?_eq_getElem?, List.getElem?_modify]
    cases j with
    | zero =>
      simp only [List.get?, Option.some.injEq] at hj
      subst hj
      simp only [List.getElem?_cons_zero, Option.map_eq_map, Option.map_some']
      refine ⟨_, rfl, ?_, ?_⟩
      · intro q hq
        by_cases hk : k = 0
        · rw [if_pos hk]
          rcases hq with hq | hq
          · exact absurd hk.symm hq
          · exact getVar_setVar_other _ _ _ _ hq
        · rw [if_neg hk]
      · intro hk
        rw [if_pos hk.symm]
        exact getVar_setVar_same _ _ _
    | succ j =>
      simp only [List.get?] at hj
      rw [List.get?_eq_getElem?] at hj
      simp only [List.getElem?_cons_succ, hj, Option.map_eq_map, Option.map_some']
      refine ⟨_, rfl, ?_, ?_⟩
      · intro q hq
        by_cases hk : k = j + 1
        · rw [if_pos hk]
          rcases hq with hq | hq
          · exact absurd hk.symm hq
          · exact getVar_setVar_other _ _ _ _ hq
        · rw [if_neg hk]
      · intro hk
        rw [if_pos hk.symm]
        exact getVar_setVar_same _ _ _

theorem run_jump_frames (n : Nat) (f : function) (ic : Int) (i : interpreter)
    (parents : List interpreter) (w : World) (o : op) (hic : 0 ≤ ic)
    (hg : f.get? ic.toNat = some o) (ho : o.typ = opJmp ∨ o.typ = opJmpFalse) :
    (∃ e, interpreter.run (n + 1) f ic i parents w = .error e) ∨
      ∃ ic1 i1, i1.vars = i.vars ∧
        interpreter.run (n + 1) f ic i parents w = interpreter.run n f ic1 i1 parents w := by
  have hlt : ¬ ic < 0 := by omega
  obtain ⟨t, p⟩ := o
  simp only [op.typ] at ho
  rw [interpreter.run, if_neg hlt]
  simp only [hg, op.typ, op.param]
  rcases ho with rfl | rfl
  · simp only []
    cases getInt p "opJmp failed" with
    | error e => exact .inl ⟨e, rfl⟩
    | ok d => exact .inr ⟨_, i, rfl, rfl⟩
  · simp only []
    cases hb : i.popBool "opJmpFalse failed: non-bool" with
    | error e => exact .inl ⟨e, rfl⟩
    | ok r =>
      obtain ⟨b, i2⟩ := r
      have hv := popBool_vars i _ _ hb
      cases b
      · simp only [Bool.not_false, if_true]
        cases getInt p "opJmpFalse failed: non-int param" with
        | error e => exact .inl ⟨e, rfl⟩
        | ok d => exact .inr ⟨_, i2, hv, rfl⟩
      · simp only [Bool.not_true, Bool.false_eq_true, if_false]
        exact .inr ⟨_, i2, hv, rfl⟩

theorem run_return_frames (n : Nat) (f : function) (ic : Int) (i : interpreter)
    (parents : List interpreter) (w : World) (o : op) (hic : 0 ≤ ic)
    (hg : f.get? ic.toNat = some o) (ho : o.typ = opReturn)
    (v : Value) (i1 : interpreter) (ps1 : List interpreter) (w1 : World)
    (h : interpreter.run (n + 1) f ic i parents w = .ok (v, i1, ps1, w1)) :
    i1.vars = i.vars ∧ ps1 = parents ∧ w1 = w := by
  have hlt : ¬ ic < 0 := by omega
  obtain ⟨t, p⟩ := o
  simp only [op.typ] at ho
  subst ho
  rw [interpreter.run, if_neg hlt] at h
  simp only [hg, op.typ, op.param] at h
  cases hgi : getInt p "opReturn failed: param not int" with
  | error e => rw [hgi] at h; cases h
  | ok r =>
    simp only [hgi] at h
    by_cases hr0 : r = 0
    · rw [if_pos hr0] at h
      simp only [Except.ok.injEq, Prod.mk.injEq] at h
      obtain ⟨_, rfl, rfl, rfl⟩ := h
      exact ⟨rfl, rfl, rfl⟩
    · rw [if_neg hr0] at h
      cases hp : i.pop with
      | error e => rw [hp] at h; cases h
      | ok r2 =>
        obtain ⟨v2, i2⟩ := r2
        have hv := pop_vars i _ hp
        simp only [hp, Except.ok.injEq, Prod.mk.injEq] at h
        obtain ⟨_, rfl, rfl, rfl⟩ := h
        exact ⟨hv, rfl, rfl⟩

theorem run_call_frames (n : Nat) (f : function) (ic : Int) (i : interpreter)
    (parents : List interpreter) (w : World) (o : op) (hic : 0 ≤ ic)
    (hg : f.get? ic.toNat = some o) (ho : o.typ = opCall)
    (r : Value × interpreter × List interpreter × World)
    (h : interpreter.run (n + 1) f ic i parents w = .ok r) :
    ∃ g child caller ret callee ps w1, child.vars = [] ∧ caller.vars = i.vars ∧
      interpreter.run n g 0 child (caller :: parents) w = .ok (ret, callee, ps, w1) ∧
      interpreter.run (n + 1) f ic i parents w =
        interpreter.run n f (ic + 1) ((ps.headD caller).push ret) ps.tail w1 ∧
      (interpreter.storesOwn n g 0 child (caller :: parents) w = true →
        ps = caller :: parents) := by
  have hlt : ¬ ic < 0 := by omega
  obtain ⟨t, p⟩ := o
  simp only [op.typ] at ho
  subst ho
  have h0 := h
  rw [interpreter.run, if_neg hlt] at h ⊢
  simp only [hg, op.typ, op.param] at h ⊢
  cases hgi : getInt p "opCall failed: number of arguments is not int" with
  | error e => rw [hgi] at h; cases h
  | ok args =>
    simp only [hgi] at h ⊢
    cases hm : moveArgs args.toNat i newInterpreter with
    | error e => rw [hm] at h; cases h
    | ok r1 =>
      obtain ⟨i2, child⟩ := r1
      simp only [hm] at h ⊢
      obtain ⟨hv2, hc⟩ := moveArgs_vars _ _ _ _ _ hm
      cases hp : i2.pop with
      | error e => rw [hp] at h; cases h
      | ok r2 =>
        obtain ⟨v, i3⟩ := r2
        have hv3 := pop_vars i2 _ hp
        cases v with
        | function g =>
          simp only [hp] at h ⊢
          cases hr : interpreter.run n g 0 child (i3 :: parents) w with
          | error e => rw [hr] at h; cases h
          | ok r3 =>
            obtain ⟨ret, callee, ps, w1⟩ := r3
            exact ⟨g, child, i3, ret, callee, ps, w1, hc, hv3.trans hv2, hr, rfl,
              fun hs => run_keeps_parents _ _ _ _ _ _ _ _ _ _ hr hs⟩
        | _ => simp only [hp] at h; cases h

/-- C21: variables change only at stores.  An opcode other than `opStore`, `opStoreStr` and
`opCall` leaves the variables of the running frame and all the frames above it as they were:
the opcodes `interpreter.exec` covers, a jump (which goes on in the same frames), and a return
(which hands back the frames as they are).  An `opStore` or `opStoreStr` that succeeds
resolves its name to a frame `k` links up and a bare name, keeps the number of frames, and in
every frame leaves every binding other than that one as it was, while that one becomes the
value stored.  An `opCall` starts the callee with no variables, above the caller's frame with
its variables unchanged, and goes on in the frames the callee hands back; when every store
executed during the call is to a name without a leading dot, those are the caller's frame and
the frames above it, unchanged. -/
theorem stores_alone_change_variables :
    (∀ (o : op) (i : interpreter) (parents : List interpreter) (w : World) (i1 : interpreter)
        (ps1 : List interpreter) (w1 : World), o.typ ≠ opStore → o.typ ≠ opStoreStr →
      interpreter.exec o i parents w = .ok (i1, ps1, w1) → i1.vars = i.vars ∧ ps1 = parents) ∧
    (∀ (n : Nat) (f : function) (ic : Int) (i : interpreter) (parents : List interpreter)
        (w : World) (o : op), 0 ≤ ic → f.get? ic.toNat = some o →
      o.typ = opJmp ∨ o.typ = opJmpFalse →
      (∃ e, interpreter.run (n + 1) f ic i parents w = .error e) ∨
        ∃ ic1 i1, i1.vars = i.vars ∧
          interpreter.run (n + 1) f ic i parents w = interpreter.run n f ic1 i1 parents w) ∧
    (∀ (n : Nat) (f : function) (ic : Int) (i : interpreter) (parents : List interpreter)
        (w : World) (o : op), 0 ≤ ic → f.get? ic.toNat = some o → o.typ = opReturn →
      ∀ (v : Value) (i1 : interpreter) (ps1 : List interpreter) (w1 : World),
        interpreter.run (n + 1) f ic i parents w = .ok (v, i1, ps1, w1) →
        i1.vars = i.vars ∧ ps1 = parents ∧ w1 = w) ∧
    (∀ (o : op) (i : interpreter) (parents : List interpreter) (w : World) (i1 : interpreter)
        (ps1 : List interpreter) (w1 : World), o.typ = opStore ∨ o.typ = opStoreStr →
      interpreter.exec o i parents w = .ok (i1, ps1, w1) →
      ∃ name0 k name val, storeName o i = some name0 ∧
        trimDots parents.length name0 = .ok (k, name) ∧
        (i1 :: ps1).length = (i :: parents).length ∧
        ∀ j fr, (i :: parents).get? j = some fr →
          ∃ fr1, (i1 :: ps1).get? j = some fr1 ∧
            (∀ q, j ≠ k ∨ q ≠ name → getVar q fr1.vars = getVar q fr.vars) ∧
            (j = k → getVar name fr1.vars = some val)) ∧
    (∀ (n : Nat) (f : function) (ic : Int) (i : interpreter) (parents : List interpreter)
        (w : World) (o : op), 0 ≤ ic → f.get? ic.toNat = some o → o.typ = opCall →
      ∀ r, interpreter.run (n + 1) f ic i parents w = .ok r →
        ∃ g child caller ret callee ps w1, child.vars = [] ∧ caller.vars = i.vars ∧
          interpreter.run n g 0 child (caller :: parents) w = .ok (ret, callee, ps, w1) ∧
          interpreter.run (n + 1) f ic i parents w =
            interpreter.run n f (ic + 1) ((ps.headD caller).push ret) ps.tail w1 ∧
          (interpreter.storesOwn n g 0 child (caller :: parents) w = true →
            ps = caller :: parents)) :=
  ⟨fun o i parents w _ _ _ h1 h2 h => exec_keeps_frames o i parents w h1 h2 _ h,
    run_jump_frames, run_return_frames,
    fun o i parents w i1 ps1 w1 ho h => exec_store_bindings o i i1 parents ps1 w w1 ho h,
    run_call_frames⟩

/-- Example for C21: a caller in which `x` is 1 calls a function that stores 2 to `x`: the
store is to a name without a dot, and the caller's `x` is still 1 afterwards; when the function
stores to `.x` instead, the caller's `x` is 2 afterwards. -/
theorem stores_alone_change_variables_example :
    interpreter.storesOwn 5 [op.mk opString (.string "x"), op.mk opInt (.int64 2),
        op.mk opStoreStr .nil] 0 ⟨[], []⟩ [⟨[("x", .int64 1)], []⟩] ⟨[], "", fun _ => 0, 0⟩ =
      true ∧
    interpreter.run 6 [op.mk opCall (.int 0)] 0
        ⟨[("x", .int64 1)], [.function [op.mk opString (.string "x"), op.mk opInt (.int64 2),
          op.mk opStoreStr .nil]]⟩ [] ⟨[], "", fun _ => 0, 0⟩ =
      .ok (.nil, ⟨[("x", .int64 1)], [.nil]⟩, [], ⟨[], "", fun _ => 0, 0⟩) ∧
    interpreter.run 6 [op.mk opCall (.int 0)] 0
        ⟨[("x", .int64 1)], [.function [op.mk opString (.string ".x"), op.mk opInt (.int64 2),
          op.mk opStoreStr .nil]]⟩ [] ⟨[], "", fun _ => 0, 0⟩ =
      .ok (.nil, ⟨[("x", .int64 2)], [.nil]⟩, [], ⟨[], "", fun _ => 0, 0⟩) :=
  ⟨rfl, rfl, rfl⟩

/-! ### The code of if, loops, assignments and calls (C23 to C26) -/

theorem stops_of_typ (t : lex)
    (h : t.typ = lexLeftBrace ∨ t.typ = lexEos ∨ t.typ = lexComma ∨ t.typ = lexRightPar ∨
      t.typ = lexRightBrace ∨ t.typ = lexEof) : Stops 0 t := by
  have key : ∀ ty : lexType, ty = lexLeftBrace ∨ ty = lexEos ∨ ty = lexComma ∨
      ty = lexRightPar ∨ ty = lexRightBrace ∨ ty = lexEof →
      ty ≠ lexLeftPar ∧ ty ≠ lexLeftBracket ∧ ∀ j, 0 ≤ j → levelFind j ty = none := by
    intro ty hty
    refine ⟨?_, ?_, fun j _ => ?_⟩
    · rcases hty with rfl | rfl | rfl | rfl | rfl | rfl <;> decide
    · rcases hty with rfl | rfl | rfl | rfl | rfl | rfl <;> decide
    · by_cases hj : j < 6
      · rcases hty with rfl | rfl | rfl | rfl | rfl | rfl <;> interval_cases j <;> rfl
      · exact levelFind_ge j (by omega) _
  exact key t.typ h

theorem pIf_no_else {E T : List lex} {cE cT : function} (hE : ParsesAt 0 E cE)
    (hT : BlockParses T cT) (f : function) (t : lex) (r : List lex) (ht : t.typ ≠ lexElse) :
    ∃ n0, ∀ n, n0 ≤ n →
      parser.pIf n (E ++ T ++ t :: r) f =
        .ok (f ++ cE ++ [op.mk opJmpFalse (.int ((cT.length : Int) + 1))] ++ cT, t :: r) := by
  obtain ⟨⟨b, T1, rfl, hb⟩, hT2⟩ := hT
  obtain ⟨nE, hnE⟩ := hE f b (T1 ++ t :: r) (stops_of_typ b (.inl hb))
  obtain ⟨nT, hnT⟩ := hT2 [] (t :: r)
  refine ⟨nE + nT + 1, fun n hn => ?_⟩
  obtain ⟨m, rfl⟩ : ∃ m, n = m + 1 := ⟨n - 1, by omega⟩
  have e : E ++ b :: T1 ++ t :: r = E ++ b :: (T1 ++ t :: r) := by simp
  have hb1 : ¬ b.typ ≠ lexLeftBrace := fun h => h hb
  have e2 : b :: (T1 ++ t :: r) = (b :: T1) ++ t :: r := rfl
  rw [e, parser.pIf]
  simp only [hnE m (by omega), bind, Except.bind, parser.next, List.get?, hb1, if_false]
  rw [e2, hnT m (by omega)]
  simp only [List.get?, if_neg ht, pure, Except.pure, List.nil_append, List.append_nil]

theorem pIf_else {E T F : List lex} {cE cT cF : function} (hE : ParsesAt 0 E cE)
    (hT : BlockParses T cT) (hF : BlockParses F cF) (f : function) (el : lex)
    (hel : el.typ = lexElse) (r : List lex) :
    ∃ n0, ∀ n, n0 ≤ n →
      parser.pIf n (E ++ T ++ el :: F ++ r) f =
        .ok (f ++ cE ++ [op.mk opJmpFalse (.int ((cT.length : Int) + 2))] ++ cT ++
          [op.mk opJmp (.int ((cF.length : Int) + 1))] ++ cF, r) := by
  obtain ⟨⟨b, T1, rfl, hb⟩, hT2⟩ := hT
  obtain ⟨⟨b2, F1, rfl, hb2⟩, hF2⟩ := hF
  obtain ⟨nE, hnE⟩ := hE f b (T1 ++ el :: b2 :: F1 ++ r) (stops_of_typ b (.inl hb))
  obtain ⟨nT, hnT⟩ := hT2 [] (el :: b2 :: F1 ++ r)
  obtain ⟨nF, hnF⟩ := hF2 [] r
  refine ⟨nE + nT + nF + 1, fun n hn => ?_⟩
  obtain ⟨m, rfl⟩ : ∃ m, n = m + 1 := ⟨n - 1, by omega⟩
  have e : E ++ b :: T1 ++ el :: b2 :: F1 ++ r = E ++ b :: (T1 ++ el :: b2 :: F1 ++ r) := by
    simp
  have hb1 : ¬ b.typ ≠ lexLeftBrace := fun h => h hb
  have hb3 : ¬ b2.typ ≠ lexLeftBrace := fun h => h hb2
  have e2 : b :: (T1 ++ el :: b2 :: F1 ++ r) = (b :: T1) ++ (el :: b2 :: F1 ++ r) := by simp
  rw [e, parser.pIf]
  simp only [hnE m (by omega), bind, Except.bind, parser.next, List.get?, hb1, if_false]
  rw [e2, hnT m (by omega)]
  simp only [List.get?, hel, if_true, parser.skip, List.drop, List.cons_append, hb3, if_false]
  rw [List.append_eq, hnF m (by omega)]
  simp [pure, Except.pure]
  omega

theorem run_jmp (n : Nat) (f : function) (ic : Nat) (d : Int) (i : interpreter)
    (ps : List interpreter) (w : World) (hg : f.get? ic = some (op.mk opJmp (.int d))) :
    interpreter.run (n + 1) f (ic : Int) i ps w = interpreter.run n f ((ic : Int) + d) i ps w := by
  have hlt : ¬ ((ic : Int) < 0) := by omega
  have e : (ic : Int) + (d - 1) + 1 = (ic : Int) + d := by omega
  rw [interpreter.run]
  simp only [hlt, if_false, Int.toNat_ofNat, hg, op.typ, op.param, getInt, e]

theorem run_jmpFalse (n : Nat) (f : function) (ic : Nat) (d : Int)
    (vars : List (String × Value)) (b : Bool) (st : List Value)
    (ps : List interpreter) (w : World) (hg : f.get? ic = some (op.mk opJmpFalse (.int d))) :
    interpreter.run (n + 1) f (ic : Int) ⟨vars, .bool b :: st⟩ ps w =
      interpreter.run n f (if b then (ic : Int) + 1 else (ic : Int) + d) ⟨vars, st⟩ ps w := by
  have hlt : ¬ ((ic : Int) < 0) := by omega
  have e : (ic : Int) + (d - 1) + 1 = (ic : Int) + d := by omega
  rw [interpreter.run]
  simp only [hlt, if_false, Int.toNat_ofNat, hg, op.typ, op.param, getInt, e,
    interpreter.popBool, interpreter.pop]
  cases b <;> simp

theorem block_of_if {S : List lex} {c : function}
    (h : ∀ (f : function) (cl : lex) (r : List lex), cl.typ = lexRightBrace →
      ∃ n0, ∀ n, n0 ≤ n → parser.pIf n (S ++ cl :: r) f = .ok (f ++ c, cl :: r))
    (lb kw cl : lex) (hlb : lb.typ = lexLeftBrace) (hkw : kw.typ = lexIf)
    (hcl : cl.typ = lexRightBrace) : BlockParses (lb :: kw :: S ++ [cl]) c := by
  refine ⟨⟨lb, _, rfl, hlb⟩, fun f r => ?_⟩
  obtain ⟨n0, hn0⟩ := h f cl r hcl
  refine ⟨n0 + 3, fun n hn => ?_⟩
  obtain ⟨m, rfl⟩ : ∃ m, n = m + 3 := ⟨n - 3, by omega⟩
  have e : lb :: kw :: S ++ [cl] ++ r = lb :: kw :: (S ++ cl :: r) := by simp
  rw [e, parser.fun]
  simp only [parser.next, List.get?, bind, Except.bind, hlb, if_true, parser.skip, List.drop]
  rw [parser.funLoop]
  simp only [parser.get, bind, Except.bind, hkw, hn0 (m + 1) (by omega)]
  rw [parser.funEnd]
  simp [parser.get, bind, Except.bind, hcl, pure, Except.pure]

theorem blockParses_empty (lb cl : lex) (hlb : lb.typ = lexLeftBrace)
    (hcl : cl.typ = lexRightBrace) : BlockParses [lb, cl] [] := by
  refine ⟨⟨lb, _, rfl, hlb⟩, fun f r => ⟨2, fun n hn => ?_⟩⟩
  obtain ⟨m, rfl⟩ : ∃ m, n = m + 2 := ⟨n - 2, by omega⟩
  have h1 : cl.typ ≠ lexEos := by rw [hcl]; decide
  have h2 : cl.typ ≠ lexIf := by rw [hcl]; decide
  have h3 : cl.typ ≠ lexFor := by rw [hcl]; decide
  have h4 : cl.typ ≠ lexWhile := by rw [hcl]; decide
  have h5 : cl.typ ≠ lexPrint := by rw [hcl]; decide
  have h6 : cl.typ ≠ lexPrintLn := by rw [hcl]; decide
  have h7 : cl.typ ≠ lexReturn := by rw [hcl]; decide
  have h8 : cl.typ ≠ lexDot := by rw [hcl]; decide
  have h9 : cl.typ ≠ lexName := by rw [hcl]; decide
  rw [parser.fun]
  simp only [List.cons_append, List.nil_append, parser.next, List.get?, bind, Except.bind, hlb,
    if_true, parser.skip, List.drop]
  rw [funLoop_unfold]
  simp [parser.get, bind, Except.bind, h1, h2, h3, h4, h5, h6, h7, h8, h9, hcl, pure,
    Except.pure]

/-- C23: for an expression `E` with code `cE` and blocks `T` and `F` with codes `cT` and `cF`,
given enough fuel and whatever code `f` precedes: for `if E T else F` the parser emits `cE`,
an `opJmpFalse`, `cT`, an `opJmp` and `cF`, where the index of the `opJmpFalse` plus its offset
is the index at which `cF` starts and the index of the `opJmp` plus its offset is the index one
past the end of `cF`; for `if E T`, with no `else` following, it emits `cE`, an `opJmpFalse`
with offset `|cT| + 1` and `cT`, and the index of the `opJmpFalse` plus its offset is one past
the end of `cT`.  A block that holds the statement alone is compiled to the same code, so the
statement can stand in another block.  The interpreter goes on at the index of a jump plus
its offset.  The program of `TestIf` is compiled to the code the test expects. -/
theorem if_jump_offsets {E T F : List lex} {cE cT cF : function} (hE : ParsesAt 0 E cE)
    (hT : BlockParses T cT) (hF : BlockParses F cF) :
    (∀ (f : function) (el : lex) (r : List lex), el.typ = lexElse →
      ∃ n0, ∀ n, n0 ≤ n →
        parser.pIf n (E ++ T ++ el :: F ++ r) f =
          .ok (f ++ cE ++ [op.mk opJmpFalse (.int ((cT.length : Int) + 2))] ++ cT ++
            [op.mk opJmp (.int ((cF.length : Int) + 1))] ++ cF, r)) ∧
    (∀ (f : function),
      (f ++ cE ++ [op.mk opJmpFalse (.int ((cT.length : Int) + 2))] ++ cT ++
          [op.mk opJmp (.int ((cF.length : Int) + 1))] ++ cF).get? (f ++ cE).length =
        some (op.mk opJmpFalse (.int ((cT.length : Int) + 2))) ∧
      (((f ++ cE).length : Nat) : Int) + ((cT.length : Int) + 2) =
        (((f ++ cE ++ [op.mk opJmpFalse (.int ((cT.length : Int) + 2))] ++ cT ++
          [op.mk opJmp (.int ((cF.length : Int) + 1))]).length : Nat) : Int) ∧
      (f ++ cE ++ [op.mk opJmpFalse (.int ((cT.length : Int) + 2))] ++ cT ++
          [op.mk opJmp (.int ((cF.length : Int) + 1))] ++ cF).get?
          ((f ++ cE).length + 1 + cT.length) =
        some (op.mk opJmp (.int ((cF.length : Int) + 1))) ∧
      (((f ++ cE).length + 1 + cT.length : Nat) : Int) + ((cF.length : Int) + 1) =
        (((f ++ cE ++ [op.mk opJmpFalse (.int ((cT.length : Int) + 2))] ++ cT ++
          [op.mk opJmp (.int ((cF.length : Int) + 1))] ++ cF).length : Nat) : Int)) ∧
    (∀ (f : function) (t : lex) (r : List lex), t.typ ≠ lexElse →
      ∃ n0, ∀ n, n0 ≤ n →
        parser.pIf n (E ++ T ++ t :: r) f =
          .ok (f ++ cE ++ [op.mk opJmpFalse (.int ((cT.length : Int) + 1))] ++ cT, t :: r)) ∧
    (∀ (f : function),
      (f ++ cE ++ [op.mk opJmpFalse (.int ((cT.length : Int) + 1))] ++ cT).get?
          (f ++ cE).length = some (op.mk opJmpFalse (.int ((cT.length : Int) + 1))) ∧
      (((f ++ cE).length : Nat) : Int) + ((cT.length : Int) + 1) =
        (((f ++ cE ++ [op.mk opJmpFalse (.int ((cT.length : Int) + 1))] ++ cT).length : Nat) :
          Int)) ∧
    (∀ (lb kw el cl : lex), lb.typ = lexLeftBrace → kw.typ = lexIf → el.typ = lexElse →
      cl.typ = lexRightBrace →
      BlockParses (lb :: kw :: (E ++ T ++ el :: F) ++ [cl])
        (cE ++ [op.mk opJmpFalse (.int ((cT.length : Int) + 2))] ++ cT ++
          [op.mk opJmp (.int ((cF.length : Int) + 1))] ++ cF)) ∧
    (∀ (lb kw cl : lex), lb.typ = lexLeftBrace → kw.typ = lexIf → cl.typ = lexRightBrace →
      BlockParses (lb :: kw :: (E ++ T) ++ [cl])
        (cE ++ [op.mk opJmpFalse (.int ((cT.length : Int) + 1))] ++ cT)) ∧
    (∀ (n : Nat) (g : function) (ic : Nat) (d : Int) (i : interpreter)
        (ps : List interpreter) (w : World), g.get? ic = some (op.mk opJmp (.int d)) →
      interpreter.run (n + 1) g (ic : Int) i ps w =
        interpreter.run n g ((ic : Int) + d) i ps w) ∧
    (∀ (n : Nat) (g : function) (ic : Nat) (d : Int) (vars : List (String × Value))
        (st : List Value) (ps : List interpreter) (w : World),
      g.get? ic = some (op.mk opJmpFalse (.int d)) →
      interpreter.run (n + 1) g (ic : Int) ⟨vars, .bool false :: st⟩ ps w =
        interpreter.run n g ((ic : Int) + d) ⟨vars, st⟩ ps w) ∧
    parse "if a <= 5 \x7b b = 4 \x7d else \x7b x = c \x7d" =
      .ok [op.mk opString (.string "a"), op.mk opLoadStr .nil, op.mk opInt (.int64 5),
        op.mk opLeq .nil, op.mk opJmpFalse (.int 5), op.mk opString (.string "b"),
        op.mk opInt (.int64 4), op.mk opStoreStr .nil, op.mk opJmp (.int 5),
        op.mk opString (.string "x"), op.mk opString (.string "c"), op.mk opLoadStr .nil,
        op.mk opStoreStr .nil] := by
  refine ⟨fun f el r hel => pIf_else hE hT hF f el hel r, fun f => ⟨?_, ?_, ?_, ?_⟩,
    fun f t r ht => pIf_no_else hE hT f t r ht, fun f => ⟨?_, ?_⟩, ?_, ?_,
    fun n g ic d i ps w hg => run_jmp n g ic d i ps w hg,
    fun n g ic d vars st ps w hg => by
      have := run_jmpFalse n g ic d vars false st ps w hg
      simpa using this, rfl⟩
  · have := get?_mid (f ++ cE) (cT ++ [op.mk opJmp (.int ((cF.length : Int) + 1))] ++ cF)
      (op.mk opJmpFalse (.int ((cT.length : Int) + 2)))
    simpa [List.append_assoc] using this
  · simp only [List.length_append, List.length_cons, List.length_nil]
    push_cast
    omega
  · have e : (f ++ cE).length + 1 + cT.length =
        (f ++ cE ++ [op.mk opJmpFalse (.int ((cT.length : Int) + 2))] ++ cT).length := by
      simp only [List.length_append, List.length_cons, List.length_nil]
    rw [e]
    exact get?_mid _ cF _
  · simp only [List.length_append, List.length_cons, List.length_nil]
    push_cast
    omega
  · have := get?_mid (f ++ cE) cT (op.mk opJmpFalse (.int ((cT.length : Int) + 1)))
    simpa [List.append_assoc] using this
  · simp only [List.length_append, List.length_cons, List.length_nil]
    push_cast
    omega
  · intro lb kw el cl hlb hkw hel hcl
    refine block_of_if (fun f c r hc => ?_) lb kw cl hlb hkw hcl
    obtain ⟨n0, hn0⟩ := pIf_else hE hT hF f el hel (c :: r)
    refine ⟨n0, fun n hn => ?_⟩
    have := hn0 n hn
    simpa [List.append_assoc] using this
  · intro lb kw cl hlb hkw hcl
    refine block_of_if (fun f c r hc => ?_) lb kw cl hlb hkw hcl
    obtain ⟨n0, hn0⟩ := pIf_no_else hE hT f c r (by rw [hc]; decide)
    refine ⟨n0, fun n hn => ?_⟩
    have := hn0 n hn
    simpa [List.append_assoc] using this

/-- Witness for C23: the condition `5` and two empty blocks. -/
theorem if_jump_offsets_witness :
    ParsesAt 0 [⟨lexInt, "5"⟩] [op.mk opInt (.int64 5)] ∧
    BlockParses [⟨lexLeftBrace, "\x7b"⟩, ⟨lexRightBrace, "\x7d"⟩] [] ∧
    ∃ n0, ∀ n, n0 ≤ n →
      parser.pIf n ([⟨lexInt, "5"⟩] ++ [⟨lexLeftBrace, "\x7b"⟩, ⟨lexRightBrace, "\x7d"⟩] ++
          ⟨lexElse, "else"⟩ :: [⟨lexLeftBrace, "\x7b"⟩, ⟨lexRightBrace, "\x7d"⟩] ++
          [⟨lexEof, ""⟩]) [] =
        .ok ([] ++ [op.mk opInt (.int64 5)] ++
          [op.mk opJmpFalse (.int ((([] : function).length : Int) + 2))] ++ [] ++
          [op.mk opJmp (.int ((([] : function).length : Int) + 1))] ++ [], [⟨lexEof, ""⟩]) :=
  have hE : ParsesAt 0 [⟨lexInt, "5"⟩] [op.mk opInt (.int64 5)] :=
    (parsesAt_int "5" 5 rfl).liftTo (Nat.le_refl 6) (Nat.zero_le 6)
  have hB : BlockParses [⟨lexLeftBrace, "\x7b"⟩, ⟨lexRightBrace, "\x7d"⟩] [] :=
    blockParses_empty _ _ rfl rfl
  ⟨hE, hB, (if_jump_offsets hE hB hB).1 [] ⟨lexElse, "else"⟩ [⟨lexEof, ""⟩] rfl⟩

theorem pWhile_code {C B : List lex} {cC cB : function} (hC : ParsesAt 0 C cC)
    (hB : BlockParses B cB) (f : function) (r : List lex) :
    ∃ n0, ∀ n, n0 ≤ n →
      parser.pWhile n (C ++ B ++ r) f =
        .ok (f ++ cC ++ [op.mk opJmpFalse (.int ((cB.length : Int) + 2))] ++ cB ++
          [op.mk opJmp (.int (-((cC.length : Int) + 1 + (cB.length : Int))))], r) := by
  obtain ⟨⟨b, B1, rfl, hb⟩, hB2⟩ := hB
  obtain ⟨nC, hnC⟩ := hC f b (B1 ++ r) (stops_of_typ b (.inl hb))
  obtain ⟨nB, hnB⟩ := hB2 [] r
  refine ⟨nC + nB + 1, fun n hn => ?_⟩
  obtain ⟨m, rfl⟩ : ∃ m, n = m + 1 := ⟨n - 1, by omega⟩
  have e : C ++ b :: B1 ++ r = C ++ b :: (B1 ++ r) := by simp
  have hb1 : ¬ b.typ ≠ lexLeftBrace := fun h => h hb
  have e2 : b :: (B1 ++ r) = (b :: B1) ++ r := rfl
  rw [e, parser.pWhile]
  simp only [hnC m (by omega), bind, Except.bind, parser.next, List.get?, hb1, if_false]
  rw [e2, hnB m (by omega)]
  simp [pure, Except.pure]
  omega

theorem pFor_code {I C S B : List lex} {cI cC cS cB : function} {lb : lex} {B1 : List lex}
    (hI : HeaderParses I ⟨lexEos, ";"⟩ cI) (hC : ParsesAt 0 C cC) (hS : HeaderParses S lb cS)
    (hB : BlockParses B cB) (hlb : B = lb :: B1) (f : function) (r : List lex) :
    ∃ n0, ∀ n, n0 ≤ n →
      parser.pFor n (I ++ ⟨lexEos, ";"⟩ :: C ++ ⟨lexEos, ";"⟩ :: S ++ B ++ r) f =
        .ok (f ++ cI ++ cC ++
          [op.mk opJmpFalse (.int ((cB.length : Int) + (cS.length : Int) + 2))] ++ cB ++ cS ++
          [op.mk opJmp (.int (-((cC.length : Int) + 1 + (cB.length : Int) +
            (cS.length : Int))))], r) := by
  obtain ⟨⟨b, B2, hbB, hb⟩, hB2⟩ := hB
  subst hlb
  obtain ⟨rfl, rfl⟩ := List.cons.inj hbB
  obtain ⟨nI, hnI⟩ := hI f (C ++ ⟨lexEos, ";"⟩ :: S ++ lb :: B1 ++ r)
  obtain ⟨nC, hnC⟩ := hC (f ++ cI) ⟨lexEos, ";"⟩ (S ++ lb :: B1 ++ r)
    (stops_of_typ _ (.inr (.inl rfl)))
  obtain ⟨nS, hnS⟩ := hS [] (B1 ++ r)
  obtain ⟨nB, hnB⟩ := hB2 [] r
  refine ⟨nI + nC + nS + nB + 1, fun n hn => ?_⟩
  obtain ⟨m, rfl⟩ : ∃ m, n = m + 1 := ⟨n - 1, by omega⟩
  have e : I ++ ⟨lexEos, ";"⟩ :: C ++ ⟨lexEos, ";"⟩ :: S ++ lb :: B1 ++ r =
      I ++ ⟨lexEos, ";"⟩ :: (C ++ ⟨lexEos, ";"⟩ :: S ++ lb :: B1 ++ r) := by simp
  have hb1 : ¬ lb.typ ≠ lexLeftBrace := fun h => h hb
  have h1 := hnI m (by omega)
  have h2 := hnC m (by omega)
  have h3 := hnS m (by omega)
  have h4 := hnB m (by omega)
  simp only [List.append_assoc, List.cons_append] at h1 h2 h3 h4
  rw [e, parser.pFor]
  simp only [List.append_assoc, List.cons_append, h1, bind, Except.bind, parser.semicolon,
    parser.get, ne_eq, not_true_eq_false, if_false, h2, h3, parser.next, List.get?, hb1, h4]
  simp [pure, Except.pure]
  omega

theorem block_of_for {S : List lex} {c : function}
    (h : ∀ (f : function) (r : List lex),
      ∃ n0, ∀ n, n0 ≤ n → parser.pFor n (S ++ r) f = .ok (f ++ c, r))
    (lb kw cl : lex) (hlb : lb.typ = lexLeftBrace) (hkw : kw.typ = lexFor)
    (hcl : cl.typ = lexRightBrace) : BlockParses (lb :: kw :: S ++ [cl]) c := by
  refine ⟨⟨lb, _, rfl, hlb⟩, fun f r => ?_⟩
  obtain ⟨n0, hn0⟩ := h f (cl :: r)
  refine ⟨n0 + 3, fun n hn => ?_⟩
  obtain ⟨m, rfl⟩ : ∃ m, n = m + 3 := ⟨n - 3, by omega⟩
  have e : lb :: kw :: S ++ [cl] ++ r = lb :: kw :: (S ++ cl :: r) := by simp
  rw [e, parser.fun]
  simp only [parser.next, List.get?, bind, Except.bind, hlb, if_true, parser.skip, List.drop]
  rw [parser.funLoop]
  simp only [parser.get, bind, Except.bind, hkw, hn0 (m + 1) (by omega)]
  rw [parser.funEnd]
  simp [parser.get, bind, Except.bind, hcl, pure, Except.pure]

theorem block_of_while {S : List lex} {c : function}
    (h : ∀ (f : function) (r : List lex),
      ∃ n0, ∀ n, n0 ≤ n → parser.pWhile n (S ++ r) f = .ok (f ++ c, r))
    (lb kw cl : lex) (hlb : lb.typ = lexLeftBrace) (hkw : kw.typ = lexWhile)
    (hcl : cl.typ = lexRightBrace) : BlockParses (lb :: kw :: S ++ [cl]) c := by
  refine ⟨⟨lb, _, rfl, hlb⟩, fun f r => ?_⟩
  obtain ⟨n0, hn0⟩ := h f (cl :: r)
  refine ⟨n0 + 3, fun n hn => ?_⟩
  obtain ⟨m, rfl⟩ : ∃ m, n = m + 3 := ⟨n - 3, by omega⟩
  have e : lb :: kw :: S ++ [cl] ++ r = lb :: kw :: (S ++ cl :: r) := by simp
  rw [e, parser.fun]
  simp only [parser.next, List.get?, bind, Except.bind, hlb, if_true, parser.skip, List.drop]
  rw [parser.funLoop]
  simp only [parser.get, bind, Except.bind, hkw, hn0 (m + 1) (by omega)]
  rw [parser.funEnd]
  simp [parser.get, bind, Except.bind, hcl, pure, Except.pure]

theorem headerParses_none : HeaderParses [] ⟨lexEos, ";"⟩ [] := by
  intro f r
  refine ⟨1, fun n hn => ?_⟩
  obtain ⟨m, rfl⟩ : ∃ m, n = m + 1 := ⟨n - 1, by omega⟩
  simp [parser.assignOrNone, parser.next, bind, Except.bind, pure, Except.pure]

theorem headerParses_assign (x : String) (hx : x ≠ ";") {e0 : lex} {E1 : List lex}
    {cE : function} (hE : ParsesAt 0 (e0 :: E1) cE) (he0 : e0.typ ≠ lexLeftPar) (t : lex)
    (ht : Stops 0 t) :
    HeaderParses (⟨lexName, x⟩ :: ⟨lexEq, "="⟩ :: e0 :: E1) t
      ([op.mk opString (.string x)] ++ cE ++ [op.mk opStoreStr .nil]) := by
  intro f r
  obtain ⟨nE, hnE⟩ := hE (f ++ [op.mk opString (.string x)]) t r ht
  refine ⟨nE + 4, fun n hn => ?_⟩
  obtain ⟨m, rfl⟩ : ∃ m, n = m + 4 := ⟨n - 4, by omega⟩
  have h1 := hnE (m + 2) (by omega)
  simp only [List.cons_append] at h1
  rw [parser.assignOrNone]
  simp only [List.cons_append, parser.next, List.get?, bind, Except.bind, ne_eq, hx,
    not_false_eq_true, if_true, parser.get]
  rw [parser.name]
  simp only [parser.nameDots, bind, Except.bind, ne_eq, not_true_eq_false, if_false]
  rw [if_neg (by decide)]
  simp only [not_true_eq_false, if_false]
  have hi : parser.nameIndex (m + 2) (⟨lexEq, "="⟩ :: e0 :: (E1 ++ t :: r))
      (f ++ [op.mk opString (.string x)]) =
      .ok (f ++ [op.mk opString (.string x)], ⟨lexEq, "="⟩ :: e0 :: (E1 ++ t :: r)) := by
    simp [parser.nameIndex, parser.next, bind, Except.bind, pure, Except.pure]
  rw [hi]
  simp only [not_true_eq_false, if_false]
  rw [parser.assign]
  simp only [parser.next, List.get?, bind, Except.bind, he0, if_false, h1, pure, Except.pure,
    List.append_assoc, List.cons_append, List.nil_append]

/-- C24: for assignments `I` and `S` of a `for` header with codes `cI` and `cS` (`I` may be
absent), an expression `C` with code `cC` and a block `B` with code `cB`, given enough fuel
and whatever code `f` precedes: for `for I; C; S B` the parser emits `cI`, `cC`, an
`opJmpFalse` with offset `|cB| + |cS| + 2`, `cB`, `cS` and an `opJmp`; for `while C B` it
emits `cC`, an `opJmpFalse` with offset `|cB| + 2`, `cB` and an `opJmp`.  In both, the index
of the final `opJmp` plus its offset is the index at which `cC` starts, and the index of the
`opJmpFalse` plus its offset is one past the final `opJmp`.  A block that holds the loop alone
is compiled to the same code, so the loop can stand in another block.  The programs of
`TestForPrint` and `TestWhileRead` are compiled to the code the tests expect. -/
theorem loop_jump_offsets {I C S B : List lex} {cI cC cS cB : function} {lb : lex}
    {B1 : List lex} (hI : HeaderParses I ⟨lexEos, ";"⟩ cI) (hC : ParsesAt 0 C cC)
    (hS : HeaderParses S lb cS) (hB : BlockParses B cB) (hlb : B = lb :: B1) :
    (∀ (f : function) (r : List lex), ∃ n0, ∀ n, n0 ≤ n →
      parser.pFor n (I ++ ⟨lexEos, ";"⟩ :: C ++ ⟨lexEos, ";"⟩ :: S ++ B ++ r) f =
        .ok (f ++ cI ++ cC ++
          [op.mk opJmpFalse (.int ((cB.length : Int) + (cS.length : Int) + 2))] ++ cB ++ cS ++
          [op.mk opJmp (.int (-((cC.length : Int) + 1 + (cB.length : Int) +
            (cS.length : Int))))], r)) ∧
    (∀ (f : function),
      (((f ++ cI ++ cC ++
          [op.mk opJmpFalse (.int ((cB.length : Int) + (cS.length : Int) + 2))] ++ cB ++
          cS).length : Nat) : Int) +
          -((cC.length : Int) + 1 + (cB.length : Int) + (cS.length : Int)) =
        (((f ++ cI).length : Nat) : Int) ∧
      (((f ++ cI ++ cC).length : Nat) : Int) + ((cB.length : Int) + (cS.length : Int) + 2) =
        (((f ++ cI ++ cC ++
          [op.mk opJmpFalse (.int ((cB.length : Int) + (cS.length : Int) + 2))] ++ cB ++ cS ++
          [op.mk opJmp (.int (-((cC.length : Int) + 1 + (cB.length : Int) +
            (cS.length : Int))))]).length : Nat) : Int)) ∧
    (∀ (f : function) (r : List lex), ∃ n0, ∀ n, n0 ≤ n →
      parser.pWhile n (C ++ B ++ r) f =
        .ok (f ++ cC ++ [op.mk opJmpFalse (.int ((cB.length : Int) + 2))] ++ cB ++
          [op.mk opJmp (.int (-((cC.length : Int) + 1 + (cB.length : Int))))], r)) ∧
    (∀ (f : function),
      (((f ++ cC ++ [op.mk opJmpFalse (.int ((cB.length : Int) + 2))] ++ cB).length : Nat) :
          Int) + -((cC.length : Int) + 1 + (cB.length : Int)) = ((f.length : Nat) : Int) ∧
      (((f ++ cC).length : Nat) : Int) + ((cB.length : Int) + 2) =
        (((f ++ cC ++ [op.mk opJmpFalse (.int ((cB.length : Int) + 2))] ++ cB ++
          [op.mk opJmp (.int (-((cC.length : Int) + 1 + (cB.length : Int))))]).length : Nat) :
          Int)) ∧
    (∀ (ob kw cl : lex), ob.typ = lexLeftBrace → kw.typ = lexFor → cl.typ = lexRightBrace →
      BlockParses (ob :: kw :: (I ++ ⟨lexEos, ";"⟩ :: C ++ ⟨lexEos, ";"⟩ :: S ++ B) ++ [cl])
        (cI ++ cC ++ [op.mk opJmpFalse (.int ((cB.length : Int) + (cS.length : Int) + 2))] ++
          cB ++ cS ++ [op.mk opJmp (.int (-((cC.length : Int) + 1 + (cB.length : Int) +
            (cS.length : Int))))])) ∧
    (∀ (ob kw cl : lex), ob.typ = lexLeftBrace → kw.typ = lexWhile → cl.typ = lexRightBrace →
      BlockParses (ob :: kw :: (C ++ B) ++ [cl])
        (cC ++ [op.mk opJmpFalse (.int ((cB.length : Int) + 2))] ++ cB ++
          [op.mk opJmp (.int (-((cC.length : Int) + 1 + (cB.length : Int))))])) ∧
    parse "for i = 0; i < 10; i = i + 1 \x7b @println(i, i + 1) \x7d" =
      .ok [op.mk opString (.string "i"), op.mk opInt (.int64 0), op.mk opStoreStr .nil,
        op.mk opString (.string "i"), op.mk opLoadStr .nil, op.mk opInt (.int64 10),
        op.mk opLess .nil, op.mk opJmpFalse (.int 15), op.mk opString (.string "i"),
        op.mk opLoadStr .nil, op.mk opString (.string "i"), op.mk opLoadStr .nil,
        op.mk opInt (.int64 1), op.mk opSum .nil, op.mk opPrintLn (.int 2),
        op.mk opString (.string "i"), op.mk opString (.string "i"), op.mk opLoadStr .nil,
        op.mk opInt (.int64 1), op.mk opSum .nil, op.mk opStoreStr .nil,
        op.mk opJmp (.int (-18))] ∧
    parse "while @int > 0\t\x7b\n\t@println(\"still positive\")\n\x7d\n\t@println(\"end\")" =
      .ok [op.mk opReadInt .nil, op.mk opInt (.int64 0), op.mk opGreater .nil,
        op.mk opJmpFalse (.int 4), op.mk opString (.string "still positive"),
        op.mk opPrintLn (.int 1), op.mk opJmp (.int (-6)), op.mk opString (.string "end"),
        op.mk opPrintLn (.int 1)] := by
  refine ⟨fun f r => pFor_code hI hC hS hB hlb f r, fun f => ⟨?_, ?_⟩,
    fun f r => pWhile_code hC hB f r, fun f => ⟨?_, ?_⟩, ?_, ?_, rfl, rfl⟩
  · simp only [List.length_append, List.length_cons, List.length_nil]
    push_cast
    omega
  · simp only [List.length_append, List.length_cons, List.length_nil]
    push_cast
    omega
  · simp only [List.length_append, List.length_cons, List.length_nil]
    push_cast
    omega
  · simp only [List.length_append, List.length_cons, List.length_nil]
    push_cast
    omega
  · intro ob kw cl hob hkw hcl
    refine block_of_for (fun f r => ?_) ob kw cl hob hkw hcl
    obtain ⟨n0, hn0⟩ := pFor_code hI hC hS hB hlb f r
    refine ⟨n0, fun n hn => ?_⟩
    have := hn0 n hn
    simpa [List.append_assoc] using this
  · intro ob kw cl hob hkw hcl
    refine block_of_while (fun f r => ?_) ob kw cl hob hkw hcl
    obtain ⟨n0, hn0⟩ := pWhile_code hC hB f r
    refine ⟨n0, fun n hn => ?_⟩
    have := hn0 n hn
    simpa [List.append_assoc] using this

/-- Witness for C24: the header `i = 0; 5; i = 1` and an empty block. -/
theorem loop_jump_offsets_witness :
    HeaderParses [⟨lexName, "i"⟩, ⟨lexEq, "="⟩, ⟨lexInt, "0"⟩] ⟨lexEos, ";"⟩
      ([op.mk opString (.string "i")] ++ [op.mk opInt (.int64 0)] ++ [op.mk opStoreStr .nil]) ∧
    ParsesAt 0 [⟨lexInt, "5"⟩] [op.mk opInt (.int64 5)] ∧
    HeaderParses [⟨lexName, "i"⟩, ⟨lexEq, "="⟩, ⟨lexInt, "1"⟩] ⟨lexLeftBrace, "\x7b"⟩
      ([op.mk opString (.string "i")] ++ [op.mk opInt (.int64 1)] ++ [op.mk opStoreStr .nil]) ∧
    BlockParses [⟨lexLeftBrace, "\x7b"⟩, ⟨lexRightBrace, "\x7d"⟩] [] ∧
    ∃ n0, ∀ n, n0 ≤ n →
      parser.pWhile n ([⟨lexInt, "5"⟩] ++ [⟨lexLeftBrace, "\x7b"⟩, ⟨lexRightBrace, "\x7d"⟩] ++
          [⟨lexEof, ""⟩]) [] =
        .ok ([] ++ [op.mk opInt (.int64 5)] ++
          [op.mk opJmpFalse (.int ((([] : function).length : Int) + 2))] ++ [] ++
          [op.mk opJmp (.int (-((([op.mk opInt (.int64 5)] : function).length : Int) + 1 +
            (([] : function).length : Int))))], [⟨lexEof, ""⟩]) :=
  have h0 : ParsesAt 0 [⟨lexInt, "0"⟩] [op.mk opInt (.int64 0)] :=
    (parsesAt_int "0" 0 rfl).liftTo (Nat.le_refl 6) (Nat.zero_le 6)
  have h1 : ParsesAt 0 [⟨lexInt, "1"⟩] [op.mk opInt (.int64 1)] :=
    (parsesAt_int "1" 1 rfl).liftTo (Nat.le_refl 6) (Nat.zero_le 6)
  have h5 : ParsesAt 0 [⟨lexInt, "5"⟩] [op.mk opInt (.int64 5)] :=
    (parsesAt_int "5" 5 rfl).liftTo (Nat.le_refl 6) (Nat.zero_le 6)
  have hI := headerParses_assign "i" (by decide) h0 (by decide) ⟨lexEos, ";"⟩
    (stops_of_typ _ (.inr (.inl rfl)))
  have hS := headerParses_assign "i" (by decide) h1 (by decide) ⟨lexLeftBrace, "\x7b"⟩
    (stops_of_typ _ (.inl rfl))
  have hB : BlockParses [⟨lexLeftBrace, "\x7b"⟩, ⟨lexRightBrace, "\x7d"⟩] [] :=
    blockParses_empty _ _ rfl rfl
  ⟨hI, h5, hS, hB, (loop_jump_offsets hI h5 hS hB rfl).2.2.1 [] [⟨lexEof, ""⟩]⟩

theorem assign_expression (n : Nat) (ts : List lex) (f : function) (e : lex)
    (hend : ts.getLast? = some e) (he : e.typ = lexEof) (hl : literalAhead ts = false) :
    parser.assign (n + 1) ts f =
      match parser.expr0 n 0 ts f with
      | .error err => .error err
      | .ok (f1, ts1) => .ok (f1 ++ [op.mk opStoreStr .nil], ts1) := by
  have heof1 : lexEof ≠ lexLeftPar := by decide
  have heof2 : lexEof ≠ lexName := by decide
  have heof3 : lexEof ≠ lexRightPar := by decide
  rw [parser.assign]
  rcases ts with _ | ⟨l0, _ | ⟨l1, r⟩⟩
  · simp at hend
  · simp only [List.getLast?_singleton, Option.some.injEq] at hend
    subst hend
    have h0 : ¬ l0.typ = lexLeftPar := by rw [he]; exact heof1
    simp only [parser.next, List.get?, bind, Except.bind, h0, if_false]
    cases parser.expr0 n 0 [l0] f <;> rfl
  · by_cases h0 : l0.typ = lexLeftPar
    · by_cases h1 : l1.typ = lexRightPar
      · simp [literalAhead, h0, h1] at hl
      · by_cases h2 : l1.typ = lexName
        · rcases r with _ | ⟨l2, r2⟩
          · simp only [List.getLast?_cons_cons, List.getLast?_singleton,
              Option.some.injEq] at hend
            subst hend
            rw [he] at h2
            exact absurd h2 heof2
          · by_cases h3 : l2.typ = lexComma
            · simp [literalAhead, h0, h2, h3] at hl
            · by_cases h4 : l2.typ = lexRightPar
              · rcases r2 with _ | ⟨l3, r3⟩
                · simp only [List.getLast?_cons_cons, List.getLast?_singleton,
                    Option.some.injEq] at hend
                  subst hend
                  rw [he] at h4
                  exact absurd h4 heof3
                · have h5 : ¬ l3.typ = lexLeftBrace := by
                    intro h5
                    simp [literalAhead, h0, h2, h4, h5] at hl
                  simp only [parser.next, List.get?, bind, Except.bind, h0, h1, h2, h3, h4, h5,
                    if_true, if_false, pure, Except.pure, decide_False, Bool.false_eq_true]
                  cases parser.expr0 n 0 (l0 :: l1 :: l2 :: l3 :: r3) f <;> rfl
              · simp only [parser.next, List.get?, bind, Except.bind, h0, h1, h2, h3, h4,
                  if_true, if_false, pure, Except.pure, Bool.false_eq_true]
                cases parser.expr0 n 0 (l0 :: l1 :: l2 :: r2) f <;> rfl
        · simp only [parser.next, List.get?, bind, Except.bind, h0, h1, h2, if_true, if_false]
          cases parser.expr0 n 0 (l0 :: l1 :: r) f <;> rfl
    · simp only [parser.next, List.get?, bind, Except.bind, h0, if_false]
      cases parser.expr0 n 0 (l0 :: l1 :: r) f <;> rfl

theorem literalAhead_params (ps : List String) (b : lex) (r : List lex)
    (hb : b.typ = lexLeftBrace) :
    literalAhead (⟨lexLeftPar, "("⟩ :: paramLexemes ps ++ ⟨lexRightPar, ")"⟩ :: b :: r) =
      true := by
  rcases ps with _ | ⟨p, _ | ⟨q, t⟩⟩ <;> simp [literalAhead, paramLexemes, hb]

theorem assign_literal (ps : List String) {B : List lex} {cB : function}
    (hB : BlockParses B cB) (f : function) (r : List lex) :
    ∃ n0, ∀ n, n0 ≤ n →
      parser.assign n (⟨lexLeftPar, "("⟩ :: paramLexemes ps ++ ⟨lexRightPar, ")"⟩ :: B ++ r) f =
        .ok (f ++ [op.mk opFunction (.function (paramStores ps ++ cB)),
          op.mk opStoreStr .nil], r) := by
  obtain ⟨⟨b, B1, rfl, hb⟩, hB2⟩ := hB
  obtain ⟨n1, hn1⟩ := hB2 (paramStores ps) r
  refine ⟨n1 + ps.length + 2, fun n hn => ?_⟩
  obtain ⟨m, rfl⟩ : ∃ m, n = m + 1 := ⟨n - 1, by omega⟩
  have hfun := hn1 m (by omega)
  have hb1 : ¬ b.typ ≠ lexLeftBrace := fun h => h hb
  rw [parser.assign]
  rcases ps with _ | ⟨p, _ | ⟨q, t⟩⟩
  · simp only [paramStores, List.map_nil, List.nil_append, List.cons_append] at hfun
    simp only [paramLexemes, List.nil_append, List.cons_append, parser.next, List.get?, bind,
      Except.bind, if_true, parser.skip, List.drop, hb1, if_false, List.append_eq, hfun, pure,
      Except.pure, paramStores, List.map_nil, List.append_assoc]
  · have hargs := funArgsLoop_params [p] m (by simp at hn ⊢; omega) (b :: B1 ++ r) []
    simp only [paramLexemes, List.cons_append, List.nil_append, List.append_assoc] at hargs hfun
    simp only [paramLexemes, List.nil_append, List.cons_append, parser.next, List.get?, bind,
      Except.bind, if_true, if_false, hb, pure, Except.pure, decide_True, parser.funArgs,
      parser.skip, List.drop, List.append_eq, List.append_assoc, hargs, hfun, reduceCtorEq]
  · have hargs := funArgsLoop_params (p :: q :: t) m (by simp at hn ⊢; omega) (b :: B1 ++ r) []
    simp only [paramLexemes, List.cons_append, List.nil_append, List.append_assoc] at hargs hfun
    simp only [paramLexemes, List.nil_append, List.cons_append, parser.next, List.get?, bind,
      Except.bind, if_true, if_false, hb, pure, Except.pure, decide_True, parser.funArgs,
      parser.skip, List.drop, List.append_eq, List.append_assoc, hargs, hfun, reduceCtorEq]

theorem assign_literal_shape (n : Nat) (ts : List lex) (f f1 : function) (ts1 : List lex)
    (hl : literalAhead ts = true) (h : parser.assign n ts f = .ok (f1, ts1)) :
    ∃ body, f1 = f ++ [op.mk opFunction (.function body), op.mk opStoreStr .nil] := by
  cases n with
  | zero => simp [parser.assign] at h
  | succ n =>
    rcases ts with _ | ⟨l0, _ | ⟨l1, r⟩⟩
    · simp [literalAhead] at hl
    · simp [literalAhead] at hl
    · simp only [literalAhead, Bool.and_eq_true, Bool.or_eq_true, decide_eq_true_eq] at hl
      obtain ⟨h0, hl⟩ := hl
      rw [parser.assign] at h
      simp only [parser.next, List.get?, bind, Except.bind, h0, if_true] at h
      by_cases h1 : l1.typ = lexRightPar
      · simp only [h1, if_true, parser.skip, List.drop] at h
        rcases r with _ | ⟨l, r1⟩
        · simp at h
        · by_cases hb : l.typ = lexLeftBrace
          · simp only [List.get?, hb, ne_eq, not_true_eq_false, if_false] at h
            cases hF : parser.fun n (l :: r1) [] with
            | error e => rw [hF] at h; simp at h
            | ok v =>
              rw [hF] at h
              simp only [pure, Except.pure, Except.ok.injEq, Prod.mk.injEq] at h
              exact ⟨v.1, by rw [← h.1, List.append_assoc]; rfl⟩
          · simp [hb] at h
      · have h2 : l1.typ = lexName := by
          rcases hl with hl | hl
          · exact absurd hl h1
          · exact hl.1
        have h21 : lexName ≠ lexRightPar := by decide
        have hl2 := (hl.resolve_left h1).2
        have h43 : lexRightPar ≠ lexComma := by decide
        simp only [h1, h2, h21, if_true, if_false] at h
        rcases r with _ | ⟨l2, r2⟩
        · simp at hl2
        · by_cases h3 : l2.typ = lexComma
          · simp only [List.get?, h3, if_true, pure, Except.pure] at h
            revert h
            generalize parser.funArgs n _ = X
            intro hX
            cases X with
            | error e => simp at hX
            | ok v =>
              simp only at hX
              cases hF : parser.fun n v.2 v.1 with
              | error e => rw [hF] at hX; simp at hX
              | ok w =>
                rw [hF] at hX
                simp only [Except.ok.injEq, Prod.mk.injEq] at hX
                exact ⟨w.1, by rw [← hX.1, List.append_assoc]; rfl⟩
          · simp only [h3, decide_False, Bool.false_or, Bool.and_eq_true,
              decide_eq_true_eq] at hl2
            obtain ⟨h4, hl3⟩ := hl2
            rcases r2 with _ | ⟨l3, r3⟩
            · simp at hl3
            · simp only [decide_eq_true_eq] at hl3
              simp only [List.get?, h3, h4, h43, hl3, if_true, if_false, pure, Except.pure,
                decide_True] at h
              revert h
              generalize parser.funArgs n _ = X
              intro hX
              cases X with
              | error e => simp at hX
              | ok v =>
                simp only at hX
                cases hF : parser.fun n v.2 v.1 with
                | error e => rw [hF] at hX; simp at hX
                | ok w =>
                  rw [hF] at hX
                  simp only [Except.ok.injEq, Prod.mk.injEq] at hX
                  exact ⟨w.1, by rw [← hX.1, List.append_assoc]; rfl⟩

theorem funLoop_assign_literal (k : Nat) (b : List Char) {Es : List (List lex)}
    {cs : List function} (hE : List.Forall₂ (ParsesAt 0) Es cs) (ps : List String)
    {B : List lex} {cB : function} (hB : BlockParses B cB) (e : lexType) (f : function)
    (r : List lex) :
    ∃ n0, ∀ n, n0 ≤ n →
      parser.funLoop (n + 1) e (nameLexemes k b ++ indexLexemes Es ++ ⟨lexEq, "="⟩ ::
          ⟨lexLeftPar, "("⟩ :: paramLexemes ps ++ ⟨lexRightPar, ")"⟩ :: B ++ r) f =
        parser.funEnd n e r (f ++ nameCode (dotted k b) cs ++
          [op.mk opFunction (.function (paramStores ps ++ cB)), op.mk opStoreStr .nil]) := by
  obtain ⟨l, ts0, hl, hlt⟩ := nameLexemes_cons k b
  obtain ⟨n1, hn1⟩ := name_parses k b hE ⟨lexEq, "="⟩ (by simp)
    (⟨lexLeftPar, "("⟩ :: paramLexemes ps ++ ⟨lexRightPar, ")"⟩ :: B ++ r) f l ts0 hl.symm
  obtain ⟨n2, hn2⟩ := assign_literal ps hB (f ++ nameCode (dotted k b) cs) r
  refine ⟨max n1 n2, fun n hn => ?_⟩
  have h1 := hn1 n (by omega)
  have h2 := hn2 n (by omega)
  rw [hl, parser.funLoop]
  simp only [List.append_assoc, List.cons_append, List.nil_append] at h1 h2 ⊢
  rcases hlt with h | h <;>
    simp [parser.get, bind, Except.bind, h, h1, h2]

theorem block_of_assign_literal (k : Nat) (b : List Char) {Es : List (List lex)}
    {cs : List function} (hE : List.Forall₂ (ParsesAt 0) Es cs) (ps : List String)
    {B : List lex} {cB : function} (hB : BlockParses B cB) (lb cl : lex)
    (hlb : lb.typ = lexLeftBrace) (hcl : cl.typ = lexRightBrace) :
    BlockParses (lb :: (nameLexemes k b ++ indexLexemes Es ++ ⟨lexEq, "="⟩ ::
        ⟨lexLeftPar, "("⟩ :: paramLexemes ps ++ ⟨lexRightPar, ")"⟩ :: B) ++ [cl])
      (nameCode (dotted k b) cs ++
        [op.mk opFunction (.function (paramStores ps ++ cB)), op.mk opStoreStr .nil]) := by
  refine ⟨⟨lb, _, rfl, hlb⟩, fun f r => ?_⟩
  obtain ⟨n0, hn0⟩ := funLoop_assign_literal k b hE ps hB lexRightBrace f (cl :: r)
  refine ⟨n0 + 3, fun n hn => ?_⟩
  obtain ⟨m, rfl⟩ : ∃ m, n = m + 3 := ⟨n - 3, by omega⟩
  have h1 := hn0 (m + 1) (by omega)
  rw [parser.fun]
  simp only [List.append_assoc, List.cons_append, List.nil_append] at h1 ⊢
  simp only [parser.next, List.get?, bind, Except.bind, hlb, if_true, parser.skip, List.drop,
    h1]
  rw [parser.funEnd]
  simp [parser.get, bind, Except.bind, hcl, pure, Except.pure]

/-- C25: with `literalAhead` the test on the lexemes after `=` that the claim words (`(` `)`,
or `(` NAME `,`, or `(` NAME `)` `\x7b`): for an lvalue with code `nameCode (dotted k b) cs`,
parameters `ps` and a block `B` with code `cB`, the statement `L = (ps) B` is compiled, given
enough fuel, to the code of the lvalue, an `opFunction` whose operand is one `opStore` for each
parameter in order followed by `cB`, and an `opStoreStr`, also inside a block; on these
lexemes `literalAhead` is true; whenever `literalAhead` is true every result of
`parser.assign` is the code before it, one `opFunction` and an `opStoreStr`; whenever it is
false, on lexemes that end with the end-of-file lexeme, `parser.assign` is `parser.expr0` at
level 0 followed by an `opStoreStr`.  The sources `a = (x)` and `a = (x) + 1` are compiled as
expressions, and a function literal with two parameters as a function. -/
theorem function_literal_lookahead (k : Nat) (b : List Char) {Es : List (List lex)}
    {cs : List function} (hE : List.Forall₂ (ParsesAt 0) Es cs) (ps : List String)
    {B : List lex} {cB : function} (hB : BlockParses B cB) :
    (∀ (e : lexType) (f : function) (r : List lex), ∃ n0, ∀ n, n0 ≤ n →
      parser.funLoop (n + 1) e (nameLexemes k b ++ indexLexemes Es ++ ⟨lexEq, "="⟩ ::
          ⟨lexLeftPar, "("⟩ :: paramLexemes ps ++ ⟨lexRightPar, ")"⟩ :: B ++ r) f =
        parser.funEnd n e r (f ++ nameCode (dotted k b) cs ++
          [op.mk opFunction (.function (paramStores ps ++ cB)), op.mk opStoreStr .nil])) ∧
    (∀ (lb cl : lex), lb.typ = lexLeftBrace → cl.typ = lexRightBrace →
      BlockParses (lb :: (nameLexemes k b ++ indexLexemes Es ++ ⟨lexEq, "="⟩ ::
          ⟨lexLeftPar, "("⟩ :: paramLexemes ps ++ ⟨lexRightPar, ")"⟩ :: B) ++ [cl])
        (nameCode (dotted k b) cs ++
          [op.mk opFunction (.function (paramStores ps ++ cB)), op.mk opStoreStr .nil])) ∧
    (∀ (r : List lex),
      literalAhead (⟨lexLeftPar, "("⟩ :: paramLexemes ps ++ ⟨lexRightPar, ")"⟩ :: B ++ r) =
        true) ∧
    (∀ (n : Nat) (ts : List lex) (f f1 : function) (ts1 : List lex),
      literalAhead ts = true → parser.assign n ts f = .ok (f1, ts1) →
      ∃ body, f1 = f ++ [op.mk opFunction (.function body), op.mk opStoreStr .nil]) ∧
    (∀ (n : Nat) (ts : List lex) (f : function) (e : lex), ts.getLast? = some e →
      e.typ = lexEof → literalAhead ts = false →
      parser.assign (n + 1) ts f =
        match parser.expr0 n 0 ts f with
        | .error err => .error err
        | .ok (f1, ts1) => .ok (f1 ++ [op.mk opStoreStr .nil], ts1)) ∧
    parse "a = (x)" =
      .ok [op.mk opString (.string "a"), op.mk opString (.string "x"), op.mk opLoadStr .nil,
        op.mk opStoreStr .nil] ∧
    parse "a = (x) + 1" =
      .ok [op.mk opString (.string "a"), op.mk opString (.string "x"), op.mk opLoadStr .nil,
        op.mk opInt (.int64 1), op.mk opSum .nil, op.mk opStoreStr .nil] ∧
    parse "a = (x, y) \x7b return y \x7d" =
      .ok [op.mk opString (.string "a"),
        op.mk opFunction (.function [op.mk opStore (.string "x"), op.mk opStore (.string "y"),
          op.mk opString (.string "y"), op.mk opLoadStr .nil, op.mk opReturn (.int 1)]),
        op.mk opStoreStr .nil] := by
  refine ⟨fun e f r => funLoop_assign_literal k b hE ps hB e f r,
    fun lb cl hlb hcl => block_of_assign_literal k b hE ps hB lb cl hlb hcl, fun r => ?_,
    fun n ts f f1 ts1 hl h => assign_literal_shape n ts f f1 ts1 hl h,
    fun n ts f e hend he hl => assign_expression n ts f e hend he hl, rfl, rfl, rfl⟩
  obtain ⟨⟨b0, B1, rfl, hb0⟩, _⟩ := hB
  rw [List.append_assoc]
  exact literalAhead_params ps b0 (B1 ++ r) hb0

/-- Witness for C25: the statement `f = () \x7b \x7d`. -/
theorem function_literal_lookahead_witness :
    List.Forall₂ (ParsesAt 0) [] [] ∧
    BlockParses [⟨lexLeftBrace, "\x7b"⟩, ⟨lexRightBrace, "\x7d"⟩] [] ∧
    BlockParses (⟨lexLeftBrace, "\x7b"⟩ :: (nameLexemes 0 ['f'] ++ indexLexemes [] ++
        ⟨lexEq, "="⟩ :: ⟨lexLeftPar, "("⟩ :: paramLexemes [] ++ ⟨lexRightPar, ")"⟩ ::
        [⟨lexLeftBrace, "\x7b"⟩, ⟨lexRightBrace, "\x7d"⟩]) ++ [⟨lexRightBrace, "\x7d"⟩])
      (nameCode (dotted 0 ['f']) [] ++
        [op.mk opFunction (.function (paramStores [] ++ [])), op.mk opStoreStr .nil]) :=
  have hB : BlockParses [⟨lexLeftBrace, "\x7b"⟩, ⟨lexRightBrace, "\x7d"⟩] [] :=
    blockParses_empty _ _ rfl rfl
  ⟨List.Forall₂.nil, hB,
    (function_literal_lookahead 0 ['f'] List.Forall₂.nil [] hB).2.1 _ _ rfl rfl⟩

theorem expr0_rightPar (n level : Nat) (t : lex) (ht : t.typ = lexRightPar) (r : List lex)
    (f : function) : ∃ e, parser.expr0 n level (t :: r) f = .error e := by
  induction n generalizing level with
  | zero => exact ⟨_, by rw [parser.expr0]⟩
  | succ n ih =>
    by_cases hl : level < 6
    · obtain ⟨e, he⟩ := ih (level + 1)
      exact ⟨e, by rw [expr0_descend n level hl, he]⟩
    · have h6 : ¬ (level < levelLex.length) := by simpa [levelLex] using hl
      obtain ⟨ty, v⟩ := t
      simp only at ht
      subst ht
      exact ⟨_, by rw [parser.expr0]; simp only [h6, if_false]; rfl⟩

theorem ParsesAt.head {A : List lex} {c : function} (h : ParsesAt 0 A c) :
    ∃ a A1, A = a :: A1 ∧ a.typ ≠ lexRightPar := by
  obtain ⟨n0, hn0⟩ := h [] ⟨lexRightPar, ")"⟩ [] (stops_of_typ _ (by simp))
  have h1 := hn0 n0 (Nat.le_refl _)
  rcases A with _ | ⟨a, A1⟩
  · obtain ⟨e, he⟩ := expr0_rightPar n0 0 ⟨lexRightPar, ")"⟩ rfl [] []
    rw [List.nil_append, he] at h1
    cases h1
  · refine ⟨a, A1, rfl, fun ha => ?_⟩
    obtain ⟨e, he⟩ := expr0_rightPar n0 0 a ha (A1 ++ [⟨lexRightPar, ")"⟩]) []
    rw [List.cons_append, he] at h1
    cases h1

theorem callArgsLoop_args {As : List (List lex)} {cs : List function}
    (hA : List.Forall₂ (ParsesAt 0) As cs) (rp : lex) (hrp : rp.typ = lexRightPar)
    (r : List lex) (f : function) (a : Int) :
    ∃ n0, ∀ n, n0 ≤ n →
      parser.callArgsLoop n a (argLexemes As ++ rp :: r) f =
        .ok (f ++ argCode cs, a + (cs.length : Int), r) := by
  induction hA generalizing f a with
  | nil =>
    refine ⟨1, fun n hn => ?_⟩
    obtain ⟨m, rfl⟩ : ∃ m, n = m + 1 := ⟨n - 1, by omega⟩
    simp [parser.callArgsLoop, argLexemes, argCode, parser.next, hrp, bind, Except.bind, pure,
      Except.pure, parser.skip]
  | @cons A c As cs hAc hrest ih =>
    obtain ⟨a0, A1, rfl, ha0⟩ := hAc.head
    obtain ⟨n1, hn1⟩ := ih (f ++ c) (a + 1)
    rcases As with _ | ⟨B, As1⟩
    · obtain ⟨nE, hnE⟩ := hAc f rp r (stops_of_typ _ (by simp [hrp]))
      refine ⟨max nE n1 + 1, fun n hn => ?_⟩
      obtain ⟨m, rfl⟩ : ∃ m, n = m + 1 := ⟨n - 1, by omega⟩
      have h1 := hnE m (by omega)
      have h2 := hn1 m (by omega)
      have hc : rp.typ ≠ lexComma := by rw [hrp]; decide
      simp only [argLexemes, List.nil_append, List.cons_append] at h1 h2 ⊢
      rw [parser.callArgsLoop]
      simp only [parser.next, List.get?, bind, Except.bind, ne_eq, ha0, not_false_eq_true,
        if_true, h1, hc, if_false, hrp, not_true_eq_false, h2]
      simp [argCode, List.append_assoc]
      omega
    · obtain ⟨nE, hnE⟩ := hAc f ⟨lexComma, ","⟩ (argLexemes (B :: As1) ++ rp :: r)
        (stops_of_typ _ (by simp))
      refine ⟨max nE n1 + 1, fun n hn => ?_⟩
      obtain ⟨m, rfl⟩ : ∃ m, n = m + 1 := ⟨n - 1, by omega⟩
      have h1 := hnE m (by omega)
      have h2 := hn1 m (by omega)
      simp only [argLexemes, List.nil_append, List.cons_append, List.append_assoc] at h1 h2 ⊢
      rw [parser.callArgsLoop]
      simp only [parser.next, List.get?, bind, Except.bind, ne_eq, ha0, not_false_eq_true,
        if_true, h1, parser.skip, List.drop, h2]
      simp [argCode, List.append_assoc]
      omega

theorem callLoop_args {As : List (List lex)} {cs : List function}
    (hA : List.Forall₂ (ParsesAt 0) As cs) (rp : lex) (hrp : rp.typ = lexRightPar)
    (r : List lex) (f : function) (a : Int) :
    ∃ n0, ∀ n, n0 ≤ n →
      parser.callLoop n a (argLexemes As ++ rp :: r) f =
        .ok (f ++ argCode cs ++
          [op.mk opCall (.int (a + (cs.length : Int))), op.mk opPop .nil], r) := by
  induction hA generalizing f a with
  | nil =>
    refine ⟨1, fun n hn => ?_⟩
    obtain ⟨m, rfl⟩ : ∃ m, n = m + 1 := ⟨n - 1, by omega⟩
    simp [parser.callLoop, argLexemes, argCode, parser.next, hrp, bind, Except.bind, pure,
      Except.pure, parser.skip]
  | @cons A c As cs hAc hrest ih =>
    obtain ⟨a0, A1, rfl, ha0⟩ := hAc.head
    obtain ⟨n1, hn1⟩ := ih (f ++ c) (a + 1)
    have ea : a + 1 + (cs.length : Int) = a + ((cs.length + 1 : Nat) : Int) := by
      push_cast; omega
    rcases As with _ | ⟨B, As1⟩
    · obtain ⟨nE, hnE⟩ := hAc f rp r (stops_of_typ _ (by simp [hrp]))
      refine ⟨max nE n1 + 1, fun n hn => ?_⟩
      obtain ⟨m, rfl⟩ : ∃ m, n = m + 1 := ⟨n - 1, by omega⟩
      have h1 := hnE m (by omega)
      have h2 := hn1 m (by omega)
      have hc : rp.typ ≠ lexComma := by rw [hrp]; decide
      simp only [argLexemes, List.nil_append, List.cons_append] at h1 h2 ⊢
      rw [parser.callLoop]
      simp only [parser.next, List.get?, bind, Except.bind, ne_eq, ha0, not_false_eq_true,
        if_true, h1, hc, if_false, h2, ea]
      simp [argCode, List.append_assoc]
    · obtain ⟨nE, hnE⟩ := hAc f ⟨lexComma, ","⟩ (argLexemes (B :: As1) ++ rp :: r)
        (stops_of_typ _ (by simp))
      refine ⟨max nE n1 + 1, fun n hn => ?_⟩
      obtain ⟨m, rfl⟩ : ∃ m, n = m + 1 := ⟨n - 1, by omega⟩
      have h1 := hnE m (by omega)
      have h2 := hn1 m (by omega)
      simp only [argLexemes, List.nil_append, List.cons_append, List.append_assoc] at h1 h2 ⊢
      rw [parser.callLoop]
      simp only [parser.next, List.get?, bind, Except.bind, ne_eq, ha0, not_false_eq_true,
        if_true, h1, parser.skip, List.drop, h2, ea]
      simp [argCode, List.append_assoc]

theorem call_in_expression (k : Nat) (b : List Char) {Es As : List (List lex)}
    {cs cA : List function} (hE : List.Forall₂ (ParsesAt 0) Es cs)
    (hA : List.Forall₂ (ParsesAt 0) As cA) (lp rp : lex) (hlp : lp.typ = lexLeftPar)
    (hrp : rp.typ = lexRightPar) (f : function) (r : List lex) :
    ∃ n0, ∀ n, n0 ≤ n →
      parser.expr0 n 6 (nameLexemes k b ++ indexLexemes Es ++ lp :: argLexemes As ++ rp :: r)
          f = .ok (f ++ callCode (dotted k b) cs cA, r) := by
  obtain ⟨l, ts0, hl, hlt⟩ := nameLexemes_cons k b
  obtain ⟨n1, hn1⟩ := name_parses k b hE lp (by rw [hlp]; decide)
    (argLexemes As ++ rp :: r) f l ts0 hl.symm
  obtain ⟨n2, hn2⟩ := callArgsLoop_args hA rp hrp r
    (f ++ nameCode (dotted k b) cs ++ [op.mk opLoadStr .nil]) 0
  refine ⟨max n1 n2 + 2, fun n hn => ?_⟩
  obtain ⟨m, rfl⟩ : ∃ m, n = m + 2 := ⟨n - 2, by omega⟩
  have h1 := hn1 (m + 1) (by omega)
  have h2 := hn2 m (by omega)
  have h6 : ¬(6 < levelLex.length) := by simp [levelLex]
  rw [hl, parser.expr0, if_neg h6]
  simp only [List.append_assoc, List.cons_append, List.nil_append] at h1 h2 ⊢
  rcases hlt with h | h <;>
    simp [parser.get, bind, Except.bind, h, h1, parser.next, hlp, parser.callArgs, h2, pure,
      Except.pure, callCode, List.append_assoc]

theorem call_in_statement (k : Nat) (b : List Char) {Es As : List (List lex)}
    {cs cA : List function} (hE : List.Forall₂ (ParsesAt 0) Es cs)
    (hA : List.Forall₂ (ParsesAt 0) As cA) (lp rp : lex) (hlp : lp.typ = lexLeftPar)
    (hrp : rp.typ = lexRightPar) (e : lexType) (f : function) (r : List lex) :
    ∃ n0, ∀ n, n0 ≤ n →
      parser.funLoop (n + 1) e
          (nameLexemes k b ++ indexLexemes Es ++ lp :: argLexemes As ++ rp :: r) f =
        parser.funEnd n e r (f ++ callCode (dotted k b) cs cA ++ [op.mk opPop .nil]) := by
  obtain ⟨l, ts0, hl, hlt⟩ := nameLexemes_cons k b
  obtain ⟨n1, hn1⟩ := name_parses k b hE lp (by rw [hlp]; decide)
    (argLexemes As ++ rp :: r) f l ts0 hl.symm
  obtain ⟨n2, hn2⟩ := callLoop_args hA rp hrp r
    (f ++ nameCode (dotted k b) cs ++ [op.mk opLoadStr .nil]) 0
  refine ⟨max n1 n2 + 1, fun n hn => ?_⟩
  obtain ⟨m, rfl⟩ : ∃ m, n = m + 1 := ⟨n - 1, by omega⟩
  have h1 := hn1 (m + 1) (by omega)
  have h2 := hn2 m (by omega)
  have hq : lp.typ ≠ lexEq := by rw [hlp]; decide
  rw [hl, parser.funLoop]
  simp only [List.append_assoc, List.cons_append, List.nil_append] at h1 h2 ⊢
  rcases hlt with h | h <;>
    simp [parser.get, bind, Except.bind, h, h1, hq, hlp, parser.call, h2, callCode,
      List.append_assoc]

theorem block_of_call (k : Nat) (b : List Char) {Es As : List (List lex)}
    {cs cA : List function} (hE : List.Forall₂ (ParsesAt 0) Es cs)
    (hA : List.Forall₂ (ParsesAt 0) As cA) (lp rp lb cl : lex) (hlp : lp.typ = lexLeftPar)
    (hrp : rp.typ = lexRightPar) (hlb : lb.typ = lexLeftBrace) (hcl : cl.typ = lexRightBrace) :
    BlockParses
      (lb :: (nameLexemes k b ++ indexLexemes Es ++ lp :: argLexemes As ++ [rp]) ++ [cl])
      (callCode (dotted k b) cs cA ++ [op.mk opPop .nil]) := by
  refine ⟨⟨lb, _, rfl, hlb⟩, fun f r => ?_⟩
  obtain ⟨n0, hn0⟩ := call_in_statement k b hE hA lp rp hlp hrp lexRightBrace f (cl :: r)
  refine ⟨n0 + 3, fun n hn => ?_⟩
  obtain ⟨m, rfl⟩ : ∃ m, n = m + 3 := ⟨n - 3, by omega⟩
  have h1 := hn0 (m + 1) (by omega)
  rw [parser.fun]
  simp only [List.append_assoc, List.cons_append, List.nil_append] at h1 ⊢
  simp only [parser.next, List.get?, bind, Except.bind, hlb, if_true, parser.skip, List.drop,
    h1]
  rw [parser.funEnd]
  simp [parser.get, bind, Except.bind, hcl, pure, Except.pure, List.append_assoc]

/-- C26: for the call `N(A1, ..., An)`, `n ≥ 0`, whose name has the code
`nameCode (dotted k b) cs` and whose arguments `As`, separated by commas, have the codes `cA`,
given enough fuel and whatever code `f` precedes: where a value is expected the parser emits
`callCode`, which is the code of the name, an `opLoadStr`, the codes of the arguments in order
and an `opCall` whose operand is `n`; as a statement it emits exactly `callCode` followed by
one `opPop`, also inside a block.  The program of `TestCall` is compiled to the code the test
expects, and a call with two arguments on the right of an assignment to its `callCode`. -/
theorem call_code_statement_pops (k : Nat) (b : List Char) {Es As : List (List lex)}
    {cs cA : List function} (hE : List.Forall₂ (ParsesAt 0) Es cs)
    (hA : List.Forall₂ (ParsesAt 0) As cA) (lp rp : lex) (hlp : lp.typ = lexLeftPar)
    (hrp : rp.typ = lexRightPar) :
    callCode (dotted k b) cs cA =
      nameCode (dotted k b) cs ++ [op.mk opLoadStr .nil] ++ argCode cA ++
        [op.mk opCall (.int (As.length : Int))] ∧
    (∀ (f : function) (r : List lex), ∃ n0, ∀ n, n0 ≤ n →
      parser.expr0 n 6 (nameLexemes k b ++ indexLexemes Es ++ lp :: argLexemes As ++ rp :: r)
          f = .ok (f ++ callCode (dotted k b) cs cA, r)) ∧
    ParsesAt 0 (nameLexemes k b ++ indexLexemes Es ++ lp :: argLexemes As ++ [rp])
      (callCode (dotted k b) cs cA) ∧
    (∀ (e : lexType) (f : function) (r : List lex), ∃ n0, ∀ n, n0 ≤ n →
      parser.funLoop (n + 1) e
          (nameLexemes k b ++ indexLexemes Es ++ lp :: argLexemes As ++ rp :: r) f =
        parser.funEnd n e r (f ++ callCode (dotted k b) cs cA ++ [op.mk opPop .nil])) ∧
    (∀ (lb cl : lex), lb.typ = lexLeftBrace → cl.typ = lexRightBrace →
      BlockParses
        (lb :: (nameLexemes k b ++ indexLexemes Es ++ lp :: argLexemes As ++ [rp]) ++ [cl])
        (callCode (dotted k b) cs cA ++ [op.mk opPop .nil])) ∧
    parse "blac()" =
      .ok [op.mk opString (.string "blac"), op.mk opLoadStr .nil, op.mk opCall (.int 0),
        op.mk opPop .nil] ∧
    parse "f(1, x)" =
      .ok (callCode "f" [] [[op.mk opInt (.int64 1)],
        [op.mk opString (.string "x"), op.mk opLoadStr .nil]] ++ [op.mk opPop .nil]) ∧
    parse "y = f(1, x)" =
      .ok ([op.mk opString (.string "y")] ++ callCode "f" [] [[op.mk opInt (.int64 1)],
        [op.mk opString (.string "x"), op.mk opLoadStr .nil]] ++
        [op.mk opStoreStr .nil]) := by
  refine ⟨by rw [callCode, hA.length_eq], fun f r => call_in_expression k b hE hA lp rp hlp hrp f r,
    ?_, fun e f r => call_in_statement k b hE hA lp rp hlp hrp e f r,
    fun lb cl hlb hcl => block_of_call k b hE hA lp rp lb cl hlp hrp hlb hcl, rfl, rfl, rfl⟩
  have h6 : ParsesAt 6 (nameLexemes k b ++ indexLexemes Es ++ lp :: argLexemes As ++ [rp])
      (callCode (dotted k b) cs cA) := by
    intro f t r _
    obtain ⟨n0, hn0⟩ := call_in_expression k b hE hA lp rp hlp hrp f (t :: r)
    refine ⟨n0, fun n hn => ?_⟩
    have := hn0 n hn
    simpa [List.append_assoc] using this
  exact h6.liftTo (Nat.le_refl 6) (Nat.zero_le 6)

/-- Witness for C26: the call `f(5)`. -/
theorem call_code_statement_pops_witness :
    List.Forall₂ (ParsesAt 0) [] [] ∧
    List.Forall₂ (ParsesAt 0) [[⟨lexInt, "5"⟩]] [[op.mk opInt (.int64 5)]] ∧
    BlockParses
      (⟨lexLeftBrace, "\x7b"⟩ :: (nameLexemes 0 ['f'] ++ indexLexemes [] ++
        ⟨lexLeftPar, "("⟩ :: argLexemes [[⟨lexInt, "5"⟩]] ++ [⟨lexRightPar, ")"⟩]) ++
        [⟨lexRightBrace, "\x7d"⟩])
      (callCode (dotted 0 ['f']) [] [[op.mk opInt (.int64 5)]] ++ [op.mk opPop .nil]) :=
  have hA : List.Forall₂ (ParsesAt 0) [[⟨lexInt, "5"⟩]] [[op.mk opInt (.int64 5)]] :=
    List.Forall₂.cons ((parsesAt_int "5" 5 rfl).liftTo (Nat.le_refl 6) (Nat.zero_le 6))
      List.Forall₂.nil
  ⟨List.Forall₂.nil, hA,
    (call_code_statement_pops 0 ['f'] List.Forall₂.nil hA ⟨lexLeftPar, "("⟩
      ⟨lexRightPar, ")"⟩ rfl rfl).2.2.2.2.1 _ _ rfl rfl⟩

/-! ### Semicolons and newlines (C7) -/

theorem headerScan_of_typ (st : Nat × List Nat) (t : lex) (k : lexType) (h : t.typ = k)
    (hk : k ≠ lexFor ∧ k ≠ lexLeftBrace ∧ k ≠ lexRightBrace ∧ k ≠ lexEos) :
    headerScan st t = st := by
  subst h
  simp [headerScan, hk.1, hk.2.1, hk.2.2.1, hk.2.2.2]

theorem headerScan_typ (st : Nat × List Nat) (t t1 : lex) (h : t1.typ = t.typ) :
    headerScan st t1 = headerScan st t := by
  simp [headerScan, h]

theorem HeadRel.typ_eq {st : Nat × List Nat} {l l1 : lex} (h : HeadRel st l l1) :
    l1.typ = l.typ := by
  rcases h with rfl | ⟨rfl, rfl, _⟩ <;> rfl

theorem HeadRel.same_of_typ {st : Nat × List Nat} {l l1 : lex} (h : HeadRel st l l1)
    (ht : l.typ ≠ lexEos) : l1 = l := by
  rcases h with rfl | ⟨rfl, rfl, _⟩
  · rfl
  · exact absurd rfl ht

theorem HeadRel.same_of_top {st : Nat × List Nat} {l l1 : lex} (h : HeadRel st l l1)
    (ht : st.1 ≠ 0) : l1 = l := by
  rcases h with rfl | ⟨_, _, h0⟩
  · rfl
  · exact absurd h0 ht

theorem HeadRel.same_of_val {st : Nat × List Nat} {l l1 : lex} (h : HeadRel st l l1)
    (hv : l.val ≠ ";") : l1 = l := by
  rcases h with rfl | ⟨rfl, _, _⟩
  · rfl
  · exact absurd rfl hv

theorem SemiRel.inv {st : Nat × List Nat} {ts ts1 : List lex} (h : SemiRel st ts ts1) :
    (ts = [] ∧ ts1 = []) ∨
      ∃ l l1 r r1, ts = l :: r ∧ ts1 = l1 :: r1 ∧ QGS st (l, r) (l1, r1) := by
  cases h with
  | nil => exact .inl ⟨rfl, rfl⟩
  | @same _ t r r1 hv he hr =>
    refine .inr ⟨t, t, r, r1, rfl, rfl, .inl rfl, hv, fun h => ?_, hr⟩
    have := he h
    subst this
    cases hr
    exact ⟨rfl, rfl⟩
  | @swap _ r r1 h0 hr =>
    have hne : (⟨lexEos, ";"⟩ : lex).typ ≠ lexEof := by decide
    exact .inr ⟨_, _, r, r1, rfl, rfl, .inr ⟨rfl, rfl, h0⟩, fun _ => rfl,
      fun h => absurd h hne, hr⟩

theorem SemiRel.length_eq {st : Nat × List Nat} {ts ts1 : List lex} (h : SemiRel st ts ts1) :
    ts1.length = ts.length := by
  induction h with
  | nil => rfl
  | same st t r r1 hv he hr ih => simp [ih]
  | swap st r r1 h0 hr ih => simp [ih]

theorem semiRel_refl (st : Nat × List Nat) (ts : List lex) (h : WellLexed ts) :
    SemiRel st ts ts := by
  induction ts generalizing st with
  | nil => exact SemiRel.nil st
  | cons t r ih => exact SemiRel.same st t r r h.1 h.2.1 (ih _ h.2.2)

theorem semiRel_replace (st : Nat × List Nat) (pre post : List lex)
    (hw : WellLexed (pre ++ ⟨lexEos, ";"⟩ :: post)) (h0 : (pre.foldl headerScan st).1 = 0) :
    SemiRel st (pre ++ ⟨lexEos, ";"⟩ :: post) (pre ++ ⟨lexEos, "\n"⟩ :: post) := by
  induction pre generalizing st with
  | nil => exact SemiRel.swap st post post h0 (semiRel_refl _ post hw.2.2)
  | cons t r ih =>
    refine SemiRel.same st t _ _ hw.1 ?_ (ih _ hw.2.2 h0)
    intro ht
    have := hw.2.1 ht
    simp at this

theorem emit_val_ne (t : lexType) (k : Nat) (r : Char) (rest : List Char) (hr : r ≠ ';') :
    (lexer.emit t k (r :: rest)).1.val ≠ ";" := by
  simp only [lexer.emit, takeBytes]
  intro h
  split_ifs at h with hk
  · exact absurd h (by decide)
  · have := congrArg String.data h
    simp only at this
    injection this with h1 _
    exact hr h1

theorem emit_zero_val_ne (t : lexType) (input : List Char) :
    (lexer.emit t 0 input).1.val ≠ ";" := by
  cases input <;> simp [lexer.emit, takeBytes]

theorem step_semicolon_eos (input : List Char) (l : lex) (rest : List Char)
    (h : lexer.step input = .emitted l rest ∨ lexer.step input = .halted l)
    (hv : l.val = ";") : l.typ = lexEos := by
  cases input with
  | nil => simp [lexer.step] at h
  | cons r rest0 =>
    by_cases hr : r = ';'
    · subst hr
      have e : lexer.step (';' :: rest0) =
          .emitted (lexer.emit lexEos 1 (';' :: rest0)).1
            (lexer.emit lexEos 1 (';' :: rest0)).2 := rfl
      rw [e] at h
      rcases h with h | h
      · cases h; rfl
      · cases h
    · exfalso
      have key := fun t k => emit_val_ne t k r rest0 hr
      unfold lexer.step at h
      simp only [] at h
      rcases h with h | h
      all_goals
        repeat' (split at h)
        all_goals first
          | (cases h; done)
          | (cases h; exact key _ _ hv)
          | (rename_i h1
             repeat' (split at h1)
             all_goals first
               | (cases h1; done)
               | (cases h1; cases h; done)
               | (cases h1; cases h; exact emit_zero_val_ne _ _ hv))

theorem step_never_eof (input : List Char) (l : lex) (rest : List Char)
    (h : lexer.step input = .emitted l rest ∨ lexer.step input = .halted l) :
    l.typ ≠ lexEof := by
  have hrune : ∀ r t, runeLexeme.lookup r = some t → t ≠ lexEof := by
    intro r t h
    have hm := lookup_mem r t _ h
    simp only [runeLexeme, List.mem_cons, Prod.mk.injEq, List.mem_singleton, List.not_mem_nil,
      or_false] at hm
    rcases hm with ⟨_, rfl⟩ | ⟨_, rfl⟩ | ⟨_, rfl⟩ | ⟨_, rfl⟩ | ⟨_, rfl⟩ | ⟨_, rfl⟩ | ⟨_, rfl⟩ |
      ⟨_, rfl⟩ | ⟨_, rfl⟩ | ⟨_, rfl⟩ | ⟨_, rfl⟩ | ⟨_, rfl⟩ | ⟨_, rfl⟩ | ⟨_, rfl⟩ <;> decide
  have hconf : ∀ r t, conflictingRuneLexeme.lookup r = some t → t ≠ lexEof := by
    intro r t h
    have hm := lookup_mem r t _ h
    simp only [conflictingRuneLexeme, List.mem_cons, Prod.mk.injEq, List.mem_singleton,
      List.not_mem_nil, or_false] at hm
    rcases hm with ⟨_, rfl⟩ | ⟨_, rfl⟩ | ⟨_, rfl⟩ | ⟨_, rfl⟩ | ⟨_, rfl⟩ <;> decide
  have htwo : ∀ inp s t, scanTwoRunes inp = some (s, t) → t ≠ lexEof := by
    intro inp s t h
    have hm := List.mem_of_find?_eq_some h
    simp only [twoRunesLexeme, List.mem_cons, Prod.mk.injEq, List.mem_singleton,
      List.not_mem_nil, or_false] at hm
    rcases hm with ⟨_, rfl⟩ | ⟨_, rfl⟩ | ⟨_, rfl⟩ | ⟨_, rfl⟩ | ⟨_, rfl⟩ | ⟨_, rfl⟩ <;> decide
  have hstr : ∀ inp s t, scanString inp = some (s, t) → t ≠ lexEof := by
    intro inp s t h
    have hm := List.mem_of_find?_eq_some h
    simp only [stringLexeme, List.mem_cons, Prod.mk.injEq, List.mem_singleton,
      List.not_mem_nil, or_false] at hm
    rcases hm with ⟨_, rfl⟩ | ⟨_, rfl⟩ | ⟨_, rfl⟩ | ⟨_, rfl⟩ | ⟨_, rfl⟩ | ⟨_, rfl⟩ | ⟨_, rfl⟩ |
      ⟨_, rfl⟩ | ⟨_, rfl⟩ | ⟨_, rfl⟩ | ⟨_, rfl⟩ | ⟨_, rfl⟩ | ⟨_, rfl⟩ | ⟨_, rfl⟩ <;> decide
  cases input with
  | nil => simp [lexer.step] at h
  | cons r rest0 =>
    unfold lexer.step at h
    simp only [] at h
    rcases h with h | h
    all_goals
      repeat' (split at h)
      all_goals first
        | (cases h; done)
        | (cases h; simp only [lexer.emit]; decide)
        | (cases h; simp only [lexer.emit]; exact hrune _ _ (by assumption))
        | (cases h; simp only [lexer.emit]; exact hconf _ _ (by assumption))
        | (cases h; simp only [lexer.emit]; exact htwo _ _ _ (by assumption))
        | (cases h; simp only [lexer.emit]; exact hstr _ _ _ (by assumption))
        | (rename_i h1
           repeat' (split at h1)
           all_goals first
             | (cases h1; done)
             | (cases h1; cases h; done)
             | (cases h1; cases h; simp only [lexer.emit]; decide))

theorem run_wellLexed (fuel : Nat) (input : List Char) (ls : List lex)
    (h : lexer.run fuel input = .ok ls) : WellLexed ls := by
  induction fuel generalizing input ls with
  | zero => simp [lexer.run] at h
  | succ n ih =>
    rw [lexer.run] at h
    cases hst : lexer.step input with
    | emitted l rest =>
      simp only [hst] at h
      cases hr : lexer.run n rest with
      | error e => rw [hr] at h; cases h
      | ok ls1 =>
        rw [hr] at h
        cases h
        exact ⟨step_semicolon_eos input l rest (.inl hst),
          fun he => absurd he (step_never_eof input l rest (.inl hst)), ih rest ls1 hr⟩
    | skipped rest =>
      simp only [hst] at h
      exact ih rest ls h
    | halted l =>
      simp only [hst] at h
      cases h
      exact ⟨step_semicolon_eos input l [] (.inr hst), fun _ => rfl, trivial⟩
    | atEof =>
      simp only [hst] at h
      cases h
      exact ⟨fun hv => absurd hv (emit_zero_val_ne _ _), fun _ => rfl, trivial⟩
    | failed e =>
      simp only [hst] at h
      cases h

theorem SemiRel.take {st : Nat × List Nat} {ts ts1 : List lex} (h : SemiRel st ts ts1) :
    SimR (QGS st) (parser.get ts) (parser.get ts1) := by
  rcases h.inv with ⟨rfl, rfl⟩ | ⟨l, l1, r, r1, rfl, rfl, hq⟩
  · exact SimR.error _ _
  · exact SimR.ok hq

/-- Continuation lemma for a look at the next lexeme: the continuations are compared with the
two lists split into the lexeme looked at and the lexemes after it. -/
theorem SimR.peek {β : Type} {Q : β → β → Prop} {st : Nat × List Nat} {ts ts1 : List lex}
    (h : SemiRel st ts ts1) {k k1 : lex → Except Err β}
    (hk : ∀ l l1 r r1, ts = l :: r → ts1 = l1 :: r1 → QGS st (l, r) (l1, r1) →
      SimR Q (k l) (k1 l1)) :
    SimR Q (parser.next ts 0 >>= k) (parser.next ts1 0 >>= k1) := by
  rcases h.inv with ⟨rfl, rfl⟩ | ⟨l, l1, r, r1, rfl, rfl, hq⟩
  · exact SimR.error _ _
  · exact hk l l1 r r1 rfl rfl hq

theorem SimR.bindS {β : Type} {Q2 : β → β → Prop} {st : Nat × List Nat}
    {x x1 : Except Err (function × List lex)}
    {k k1 : function × List lex → Except Err β} (hx : SimR (QS st) x x1)
    (hk : ∀ g r r1, SemiRel st r r1 → SimR Q2 (k (g, r)) (k1 (g, r1))) :
    SimR Q2 (x >>= k) (x1 >>= k1) := by
  refine SimR.bind hx ?_
  rintro ⟨g, r⟩ ⟨g1, r1⟩ ⟨hg, hr⟩
  dsimp only at hg hr
  subst hg
  exact hk g r r1 hr

theorem SimR.bindCS {β : Type} {Q2 : β → β → Prop} {st : Nat × List Nat}
    {x x1 : Except Err (function × Int × List lex)}
    {k k1 : function × Int × List lex → Except Err β} (hx : SimR (QCS st) x x1)
    (hk : ∀ g a r r1, SemiRel st r r1 → SimR Q2 (k (g, a, r)) (k1 (g, a, r1))) :
    SimR Q2 (x >>= k) (x1 >>= k1) := by
  refine SimR.bind hx ?_
  rintro ⟨g, a, r⟩ ⟨g1, a1, r1⟩ ⟨hg, ha, hr⟩
  dsimp only at hg ha hr
  subst hg ha
  exact hk g a r r1 hr

theorem next_succ (l : lex) (r : List lex) (i : Nat) :
    parser.next (l :: r) (i + 1) = parser.next r i := rfl

theorem levelFind_scan (st : Nat × List Nat) (level : Nat) (t : lex) (o : opType)
    (h : levelFind level t.typ = some o) : headerScan st t = st := by
  have := (levelFind_table level t.typ o).mp h
  simp only [List.mem_cons, Prod.mk.injEq, List.mem_singleton, List.not_mem_nil, or_false]
    at this
  rcases this with ⟨_, e, _⟩ | ⟨_, e, _⟩ | ⟨_, e, _⟩ | ⟨_, e, _⟩ | ⟨_, e, _⟩ |
    ⟨_, e, _⟩ | ⟨_, e, _⟩ | ⟨_, e, _⟩ | ⟨_, e, _⟩ | ⟨_, e, _⟩ | ⟨_, e, _⟩ |
    ⟨_, e, _⟩ | ⟨_, e, _⟩ <;> exact headerScan_of_typ st t _ e (by decide)

theorem expr0_single_scan (st : Nat × List Nat) (n level : Nat) (l : lex) (f : function)
    (a : function × List lex) (h : parser.expr0 n level [l] f = .ok a) :
    headerScan st l = st := by
  by_cases h1 : l.typ = lexFor ∨ l.typ = lexLeftBrace ∨ l.typ = lexRightBrace ∨
      l.typ = lexEos
  · exfalso
    induction n generalizing level a f with
    | zero => simp [parser.expr0] at h
    | succ n ih =>
      by_cases hl : level < 6
      · rw [expr0_descend n level hl] at h
        cases hx : parser.expr0 n (level + 1) [l] f with
        | error e => rw [hx] at h; cases h
        | ok b => exact ih _ _ _ hx
      · have h6 : ¬ (level < levelLex.length) := by simpa [levelLex] using hl
        obtain ⟨ty, v⟩ := l
        simp only at h1
        rw [parser.expr0] at h
        simp only [h6, if_false, parser.get, bind, Except.bind] at h
        rcases h1 with rfl | rfl | rfl | rfl <;> simp at h
  · simp only [not_or] at h1
    simp [headerScan, h1.1, h1.2.1, h1.2.2.1, h1.2.2.2]

theorem name_fails (n : Nat) (ts : List lex) (f : function) (l : lex)
    (h1 : l.typ ≠ lexDot) (h2 : l.typ ≠ lexName) : ∃ e, parser.name n ts f l = .error e := by
  cases n with
  | zero => exact ⟨_, rfl⟩
  | succ n =>
    rw [parser.name]
    cases ts <;> simp [parser.nameDots, h1, bind, Except.bind, h2]

theorem semi_semicolon {st : Nat × List Nat} {ts ts1 : List lex} (h : SemiRel st ts ts1)
    (h0 : st.1 ≠ 0) :
    SimR (SemiRel (st.1 - 1, st.2)) (parser.semicolon ts) (parser.semicolon ts1) := by
  unfold parser.semicolon
  rcases h.inv with ⟨rfl, rfl⟩ | ⟨l, l1, r, r1, rfl, rfl, hl, hv, _, hr⟩
  · exact SimR.error _ _
  · dsimp only at hl hv hr
    have e := hl.same_of_top h0
    subst e
    simp only [parser.get]
    by_cases c : l1.val = ";"
    · simp only [c, ne_eq, not_true_eq_false, if_false]
      have e2 : headerScan st l1 = (st.1 - 1, st.2) := by simp [headerScan, hv c]
      rw [e2] at hr
      exact SimR.ok hr
    · simp only [ne_eq, c, not_false_eq_true, if_true]
      exact SimR.error _ _

theorem semi_funArgsLoop (n : Nat) {st : Nat × List Nat} {ts ts1 : List lex}
    (h : SemiRel st ts ts1) (ret : function) :
    SimR (QS st) (parser.funArgsLoop n ts ret) (parser.funArgsLoop n ts1 ret) := by
  induction n generalizing ts ts1 ret with
  | zero => exact SimR.error _ _
  | succ n ih =>
    simp only [parser.funArgsLoop]
    refine SimR.bind h.take ?_
    rintro ⟨arg, r⟩ ⟨arg1, r1⟩ ⟨ha, _, _, hr⟩
    dsimp only at ha hr ⊢
    rw [ha.typ_eq]
    by_cases h1 : arg.typ = lexRightPar
    · simp only [h1, if_true]
      rw [headerScan_of_typ st arg _ h1 (by decide)] at hr
      exact SimR.ok ⟨rfl, hr⟩
    · simp only [h1, if_false]
      by_cases h2 : arg.typ = lexName
      · have : arg1 = arg := ha.same_of_typ (by rw [h2]; decide)
        subst this
        rw [headerScan_of_typ st arg1 _ h2 (by decide)] at hr
        simp only [h2, ne_eq, not_true_eq_false, if_false]
        refine SimR.peek hr ?_
        rintro nx nx1 s s1 rfl rfl ⟨hn, _, _, hs⟩
        dsimp only at hn hs
        rw [hn.typ_eq]
        by_cases h3 : nx.typ = lexComma
        · rw [if_pos h3, if_pos h3]
          rw [headerScan_of_typ st nx _ h3 (by decide)] at hs
          exact ih hs _
        · rw [if_neg h3, if_neg h3]
          exact ih hr _
      · simp only [ne_eq, h2, not_false_eq_true, if_true]
        exact SimR.error _ _

theorem semi_nameDots (st : Nat × List Nat) (ts : List lex) :
    ∀ (ts1 : List lex) (l l1 : lex) (nm nm1 : String),
      SemiRel (headerScan st l) ts ts1 → HeadRel st l l1 → (l.typ ≠ lexEos → nm = nm1) →
      SimR (QNS st) (parser.nameDots l nm ts) (parser.nameDots l1 nm1 ts1) := by
  induction ts with
  | nil =>
    intro ts1 l l1 nm nm1 h hl hn
    rcases h.inv with ⟨_, rfl⟩ | ⟨_, _, _, _, e, _⟩
    · simp only [parser.nameDots, hl.typ_eq]
      split_ifs
      · exact SimR.error _ _
      · exact SimR.ok ⟨hl, hn, h⟩
    · cases e
  | cons t r ih =>
    intro ts1 l l1 nm nm1 h hl hn
    rcases h.inv with ⟨e, _⟩ | ⟨t0, t1, r0, r1, e, rfl, ht, _, _, hr⟩
    · cases e
    · cases e
      dsimp only at ht hr
      simp only [parser.nameDots, hl.typ_eq]
      split_ifs with hd
      · rw [headerScan_of_typ st l _ hd (by decide)] at ht hr
        apply ih _ _ _ _ _ hr ht
        intro h2
        have e1 : t1 = t := ht.same_of_typ h2
        have e2 : nm = nm1 := hn (by rw [hd]; decide)
        rw [e1, e2]
      · exact SimR.ok ⟨hl, hn, h⟩

theorem allSemi_zero : AllSemi 0 := by
  constructor <;> intros <;> exact SimR.error _ _

theorem semi_pfun (n : Nat) (ih : AllSemi n) (st : Nat × List Nat) (ts ts1 : List lex)
    (f : function) (h : SemiRel st ts ts1) :
    SimR (QS st) (parser.fun (n + 1) ts f) (parser.fun (n + 1) ts1 f) := by
  simp only [parser.fun]
  refine SimR.peek h ?_
  rintro l l1 r r1 rfl rfl ⟨hl, _, _, hr⟩
  dsimp only at hl hr
  rw [hl.typ_eq]
  by_cases h1 : l.typ = lexLeftBrace
  · rw [if_pos h1, if_pos h1]
    simp only [parser.skip, List.drop]
    have e : headerScan st l = (0, st.1 :: st.2) := by simp [headerScan, h1]
    rw [e] at hr
    intro a ha
    obtain ⟨a1, h2, hq⟩ := ih.funLoop _ lexRightBrace _ _ f hr (.inl rfl) a ha
    refine ⟨a1, h2, hq.1, ?_⟩
    rcases hq.2 with ⟨_, hs⟩ | ⟨e1, e2⟩
    · exact hs
    · rw [e1, e2]
      exact SemiRel.nil st
  · rw [if_neg h1, if_neg h1]
    intro a ha
    obtain ⟨a1, h2, hq⟩ := ih.funLoop st lexEof _ _ f h (.inr rfl) a ha
    refine ⟨a1, h2, hq.1, ?_⟩
    rcases hq.2 with ⟨e, _⟩ | ⟨e1, e2⟩
    · cases e
    · rw [e1, e2]
      exact SemiRel.nil st

theorem semi_closing (st : Nat × List Nat) (e : lexType) (he : e = lexRightBrace ∨ e = lexEof)
    (l : lex) (r r1 : List lex) (f : function) (c : l.typ = e)
    (hf : l.typ = lexEof → r = [] ∧ r1 = []) (hr : SemiRel (headerScan st l) r r1) :
    QES e st (f, r) (f, r1) := by
  refine ⟨rfl, ?_⟩
  rcases he with rfl | rfl
  · left
    refine ⟨rfl, ?_⟩
    have : headerScan st l = (st.2.headD 0, st.2.tail) := by simp [headerScan, c]
    rw [this] at hr
    exact hr
  · right
    exact hf c

theorem SimR.depth {e : lexType} {st st2 : Nat × List Nat} (h2 : st2.2 = st.2)
    {x x1 : Except Err (function × List lex)} (hx : SimR (QES e st2) x x1) :
    SimR (QES e st) x x1 := by
  obtain ⟨a, b⟩ := st2
  obtain ⟨c, d⟩ := st
  cases h2
  exact hx

theorem semi_funEnd (n : Nat) (ih : AllSemi n) (st : Nat × List Nat) (e : lexType)
    (ts ts1 : List lex) (f : function) (h : SemiRel st ts ts1)
    (he : e = lexRightBrace ∨ e = lexEof) :
    SimR (QES e st) (parser.funEnd (n + 1) e ts f) (parser.funEnd (n + 1) e ts1 f) := by
  simp only [parser.funEnd]
  refine SimR.bind h.take ?_
  rintro ⟨l, r⟩ ⟨l1, r1⟩ ⟨hl, _, hf, hr⟩
  dsimp only at hl hf hr ⊢
  rw [hl.typ_eq]
  by_cases c1 : l.typ ≠ lexEos ∧ l.typ ≠ e
  · rw [if_pos c1, if_pos c1]
    exact SimR.error _ _
  rw [if_neg c1, if_neg c1]
  by_cases c2 : l.typ = e
  · rw [if_pos c2, if_pos c2]
    exact SimR.ok (semi_closing st e he l r r1 f c2 hf hr)
  · rw [if_neg c2, if_neg c2]
    have c3 : l.typ = lexEos := by
      by_contra c
      exact c1 ⟨c, c2⟩
    have e2 : headerScan st l = (st.1 - 1, st.2) := by simp [headerScan, c3]
    rw [e2] at hr
    exact SimR.depth rfl (ih.funLoop (st.1 - 1, st.2) e _ _ f hr he)

/-- Continuation lemma: a statement that leaves the scan at a state with the depths `st.2`,
followed by the check of the separator after it. -/
theorem semi_thenEnd (n : Nat) (ih : AllSemi n) (st st2 : Nat × List Nat) (e : lexType)
    (he : e = lexRightBrace ∨ e = lexEof) (h2 : st2.2 = st.2)
    {x x1 : Except Err (function × List lex)} (hx : SimR (QS st2) x x1) :
    SimR (QES e st) (x >>= fun a => parser.funEnd n e a.2 a.1)
      (x1 >>= fun a => parser.funEnd n e a.2 a.1) := by
  refine SimR.bindS hx ?_
  intro g r r1 hr
  exact SimR.depth h2 (ih.funEnd st2 e r r1 g hr he)

theorem semi_funLoop (n : Nat) (ih : AllSemi n) (st : Nat × List Nat) (e : lexType)
    (ts ts1 : List lex) (f : function) (h : SemiRel st ts ts1)
    (he : e = lexRightBrace ∨ e = lexEof) :
    SimR (QES e st) (parser.funLoop (n + 1) e ts f) (parser.funLoop (n + 1) e ts1 f) := by
  rw [funLoop_unfold, funLoop_unfold]
  refine SimR.bind h.take ?_
  rintro ⟨l, r⟩ ⟨l1, r1⟩ ⟨hl, _, hf, hr⟩
  dsimp only at hl hf hr ⊢
  rw [hl.typ_eq]
  by_cases h1 : l.typ = lexEos
  · rw [if_pos h1, if_pos h1]
    have e2 : headerScan st l = (st.1 - 1, st.2) := by simp [headerScan, h1]
    rw [e2] at hr
    exact SimR.depth rfl (ih.funLoop (st.1 - 1, st.2) e _ _ f hr he)
  rw [if_neg h1, if_neg h1]
  by_cases h2 : l.typ = lexIf
  · rw [if_pos h2, if_pos h2]
    rw [headerScan_of_typ st l _ h2 (by decide)] at hr
    exact semi_thenEnd n ih st st e he rfl (ih.pIf st _ _ _ hr)
  rw [if_neg h2, if_neg h2]
  by_cases h3 : l.typ = lexFor
  · rw [if_pos h3, if_pos h3]
    have e2 : headerScan st l = (2, st.2) := by simp [headerScan, h3]
    rw [e2] at hr
    exact semi_thenEnd n ih st (0, st.2) e he rfl (ih.pFor (2, st.2) _ _ _ hr rfl)
  rw [if_neg h3, if_neg h3]
  by_cases h4 : l.typ = lexWhile
  · rw [if_pos h4, if_pos h4]
    rw [headerScan_of_typ st l _ h4 (by decide)] at hr
    exact semi_thenEnd n ih st st e he rfl (ih.pWhile st _ _ _ hr)
  rw [if_neg h4, if_neg h4]
  by_cases h5 : l.typ = lexPrint
  · rw [if_pos h5, if_pos h5]
    rw [headerScan_of_typ st l _ h5 (by decide)] at hr
    exact SimR.bindCS (ih.callArgs st _ _ _ hr) (fun g k a a1 ha => ih.funEnd st e _ _ _ ha he)
  rw [if_neg h5, if_neg h5]
  by_cases h6 : l.typ = lexPrintLn
  · rw [if_pos h6, if_pos h6]
    rw [headerScan_of_typ st l _ h6 (by decide)] at hr
    exact SimR.bindCS (ih.callArgs st _ _ _ hr) (fun g k a a1 ha => ih.funEnd st e _ _ _ ha he)
  rw [if_neg h6, if_neg h6]
  by_cases h7 : l.typ = lexReturn
  · rw [if_pos h7, if_pos h7]
    rw [headerScan_of_typ st l _ h7 (by decide)] at hr
    refine SimR.peek hr ?_
    rintro nt nt1 s s1 rfl rfl ⟨hn, _, _, _⟩
    dsimp only at hn
    rw [hn.typ_eq]
    by_cases c : nt.typ ≠ lexEos ∧ nt.typ ≠ e
    · rw [if_pos c, if_pos c]
      exact SimR.bindS (ih.expr0 st _ _ _ _ hr) (fun g a a1 ha => ih.funEnd st e _ _ _ ha he)
    · rw [if_neg c, if_neg c]
      exact ih.funEnd st e _ _ _ hr he
  rw [if_neg h7, if_neg h7]
  by_cases h8 : l.typ = lexDot ∨ l.typ = lexName
  · rw [if_pos h8, if_pos h8]
    refine SimR.bindS (ih.name st _ _ _ _ _ hr hl) ?_
    intro g a a1 ha
    refine SimR.bind ha.take ?_
    rintro ⟨nx, b⟩ ⟨nx1, b1⟩ ⟨hx, _, _, hb⟩
    dsimp only at hx hb ⊢
    rw [hx.typ_eq]
    by_cases k1 : nx.typ = lexEq
    · rw [if_pos k1, if_pos k1]
      rw [headerScan_of_typ st nx _ k1 (by decide)] at hb
      exact SimR.bindS (ih.assign st _ _ _ hb) (fun g a a1 ha => ih.funEnd st e _ _ _ ha he)
    rw [if_neg k1, if_neg k1]
    by_cases k2 : nx.typ = lexLeftPar
    · rw [if_pos k2, if_pos k2]
      rw [headerScan_of_typ st nx _ k2 (by decide)] at hb
      exact SimR.bindS (ih.call st _ _ _ hb) (fun g a a1 ha => ih.funEnd st e _ _ _ ha he)
    rw [if_neg k2, if_neg k2]
    exact SimR.error _ _
  rw [if_neg h8, if_neg h8]
  by_cases h9 : l.typ = e
  · rw [if_pos h9, if_pos h9]
    exact SimR.ok (semi_closing st e he l r r1 f h9 hf hr)
  rw [if_neg h9, if_neg h9]
  exact SimR.error _ _

theorem semi_callArgs (n : Nat) (ih : AllSemi n) (st : Nat × List Nat) (ts ts1 : List lex)
    (f : function) (h : SemiRel st ts ts1) :
    SimR (QCS st) (parser.callArgs (n + 1) ts f) (parser.callArgs (n + 1) ts1 f) := by
  simp only [parser.callArgs]
  refine SimR.bind h.take ?_
  rintro ⟨l, r⟩ ⟨l1, r1⟩ ⟨hl, _, _, hr⟩
  dsimp only at hl hr ⊢
  rw [hl.typ_eq]
  by_cases h1 : l.typ ≠ lexLeftPar
  · rw [if_pos h1, if_pos h1]
    exact SimR.error _ _
  · rw [if_neg h1, if_neg h1]
    have h2 : l.typ = lexLeftPar := by simpa using h1
    rw [headerScan_of_typ st l _ h2 (by decide)] at hr
    exact ih.callArgsLoop st _ _ _ _ hr

theorem semi_callArgsLoop (n : Nat) (ih : AllSemi n) (st : Nat × List Nat) (a : Int)
    (ts ts1 : List lex) (f : function) (h : SemiRel st ts ts1) :
    SimR (QCS st) (parser.callArgsLoop (n + 1) a ts f)
      (parser.callArgsLoop (n + 1) a ts1 f) := by
  simp only [parser.callArgsLoop]
  refine SimR.peek h ?_
  rintro l l1 r r1 rfl rfl ⟨hl, _, _, hr⟩
  dsimp only at hl hr
  rw [hl.typ_eq]
  by_cases h1 : l.typ ≠ lexRightPar
  · rw [if_pos h1, if_pos h1]
    refine SimR.bindS (ih.expr0 st _ _ _ _ h) ?_
    intro g s s1 hs
    refine SimR.peek hs ?_
    rintro nx nx1 u u1 rfl rfl ⟨hx, _, _, hu⟩
    dsimp only at hx hu
    rw [hx.typ_eq]
    by_cases k1 : nx.typ = lexComma
    · rw [if_pos k1, if_pos k1]
      rw [headerScan_of_typ st nx _ k1 (by decide)] at hu
      exact ih.callArgsLoop st _ _ _ _ hu
    rw [if_neg k1, if_neg k1]
    by_cases k2 : nx.typ ≠ lexRightPar
    · rw [if_pos k2, if_pos k2]
      exact SimR.error _ _
    rw [if_neg k2, if_neg k2]
    exact ih.callArgsLoop st _ _ _ _ hs
  · rw [if_neg h1, if_neg h1]
    have h2 : l.typ = lexRightPar := by simpa using h1
    rw [headerScan_of_typ st l _ h2 (by decide)] at hr
    exact SimR.ok ⟨rfl, rfl, hr⟩

theorem semi_exprLoop (n : Nat) (ih : AllSemi n) (st : Nat × List Nat) (level : Nat)
    (ts ts1 : List lex) (f : function) (h : SemiRel st ts ts1) :
    SimR (QS st) (parser.exprLoop (n + 1) level ts f)
      (parser.exprLoop (n + 1) level ts1 f) := by
  simp only [parser.exprLoop]
  refine SimR.peek h ?_
  rintro l l1 r r1 rfl rfl ⟨hl, _, _, hr⟩
  dsimp only at hl hr
  rw [hl.typ_eq]
  cases ho : levelFind level l.typ with
  | none => exact SimR.ok ⟨rfl, h⟩
  | some o =>
    rw [levelFind_scan st level l o ho] at hr
    exact SimR.bindS (ih.expr0 st _ _ _ _ hr) (fun g s s1 hs => ih.exprLoop st _ _ _ _ hs)

theorem semi_name (n : Nat) (ih : AllSemi n) (st : Nat × List Nat) (ts ts1 : List lex)
    (f : function) (l l1 : lex) (h : SemiRel (headerScan st l) ts ts1)
    (hl : HeadRel st l l1) :
    SimR (QS st) (parser.name (n + 1) ts f l) (parser.name (n + 1) ts1 f l1) := by
  simp only [parser.name]
  have hv : l.typ ≠ lexEos → l.val = l1.val := by
    intro ht
    rw [hl.same_of_typ ht]
  refine SimR.bind (semi_nameDots st ts ts1 l l1 _ _ h hl hv) ?_
  rintro ⟨nm, m, r⟩ ⟨nm1, m1, r1⟩ ⟨hm, hnm, hr⟩
  dsimp only at hm hnm hr ⊢
  rw [hm.typ_eq]
  by_cases h1 : m.typ ≠ lexName
  · rw [if_pos h1, if_pos h1]
    exact SimR.error _ _
  · rw [if_neg h1, if_neg h1]
    have h2 : m.typ = lexName := by simpa using h1
    rw [← hnm (by rw [h2]; decide)]
    rw [headerScan_of_typ st m _ h2 (by decide)] at hr
    exact ih.nameIndex st _ _ _ hr

theorem semi_nameIndex (n : Nat) (ih : AllSemi n) (st : Nat × List Nat) (ts ts1 : List lex)
    (f : function) (h : SemiRel st ts ts1) :
    SimR (QS st) (parser.nameIndex (n + 1) ts f) (parser.nameIndex (n + 1) ts1 f) := by
  simp only [parser.nameIndex]
  refine SimR.peek h ?_
  rintro l l1 r r1 rfl rfl ⟨hl, _, _, hr⟩
  dsimp only at hl hr
  rw [hl.typ_eq]
  by_cases h1 : l.typ = lexLeftBracket
  · rw [if_pos h1, if_pos h1]
    rw [headerScan_of_typ st l _ h1 (by decide)] at hr
    refine SimR.bindS (ih.expr0 st _ _ _ _ hr) ?_
    intro g s s1 hs
    refine SimR.bind hs.take ?_
    rintro ⟨x, b⟩ ⟨x1, b1⟩ ⟨hx, _, _, hb⟩
    dsimp only at hx hb ⊢
    rw [hx.typ_eq]
    by_cases k1 : x.typ ≠ lexRightBracket
    · rw [if_pos k1, if_pos k1]
      exact SimR.error _ _
    · rw [if_neg k1, if_neg k1]
      have k2 : x.typ = lexRightBracket := by simpa using k1
      rw [headerScan_of_typ st x _ k2 (by decide)] at hb
      exact ih.nameIndex st _ _ _ hb
  · rw [if_neg h1, if_neg h1]
    exact SimR.ok ⟨rfl, h⟩

theorem semi_call (n : Nat) (ih : AllSemi n) (st : Nat × List Nat) (ts ts1 : List lex)
    (f : function) (h : SemiRel st ts ts1) :
    SimR (QS st) (parser.call (n + 1) ts f) (parser.call (n + 1) ts1 f) := by
  simp only [parser.call]
  exact ih.callLoop st _ _ _ _ h

theorem semi_callLoop (n : Nat) (ih : AllSemi n) (st : Nat × List Nat) (a : Int)
    (ts ts1 : List lex) (f : function) (h : SemiRel st ts ts1) :
    SimR (QS st) (parser.callLoop (n + 1) a ts f) (parser.callLoop (n + 1) a ts1 f) := by
  simp only [parser.callLoop]
  refine SimR.peek h ?_
  rintro l l1 r r1 rfl rfl ⟨hl, _, _, hr⟩
  dsimp only at hl hr
  rw [hl.typ_eq]
  by_cases h1 : l.typ ≠ lexRightPar
  · rw [if_pos h1, if_pos h1]
    refine SimR.bindS (ih.expr0 st _ _ _ _ h) ?_
    intro g s s1 hs
    refine SimR.peek hs ?_
    rintro nx nx1 u u1 rfl rfl ⟨hx, _, _, hu⟩
    dsimp only at hx hu
    rw [hx.typ_eq]
    by_cases k1 : nx.typ = lexComma
    · rw [if_pos k1, if_pos k1]
      rw [headerScan_of_typ st nx _ k1 (by decide)] at hu
      exact ih.callLoop st _ _ _ _ hu
    · rw [if_neg k1, if_neg k1]
      exact ih.callLoop st _ _ _ _ hs
  · rw [if_neg h1, if_neg h1]
    have h2 : l.typ = lexRightPar := by simpa using h1
    rw [headerScan_of_typ st l _ h2 (by decide)] at hr
    exact SimR.ok ⟨rfl, hr⟩

/-- Continuation lemma: a look at the next lexeme, which has to be an opening brace, and the
block that starts there. -/
theorem semi_block (n : Nat) (ih : AllSemi n) (st : Nat × List Nat) {ts ts1 : List lex}
    (h : SemiRel st ts ts1) {β : Type} {Q : β → β → Prop}
    {k k1 : function × List lex → Except Err β}
    (hk : ∀ g r r1, SemiRel st r r1 → SimR Q (k (g, r)) (k1 (g, r1))) :
    SimR Q
      (parser.next ts 0 >>= fun l =>
        if l.typ ≠ lexLeftBrace then .error (.parseErr "\x7b" l) else parser.fun n ts [] >>= k)
      (parser.next ts1 0 >>= fun l =>
        if l.typ ≠ lexLeftBrace then .error (.parseErr "\x7b" l)
        else parser.fun n ts1 [] >>= k1) := by
  refine SimR.peek h ?_
  rintro l l1 r r1 rfl rfl ⟨hl, _, _, _⟩
  dsimp only at hl
  rw [hl.typ_eq]
  by_cases h1 : l.typ ≠ lexLeftBrace
  · rw [if_pos h1, if_pos h1]
    exact SimR.error _ _
  · rw [if_neg h1, if_neg h1]
    exact SimR.bindS (ih.pfun st _ _ _ h) hk

theorem semi_pWhile (n : Nat) (ih : AllSemi n) (st : Nat × List Nat) (ts ts1 : List lex)
    (f : function) (h : SemiRel st ts ts1) :
    SimR (QS st) (parser.pWhile (n + 1) ts f) (parser.pWhile (n + 1) ts1 f) := by
  simp only [parser.pWhile]
  refine SimR.bindS (ih.expr0 st _ _ _ _ h) ?_
  intro g r r1 hr
  exact semi_block n ih st hr (fun b s s1 hs => SimR.ok ⟨rfl, hs⟩)

theorem semi_pIf (n : Nat) (ih : AllSemi n) (st : Nat × List Nat) (ts ts1 : List lex)
    (f : function) (h : SemiRel st ts ts1) :
    SimR (QS st) (parser.pIf (n + 1) ts f) (parser.pIf (n + 1) ts1 f) := by
  simp only [parser.pIf]
  refine SimR.bindS (ih.expr0 st _ _ _ _ h) ?_
  intro g r r1 hr
  refine semi_block n ih st hr ?_
  intro b s s1 hs
  refine SimR.peek hs ?_
  rintro e e1 u u1 rfl rfl ⟨he, _, _, hu⟩
  dsimp only at he hu
  rw [he.typ_eq]
  by_cases h2 : e.typ = lexElse
  · rw [if_pos h2, if_pos h2]
    rw [headerScan_of_typ st e _ h2 (by decide)] at hu
    simp only [parser.skip, List.drop]
    exact semi_block n ih st hu (fun eb v v1 hv => SimR.ok ⟨rfl, hv⟩)
  · rw [if_neg h2, if_neg h2]
    exact SimR.ok ⟨rfl, hs⟩

theorem semi_expr0 (n : Nat) (ih : AllSemi n) (st : Nat × List Nat) (level : Nat)
    (ts ts1 : List lex) (f : function) (h : SemiRel st ts ts1) :
    SimR (QS st) (parser.expr0 (n + 1) level ts f) (parser.expr0 (n + 1) level ts1 f) := by
  by_cases hl : level < 6
  · have h6 : level < levelLex.length := by simpa [levelLex] using hl
    simp only [parser.expr0, h6, if_true]
    exact SimR.bindS (ih.expr0 st _ _ _ _ h) (fun g r r1 hr => ih.exprLoop st _ _ _ _ hr)
  · rw [expr0_primary_unfold n level hl, expr0_primary_unfold n level hl]
    refine SimR.bind h.take ?_
    rintro ⟨l, r⟩ ⟨l1, r1⟩ ⟨hl1, _, _, hr⟩
    dsimp only at hl1 hr ⊢
    rw [hl1.typ_eq]
    by_cases h1 : l.typ = lexMinus
    · rw [if_pos h1, if_pos h1]
      rw [headerScan_of_typ st l _ h1 (by decide)] at hr
      exact SimR.bindS (ih.expr0 st _ _ _ _ hr) (fun g a a1 ha => SimR.ok ⟨rfl, ha⟩)
    rw [if_neg h1, if_neg h1]
    by_cases h2 : l.typ = lexNot
    · rw [if_pos h2, if_pos h2]
      rw [headerScan_of_typ st l _ h2 (by decide)] at hr
      exact SimR.bindS (ih.expr0 st _ _ _ _ hr) (fun g a a1 ha => SimR.ok ⟨rfl, ha⟩)
    rw [if_neg h2, if_neg h2]
    by_cases h3 : l.typ = lexLeftPar
    · rw [if_pos h3, if_pos h3]
      rw [headerScan_of_typ st l _ h3 (by decide)] at hr
      refine SimR.bindS (ih.expr0 st _ _ _ _ hr) ?_
      intro g a a1 ha
      refine SimR.bind ha.take ?_
      rintro ⟨x, b⟩ ⟨x1, b1⟩ ⟨hx, _, _, hb⟩
      dsimp only at hx hb ⊢
      rw [hx.typ_eq]
      by_cases k1 : x.typ ≠ lexRightPar
      · rw [if_pos k1, if_pos k1]
        exact SimR.error _ _
      · rw [if_neg k1, if_neg k1]
        have k2 : x.typ = lexRightPar := by simpa using k1
        rw [headerScan_of_typ st x _ k2 (by decide)] at hb
        exact SimR.ok ⟨rfl, hb⟩
    rw [if_neg h3, if_neg h3]
    by_cases h4 : l.typ = lexDot ∨ l.typ = lexName
    · rw [if_pos h4, if_pos h4]
      refine SimR.bindS (ih.name st _ _ _ _ _ hr hl1) ?_
      intro g a a1 ha
      refine SimR.peek ha ?_
      rintro nx nx1 u u1 rfl rfl ⟨hx, _, _, _⟩
      dsimp only at hx
      rw [hx.typ_eq]
      by_cases k1 : nx.typ = lexLeftPar
      · rw [if_pos k1, if_pos k1]
        exact SimR.bindCS (ih.callArgs st _ _ _ ha) (fun g k b b1 hb => SimR.ok ⟨rfl, hb⟩)
      · rw [if_neg k1, if_neg k1]
        exact SimR.ok ⟨rfl, ha⟩
    rw [if_neg h4, if_neg h4]
    by_cases h5 : l.typ = lexEos
    · rw [if_pos h5, if_pos h5]
      exact SimR.error _ _
    rw [if_neg h5, if_neg h5]
    rw [hl1.same_of_typ h5]
    cases hx : parser.expr0 (n + 1) level [l] f with
    | error e => exact SimR.error _ _
    | ok p =>
      rw [expr0_single_scan st _ _ l f p hx] at hr
      exact SimR.ok ⟨rfl, hr⟩

theorem semi_assign (n : Nat) (ih : AllSemi n) (st : Nat × List Nat) (ts ts1 : List lex)
    (f : function) (h : SemiRel st ts ts1) :
    SimR (QS st) (parser.assign (n + 1) ts f) (parser.assign (n + 1) ts1 f) := by
  simp only [parser.assign, pure_bind, if_true, Bool.false_eq_true, if_false,
    decide_eq_true_eq]
  have hexpr : ∀ us us1, SemiRel st us us1 → SimR (QS st)
      (do let y ← parser.expr0 n 0 us f; pure (y.1 ++ [op.mk opStoreStr .nil], y.2))
      (do let y ← parser.expr0 n 0 us1 f; pure (y.1 ++ [op.mk opStoreStr .nil], y.2)) :=
    fun us us1 hu => SimR.bindS (ih.expr0 st _ _ _ _ hu) (fun g r r1 hr => SimR.ok ⟨rfl, hr⟩)
  have hlit : ∀ (a a1 : lex) (us us1 : List lex), SemiRel st us us1 → SimR (QS st)
      (do
        let d ← parser.funArgs n (a :: us)
        let b ← parser.fun n d.2 d.1
        pure (f ++ [op.mk opFunction (.function b.1)] ++ [op.mk opStoreStr .nil], b.2))
      (do
        let d ← parser.funArgs n (a1 :: us1)
        let b ← parser.fun n d.2 d.1
        pure (f ++ [op.mk opFunction (.function b.1)] ++ [op.mk opStoreStr .nil], b.2)) :=
    fun a a1 us us1 hu => SimR.bindS (semi_funArgsLoop n hu [])
      (fun args r r1 hr => SimR.bindS (ih.pfun st _ _ _ hr) (fun g s s1 hs => SimR.ok ⟨rfl, hs⟩))
  refine SimR.peek h ?_
  rintro l0 m0 r r1 rfl rfl ⟨h0, _, _, hr⟩
  dsimp only at h0 hr
  rw [h0.typ_eq]
  by_cases c0 : l0.typ = lexLeftPar
  · rw [if_pos c0, if_pos c0]
    rw [headerScan_of_typ st l0 _ c0 (by decide)] at hr
    repeat rw [next_succ]
    refine SimR.peek hr ?_
    rintro l1 m1 s s1 rfl rfl ⟨h1, _, _, hs⟩
    dsimp only at h1 hs
    rw [h1.typ_eq]
    by_cases c1 : l1.typ = lexRightPar
    · rw [if_pos c1, if_pos c1]
      rw [headerScan_of_typ st l1 _ c1 (by decide)] at hs
      simp only [parser.skip, List.drop]
      refine SimR.peek hs ?_
      rintro l m u u1 rfl rfl ⟨hl, _, _, _⟩
      dsimp only at hl
      rw [hl.typ_eq]
      by_cases c2 : l.typ ≠ lexLeftBrace
      · rw [if_pos c2, if_pos c2]
        exact SimR.error _ _
      · rw [if_neg c2, if_neg c2]
        exact SimR.bindS (ih.pfun st _ _ _ hs) (fun g r r1 hr => SimR.ok ⟨rfl, hr⟩)
    rw [if_neg c1, if_neg c1]
    by_cases c3 : l1.typ = lexName
    · rw [if_pos c3, if_pos c3]
      rw [headerScan_of_typ st l1 _ c3 (by decide)] at hs
      repeat rw [next_succ]
      refine SimR.peek hs ?_
      rintro l2 m2 u u1 rfl rfl ⟨h2, _, _, hu⟩
      dsimp only at h2 hu
      rw [h2.typ_eq]
      by_cases c4 : l2.typ = lexComma
      · rw [if_pos c4, if_pos c4]
        exact hlit _ _ _ _ hr
      rw [if_neg c4, if_neg c4]
      by_cases c5 : l2.typ = lexRightPar
      · rw [if_pos c5, if_pos c5]
        rw [headerScan_of_typ st l2 _ c5 (by decide)] at hu
        repeat rw [next_succ]
        refine SimR.peek hu ?_
        rintro l3 m3 v v1 rfl rfl ⟨h3, _, _, _⟩
        dsimp only at h3
        rw [h3.typ_eq]
        by_cases c6 : l3.typ = lexLeftBrace
        · rw [if_pos c6, if_pos c6]
          exact hlit _ _ _ _ hr
        · rw [if_neg c6, if_neg c6]
          exact hexpr _ _ h
      · rw [if_neg c5, if_neg c5]
        exact hexpr _ _ h
    · rw [if_neg c3, if_neg c3]
      exact hexpr _ _ h
  · rw [if_neg c0, if_neg c0]
    exact hexpr _ _ h

theorem semi_assignOrNone (n : Nat) (ih : AllSemi n) (st : Nat × List Nat)
    (ts ts1 : List lex) (f : function) (h : SemiRel st ts ts1)
    (hp : st.1 ≠ 0 ∨ ∀ l, ts.get? 0 = some l → l.val ≠ ";") :
    SimR (QS st) (parser.assignOrNone (n + 1) ts f) (parser.assignOrNone (n + 1) ts1 f) := by
  simp only [parser.assignOrNone]
  rcases h.inv with ⟨rfl, rfl⟩ | ⟨t, t1, r, r1, rfl, rfl, ht, _, _, hr⟩
  · exact SimR.error _ _
  · dsimp only at ht hr
    have e : t1 = t := by
      rcases hp with hp | hp
      · exact ht.same_of_top hp
      · exact ht.same_of_val (hp t rfl)
    subst e
    simp only [parser.next, List.get?, parser.get, bind, Except.bind]
    by_cases hv : t1.val = ";"
    · simp only [hv, ne_eq, not_true_eq_false, if_false]
      exact SimR.ok ⟨rfl, h⟩
    · have hne : t1.val ≠ ";" := hv
      rw [if_pos hne, if_pos hne]
      refine SimR.bindS (ih.name st r r1 f t1 t1 hr ht) ?_
      intro g a a1 ha
      refine SimR.bind ha.take ?_
      rintro ⟨x, b⟩ ⟨x1, b1⟩ ⟨hx, _, _, hb⟩
      dsimp only at hx hb ⊢
      rw [hx.typ_eq]
      by_cases k1 : x.typ ≠ lexEq
      · rw [if_pos k1, if_pos k1]
        exact SimR.error _ _
      · rw [if_neg k1, if_neg k1]
        have k2 : x.typ = lexEq := by simpa using k1
        rw [headerScan_of_typ st x _ k2 (by decide)] at hb
        exact ih.assign st _ _ _ hb

theorem semi_pFor (n : Nat) (ih : AllSemi n) (st : Nat × List Nat) (ts ts1 : List lex)
    (f : function) (h : SemiRel st ts ts1) (h2 : st.1 = 2) :
    SimR (QS (0, st.2)) (parser.pFor (n + 1) ts f) (parser.pFor (n + 1) ts1 f) := by
  have h20 : st.1 ≠ 0 := by rw [h2]; decide
  simp only [parser.pFor]
  refine SimR.bindS (ih.assignOrNone st _ _ _ h (.inl h20)) ?_
  intro g r r1 hr
  refine SimR.bind (semi_semicolon hr h20) ?_
  intro a a1 ha
  rw [h2] at ha
  have ha1 : SemiRel (1, st.2) a a1 := ha
  refine SimR.bindS (ih.expr0 (1, st.2) _ _ _ _ ha1) ?_
  intro g2 b b1 hb
  have h10 : ((1, st.2) : Nat × List Nat).1 ≠ 0 := Nat.one_ne_zero
  refine SimR.bind (semi_semicolon hb h10) ?_
  intro c c1 hc
  have hc0 : SemiRel (0, st.2) c c1 := hc
  by_cases hv : ∀ l, c.get? 0 = some l → l.val ≠ ";"
  · refine SimR.bindS (ih.assignOrNone (0, st.2) _ _ _ hc0 (.inr hv)) ?_
    intro after d d1 hd
    exact semi_block n ih (0, st.2) hd (fun body s s1 hs => SimR.ok ⟨rfl, hs⟩)
  · intro x hx
    exfalso
    simp only [not_forall, not_not] at hv
    obtain ⟨l, hl, hlv⟩ := hv
    rcases hc0.inv with ⟨rfl, _⟩ | ⟨t, t1, u, u1, rfl, rfl, _, hw, _, _⟩
    · cases hl
    · simp only [List.get?, Option.some.injEq] at hl
      subst hl
      dsimp only at hw
      have ht := hw hlv
      cases n with
      | zero => simp [parser.assignOrNone, bind, Except.bind] at hx
      | succ m =>
        simp [parser.assignOrNone, parser.next, hlv, ht, bind, Except.bind, pure,
          Except.pure] at hx

theorem inForHeader_of_no_for (pre : List lex) (h : ∀ t ∈ pre, t.typ ≠ lexFor) :
    inForHeader pre = false := by
  have key : ∀ (ts : List lex) (st : Nat × List Nat), (∀ t ∈ ts, t.typ ≠ lexFor) →
      st.1 = 0 → (∀ x ∈ st.2, x = 0) →
      (ts.foldl headerScan st).1 = 0 := by
    intro ts
    induction ts with
    | nil => intro st _ h1 _; exact h1
    | cons t r ih =>
      intro st ht h1 h2
      rw [List.foldl_cons]
      have hf : t.typ ≠ lexFor := ht t (List.mem_cons_self _ _)
      have hr : ∀ u ∈ r, u.typ ≠ lexFor := fun u hu => ht u (List.mem_cons_of_mem _ hu)
      apply ih _ hr
      · simp only [headerScan, hf, if_false]
        split_ifs
        · rfl
        · cases h3 : st.2 with
          | nil => rfl
          | cons x xs => exact h2 x (by rw [h3]; exact List.mem_cons_self _ _)
        · simp [h1]
        · exact h1
      · simp only [headerScan, hf, if_false]
        split_ifs
        · intro x hx
          rcases List.mem_cons.mp hx with rfl | hx
          · exact h1
          · exact h2 x hx
        · intro x hx
          exact h2 x (List.mem_of_mem_tail hx)
        · exact h2
        · exact h2
  have := key pre (0, []) h rfl (by simp)
  simp [inForHeader, this]

theorem Track.weak {b : Bool} {st : Nat × List Nat} {ts : List lex} (h : Track b st ts) :
    Track false st ts := by
  induction h with
  | nil st => exact Track.nil st
  | cons b st t r hv he _ ih => exact Track.cons false st t r hv he ih
  | here st t r ht _ hv hr _ =>
    refine Track.cons false st t r (fun h => absurd h hv) (fun h => ?_) hr
    rw [ht] at h
    cases h

theorem Track.split {b : Bool} {st : Nat × List Nat} {l : lex} {r : List lex}
    (h : Track b st (l :: r)) :
    (l.val = ";" → l.typ = lexEos) ∧ (l.typ = lexEof → r = []) ∧
      (Track b (headerScan st l) r ∨
        (b = true ∧ l.typ = lexEos ∧ st.1 ≠ 0 ∧ l.val ≠ ";")) := by
  cases h with
  | cons _ _ _ _ hv he hr => exact ⟨hv, he, .inl hr⟩
  | here _ _ _ ht h0 hv hr =>
    refine ⟨fun h => absurd h hv, fun h => ?_, .inr ⟨rfl, ht, h0, hv⟩⟩
    rw [ht] at h
    cases h

theorem Track.proper {b : Bool} {st : Nat × List Nat} {l : lex} {r : List lex}
    (h : Track b st (l :: r)) (hb : st.1 = 0 ∨ b = false) : Track b (headerScan st l) r := by
  rcases h.split.2.2 with h1 | ⟨h1, _, h2, _⟩
  · exact h1
  · rcases hb with hb | hb
    · exact absurd hb h2
    · rw [hb] at h1
      cases h1

theorem Track.rest {b : Bool} {st : Nat × List Nat} {l : lex} {r : List lex}
    (h : Track b st (l :: r)) (ht : l.typ ≠ lexEos) : Track b (headerScan st l) r := by
  rcases h.split.2.2 with h1 | ⟨_, h1, _⟩
  · exact h1
  · exact absurd h1 ht

theorem Track.rest_of {b : Bool} {st : Nat × List Nat} {l : lex} {r : List lex} (k : lexType)
    (h : Track b st (l :: r)) (hk : l.typ = k)
    (hp : k ≠ lexFor ∧ k ≠ lexLeftBrace ∧ k ≠ lexRightBrace ∧ k ≠ lexEos) : Track b st r := by
  have := h.rest (by rw [hk]; exact hp.2.2.2)
  rwa [headerScan_of_typ st l k hk hp] at this

theorem Track.between {b : Bool} {st : Nat × List Nat} {l : lex} {r : List lex}
    (h : Track b st (l :: r)) (h0 : st.1 = 0) : Track b (headerScan st l) r := by
  rcases h.split.2.2 with h1 | ⟨_, _, h1, _⟩
  · exact h1
  · exact absurd h0 h1

theorem Track.not_nil {st : Nat × List Nat} {b : Bool} (h : Track b st []) : b = false := by
  cases h
  rfl

theorem Track.state {b : Bool} {st st2 : Nat × List Nat} {ts : List lex} (h : Track b st ts)
    (e1 : st2.1 = st.1) (e2 : st2.2 = st.2) : Track b st2 ts := by
  obtain ⟨a, c⟩ := st
  obtain ⟨a2, c2⟩ := st2
  cases e1
  cases e2
  exact h

/-- Continuation lemma for a look at the next lexeme. -/
theorem Post.look {β : Type} {P : β → Prop} (ts : List lex) {k : lex → Except Err β}
    (hk : ∀ l r, ts = l :: r → Post P (k l)) : Post P (parser.next ts 0 >>= k) := by
  cases ts with
  | nil => exact Post.ofError _
  | cons l r => exact hk l r rfl

/-- Continuation lemma for the reading of the next lexeme. -/
theorem Post.read {β : Type} {P : β → Prop} (ts : List lex)
    {k : lex × List lex → Except Err β}
    (hk : ∀ l r, ts = l :: r → Post P (k (l, r))) : Post P (parser.get ts >>= k) := by
  cases ts with
  | nil => exact Post.ofError _
  | cons l r => exact hk l r rfl

theorem funEnd_nil (n : Nat) (e : lexType) (f : function) :
    ∃ err, parser.funEnd n e [] f = .error err := by
  cases n with
  | zero => exact ⟨_, rfl⟩
  | succ n => exact ⟨_, rfl⟩

theorem track_semicolon {b : Bool} {st : Nat × List Nat} {ts : List lex} (h : Track b st ts) :
    Post (Track b (st.1 - 1, st.2)) (parser.semicolon ts) := by
  unfold parser.semicolon
  cases ts with
  | nil => exact Post.ofError _
  | cons l r =>
    simp only [parser.get]
    by_cases c : l.val = ";"
    · simp only [c, ne_eq, not_true_eq_false, if_false]
      obtain ⟨hv, _, hh⟩ := h.split
      rcases hh with hh | ⟨_, _, _, hh⟩
      · have e2 : headerScan st l = (st.1 - 1, st.2) := by simp [headerScan, hv c]
        rw [e2] at hh
        exact Post.ofOk hh
      · exact absurd c hh
    · simp only [ne_eq, c, not_false_eq_true, if_true]
      exact Post.ofError _

theorem track_funArgsLoop (n : Nat) {b : Bool} {st : Nat × List Nat} {ts : List lex}
    (h : Track b st ts) (ret : function) :
    Post (fun a => Track b st a.2) (parser.funArgsLoop n ts ret) := by
  induction n generalizing ts ret with
  | zero => exact Post.ofError _
  | succ n ih =>
    simp only [parser.funArgsLoop]
    refine Post.read ts ?_
    rintro arg r rfl
    dsimp only
    by_cases h1 : arg.typ = lexRightPar
    · simp only [h1, if_true]
      exact Post.pure (h.rest_of _ h1 (by decide))
    · simp only [h1, if_false]
      by_cases h2 : arg.typ = lexName
      · have hr := h.rest_of _ h2 (by decide)
        simp only [h2, ne_eq, not_true_eq_false, if_false]
        refine Post.look r ?_
        rintro nx s rfl
        by_cases h3 : nx.typ = lexComma
        · rw [if_pos h3]
          exact ih (hr.rest_of _ h3 (by decide)) _
        · rw [if_neg h3]
          exact ih hr _
      · simp only [ne_eq, h2, not_false_eq_true, if_true]
        exact Post.ofError _

theorem track_nameDots (b : Bool) (st : Nat × List Nat) (ts : List lex) :
    ∀ (l : lex) (nm : String), (l.typ ≠ lexEos → Track b (headerScan st l) ts) →
      Post (fun a => a.2.1.typ ≠ lexEos → Track b (headerScan st a.2.1) a.2.2)
        (parser.nameDots l nm ts) := by
  induction ts with
  | nil =>
    intro l nm h
    simp only [parser.nameDots]
    split_ifs
    · exact Post.ofError _
    · exact Post.ofOk h
  | cons t r ih =>
    intro l nm h
    simp only [parser.nameDots]
    split_ifs with hd
    · apply ih
      intro ht
      have h1 := h (by rw [hd]; decide)
      rw [headerScan_of_typ st l _ hd (by decide)] at h1
      exact h1.rest ht
    · exact Post.ofOk h

theorem allTrack_zero : AllTrack 0 := by
  constructor <;> intros <;> exact Post.ofError _

theorem track_pfun (n : Nat) (ih : AllTrack n) (b : Bool) (st : Nat × List Nat)
    (ts : List lex) (f : function) (h : Track b st ts) :
    Post (fun a => ((st.1 = 0 ∨ ∃ l r, ts = l :: r ∧ l.typ = lexLeftBrace) → Track b st a.2) ∧
      (Track b st a.2 ∨ a.2 = [])) (parser.fun (n + 1) ts f) := by
  simp only [parser.fun]
  refine Post.look ts ?_
  rintro l r rfl
  by_cases h1 : l.typ = lexLeftBrace
  · rw [if_pos h1]
    simp only [parser.skip, List.drop]
    have hr := h.rest (by rw [h1]; decide)
    have e : headerScan st l = (0, st.1 :: st.2) := by simp [headerScan, h1]
    rw [e] at hr
    refine (ih.funLoop b _ lexRightBrace r f hr (.inl rfl)).weaken ?_
    intro a ha
    have := ha.2 rfl rfl
    exact ⟨fun _ => this, .inl this⟩
  · rw [if_neg h1]
    refine (ih.funLoop b st lexEof _ f h (.inr rfl)).weaken ?_
    intro a ha
    obtain ⟨e1, e2⟩ := ha.1 rfl
    refine ⟨?_, .inr e1⟩
    rintro (h0 | ⟨l2, r2, e3, h2⟩)
    · rw [e1, e2 h0]
      exact Track.nil st
    · cases e3
      exact absurd h2 h1

theorem track_closing (b : Bool) (st : Nat × List Nat) (e : lexType)
    (he : e = lexRightBrace ∨ e = lexEof) (l : lex) (r : List lex) (f : function)
    (h : Track b st (l :: r)) (c : l.typ = e) : TrackLoop b st e (f, r) := by
  have hne : l.typ ≠ lexEos := by
    rcases he with rfl | rfl <;> rw [c] <;> decide
  have hr := h.rest hne
  constructor
  · intro e1
    have e2 : r = [] := h.split.2.1 (c.trans e1)
    refine ⟨e2, fun _ => ?_⟩
    rw [e2] at hr
    exact hr.not_nil
  · intro e1 _
    have : headerScan st l = (st.2.headD 0, st.2.tail) := by simp [headerScan, c, e1]
    rw [this] at hr
    exact hr

theorem TrackLoop.at_depth {b : Bool} {st st2 : Nat × List Nat} {e : lexType}
    {a : function × List lex} (h : TrackLoop b st2 e a) (e2 : st2.2 = st.2)
    (e1 : st.1 = 0 → st2.1 = 0) : TrackLoop b st e a := by
  obtain ⟨x, y⟩ := st
  obtain ⟨x2, y2⟩ := st2
  cases e2
  exact ⟨fun he => ⟨(h.1 he).1, fun h0 => (h.1 he).2 (e1 h0)⟩, fun he h0 => h.2 he (e1 h0)⟩

theorem TrackLoop.of_improper {b : Bool} {st : Nat × List Nat} {e : lexType}
    {a : function × List lex} (h0 : st.1 ≠ 0) (h : TrackLoop false st e a) :
    TrackLoop b st e a :=
  ⟨fun he => ⟨(h.1 he).1, fun c => absurd c h0⟩, fun _ c => absurd c h0⟩

theorem track_funEnd_proper (n : Nat) (ih : AllTrack n) (b : Bool) (st : Nat × List Nat)
    (e : lexType) (ts : List lex) (f : function) (h : Track b st ts)
    (he : e = lexRightBrace ∨ e = lexEof) (hb : st.1 = 0 ∨ b = false) :
    Post (TrackLoop b st e) (parser.funEnd (n + 1) e ts f) := by
  simp only [parser.funEnd]
  refine Post.read ts ?_
  rintro l r rfl
  dsimp only
  by_cases c1 : l.typ ≠ lexEos ∧ l.typ ≠ e
  · rw [if_pos c1]
    exact Post.ofError _
  rw [if_neg c1]
  by_cases c2 : l.typ = e
  · rw [if_pos c2]
    exact Post.pure (track_closing b st e he l r f h c2)
  · rw [if_neg c2]
    have c3 : l.typ = lexEos := by
      by_contra c
      exact c1 ⟨c, c2⟩
    have e2 : headerScan st l = (st.1 - 1, st.2) := by simp [headerScan, c3]
    have hr := h.proper hb
    rw [e2] at hr
    exact (ih.funLoop b _ e r f hr he).weaken
      (fun a ha => ha.at_depth rfl (fun h0 => by simp [h0]))

theorem track_funEnd (n : Nat) (ih : AllTrack n) (b : Bool) (st : Nat × List Nat)
    (e : lexType) (ts : List lex) (f : function) (h : Track b st ts)
    (he : e = lexRightBrace ∨ e = lexEof) :
    Post (TrackLoop b st e) (parser.funEnd (n + 1) e ts f) := by
  by_cases h0 : st.1 = 0
  · exact track_funEnd_proper n ih b st e ts f h he (.inl h0)
  · exact (track_funEnd_proper n ih false st e ts f h.weak he (.inr rfl)).weaken
      (fun a ha => ha.of_improper h0)

/-- Continuation lemma: a statement after which the lexemes left are tracked at a state with
the depths `st.2`, followed by the check of the separator after it. -/
theorem track_thenEnd (n : Nat) (ih : AllTrack n) (b : Bool) (st st2 : Nat × List Nat)
    (e : lexType) (he : e = lexRightBrace ∨ e = lexEof) (h2 : st2.2 = st.2)
    (h1 : st.1 = 0 → st2.1 = 0) {x : Except Err (function × List lex)}
    (hx : Post (fun a => Track b st2 a.2) x) :
    Post (TrackLoop b st e) (x >>= fun a => parser.funEnd n e a.2 a.1) :=
  Post.andThen hx (fun a ha =>
    (ih.funEnd b st2 e a.2 a.1 ha he).weaken (fun _ hc => hc.at_depth h2 h1))

theorem track_assignEnd (n : Nat) (ih : AllTrack n) (b : Bool) (st : Nat × List Nat)
    (e : lexType) (he : e = lexRightBrace ∨ e = lexEof)
    {x : Except Err (function × List lex)} (hx : Post (TrackAssign b st) x) :
    Post (TrackLoop b st e) (x >>= fun a => parser.funEnd n e a.2 a.1) := by
  refine Post.andThen hx ?_
  rintro ⟨g, r⟩ ha
  rcases ha.2 with hr | e0
  · exact ih.funEnd b st e r g hr he
  · dsimp only at e0 ⊢
    subst e0
    obtain ⟨err, herr⟩ := funEnd_nil n e g
    rw [herr]
    exact Post.ofError _

theorem track_funLoop_proper (n : Nat) (ih : AllTrack n) (b : Bool) (st : Nat × List Nat)
    (e : lexType) (ts : List lex) (f : function) (h : Track b st ts)
    (he : e = lexRightBrace ∨ e = lexEof) (hb : st.1 = 0 ∨ b = false) :
    Post (TrackLoop b st e) (parser.funLoop (n + 1) e ts f) := by
  rw [funLoop_unfold]
  refine Post.read ts ?_
  rintro l r rfl
  dsimp only
  by_cases h1 : l.typ = lexEos
  · rw [if_pos h1]
    have e2 : headerScan st l = (st.1 - 1, st.2) := by simp [headerScan, h1]
    have hr := h.proper hb
    rw [e2] at hr
    exact (ih.funLoop b _ e r f hr he).weaken
      (fun a ha => ha.at_depth rfl (fun h0 => by simp [h0]))
  rw [if_neg h1]
  by_cases h2 : l.typ = lexIf
  · rw [if_pos h2]
    exact track_thenEnd n ih b st st e he rfl id (ih.pIf b st r f (h.rest_of _ h2 (by decide)))
  rw [if_neg h2]
  by_cases h3 : l.typ = lexFor
  · rw [if_pos h3]
    have hr := h.rest h1
    have e2 : headerScan st l = (2, st.2) := by simp [headerScan, h3]
    rw [e2] at hr
    exact track_thenEnd n ih b st (0, st.2) e he rfl (fun _ => rfl)
      (ih.pFor b (2, st.2) r f hr rfl)
  rw [if_neg h3]
  by_cases h4 : l.typ = lexWhile
  · rw [if_pos h4]
    exact track_thenEnd n ih b st st e he rfl id
      (ih.pWhile b st r f (h.rest_of _ h4 (by decide)))
  rw [if_neg h4]
  by_cases h5 : l.typ = lexPrint
  · rw [if_pos h5]
    exact Post.andThen (ih.callArgs b st r f (h.rest_of _ h5 (by decide)))
      (fun a ha => ih.funEnd b st e _ _ ha he)
  rw [if_neg h5]
  by_cases h6 : l.typ = lexPrintLn
  · rw [if_pos h6]
    exact Post.andThen (ih.callArgs b st r f (h.rest_of _ h6 (by decide)))
      (fun a ha => ih.funEnd b st e _ _ ha he)
  rw [if_neg h6]
  by_cases h7 : l.typ = lexReturn
  · rw [if_pos h7]
    have hr := h.rest_of _ h7 (by decide)
    refine Post.look r ?_
    rintro nt s rfl
    by_cases c : nt.typ ≠ lexEos ∧ nt.typ ≠ e
    · rw [if_pos c]
      exact Post.andThen (ih.expr0 b st 0 _ f hr) (fun a ha => ih.funEnd b st e _ _ ha he)
    · rw [if_neg c]
      exact ih.funEnd b st e _ _ hr he
  rw [if_neg h7]
  by_cases h8 : l.typ = lexDot ∨ l.typ = lexName
  · rw [if_pos h8]
    refine Post.andThen (ih.name b st r f l (fun ht => h.rest ht)) ?_
    rintro ⟨g, a⟩ ha
    refine Post.read a ?_
    rintro nx s rfl
    dsimp only at ha ⊢
    by_cases k1 : nx.typ = lexEq
    · rw [if_pos k1]
      exact track_assignEnd n ih b st e he (ih.assign b st s g (ha.rest_of _ k1 (by decide)))
    rw [if_neg k1]
    by_cases k2 : nx.typ = lexLeftPar
    · rw [if_pos k2]
      exact track_thenEnd n ih b st st e he rfl id
        (ih.call b st s g (ha.rest_of _ k2 (by decide)))
    rw [if_neg k2]
    exact Post.ofError _
  rw [if_neg h8]
  by_cases h9 : l.typ = e
  · rw [if_pos h9]
    exact Post.pure (track_closing b st e he l r f h h9)
  rw [if_neg h9]
  exact Post.ofError _

theorem track_funLoop (n : Nat) (ih : AllTrack n) (b : Bool) (st : Nat × List Nat)
    (e : lexType) (ts : List lex) (f : function) (h : Track b st ts)
    (he : e = lexRightBrace ∨ e = lexEof) :
    Post (TrackLoop b st e) (parser.funLoop (n + 1) e ts f) := by
  by_cases h0 : st.1 = 0
  · exact track_funLoop_proper n ih b st e ts f h he (.inl h0)
  · exact (track_funLoop_proper n ih false st e ts f h.weak he (.inr rfl)).weaken
      (fun a ha => ha.of_improper h0)

theorem track_callArgs (n : Nat) (ih : AllTrack n) (b : Bool) (st : Nat × List Nat)
    (ts : List lex) (f : function) (h : Track b st ts) :
    Post (fun a => Track b st a.2.2) (parser.callArgs (n + 1) ts f) := by
  simp only [parser.callArgs]
  refine Post.read ts ?_
  rintro l r rfl
  dsimp only
  by_cases h1 : l.typ ≠ lexLeftPar
  · rw [if_pos h1]
    exact Post.ofError _
  · rw [if_neg h1]
    have h2 : l.typ = lexLeftPar := by simpa using h1
    exact ih.callArgsLoop b st _ r f (h.rest_of _ h2 (by decide))

theorem track_callArgsLoop (n : Nat) (ih : AllTrack n) (b : Bool) (st : Nat × List Nat)
    (k : Int) (ts : List lex) (f : function) (h : Track b st ts) :
    Post (fun a => Track b st a.2.2) (parser.callArgsLoop (n + 1) k ts f) := by
  simp only [parser.callArgsLoop]
  refine Post.look ts ?_
  rintro l r rfl
  by_cases h1 : l.typ ≠ lexRightPar
  · rw [if_pos h1]
    refine Post.andThen (ih.expr0 b st 0 _ f h) ?_
    rintro ⟨g, s⟩ hs
    refine Post.look s ?_
    rintro nx u rfl
    dsimp only at hs ⊢
    by_cases k1 : nx.typ = lexComma
    · rw [if_pos k1]
      exact ih.callArgsLoop b st _ _ g (hs.rest_of _ k1 (by decide))
    rw [if_neg k1]
    by_cases k2 : nx.typ ≠ lexRightPar
    · rw [if_pos k2]
      exact Post.ofError _
    rw [if_neg k2]
    exact ih.callArgsLoop b st _ _ g hs
  · rw [if_neg h1]
    have h2 : l.typ = lexRightPar := by simpa using h1
    exact Post.pure (h.rest_of _ h2 (by decide))

theorem track_exprLoop (n : Nat) (ih : AllTrack n) (b : Bool) (st : Nat × List Nat)
    (level : Nat) (ts : List lex) (f : function) (h : Track b st ts) :
    Post (fun a => Track b st a.2) (parser.exprLoop (n + 1) level ts f) := by
  simp only [parser.exprLoop]
  refine Post.look ts ?_
  rintro l r rfl
  cases ho : levelFind level l.typ with
  | none => exact Post.pure h
  | some o =>
    have e := levelFind_scan st level l o ho
    have hne : l.typ ≠ lexEos := by
      intro c
      rw [c] at ho
      have := (levelFind_table level lexEos o).mp ho
      simp at this
    have hr := h.rest hne
    rw [e] at hr
    exact Post.andThen (ih.expr0 b st _ r f hr) (fun a ha => ih.exprLoop b st _ _ _ ha)

theorem track_name (n : Nat) (ih : AllTrack n) (b : Bool) (st : Nat × List Nat)
    (ts : List lex) (f : function) (l : lex)
    (h : l.typ ≠ lexEos → Track b (headerScan st l) ts) :
    Post (fun a => Track b st a.2) (parser.name (n + 1) ts f l) := by
  simp only [parser.name]
  refine Post.andThen (track_nameDots b st ts l _ h) ?_
  rintro ⟨nm, m, r⟩ hm
  dsimp only at hm ⊢
  by_cases h1 : m.typ ≠ lexName
  · rw [if_pos h1]
    exact Post.ofError _
  · rw [if_neg h1]
    have h2 : m.typ = lexName := by simpa using h1
    have hr := hm (by rw [h2]; decide)
    rw [headerScan_of_typ st m _ h2 (by decide)] at hr
    exact ih.nameIndex b st r _ hr

theorem track_nameIndex (n : Nat) (ih : AllTrack n) (b : Bool) (st : Nat × List Nat)
    (ts : List lex) (f : function) (h : Track b st ts) :
    Post (fun a => Track b st a.2) (parser.nameIndex (n + 1) ts f) := by
  simp only [parser.nameIndex]
  refine Post.look ts ?_
  rintro l r rfl
  by_cases h1 : l.typ = lexLeftBracket
  · rw [if_pos h1]
    refine Post.andThen (ih.expr0 b st 0 _ _ (h.rest_of _ h1 (by decide))) ?_
    rintro ⟨g, s⟩ hs
    refine Post.read s ?_
    rintro x u rfl
    dsimp only at hs ⊢
    by_cases k1 : x.typ ≠ lexRightBracket
    · rw [if_pos k1]
      exact Post.ofError _
    · rw [if_neg k1]
      have k2 : x.typ = lexRightBracket := by simpa using k1
      exact ih.nameIndex b st u _ (hs.rest_of _ k2 (by decide))
  · rw [if_neg h1]
    exact Post.pure h

theorem track_call (n : Nat) (ih : AllTrack n) (b : Bool) (st : Nat × List Nat)
    (ts : List lex) (f : function) (h : Track b st ts) :
    Post (fun a => Track b st a.2) (parser.call (n + 1) ts f) := by
  simp only [parser.call]
  exact ih.callLoop b st _ ts _ h

theorem track_callLoop (n : Nat) (ih : AllTrack n) (b : Bool) (st : Nat × List Nat)
    (k : Int) (ts : List lex) (f : function) (h : Track b st ts) :
    Post (fun a => Track b st a.2) (parser.callLoop (n + 1) k ts f) := by
  simp only [parser.callLoop]
  refine Post.look ts ?_
  rintro l r rfl
  by_cases h1 : l.typ ≠ lexRightPar
  · rw [if_pos h1]
    refine Post.andThen (ih.expr0 b st 0 _ f h) ?_
    rintro ⟨g, s⟩ hs
    refine Post.look s ?_
    rintro nx u rfl
    dsimp only at hs ⊢
    by_cases k1 : nx.typ = lexComma
    · rw [if_pos k1]
      exact ih.callLoop b st _ _ g (hs.rest_of _ k1 (by decide))
    · rw [if_neg k1]
      exact ih.callLoop b st _ _ g hs
  · rw [if_neg h1]
    have h2 : l.typ = lexRightPar := by simpa using h1
    exact Post.pure (h.rest_of _ h2 (by decide))

/-- Continuation lemma: a look at the next lexeme, which has to be an opening brace, and the
block that starts there. -/
theorem track_block (n : Nat) (ih : AllTrack n) (b : Bool) (st : Nat × List Nat)
    {ts : List lex} (h : Track b st ts) {β : Type} {P : β → Prop}
    {k : function × List lex → Except Err β}
    (hk : ∀ a, Track b st a.2 → Post P (k a)) :
    Post P
      (parser.next ts 0 >>= fun l =>
        if l.typ ≠ lexLeftBrace then .error (.parseErr "\x7b" l)
        else parser.fun n ts [] >>= k) := by
  refine Post.look ts ?_
  rintro l r rfl
  by_cases h1 : l.typ ≠ lexLeftBrace
  · rw [if_pos h1]
    exact Post.ofError _
  · rw [if_neg h1]
    have h2 : l.typ = lexLeftBrace := by simpa using h1
    exact Post.andThen (ih.pfun b st _ [] h) (fun a ha => hk a (ha.1 (.inr ⟨l, r, rfl, h2⟩)))

theorem track_pWhile (n : Nat) (ih : AllTrack n) (b : Bool) (st : Nat × List Nat)
    (ts : List lex) (f : function) (h : Track b st ts) :
    Post (fun a => Track b st a.2) (parser.pWhile (n + 1) ts f) := by
  simp only [parser.pWhile]
  refine Post.andThen (ih.expr0 b st 0 ts f h) ?_
  rintro ⟨g, r⟩ hr
  exact track_block n ih b st hr (fun a ha => Post.pure ha)

theorem track_pIf (n : Nat) (ih : AllTrack n) (b : Bool) (st : Nat × List Nat)
    (ts : List lex) (f : function) (h : Track b st ts) :
    Post (fun a => Track b st a.2) (parser.pIf (n + 1) ts f) := by
  simp only [parser.pIf]
  refine Post.andThen (ih.expr0 b st 0 ts f h) ?_
  rintro ⟨g, r⟩ hr
  refine track_block n ih b st hr ?_
  rintro ⟨body, s⟩ hs
  refine Post.look s ?_
  rintro e u rfl
  dsimp only at hs ⊢
  by_cases h2 : e.typ = lexElse
  · rw [if_pos h2]
    simp only [parser.skip, List.drop]
    exact track_block n ih b st (hs.rest_of _ h2 (by decide)) (fun a ha => Post.pure ha)
  · rw [if_neg h2]
    exact Post.pure hs

theorem track_expr0 (n : Nat) (ih : AllTrack n) (b : Bool) (st : Nat × List Nat)
    (level : Nat) (ts : List lex) (f : function) (h : Track b st ts) :
    Post (fun a => Track b st a.2) (parser.expr0 (n + 1) level ts f) := by
  by_cases hl : level < 6
  · have h6 : level < levelLex.length := by simpa [levelLex] using hl
    simp only [parser.expr0, h6, if_true]
    exact Post.andThen (ih.expr0 b st _ ts f h) (fun a ha => ih.exprLoop b st _ _ _ ha)
  · rw [expr0_primary_unfold n level hl]
    refine Post.read ts ?_
    rintro l r rfl
    dsimp only
    by_cases h1 : l.typ = lexMinus
    · rw [if_pos h1]
      exact Post.andThen (ih.expr0 b st _ r f (h.rest_of _ h1 (by decide)))
        (fun a ha => Post.pure ha)
    rw [if_neg h1]
    by_cases h2 : l.typ = lexNot
    · rw [if_pos h2]
      exact Post.andThen (ih.expr0 b st _ r f (h.rest_of _ h2 (by decide)))
        (fun a ha => Post.pure ha)
    rw [if_neg h2]
    by_cases h3 : l.typ = lexLeftPar
    · rw [if_pos h3]
      refine Post.andThen (ih.expr0 b st 0 r f (h.rest_of _ h3 (by decide))) ?_
      rintro ⟨g, a⟩ ha
      refine Post.read a ?_
      rintro x u rfl
      dsimp only at ha ⊢
      by_cases k1 : x.typ ≠ lexRightPar
      · rw [if_pos k1]
        exact Post.ofError _
      · rw [if_neg k1]
        have k2 : x.typ = lexRightPar := by simpa using k1
        exact Post.pure (ha.rest_of _ k2 (by decide))
    rw [if_neg h3]
    by_cases h4 : l.typ = lexDot ∨ l.typ = lexName
    · rw [if_pos h4]
      refine Post.andThen (ih.name b st r f l (fun ht => h.rest ht)) ?_
      rintro ⟨g, a⟩ ha
      refine Post.look a ?_
      rintro nx u rfl
      dsimp only at ha ⊢
      by_cases k1 : nx.typ = lexLeftPar
      · rw [if_pos k1]
        exact Post.andThen (ih.callArgs b st _ _ ha) (fun c hc => Post.pure hc)
      · rw [if_neg k1]
        exact Post.pure ha
    rw [if_neg h4]
    by_cases h5 : l.typ = lexEos
    · rw [if_pos h5]
      exact Post.ofError _
    rw [if_neg h5]
    cases hx : parser.expr0 (n + 1) level [l] f with
    | error e => exact Post.ofError _
    | ok p =>
      have hr := h.rest h5
      rw [expr0_single_scan st _ _ l f p hx] at hr
      exact Post.pure hr

theorem track_assign (n : Nat) (ih : AllTrack n) (b : Bool) (st : Nat × List Nat)
    (ts : List lex) (f : function) (h : Track b st ts) :
    Post (TrackAssign b st) (parser.assign (n + 1) ts f) := by
  simp only [parser.assign, pure_bind, if_true, Bool.false_eq_true, if_false,
    decide_eq_true_eq]
  have hexpr : ∀ us, Track b st us → Post (TrackAssign b st)
      (do let y ← parser.expr0 n 0 us f; pure (y.1 ++ [op.mk opStoreStr .nil], y.2)) :=
    fun us hu => Post.andThen (ih.expr0 b st 0 us f hu)
      (fun a ha => Post.pure ⟨fun _ => ha, .inl ha⟩)
  have hlit : ∀ (a : lex) (us : List lex), Track b st us → Post (TrackAssign b st)
      (do
        let d ← parser.funArgs n (a :: us)
        let c ← parser.fun n d.2 d.1
        pure (f ++ [op.mk opFunction (.function c.1)] ++ [op.mk opStoreStr .nil], c.2)) :=
    fun a us hu => Post.andThen (track_funArgsLoop n hu [])
      (fun d hd => Post.andThen (ih.pfun b st d.2 d.1 hd)
        (fun c hc => Post.pure ⟨fun h0 => hc.1 (.inl h0), hc.2⟩))
  refine Post.look ts ?_
  rintro l0 r rfl
  by_cases c0 : l0.typ = lexLeftPar
  · rw [if_pos c0]
    have hr := h.rest_of _ c0 (by decide)
    repeat rw [next_succ]
    refine Post.look r ?_
    rintro l1 s rfl
    by_cases c1 : l1.typ = lexRightPar
    · rw [if_pos c1]
      have hs := hr.rest_of _ c1 (by decide)
      simp only [parser.skip, List.drop]
      refine Post.look s ?_
      rintro l u rfl
      by_cases c2 : l.typ ≠ lexLeftBrace
      · rw [if_pos c2]
        exact Post.ofError _
      · rw [if_neg c2]
        have c3 : l.typ = lexLeftBrace := by simpa using c2
        refine Post.andThen (ih.pfun b st _ [] hs) ?_
        intro c hc
        have := hc.1 (.inr ⟨l, u, rfl, c3⟩)
        exact Post.pure ⟨fun _ => this, .inl this⟩
    rw [if_neg c1]
    by_cases c3 : l1.typ = lexName
    · rw [if_pos c3]
      have hs := hr.rest_of _ c3 (by decide)
      repeat rw [next_succ]
      refine Post.look s ?_
      rintro l2 u rfl
      by_cases c4 : l2.typ = lexComma
      · rw [if_pos c4]
        exact hlit _ _ hr
      rw [if_neg c4]
      by_cases c5 : l2.typ = lexRightPar
      · rw [if_pos c5]
        repeat rw [next_succ]
        refine Post.look u ?_
        rintro l3 v rfl
        by_cases c6 : l3.typ = lexLeftBrace
        · rw [if_pos c6]
          exact hlit _ _ hr
        · rw [if_neg c6]
          exact hexpr _ h
      · rw [if_neg c5]
        exact hexpr _ h
    · rw [if_neg c3]
      exact hexpr _ h
  · rw [if_neg c0]
    exact hexpr _ h

theorem track_assignOrNone (n : Nat) (ih : AllTrack n) (b : Bool) (st : Nat × List Nat)
    (ts : List lex) (f : function) (h : Track b st ts) :
    Post (TrackAssign b st) (parser.assignOrNone (n + 1) ts f) := by
  simp only [parser.assignOrNone]
  cases ts with
  | nil => exact Post.ofError _
  | cons t r =>
    simp only [parser.next, List.get?, parser.get, bind, Except.bind]
    by_cases hv : t.val = ";"
    · simp only [hv, ne_eq, not_true_eq_false, if_false]
      exact Post.pure ⟨fun _ => h, .inl h⟩
    · have hne : t.val ≠ ";" := hv
      rw [if_pos hne]
      refine Post.andThen (ih.name b st r f t (fun ht => h.rest ht)) ?_
      rintro ⟨g, a⟩ ha
      refine Post.read a ?_
      rintro x u rfl
      dsimp only at ha ⊢
      by_cases k1 : x.typ ≠ lexEq
      · rw [if_pos k1]
        exact Post.ofError _
      · rw [if_neg k1]
        have k2 : x.typ = lexEq := by simpa using k1
        exact ih.assign b st u g (ha.rest_of _ k2 (by decide))

theorem track_pFor (n : Nat) (ih : AllTrack n) (b : Bool) (st : Nat × List Nat)
    (ts : List lex) (f : function) (h : Track b st ts) (h2 : st.1 = 2) :
    Post (fun a => Track b (0, st.2) a.2) (parser.pFor (n + 1) ts f) := by
  simp only [parser.pFor]
  refine Post.andThen (ih.assignOrNone b st ts f h) ?_
  rintro ⟨g, r⟩ ha
  rcases ha.2 with hr | e0
  · dsimp only at hr ⊢
    refine Post.andThen (track_semicolon hr) ?_
    intro a ha1
    have ha2 : Track b (1, st.2) a := ha1.state (by simp [h2]) rfl
    refine Post.andThen (ih.expr0 b (1, st.2) 0 a g ha2) ?_
    rintro ⟨g2, c⟩ hc
    refine Post.andThen (track_semicolon hc) ?_
    intro d hd
    have hd2 : Track b (0, st.2) d := hd
    refine Post.andThen (ih.assignOrNone b (0, st.2) d [] hd2) ?_
    rintro ⟨after, u⟩ hu
    exact track_block n ih b (0, st.2) (hu.1 rfl) (fun x hx => Post.pure hx)
  · dsimp only at e0 ⊢
    subst e0
    exact Post.ofError _

theorem allTrack (n : Nat) : AllTrack n := by
  induction n with
  | zero => exact allTrack_zero
  | succ n ih =>
    exact ⟨track_pfun n ih, track_funLoop n ih, track_funEnd n ih, track_assign n ih,
      track_callArgs n ih, track_callArgsLoop n ih, track_expr0 n ih, track_exprLoop n ih,
      track_name n ih, track_nameIndex n ih, track_call n ih, track_callLoop n ih,
      track_pIf n ih, track_assignOrNone n ih, track_pFor n ih, track_pWhile n ih⟩

theorem track_newline (st : Nat × List Nat) (pre post : List lex)
    (hw : WellLexed (pre ++ ⟨lexEos, "\n"⟩ :: post)) (h0 : (pre.foldl headerScan st).1 ≠ 0) :
    Track true st (pre ++ ⟨lexEos, "\n"⟩ :: post) := by
  have hweak : ∀ (s : Nat × List Nat) (ts : List lex), WellLexed ts → Track false s ts := by
    intro s ts
    induction ts generalizing s with
    | nil => intro _; exact Track.nil s
    | cons t r ih => intro h; exact Track.cons false s t r h.1 h.2.1 (ih _ h.2.2)
  induction pre generalizing st with
  | nil => exact Track.here st _ post rfl h0 (by decide) (hweak _ post hw.2.2)
  | cons t r ih =>
    refine Track.cons true st t _ hw.1 ?_ (ih _ hw.2.2 h0)
    intro ht
    have := hw.2.1 ht
    simp at this

theorem parseLexemes_newline_in_header (pre post : List lex)
    (hw : WellLexed (pre ++ ⟨lexEos, "\n"⟩ :: post))
    (h0 : (pre.foldl headerScan (0, [])).1 ≠ 0)
    (hb : ∀ l r, pre = l :: r → l.typ ≠ lexLeftBrace) :
    ∃ e, parseLexemes (pre ++ ⟨lexEos, "\n"⟩ :: post) = .error e := by
  have ht := track_newline (0, []) pre post hw h0
  unfold parseLexemes
  cases hx : parser.fun (parseFuel (pre ++ ⟨lexEos, "\n"⟩ :: post))
      (pre ++ ⟨lexEos, "\n"⟩ :: post) [] with
  | error e => exact ⟨e, rfl⟩
  | ok a =>
    exfalso
    cases hn : parseFuel (pre ++ ⟨lexEos, "\n"⟩ :: post) with
    | zero =>
      rw [hn] at hx
      simp [parser.fun] at hx
    | succ m =>
      rw [hn] at hx
      cases pre with
      | nil => exact h0 rfl
      | cons l r =>
        have hl := hb l r rfl
        rw [List.cons_append, parser.fun] at hx
        simp only [parser.next, List.get?, bind, Except.bind, hl, if_false] at hx
        have := (allTrack m).funLoop true (0, []) lexEof _ [] ht (.inr rfl) a hx
        have := (this.1 rfl).2 rfl
        cases this

theorem allSemi (n : Nat) : AllSemi n := by
  induction n with
  | zero => exact allSemi_zero
  | succ n ih =>
    exact ⟨semi_pfun n ih, semi_funLoop n ih, semi_funEnd n ih, semi_assign n ih,
      semi_callArgs n ih, semi_callArgsLoop n ih, semi_expr0 n ih, semi_exprLoop n ih,
      semi_name n ih, semi_nameIndex n ih, semi_call n ih, semi_callLoop n ih, semi_pIf n ih,
      semi_assignOrNone n ih, semi_pFor n ih, semi_pWhile n ih⟩

theorem parseLexemes_semi (ts ts1 : List lex) (h : SemiRel (0, []) ts ts1) (B : function)
    (hp : parseLexemes ts = .ok B) : parseLexemes ts1 = .ok B := by
  unfold parseLexemes at hp ⊢
  have hf : parseFuel ts1 = parseFuel ts := by simp [parseFuel, h.length_eq]
  rw [hf]
  cases hx : parser.fun (parseFuel ts) ts [] with
  | error e => rw [hx] at hp; cases hp
  | ok a =>
    rw [hx] at hp
    obtain ⟨a1, h1, hq⟩ := (allSemi (parseFuel ts)).pfun (0, []) ts ts1 [] h a hx
    rw [h1]
    simp only [Except.map] at hp ⊢
    cases hp
    rw [hq.1]

theorem lexAll_wellLexed (src : String) (ts : List lex) (h : lexAll src = .ok ts) :
    WellLexed ts :=
  run_wellLexed _ _ _ h

/-- C7, as amended: of two sources with the same lexemes except that one newline lexeme of the
first is a semicolon lexeme in the second: if the first parses to `B`, the second parses to `B`
too; if the second parses to `B` and that semicolon is not one of the two separators of a
`for` header (`inForHeader` of the lexemes before it is false), the first parses to `B` too;
and so it does, in particular, when no `for` comes before that semicolon.  The exception is
exact: when the semicolon is a separator of a `for` header, the first source, which has the
newline there, does not parse, unless the program starts with an opening brace (`parse` then
reads that one block and ignores what follows it). -/
theorem newline_semicolon_interchange (src src1 : String) (pre post : List lex)
    (hl : lexAll src = .ok (pre ++ ⟨lexEos, "\n"⟩ :: post))
    (hl1 : lexAll src1 = .ok (pre ++ ⟨lexEos, ";"⟩ :: post)) (B : function) :
    (parse src = .ok B → parse src1 = .ok B) ∧
    (inForHeader pre = false → parse src1 = .ok B → parse src = .ok B) ∧
    ((∀ t ∈ pre, t.typ ≠ lexFor) → parse src1 = .ok B → parse src = .ok B) ∧
    (inForHeader pre = true → (∀ l r, pre = l :: r → l.typ ≠ lexLeftBrace) →
      ∃ e, parse src = .error e) := by
  have key : inForHeader pre = false → parse src1 = .ok B → parse src = .ok B := by
    intro hh hp
    have h0 : (pre.foldl headerScan (0, [])).1 = 0 := by
      simpa [inForHeader] using hh
    unfold parse at hp ⊢
    rw [hl1] at hp
    rw [hl]
    exact parseLexemes_semi _ _
      (semiRel_replace (0, []) pre post (lexAll_wellLexed src1 _ hl1) h0) B hp
  refine ⟨?_, key, fun hf => key (inForHeader_of_no_for pre hf), ?_⟩
  · intro hp
    unfold parse at hp ⊢
    rw [hl] at hp
    rw [hl1]
    exact parseLexemes_sim _ _ (eosRelL_replace pre post) B hp
  · intro hh hb
    have h0 : (pre.foldl headerScan (0, [])).1 ≠ 0 := by
      simpa [inForHeader] using hh
    unfold parse
    rw [hl]
    exact parseLexemes_newline_in_header pre post (lexAll_wellLexed src _ hl) h0 hb

/-- Witness of C7: two statements in the body of a `for` loop, separated by a semicolon or by
a newline; from the parse of the source with the semicolon the theorem gives the parse of the
source with the newline. -/
theorem newline_semicolon_interchange_witness :
    parse "for i = 0; i < 1; i = 2 \x7b a = 1\nb = 2 \x7d" =
      .ok [op.mk opString (.string "i"), op.mk opInt (.int64 0), op.mk opStoreStr .nil,
        op.mk opString (.string "i"), op.mk opLoadStr .nil, op.mk opInt (.int64 1),
        op.mk opLess .nil, op.mk opJmpFalse (.int 11), op.mk opString (.string "a"),
        op.mk opInt (.int64 1), op.mk opStoreStr .nil, op.mk opString (.string "b"),
        op.mk opInt (.int64 2), op.mk opStoreStr .nil, op.mk opString (.string "i"),
        op.mk opInt (.int64 2), op.mk opStoreStr .nil, op.mk opJmp (.int (-14))] :=
  (newline_semicolon_interchange "for i = 0; i < 1; i = 2 \x7b a = 1\nb = 2 \x7d"
    "for i = 0; i < 1; i = 2 \x7b a = 1;b = 2 \x7d"
    [⟨lexFor, "for"⟩, ⟨lexName, "i"⟩, ⟨lexEq, "="⟩, ⟨lexInt, "0"⟩, ⟨lexEos, ";"⟩,
      ⟨lexName, "i"⟩, ⟨lexLess, "<"⟩, ⟨lexInt, "1"⟩, ⟨lexEos, ";"⟩, ⟨lexName, "i"⟩,
      ⟨lexEq, "="⟩, ⟨lexInt, "2"⟩, ⟨lexLeftBrace, "\x7b"⟩, ⟨lexName, "a"⟩, ⟨lexEq, "="⟩,
      ⟨lexInt, "1"⟩]
    [⟨lexName, "b"⟩, ⟨lexEq, "="⟩, ⟨lexInt, "2"⟩, ⟨lexRightBrace, "\x7d"⟩, ⟨lexEof, ""⟩]
    rfl rfl _).2.1 rfl rfl

/-- Counterexample to C7 as stated: a `for` statement parses, and the source that differs from
it only in that the first semicolon lexeme of its header is a newline lexeme does not; that
semicolon is a separator of the `for` header. -/
theorem for_header_needs_semicolon :
    lexAll "for i = 0; i < 1; i = 2 \x7b \x7d" =
      .ok ([⟨lexFor, "for"⟩, ⟨lexName, "i"⟩, ⟨lexEq, "="⟩, ⟨lexInt, "0"⟩] ++
        ⟨lexEos, ";"⟩ ::
        [⟨lexName, "i"⟩, ⟨lexLess, "<"⟩, ⟨lexInt, "1"⟩, ⟨lexEos, ";"⟩, ⟨lexName, "i"⟩,
          ⟨lexEq, "="⟩, ⟨lexInt, "2"⟩, ⟨lexLeftBrace, "\x7b"⟩, ⟨lexRightBrace, "\x7d"⟩,
          ⟨lexEof, ""⟩]) ∧
    lexAll "for i = 0\n i < 1; i = 2 \x7b \x7d" =
      .ok ([⟨lexFor, "for"⟩, ⟨lexName, "i"⟩, ⟨lexEq, "="⟩, ⟨lexInt, "0"⟩] ++
        ⟨lexEos, "\n"⟩ ::
        [⟨lexName, "i"⟩, ⟨lexLess, "<"⟩, ⟨lexInt, "1"⟩, ⟨lexEos, ";"⟩, ⟨lexName, "i"⟩,
          ⟨lexEq, "="⟩, ⟨lexInt, "2"⟩, ⟨lexLeftBrace, "\x7b"⟩, ⟨lexRightBrace, "\x7d"⟩,
          ⟨lexEof, ""⟩]) ∧
    inForHeader [⟨lexFor, "for"⟩, ⟨lexName, "i"⟩, ⟨lexEq, "="⟩, ⟨lexInt, "0"⟩] = true ∧
    parse "for i = 0; i < 1; i = 2 \x7b \x7d" =
      .ok [op.mk opString (.string "i"), op.mk opInt (.int64 0), op.mk opStoreStr .nil,
        op.mk opString (.string "i"), op.mk opLoadStr .nil, op.mk opInt (.int64 1),
        op.mk opLess .nil, op.mk opJmpFalse (.int 5), op.mk opString (.string "i"),
        op.mk opInt (.int64 2), op.mk opStoreStr .nil, op.mk opJmp (.int (-8))] ∧
    parse "for i = 0\n i < 1; i = 2 \x7b \x7d" =
      .error (.parseErr ";" ⟨lexEos, "\n"⟩) :=
  ⟨rfl, rfl, rfl, rfl, rfl⟩

/-! ### The factorial program with a literal beyond int64 (C16) -/

/-- Counterexample to C16 as stated: with the literal 9223372036854775808, which is `2 ^ 63`,
the factorial program is not parsed, because the parser rejects the digits as an `int`;
nothing is run and nothing is written. -/
theorem factorial_literal_out_of_range :
    parse (factorialSource (2 ^ 63)) =
      .error (.parseErr "int" ⟨lexInt, "9223372036854775808"⟩) ∧
    Interpret 1000 (factorialSource (2 ^ 63)) ⟨[], "", fun _ => 0, 0⟩ =
      .error (.parseErr "int" ⟨lexInt, "9223372036854775808"⟩) := by
  have hs : toString (2 ^ 63 : Nat) = "9223372036854775808" := by decide
  have hp := factorial_parse_large (2 ^ 63) (Nat.le_refl _)
  rw [hs] at hp
  exact ⟨hp, by rw [Interpret, hp]⟩

end Yail
